import Mathlib

/-!
# LocalOpt: peephole simplification and local value numbering

A shallow embedding of `src/LocalOpt/LocalOpt.cpp`.

* The host graph (values, instructions, blocks, functions) with the three
  mutation primitives the pass uses: replace-all-uses, erase, replace-in-place.
* `peephole`: the first loop of `LocalOptPass::run`.
* `lvnScan`, `rewriteLoop`, `localValueNumbering`: the two loops of
  `localValueNumbering`.

Machine integers are `Nat`/`Int` with explicit wrap-around where the source
narrows (`__builtin_popcount` takes an `unsigned int`, `int temp` receives an
`int64_t`).
-/

namespace LocalOpt

/-! ## Host graph -/

/-- A value of the host graph, compared by identity: an integer constant is
unique for its type and bit pattern, an argument (or any other value defined
outside the scanned instructions) and an instruction result are identified by
a number. -/
inductive Value where
  | const (width : Nat) (bits : Nat)
  | arg (n : Nat)
  | inst (n : Nat)
  deriving DecidableEq, Repr

/-- The opcodes of `BinaryOperator` (`Instruction::BinaryOps`). -/
inductive BinaryOps where
  | Add | FAdd | Sub | FSub | Mul | FMul | UDiv | SDiv | URem | SRem | FRem
  | Shl | LShr | AShr | And | Or | Xor
  deriving DecidableEq, Repr

/-- The text `Instruction::getOpcodeName` returns for a binary opcode. -/
def getOpcodeName : BinaryOps → String
  | .Add => "add" | .FAdd => "fadd" | .Sub => "sub" | .FSub => "fsub"
  | .Mul => "mul" | .FMul => "fmul" | .UDiv => "udiv" | .SDiv => "sdiv"
  | .URem => "urem" | .SRem => "srem" | .FRem => "frem"
  | .Shl => "shl" | .LShr => "lshr" | .AShr => "ashr"
  | .And => "and" | .Or => "or" | .Xor => "xor"

/-- An instruction: a `BinaryOperator` with its two operands, or any other
instruction (load, call, phi, return, ...) with its operand list. `id` is the
identity of the instruction; `Value.inst id` is its result. -/
inductive Inst where
  | binary (id : Nat) (op : BinaryOps) (op0 op1 : Value)
  | other (id : Nat) (operands : List Value)
  deriving DecidableEq, Repr

/-- Identity of an instruction. -/
def Inst.id : Inst → Nat
  | .binary i _ _ _ => i
  | .other i _ => i

/-- Operand list of an instruction. -/
def Inst.operands : Inst → List Value
  | .binary _ _ a b => [a, b]
  | .other _ ops => ops

/-- A basic block: its instructions in program order. -/
abbrev BasicBlock := List Inst

/-- A function: its basic blocks in layout order. -/
abbrev Function := List BasicBlock

/-- Instructions of a function in scan order (blocks in order, instructions in
order inside each block). -/
def Function.insts (F : Function) : List Inst := F.flatten

/-- Identities of the instructions of a function, in scan order. -/
def Function.ids (F : Function) : List Nat := F.insts.map Inst.id

/-- The instruction that currently has identity `i`, if any. -/
def findInst (F : Function) (i : Nat) : Option Inst :=
  F.insts.find? (fun I => I.id == i)

/-- One use: `v` redirected when it is `old`. -/
def substValue (old new v : Value) : Value := if v = old then new else v

/-- Redirect the operands of one instruction. -/
def Inst.replaceUses (old new : Value) : Inst → Inst
  | .binary i op a b => .binary i op (substValue old new a) (substValue old new b)
  | .other i ops => .other i (ops.map (substValue old new))

/-- `old->replaceAllUsesWith(new)`: every operand of every instruction of the
function that is `old` becomes `new`. -/
def replaceAllUsesWith (old new : Value) (F : Function) : Function :=
  F.map (List.map (Inst.replaceUses old new))

/-- `I->eraseFromParent()` for the instruction of identity `i`. -/
def eraseFromParent (i : Nat) (F : Function) : Function :=
  F.map (List.filter (fun I => I.id != i))

/-- `ReplaceInstWithInst(From, To)`: `To` is put at the position of the
instruction of identity `i`, the uses of `i` are redirected to it, and `i` is
gone. -/
def ReplaceInstWithInst (i : Nat) (To : Inst) (F : Function) : Function :=
  replaceAllUsesWith (.inst i) (.inst To.id)
    (F.map (List.map (fun I => if I.id = i then To else I)))

/-- Largest identity number met in a value. -/
def Value.maxId : Value → Nat
  | .const _ _ => 0
  | .arg _ => 0
  | .inst n => n

/-- Largest identity number met in an instruction (its own and its operands). -/
def Inst.maxId (I : Inst) : Nat :=
  (I.operands.map Value.maxId).foldl max I.id

/-- An identity that no instruction of the function has or refers to. -/
def freshId (F : Function) : Nat :=
  (F.insts.map Inst.maxId).foldl max 0 + 1

/-! ## Constants -/

/-- `isa<ConstantInt>(v)`. -/
def isConstantInt : Value → Bool
  | .const _ _ => true
  | _ => false

/-- `isa<ConstantInt>(v) && cast<ConstantInt>(v)->isZeroValue()`. -/
def isZeroValue : Value → Bool
  | .const _ b => b == 0
  | _ => false

/-- `getZExtValue()` as a `uint64_t` (0 for a value that is no constant). -/
def getZExtValue : Value → Nat
  | .const _ b => b % 2 ^ 64
  | _ => 0

/-- `isa<ConstantInt>(v) && cast<ConstantInt>(v)->getZExtValue() == 1`. -/
def isOneValue (v : Value) : Bool :=
  isConstantInt v && getZExtValue v == 1

/-- `getSExtValue()` of a constant of width `w` with bit pattern `b`. -/
def getSExtValue (w b : Nat) : Int :=
  if 2 ^ w ≤ 2 * b then (b : Int) - 2 ^ w else (b : Int)

/-- Conversion of an `int64_t` to `int` (32 bits, two's complement wrap). -/
def toInt32 (v : Int) : Int :=
  (v + 2 ^ 31) % 2 ^ 32 - 2 ^ 31

/-- Width of the type of a constant (0 for a value that is no constant). -/
def Value.width : Value → Nat
  | .const w _ => w
  | _ => 0

/-- `__builtin_popcount(x)`: the argument is converted to `unsigned int`, so
only the low 32 bits of `x` are counted. -/
def builtin_popcount (x : Nat) : Nat :=
  ((List.range 32).filter (fun i => (x % 2 ^ 32).testBit i)).length

/-- The bit-search loop of the strength-reduction branch:
`for (int i = 1; i < 64; i++) { mask_value <<= 1; if (mask_value & need) ... }`.
Returns the first `i` in `1..63` whose mask meets `need_to_shift`. -/
def shiftSearch (need_to_shift : Nat) : Option Nat :=
  (List.range' 1 63).find? (fun i => ((1 <<< i) % 2 ^ 64) &&& need_to_shift != 0)

/-! ## Peephole scan (first loop of `LocalOptPass::run`) -/

/-- State of the peephole scan: the function as mutated so far and the next
unused identity (for the shift instructions the scan creates). -/
structure PeepState where
  fn : Function
  next : Nat
  deriving DecidableEq, Repr

/-- Body of the loop for the instruction of identity `i`, in its current form:
the cursor `iter` points to the instruction, whose operands earlier visits may
have redirected, and has already moved on (`iter++`), so the instruction itself
may go. Identities stand for addresses and are taken to be distinct. -/
def peepholeVisit (S : PeepState) (i : Nat) : PeepState :=
  match findInst S.fn i with
  | some (.binary _ op a b) =>
    if op = .Add && (isZeroValue b || isZeroValue a) then
      { fn := eraseFromParent i
          (replaceAllUsesWith (.inst i) (if isZeroValue a then b else a) S.fn),
        next := S.next }
    else if op = .Mul && (isOneValue a || isOneValue b) then
      { fn := eraseFromParent i
          (replaceAllUsesWith (.inst i) (if isOneValue a then b else a) S.fn),
        next := S.next }
    else if op = .Mul && (isConstantInt a || isConstantInt b) then
      let Op := if isConstantInt a then a else b
      let other := if isConstantInt a then b else a
      let need_to_shift := getZExtValue Op
      if builtin_popcount need_to_shift = 1 then
        match shiftSearch need_to_shift with
        | some k =>
          { fn := ReplaceInstWithInst i
              (.binary S.next .Shl other (.const Op.width (k % 2 ^ Op.width))) S.fn,
            next := S.next + 1 }
        | none => S
      else S
    else S
  | _ => S

/-- The scan over the instructions whose identities are listed, in order. -/
def peepholeScan (S : PeepState) (ids : List Nat) : PeepState :=
  ids.foldl peepholeVisit S

/-- The peephole scan of a function: every instruction of the input is visited
once, in scan order (an instruction is erased or replaced only while it is
visited, and a new shift is put before the cursor, so it is not visited). -/
def peephole (F : Function) : Function :=
  (peepholeScan { fn := F, next := freshId F } F.ids).fn

/-! ## Local value numbering (`localValueNumbering`) -/

/-- What the host tells about a value beyond its identity: its address (the
pointer the source prints with `std::to_string((size_t)p)`) and the name
`getName()` returns for a value that is no constant. -/
structure Host where
  addr : Value → Nat
  name : Value → String

/-- `v->getName()`: a constant never carries a name. -/
def getName (H : Host) : Value → String
  | .const _ _ => ""
  | v => H.name v

/-- An entry of `lvn_table`. -/
structure lvn_item where
  id : Int
  value : String × Int × Int
  ref : Value
  deriving DecidableEq, Repr

/-- `std::unordered_map::insert`: nothing happens when the key is present. -/
def mapInsert {α β : Type} [BEq α] (m : List (α × β)) (k : α) (v : β) : List (α × β) :=
  match m.lookup k with
  | some _ => m
  | none => m ++ [(k, v)]

/-- The four variables `localValueNumbering` declares before its scan. -/
structure LvnState where
  lvn_counter : Int
  hashmap : List (String × Int)
  lvn_table : List lvn_item
  replace_table : List (Value × Value)
  deriving DecidableEq, Repr

/-- State at the start of `localValueNumbering`. -/
def LvnState.init : LvnState :=
  { lvn_counter := 0, hashmap := [], lvn_table := [], replace_table := [] }

/-- The two ways the scan can stop short: a failed `assert`, or an index
outside `lvn_table`. -/
inductive LvnError where
  | assertion
  | outOfBounds
  deriving DecidableEq, Repr

/-- The lambda `insert_lvn`. -/
def insert_lvn (S : LvnState) (name op : String) (oper1 oper2 : Int) (ref : Value) :
    LvnState :=
  { S with
    hashmap := mapInsert S.hashmap name S.lvn_counter
    lvn_table := S.lvn_table ++ [{ id := S.lvn_counter, value := (op, oper1, oper2), ref := ref }]
    lvn_counter := S.lvn_counter + 1 }

/-- The lambda `register_handle`, for the operand `v` whose key so far is
`oper`; returns the new state and the new key. -/
def register_handle (H : Host) (S : LvnState) (oper : String) (v : Value) :
    LvnState × String :=
  if oper = "" then
    let oper1 := toString (H.addr v)
    match S.hashmap.lookup oper1 with
    | none => (insert_lvn S oper1 "assign" 0 0 v, oper1)
    | some _ => (S, oper1)
  else (S, oper)

/-- The lambda `constant_handle`. -/
def constant_handle (S : LvnState) (oper : String) (v : Value) : LvnState × String :=
  match v with
  | .const w b =>
    let temp := toInt32 (getSExtValue w b)
    let oper1 := toString temp
    match S.hashmap.lookup oper1 with
    | none => (insert_lvn S oper1 "constant" temp temp v, oper1)
    | some _ => (S, oper1)
  | _ => (S, oper)

/-- Lines 58 to 96: both operands of a binary instruction get their keys, and
table entries where `register_handle` and `constant_handle` make them. -/
def canonicalize (H : Host) (S : LvnState) (a b : Value) : LvnState × String × String :=
  let r1 := register_handle H S (getName H a) a
  let r2 := register_handle H r1.1 (getName H b) b
  let c1 := constant_handle r2.1 r1.2 a
  let c2 := constant_handle c1.1 r2.2 b
  (c2.1, c1.2, c2.2)

/-- The loop of `compare_func`, from index `i` on. -/
def compare_loop (tp : String × Int × Int) : List lvn_item → Int → Int
  | [], _ => -1
  | e :: rest, i => if e.value = tp then i else compare_loop tp rest (i + 1)

/-- The lambda `compare_func`. -/
def compare_func (lvn_table : List lvn_item) (tp : String × Int × Int) : Int :=
  compare_loop tp lvn_table 0

/-- `lvn_table[i]`, when `i` is an index of the table. -/
def tableAt (lvn_table : List lvn_item) (i : Int) : Option lvn_item :=
  if 0 ≤ i then lvn_table[i.toNat]? else none

/-- The lambda `pattern_func`; `none` when it reads outside the table. -/
def pattern_func (lvn_table : List lvn_item) (opcode : BinaryOps) (oper1 oper2 : Int) :
    Option Int :=
  if opcode = .Add then
    match tableAt lvn_table oper1 with
    | none => none
    | some e => if e.value.1 = "sub" && e.value.2.2 = oper2 then some e.value.2.1 else some (-1)
  else if opcode = .Sub then
    match tableAt lvn_table oper1 with
    | none => none
    | some e => if e.value.1 = "add" && e.value.2.2 = oper2 then some e.value.2.1 else some (-1)
  else some (-1)

/-- Lines 141 to 143 and 149 to 151: the instruction `i` is recorded for
replacement by the underlying value of entry `result`. -/
def recordReplace (H : Host) (S : LvnState) (i : Nat) (result : Int) :
    Except LvnError LvnState :=
  match tableAt S.lvn_table result with
  | none => .error .outOfBounds
  | some e => .ok { S with
      hashmap := mapInsert S.hashmap (toString (H.addr (.inst i))) result
      replace_table := mapInsert S.replace_table (.inst i) e.ref }

/-- Body of the scan loop for one instruction. -/
def lvnStep (H : Host) (S : LvnState) : Inst → Except LvnError LvnState
  | .other _ _ => .ok S
  | .binary i op a b =>
    let c := canonicalize H S a b
    match c.1.hashmap.lookup c.2.1, c.1.hashmap.lookup c.2.2 with
    | some n1, some n2 =>
      let exp := (getOpcodeName op, n1, n2)
      let result := compare_func c.1.lvn_table exp
      if result ≥ 0 then recordReplace H c.1 i result
      else
        match pattern_func c.1.lvn_table op n1 n2 with
        | none => .error .outOfBounds
        | some result =>
          if result > 0 then recordReplace H c.1 i result
          else .ok (insert_lvn c.1 (toString (H.addr (.inst i))) exp.1 exp.2.1 exp.2.2 (.inst i))
    | _, _ => .error .assertion

/-- The inner loop of the scan: the instructions of one block, in order. -/
def lvnScanBlock (H : Host) : LvnState → List Inst → Except LvnError LvnState
  | S, [] => .ok S
  | S, I :: rest =>
    match lvnStep H S I with
    | .ok S1 => lvnScanBlock H S1 rest
    | .error e => .error e

/-- The outer loop of the scan: the blocks in order, the state carried over. -/
def lvnScan (H : Host) : LvnState → Function → Except LvnError LvnState
  | S, [] => .ok S
  | S, B :: rest =>
    match lvnScanBlock H S B with
    | .ok S1 => lvnScan H S1 rest
    | .error e => .error e

/-- Body of the rewrite loop for the instruction of identity `i`. -/
def rewriteVisit (replace_table : List (Value × Value)) (F : Function) (i : Nat) :
    Function :=
  match findInst F i with
  | some (.binary _ _ _ _) =>
    match replace_table.lookup (.inst i) with
    | some v => eraseFromParent i (replaceAllUsesWith (.inst i) v F)
    | none => F
  | _ => F

/-- The rewrite loop (lines 168 to 179). -/
def rewriteLoop (replace_table : List (Value × Value)) (F : Function) : Function :=
  F.ids.foldl (rewriteVisit replace_table) F

/-- The function `localValueNumbering`: scan, then rewrite. -/
def localValueNumbering (H : Host) (F : Function) : Except LvnError Function :=
  match lvnScan H LvnState.init F with
  | .ok S => .ok (rewriteLoop S.replace_table F)
  | .error e => .error e

/-- The body of `LocalOptPass::run`: peephole scan, then value numbering. -/
def run (H : Host) (F : Function) : Except LvnError Function :=
  localValueNumbering H (peephole F)

/-! ## Sample hosts and inputs -/

/-- A host without names whose addresses are all different and far from the
small constants of the samples. -/
def plainHost : Host where
  addr := fun v => match v with
    | .const w b => 1000000 + 100 * b + w
    | .arg n => 2000000 + n
    | .inst n => 3000000 + n
  name := fun _ => ""

/-! ## Notions used to state the properties -/

/-- Identities of the instructions, block by block. -/
def Function.blockIds (F : Function) : List (List Nat) := F.map (List.map Inst.id)

/-- Some instruction of the function has `v` among its operands. -/
def usedIn (v : Value) (F : Function) : Prop := ∃ u ∈ F.insts, v ∈ u.operands

/-- Operand by operand, `u` has `new` wherever `u0` has `old`. -/
def usesRedirected (old new : Value) (u0 u : Inst) : Prop :=
  List.Forall₂ (fun v0 v => v0 = old → v = new) u0.operands u.operands

/-- Identities are unique and below the counter of new identities. -/
def PeepState.Wf (S : PeepState) : Prop :=
  S.fn.ids.Nodup ∧ ∀ k ∈ S.fn.ids, k < S.next

/-- The function `a = b - 1; c = a + 1; use c`, with `b` the argument 0: the
end-to-end example of the inverse pattern. -/
def subAddSample : Function :=
  [[.binary 1 .Sub (.arg 0) (.const 32 1), .binary 2 .Add (.inst 1) (.const 32 1),
    .other 3 [.inst 2]]]

/-- The function `y = x * 2^32; use y` on 64-bit integers. -/
def mulPow32Sample : Function :=
  [[.binary 1 .Mul (.arg 0) (.const 64 4294967296), .other 2 [.inst 1]]]

/-- The function `y = x * (2^32 + 2); use y` on 64-bit integers. -/
def mulTwoBitsSample : Function :=
  [[.binary 1 .Mul (.arg 0) (.const 64 4294967298), .other 2 [.inst 1]]]

/-- The function `y = x + 0; z = y * y; use z`. -/
def addZeroSample : Function :=
  [[.binary 1 .Add (.arg 0) (.const 32 0), .binary 2 .Mul (.inst 1) (.inst 1),
    .other 3 [.inst 2]]]

/-- The function `y = 4 * 1; z = y + x; use z`: a multiply by one whose other
operand is a power-of-two constant. -/
def mulOneSample : Function :=
  [[.binary 1 .Mul (.const 32 4) (.const 32 1), .binary 2 .Add (.inst 1) (.arg 0),
    .other 3 [.inst 2]]]

/-- The function `e = b + 1; f = e - 1; use f`, with `b` the argument 0: the
example of the file header and of the sample input. -/
def addSubSample : Function :=
  [[.binary 1 .Add (.arg 0) (.const 32 1), .binary 2 .Sub (.inst 1) (.const 32 1),
    .other 3 [.inst 2]]]

/-- A host in which the argument 0 carries the name `x`. -/
def namedHost : Host where
  addr := plainHost.addr
  name := fun v => match v with
    | .arg 0 => "x"
    | _ => ""

/-- The function `r = x + 1; use r`, with `x` the argument 0. -/
def namedArgSample : Function :=
  [[.binary 1 .Add (.arg 0) (.const 32 1), .other 2 [.inst 1]]]

/-- The function `a = x + 1; b = x + (2^32 + 1); use a, b` on 64-bit integers. -/
def wideConstSample : Function :=
  [[.binary 1 .Add (.arg 0) (.const 64 1), .binary 2 .Add (.arg 0) (.const 64 4294967297),
    .other 3 [.inst 1, .inst 2]]]

/-! ## Notions used to state the properties of value numbering -/

/-- The table is a sequence of entries numbered by their index, and every
number in use is an index of the table: the counter is the table length, every
number of the key-to-number map is below it, and the operand numbers of an
entry made for an instruction are below the index of the entry. -/
structure LvnState.Bounded (S : LvnState) : Prop where
  counter : S.lvn_counter = S.lvn_table.length
  ids : ∀ (idx : Nat) (e : lvn_item), S.lvn_table[idx]? = some e → e.id = idx
  numbers : ∀ k n, S.hashmap.lookup k = some n → 0 ≤ n ∧ n < S.lvn_table.length
  operands : ∀ (idx : Nat) (e : lvn_item), S.lvn_table[idx]? = some e →
    e.value.1 = "assign" ∨ e.value.1 = "constant" ∨
      (0 ≤ e.value.2.1 ∧ e.value.2.1 < idx ∧ 0 ≤ e.value.2.2 ∧ e.value.2.2 < idx)

/-- From `S` to `S1` the table is only appended to and the two maps keep every
binding they have. -/
structure LvnState.Extends (S S1 : LvnState) : Prop where
  table : S.lvn_table <+: S1.lvn_table
  hashmap : ∀ k n, S.hashmap.lookup k = some n → S1.hashmap.lookup k = some n
  replace : ∀ k v, S.replace_table.lookup k = some v → S1.replace_table.lookup k = some v

/-- From `S` to `S1` only operand entries for `a` and `b` were appended: each is
tagged "assign" or "constant", holds `a` or `b`, and holds a constant or a
value whose address key `S` does not have; the replacement map is untouched. -/
structure LvnState.OperandEntries (H : Host) (a b : Value) (S S1 : LvnState) : Prop where
  replace : S1.replace_table = S.replace_table
  hashmap : ∀ k n, S.hashmap.lookup k = some n → S1.hashmap.lookup k = some n
  table : ∃ t, S1.lvn_table = S.lvn_table ++ t ∧ ∀ e ∈ t,
    (e.value.1 = "assign" ∨ e.value.1 = "constant") ∧ (e.ref = a ∨ e.ref = b) ∧
    (isConstantInt e.ref = true ∨ S.hashmap.lookup (toString (H.addr e.ref)) = none)
  bounded : S.Bounded → S1.Bounded

/-- The key under which an operand is looked up after `register_handle` and
`constant_handle`: the decimal of the narrowed value for a constant, the
decimal of the address for a value without name, the name otherwise. -/
def operandKey (H : Host) (v : Value) : String :=
  match v with
  | .const w b => toString (toInt32 (getSExtValue w b))
  | _ => if getName H v = "" then toString (H.addr v) else getName H v

/-- No value carries a name. -/
def Host.noNames (H : Host) : Prop := ∀ v, H.name v = ""

/-- State after the instruction `i` is recorded, in the state `c`, for
replacement by the underlying value of the entry `e` of number `r`. -/
def recorded (H : Host) (c : LvnState) (i : Nat) (r : Int) (e : lvn_item) : LvnState :=
  { c with
    hashmap := mapInsert c.hashmap (toString (H.addr (.inst i))) r
    replace_table := mapInsert c.replace_table (.inst i) e.ref }

/-- The three ways the scan treats a binary instruction `i` with opcode `op`
whose operands have the numbers `n1` and `n2` in the state `c` reached by
canonicalization: an entry has its key (the first one, at index `k`, is taken),
or no entry has it and `pattern_func` gives a positive number `r`, or the
instruction is novel and gets an entry. -/
inductive LvnOutcome (H : Host) (c : LvnState) (i : Nat) (op : BinaryOps) (n1 n2 : Int) :
    LvnState → Prop where
  | exact (k : Nat) (e : lvn_item)
      (hcmp : compare_func c.lvn_table (getOpcodeName op, n1, n2) = k)
      (he : c.lvn_table[k]? = some e) (hkey : e.value = (getOpcodeName op, n1, n2))
      (hfirst : ∀ k1 : Nat, k1 < k → ∀ e1, c.lvn_table[k1]? = some e1 →
        e1.value ≠ (getOpcodeName op, n1, n2)) :
      LvnOutcome H c i op n1 n2 (recorded H c i k e)
  | inverse (r : Int) (e0 e : lvn_item)
      (hcmp : compare_func c.lvn_table (getOpcodeName op, n1, n2) = -1)
      (hnone : ∀ e1 ∈ c.lvn_table, e1.value ≠ (getOpcodeName op, n1, n2))
      (hpat : pattern_func c.lvn_table op n1 n2 = some r) (hr : 0 < r)
      (he0 : tableAt c.lvn_table n1 = some e0) (hleft : e0.value.2.1 = r)
      (hright : e0.value.2.2 = n2)
      (hop : (op = .Add ∧ e0.value.1 = "sub") ∨ (op = .Sub ∧ e0.value.1 = "add"))
      (he : tableAt c.lvn_table r = some e) :
      LvnOutcome H c i op n1 n2 (recorded H c i r e)
  | novel (r : Int)
      (hcmp : compare_func c.lvn_table (getOpcodeName op, n1, n2) = -1)
      (hnone : ∀ e1 ∈ c.lvn_table, e1.value ≠ (getOpcodeName op, n1, n2))
      (hpat : pattern_func c.lvn_table op n1 n2 = some r) (hr : r ≤ 0) :
      LvnOutcome H c i op n1 n2
        (insert_lvn c (toString (H.addr (.inst i))) (getOpcodeName op) n1 n2 (.inst i))

/-- Every operand of the instructions `l` that is an instruction result is the
result of an instruction of `seen` or of an earlier instruction of `l`. -/
def operandsDefined (seen : List Nat) : List Inst → Bool
  | [] => true
  | I :: rest =>
    I.operands.all (fun v => match v with
      | .inst j => decide (j ∈ seen)
      | _ => true) &&
    operandsDefined (I.id :: seen) rest

/-- Every instruction operand is a constant, an external value or the result
of an instruction earlier in scan order. -/
def Function.defBeforeUse (F : Function) : Prop := operandsDefined [] F.insts = true

/-- What holds of the recorded replacements once the instructions `seen` are
scanned, in a function whose operands are defined before use: the replaced
values are binary instructions of `seen`, each of these has its address key in
the map, no underlying value of a table entry is itself replaced, the
underlying values that are instruction results come from `seen`, and every
replacement value is the underlying value of a table entry. -/
structure RecInv (H : Host) (seen : List Inst) (S : LvnState) : Prop where
  keys : ∀ k v, S.replace_table.lookup k = some v →
    ∃ j op a b, k = Value.inst j ∧ Inst.binary j op a b ∈ seen
  scanned : ∀ j op a b, Inst.binary j op a b ∈ seen →
    (S.hashmap.lookup (toString (H.addr (.inst j)))).isSome = true
  refs_kept : ∀ e ∈ S.lvn_table, S.replace_table.lookup e.ref = none
  refs_seen : ∀ e ∈ S.lvn_table, ∀ j, e.ref = Value.inst j → j ∈ seen.map Inst.id
  values : ∀ k v, S.replace_table.lookup k = some v → ∃ e ∈ S.lvn_table, e.ref = v

/-- The pair of canonical operand numbers of a binary instruction with
operands `a` and `b` scanned in the state `S` (`none` where the key is not in
the map). -/
def operandNumbers (H : Host) (S : LvnState) (a b : Value) : Option Int × Option Int :=
  ((canonicalize H S a b).1.hashmap.lookup (canonicalize H S a b).2.1,
    (canonicalize H S a b).1.hashmap.lookup (canonicalize H S a b).2.2)

/-- What holds of the entries made for instructions once the instructions
`seen` are scanned: the replaced values are binary instructions of `seen`, and
an entry that is no operand entry holds a binary instruction of `seen` that is
not replaced, under the name of its opcode. -/
structure OpInv (seen : List Inst) (S : LvnState) : Prop where
  keys : ∀ k v, S.replace_table.lookup k = some v →
    ∃ j op a b, k = Value.inst j ∧ Inst.binary j op a b ∈ seen
  novel : ∀ e ∈ S.lvn_table, e.value.1 ≠ "assign" → e.value.1 ≠ "constant" →
    ∃ j op a b, e.ref = Value.inst j ∧ Inst.binary j op a b ∈ seen ∧
      S.replace_table.lookup (Value.inst j) = none ∧ e.value.1 = getOpcodeName op

/-- The function `t = q * p; a = p - q; b1 = a + q; b2 = a + q; use b1, b2`,
with `p` the argument 0 and `q` the argument 1. -/
def inverseTwiceSample : Function :=
  [[.binary 0 .Mul (.arg 1) (.arg 0), .binary 1 .Sub (.arg 0) (.arg 1),
    .binary 2 .Add (.inst 1) (.arg 1), .binary 3 .Add (.inst 1) (.arg 1),
    .other 4 [.inst 2, .inst 3]]]

/-- The function `a = x * y; b = x * y; use a, b`. -/
def cseSample : Function :=
  [[.binary 1 .Mul (.arg 0) (.arg 1), .binary 2 .Mul (.arg 0) (.arg 1),
    .other 3 [.inst 1, .inst 2]]]

/-- The state of the scan of `cseSample` after its first instruction. -/
def cseSampleMid : LvnState :=
  { lvn_counter := 3
    hashmap := [("2000000", 0), ("2000001", 1), ("3000001", 2)]
    lvn_table := [⟨0, ("assign", 0, 0), .arg 0⟩, ⟨1, ("assign", 0, 0), .arg 1⟩,
      ⟨2, ("mul", 0, 1), .inst 1⟩]
    replace_table := [] }

/-- No two entries made for instructions have the same key: an entry whose tag
is neither "assign" nor "constant" shares its key with no entry at another
index. -/
def uniqueOpKeys (t : List lvn_item) : Prop :=
  ∀ (k1 k2 : Nat) (e1 e2 : lvn_item), t[k1]? = some e1 → t[k2]? = some e2 →
    e1.value.1 ≠ "assign" → e1.value.1 ≠ "constant" → e1.value = e2.value → k1 = k2

/-- The candidate key `(opcode name, number, number)` of an instruction scanned
in the state `S`; `none` for an instruction that is no binary operator or has
an operand without number. -/
def keyOf (H : Host) (S : LvnState) : Inst → Option (String × Int × Int)
  | .other _ _ => none
  | .binary _ op a b =>
    match operandNumbers H S a b with
    | (some n1, some n2) => some (getOpcodeName op, n1, n2)
    | _ => none

/-- The entry `e` at index `k` was made for the binary instruction `j` of
`seen`, which was scanned in the state `SJ` after the instructions `f1`: the
key of the entry is the candidate key of `j`, the entry was appended right
after the canonicalization of the operands of `j`, and `j` was novel (no entry
had its key and `pattern_func` gave no positive number). -/
structure EntryOrigin (H : Host) (seen : List Inst) (k : Nat) (e : lvn_item)
    (f1 : List Inst) (j : Nat) (op : BinaryOps) (a b : Value) (SJ : LvnState) : Prop where
  split : ∃ f2, seen = f1 ++ Inst.binary j op a b :: f2
  ref : e.ref = Value.inst j
  scan : lvnScanBlock H LvnState.init f1 = .ok SJ
  key : keyOf H SJ (.binary j op a b) = some e.value
  index : (canonicalize H SJ a b).1.lvn_table.length = k
  fresh : ∀ e1 ∈ (canonicalize H SJ a b).1.lvn_table, e1.value ≠ e.value
  pattern : ∃ r, r ≤ 0 ∧
    pattern_func (canonicalize H SJ a b).1.lvn_table op e.value.2.1 e.value.2.2 = some r

/-- Every entry of the table that is no operand entry was made for a binary
instruction of `seen`. -/
def entriesTraced (H : Host) (seen : List Inst) (S : LvnState) : Prop :=
  ∀ (k : Nat) (e : lvn_item), S.lvn_table[k]? = some e → e.value.1 ≠ "assign" →
    e.value.1 ≠ "constant" →
    ∃ f1 j op a b SJ, EntryOrigin H seen k e f1 j op a b SJ

/-- The function `a = x * y` in a first block, `b = x * y` in a second,
`c = x * y; use a, b, c` in a third. -/
def cseBlocksSample : Function :=
  [[.binary 1 .Mul (.arg 0) (.arg 1)], [.binary 2 .Mul (.arg 0) (.arg 1)],
    [.binary 3 .Mul (.arg 0) (.arg 1), .other 4 [.inst 1, .inst 2, .inst 3]]]

/-- The state of the scan of `cseBlocksSample` after its first two blocks. -/
def cseBlocksMid : LvnState :=
  { lvn_counter := 3
    hashmap := [("2000000", 0), ("2000001", 1), ("3000001", 2), ("3000002", 2)]
    lvn_table := [⟨0, ("assign", 0, 0), .arg 0⟩, ⟨1, ("assign", 0, 0), .arg 1⟩,
      ⟨2, ("mul", 0, 1), .inst 1⟩]
    replace_table := [(.inst 2, .inst 1)] }

/-- An instruction the peephole scan could touch: an add with a zero-constant
operand or a multiply with an integer-constant operand. -/
def peepholeCandidate : Inst → Bool
  | .binary _ op a b =>
    (op = .Add && (isZeroValue a || isZeroValue b)) ||
    (op = .Mul && (isConstantInt a || isConstantInt b))
  | .other _ _ => false

/-- The instruction `I`, scanned in the state `S` after the instructions
`front`, repeats an earlier key: some instruction of `front` was scanned with
the candidate key `I` is scanned with. -/
def repeatsEarlierKey (H : Host) (front : List Inst) (S : LvnState) (I : Inst) : Prop :=
  ∃ g1 J g2 S0 K, front = g1 ++ J :: g2 ∧ lvnScanBlock H LvnState.init g1 = .ok S0 ∧
    keyOf H S0 J = some K ∧ keyOf H S I = some K

/-- The instruction `I`, scanned in the state `S` after the instructions
`front`, closes an add/sub inverse pair: it is an add (a sub), the number of
its first operand is the index of the entry made for a sub (an add) of `front`,
and the second operand number of that entry is the number of the second
operand of `I`. -/
def closesInversePair (H : Host) (front : List Inst) (S : LvnState) : Inst → Prop
  | .other _ _ => False
  | .binary _ op a b =>
    ∃ n1 n2 e f1 j opJ p q SJ, operandNumbers H S a b = (some n1, some n2) ∧
      tableAt S.lvn_table n1 = some e ∧ EntryOrigin H front n1.toNat e f1 j opJ p q SJ ∧
      ((op = .Add ∧ opJ = .Sub) ∨ (op = .Sub ∧ opJ = .Add)) ∧ e.value.2.2 = n2

/-- The function `a = x * y; use a`. -/
def singleMulSample : Function :=
  [[.binary 1 .Mul (.arg 0) (.arg 1), .other 2 [.inst 1]]]

/-- State of the canonicalization of the operands `a` and `b` once
`register_handle` has run for both. -/
def registered (H : Host) (S : LvnState) (a b : Value) : LvnState :=
  (register_handle H (register_handle H S (getName H a) a).1 (getName H b) b).1

/-- State of the canonicalization of the operands `a` and `b` once
`constant_handle` has run for the first operand: the state in which it runs for
the second. -/
def firstHandled (H : Host) (S : LvnState) (a b : Value) : LvnState :=
  (constant_handle (registered H S a b) (register_handle H S (getName H a) a).2 a).1

/-! ## Static call counter (`src/FunctionInfo/FunctionInfo.cpp`) -/

/-- An instruction as `StaticCallCounter::runOnModule` sees it: a call
(`CallBase`) with the function it calls directly, if any, or any other
instruction. Functions are identified by a number (their address). -/
inductive ModInst where
  | call (callee : Option Nat)
  | plain
  deriving DecidableEq, Repr

/-- A function of a module: identity, name, number of arguments, basic
blocks. -/
structure ModFunction where
  id : Nat
  name : String
  arg_size : Nat
  blocks : List (List ModInst)
  deriving DecidableEq, Repr

/-- A module: its functions in order. -/
abbrev Module := List ModFunction

/-- The struct `FuncInfo`; `calls` is a `MapVector`, kept in insertion order.
The three counters are `unsigned`. -/
structure FuncInfo where
  name : String
  argc : Nat
  bb_counter : Nat
  ins_counter : Nat
  calls : List (Nat × Nat)
  deriving DecidableEq, Repr

/-- The lines `CallCount = calls.find(g); if absent insert (g, 0);
++CallCount->second`. -/
def countCall (calls : List (Nat × Nat)) (g : Nat) : List (Nat × Nat) :=
  match calls.lookup g with
  | none => calls ++ [(g, 1)]
  | some _ => calls.map (fun p => if p.1 = g then (p.1, (p.2 + 1) % 2 ^ 32) else p)

/-- Body of the loop over the instructions of a block. -/
def countInst (funcInfo : FuncInfo) (Ins : ModInst) : FuncInfo :=
  let info := { funcInfo with ins_counter := (funcInfo.ins_counter + 1) % 2 ^ 32 }
  match Ins with
  | .call (some g) => { info with calls := countCall info.calls g }
  | _ => info

/-- Body of the loop over the blocks of a function. -/
def countBlock (funcInfo : FuncInfo) (BB : List ModInst) : FuncInfo :=
  BB.foldl countInst { funcInfo with bb_counter := (funcInfo.bb_counter + 1) % 2 ^ 32 }

/-- Body of the loop over the functions of the module: the state is the result
map `Res` and the variable `funcInfo`, which is declared before the loop. -/
def visitFunction (st : List (Nat × FuncInfo) × FuncInfo) (Func : ModFunction) :
    List (Nat × FuncInfo) × FuncInfo :=
  let info := Func.blocks.foldl countBlock
    { st.2 with name := Func.name, argc := Func.arg_size % 2 ^ 32 }
  (match st.1.lookup Func.id with
    | none => st.1 ++ [(Func.id, info)]
    | some _ => st.1,
   info)

/-- The function `StaticCallCounter::runOnModule`. -/
def runOnModule (M : Module) : List (Nat × FuncInfo) :=
  (M.foldl visitFunction ([], FuncInfo.mk "" 0 0 0 [])).1

/-- The statistics of one function taken alone: what `runOnModule` stores for
the module that holds only this function. -/
def statsAlone (f : ModFunction) : Option FuncInfo :=
  (runOnModule [f]).lookup f.id

/-- A module shaped like the sample input compiled without optimisation: `foo`
(one argument, 5 instructions, no call), `bar` (two arguments, 10 instructions,
calls `foo`), `fez` (three arguments, 16 instructions, calls `bar`) and `main`
(two arguments, 54 instructions, calls `foo`, `bar` and `fez`), each of one
block. -/
def sampleModule : Module :=
  [ { id := 1, name := "foo", arg_size := 1,
      blocks := [List.replicate 5 .plain] },
    { id := 2, name := "bar", arg_size := 2,
      blocks := [List.replicate 6 .plain ++ [.call (some 1)] ++ List.replicate 3 .plain] },
    { id := 3, name := "fez", arg_size := 3,
      blocks := [List.replicate 9 .plain ++ [.call (some 2)] ++ List.replicate 6 .plain] },
    { id := 4, name := "main", arg_size := 2,
      blocks := [List.replicate 36 .plain ++ [.call (some 1)] ++ List.replicate 5 .plain ++
        [.call (some 2)] ++ List.replicate 5 .plain ++ [.call (some 3)] ++
        List.replicate 5 .plain] } ]

/-- An instruction on which a rule of the peephole scan fires: an add with a
zero-constant operand, a multiply with a constant-1 operand, or a multiply with
a constant operand that the strength-reduction guard accepts. -/
def simplifiable : Inst → Bool
  | .binary _ op a b =>
    (op = .Add && (isZeroValue b || isZeroValue a)) ||
    (op = .Mul && (isOneValue a || isOneValue b)) ||
    (op = .Mul && (isConstantInt a || isConstantInt b) &&
      builtin_popcount (getZExtValue (if isConstantInt a then a else b)) == 1)
  | .other _ _ => false

/-- What holds during the peephole scan of a function whose operands are
defined before use, when the instructions `todo` are still to be visited: no
rule fires on an instruction the cursor has passed (or the scan has made), such
an instruction uses no instruction still to be visited, and an instruction
still to be visited uses neither itself nor a later one. -/
structure PeepInv (T : PeepState) (todo : List Nat) : Prop where
  wf : T.Wf
  nodup : todo.Nodup
  below : ∀ k ∈ todo, k < T.next
  passed : ∀ u ∈ T.fn.insts, u.id ∉ todo →
    simplifiable u = false ∧ ∀ k ∈ todo, Value.inst k ∉ u.operands
  pending : ∀ t1 k t2, todo = t1 ++ k :: t2 → ∀ u, findInst T.fn k = some u →
    ∀ k1 ∈ k :: t2, Value.inst k1 ∉ u.operands

/-- The function `a = 0 - q; c = a + q; u = x + c; use u`, with `x` the
argument 0 and `q` the argument 1. -/
def exposedZeroSample : Function :=
  [[.binary 1 .Sub (.const 32 0) (.arg 1), .binary 2 .Add (.inst 1) (.arg 1),
    .binary 3 .Add (.arg 0) (.inst 2), .other 4 [.inst 3]]]

/-! ## Decimal keys -/

/-- The digit a decimal character stands for. -/
def digitValue (c : Char) : Nat := c.toNat - 48

/-- The number a list of decimal characters stands for. -/
def decodeDigits (l : List Char) : Nat :=
  l.foldl (fun acc c => acc * 10 + digitValue c) 0

/-! ## Values computed by a straight-line function -/

/-- The value of a binary operation on integers of width `w`: add, sub, mul and
shl modulo `2 ^ w`; what any other opcode computes from the values of its
operands is left to `sem`. -/
def evalOp (w : Nat) (sem : BinaryOps → Nat → Nat → Nat) : BinaryOps → Nat → Nat → Nat
  | .Add, x, y => (x + y) % 2 ^ w
  | .Sub, x, y => (x + (2 ^ w - y % 2 ^ w)) % 2 ^ w
  | .Mul, x, y => (x * y) % 2 ^ w
  | .Shl, x, y => (x * 2 ^ y) % 2 ^ w
  | op, x, y => sem op x y % 2 ^ w

/-- The value of an operand: a constant has the value of its bit pattern, an
external value the one the assignment `env` gives it, an instruction result the
one the valuation `ρ` holds. -/
def evalValue (w : Nat) (env : Value → Nat) (ρ : Nat → Nat) : Value → Nat
  | .const _ b => b % 2 ^ w
  | .arg n => env (.arg n) % 2 ^ w
  | .inst j => ρ j

/-- Execution of one instruction: a binary operator computes its result from
its operands, the result of any other instruction is given by the
assignment. -/
def execInst (w : Nat) (sem : BinaryOps → Nat → Nat → Nat) (env : Value → Nat)
    (ρ : Nat → Nat) : Inst → Nat → Nat
  | .binary i op a b => fun k =>
    if k = i then evalOp w sem op (evalValue w env ρ a) (evalValue w env ρ b) else ρ k
  | .other i _ => fun k => if k = i then env (.inst i) % 2 ^ w else ρ k

/-- Execution of the instructions in order, from the valuation that is 0
everywhere. -/
def exec (w : Nat) (sem : BinaryOps → Nat → Nat → Nat) (env : Value → Nat)
    (l : List Inst) : Nat → Nat :=
  l.foldl (execInst w sem env) (fun _ => 0)

/-- The values that occur in a function: the results of its instructions and
their operands. -/
def Function.values (F : Function) : List Value :=
  F.insts.flatMap (fun I => Value.inst I.id :: I.operands)

/-- The valuation `ρ` gives every binary instruction of the function the value
of its operation on the values of its operands, and every value is a `w`-bit
integer. -/
structure Consistent (w : Nat) (sem : BinaryOps → Nat → Nat → Nat) (env : Value → Nat)
    (ρ : Nat → Nat) (F : Function) : Prop where
  binary : ∀ i op a b, Inst.binary i op a b ∈ F.insts →
    ρ i = evalOp w sem op (evalValue w env ρ a) (evalValue w env ρ b)
  bound : ∀ j, ρ j < 2 ^ w

/-- The keys of the values of the function are faithful: no value carries a
name, the constants are `w`-bit integers with `w ≤ 32`, different values have
different addresses, and no address key is the decimal key of a constant. -/
structure KeysFaithful (H : Host) (w : Nat) (F : Function) : Prop where
  noNames : H.noNames
  width : w ≤ 32
  consts : ∀ v ∈ F.values, ∀ w1 b, v = Value.const w1 b → w1 = w ∧ b < 2 ^ w
  addr : ∀ x ∈ F.values, ∀ y ∈ F.values, H.addr x = H.addr y → x = y
  apart : ∀ x ∈ F.values, ∀ c ∈ F.values, isConstantInt c = true →
    toString (H.addr x) ≠ operandKey H c

/-- What the state of the scan means for the values under the valuation `ρ`: a
value of the function whose key has a number has the value of the underlying
value of the entry of that number; the underlying value of an entry made for an
instruction has the value of the operation of the entry on the values of the
entries of its two operand numbers; and a replaced value has the value of its
replacement. -/
structure SemInv (H : Host) (w : Nat) (sem : BinaryOps → Nat → Nat → Nat) (env : Value → Nat)
    (ρ : Nat → Nat) (F : Function) (S : LvnState) : Prop where
  numbers : ∀ x ∈ F.values, ∀ n, S.hashmap.lookup (operandKey H x) = some n →
    ∃ e, tableAt S.lvn_table n = some e ∧ evalValue w env ρ e.ref = evalValue w env ρ x
  entries : ∀ e ∈ S.lvn_table, e.value.1 ≠ "assign" → e.value.1 ≠ "constant" →
    ∃ op e1 e2, e.value.1 = getOpcodeName op ∧
      tableAt S.lvn_table e.value.2.1 = some e1 ∧ tableAt S.lvn_table e.value.2.2 = some e2 ∧
      evalValue w env ρ e.ref =
        evalOp w sem op (evalValue w env ρ e1.ref) (evalValue w env ρ e2.ref)
  replaced : ∀ k v, S.replace_table.lookup k = some v →
    evalValue w env ρ k = evalValue w env ρ v

/-- The instruction `u` is the instruction `u0` up to operands of the same
value: same identity, same opcode, and operand by operand the same value under
`val`. -/
def Inst.agrees (val : Value → Nat) : Inst → Inst → Prop
  | .binary i op a b, .binary i1 op1 a1 b1 => i = i1 ∧ op = op1 ∧ val a = val a1 ∧ val b = val b1
  | .other i ops, .other i1 ops1 => i = i1 ∧ List.Forall₂ (fun v0 v => val v0 = val v) ops ops1
  | _, _ => False

/-- The constant `v` is a `w`-bit integer (any other value passes). -/
def Value.hasWidth (w : Nat) : Value → Bool
  | .const w1 b => w1 == w && decide (b < 2 ^ w)
  | _ => true

/-- The function `t = y * y; a = x - 5; c = a + 5; d = x - 5; use c, d`, with
`x` the argument 0 and `y` the argument 1. -/
def valueSample : Function :=
  [[.binary 0 .Mul (.arg 1) (.arg 1), .binary 1 .Sub (.arg 0) (.const 32 5),
    .binary 2 .Add (.inst 1) (.const 32 5), .binary 3 .Sub (.arg 0) (.const 32 5),
    .other 4 [.inst 2, .inst 3]]]

/-! ## The output of the rewrite loop -/

/-- The value the rewrite loop puts where `v` was: the replacement recorded for
`v`, or `v` itself. -/
def substMap (R : List (Value × Value)) (v : Value) : Value :=
  match R.lookup v with
  | some x => x
  | none => v

/-- An instruction with `f` applied to its operands. -/
def Inst.mapOperands (f : Value → Value) : Inst → Inst
  | .binary i op a b => .binary i op (f a) (f b)
  | .other i ops => .other i (ops.map f)

/-- The instructions the rewrite loop leaves: those without recorded
replacement, each operand replaced as recorded. -/
def rewritten (R : List (Value × Value)) (l : List Inst) : List Inst :=
  (l.filter (fun I => (R.lookup (.inst I.id)).isNone)).map (Inst.mapOperands (substMap R))

/-- The replacement of the uses of the instructions `D` only. -/
def substDone (R : List (Value × Value)) (D : List Nat) (v : Value) : Value :=
  match v with
  | .inst j => if j ∈ D then substMap R v else v
  | _ => v

/-- The keys of the values of the function are apart: no value carries a name,
different values have different addresses, and no address key is the decimal
key of a constant. -/
structure KeysApart (H : Host) (F : Function) : Prop where
  noNames : H.noNames
  addr : ∀ x ∈ F.values, ∀ y ∈ F.values, H.addr x = H.addr y → x = y
  apart : ∀ x ∈ F.values, ∀ c ∈ F.values, isConstantInt c = true →
    toString (H.addr x) ≠ operandKey H c

/-- The values that occur in a list of instructions: the results of the
instructions and their operands. -/
def valuesOf (l : List Inst) : List Value :=
  l.flatMap (fun I => Value.inst I.id :: I.operands)

/-- What holds of the numbers during the scan of a function with keys apart,
operands defined before use and distinct identities: the entry of the number of
a value holds a value of that number; the underlying value of an entry made for
an instruction has the index of the entry as number; the operand numbers of such
an entry are numbers of values; a replaced value and its replacement have the
same number; every key of the map is a key of one of the values `vs`; and at
most one key has the number 0. -/
structure FInv (H : Host) (G : Function) (vs : List Value) (S : LvnState) : Prop where
  rep : ∀ y ∈ G.values, ∀ n, S.hashmap.lookup (operandKey H y) = some n →
    ∃ e, tableAt S.lvn_table n = some e ∧
      S.hashmap.lookup (operandKey H e.ref) = some n ∧ e.ref ∈ G.values
  idx : ∀ (k : Nat) (e : lvn_item), S.lvn_table[k]? = some e → e.value.1 ≠ "assign" →
    e.value.1 ≠ "constant" →
    S.hashmap.lookup (operandKey H e.ref) = some (k : Int) ∧ e.ref ∈ G.values
  opnum : ∀ e ∈ S.lvn_table, e.value.1 ≠ "assign" → e.value.1 ≠ "constant" →
    (∃ y ∈ G.values, S.hashmap.lookup (operandKey H y) = some e.value.2.1) ∧
    (∃ y ∈ G.values, S.hashmap.lookup (operandKey H y) = some e.value.2.2)
  same : ∀ x v, S.replace_table.lookup x = some v → v ∈ G.values ∧
    ∃ n, S.hashmap.lookup (operandKey H x) = some n ∧
      S.hashmap.lookup (operandKey H v) = some n
  keys : ∀ k n, S.hashmap.lookup k = some n →
    ∃ x ∈ vs, k = toString (H.addr x) ∨ k = operandKey H x
  zero : ∀ k1 k2, S.hashmap.lookup k1 = some 0 → S.hashmap.lookup k2 = some 0 → k1 = k2

/-! ## The scan of the output of value numbering -/

/-- What the scan that ended in `Sf` did with the binary instruction `i` it met
after the instructions `front`, in the state `S`, when it made an entry for it:
the operands had the numbers `n1` and `n2`, no inverse pattern was found, and in
the final state the operands still have these numbers and the instruction has
the index of its entry as number. -/
structure KeptAt (H : Host) (Sf : LvnState) (front : List Inst) (i : Nat) (op : BinaryOps)
    (a b : Value) (S : LvnState) (n1 n2 : Int) : Prop where
  scan : lvnScanBlock H LvnState.init front = .ok S
  cb : (canonicalize H S a b).1.Bounded
  nums : operandNumbers H S a b = (some n1, some n2)
  bound1 : 0 ≤ n1 ∧ n1 < (canonicalize H S a b).1.lvn_table.length
  bound2 : 0 ≤ n2 ∧ n2 < (canonicalize H S a b).1.lvn_table.length
  step : lvnStep H S (.binary i op a b) =
    .ok (insert_lvn (canonicalize H S a b).1 (toString (H.addr (.inst i)))
      (getOpcodeName op) n1 n2 (.inst i))
  pat : ∃ r, r ≤ 0 ∧ pattern_func (canonicalize H S a b).1.lvn_table op n1 n2 = some r
  left : Sf.hashmap.lookup (operandKey H a) = some n1
  right : Sf.hashmap.lookup (operandKey H b) = some n2
  self : Sf.hashmap.lookup (toString (H.addr (.inst i))) =
    some ((canonicalize H S a b).1.lvn_table.length : Int)
  entry : Sf.lvn_table[(canonicalize H S a b).1.lvn_table.length]? =
    some ⟨((canonicalize H S a b).1.lvn_table.length : Int), (getOpcodeName op, n1, n2), .inst i⟩
  ext : (canonicalize H S a b).1.lvn_table <+: Sf.lvn_table

/-- What holds during the scan of the output of value numbering, once the first
entry is made; `Sf` is the final state of the scan that produced the output,
`seen` the instructions of the input passed so far and `vs` the values met.
Nothing is recorded for replacement; different keys have different numbers;
every key of the map is a key of one of the values `vs`; an entry made for an
instruction holds the numbers of the operands of an instruction of `seen` that
was kept, and its index is the number of that instruction; a key that had the
number 0 in the first scan has it again; and some key has the number 0 in both
scans. -/
structure SInv (H : Host) (Sf : LvnState) (seen : List Inst) (vs : List Value)
    (S : LvnState) : Prop where
  norep : S.replace_table = []
  inj : ∀ k1 k2 n, S.hashmap.lookup k1 = some n → S.hashmap.lookup k2 = some n → k1 = k2
  keys : ∀ k n, S.hashmap.lookup k = some n →
    ∃ x ∈ vs, k = toString (H.addr x) ∨ k = operandKey H x
  opent : ∀ (idx : Nat) (e : lvn_item), S.lvn_table[idx]? = some e → e.value.1 ≠ "assign" →
    e.value.1 ≠ "constant" →
    ∃ j op a b, Inst.binary j op a b ∈ seen ∧ Sf.replace_table.lookup (.inst j) = none ∧
      e.value.1 = getOpcodeName op ∧
      S.hashmap.lookup (operandKey H (substMap Sf.replace_table a)) = some e.value.2.1 ∧
      S.hashmap.lookup (operandKey H (substMap Sf.replace_table b)) = some e.value.2.2 ∧
      S.hashmap.lookup (toString (H.addr (.inst j))) = some (idx : Int)
  zero : ∀ k r, S.hashmap.lookup k = some r → Sf.hashmap.lookup k = some 0 → r = 0
  anchor : ∃ k0, S.hashmap.lookup k0 = some 0 ∧ Sf.hashmap.lookup k0 = some 0

/-- The function with the blocks `y = x + 0` and `use y`: the second block has
no add with a zero-constant operand and no multiply with a constant operand. -/
def addZeroTwoBlocks : Function :=
  [[.binary 1 .Add (.arg 0) (.const 32 0)], [.other 2 [.inst 1]]]

/-- The function with the blocks `y = x + 0; use y` and `a = x * q; use a`. -/
def addZeroThenPlainBlock : Function :=
  [[.binary 1 .Add (.arg 0) (.const 32 0), .other 2 [.inst 1]],
    [.binary 3 .Mul (.arg 0) (.arg 1), .other 4 [.inst 3]]]

/-- The function `y = x * 1; z = y * 4; s = y - q; use z, s`. -/
def mulOneUsersSample : Function :=
  [[.binary 1 .Mul (.arg 0) (.const 32 1), .binary 2 .Mul (.inst 1) (.const 32 4),
    .binary 3 .Sub (.inst 1) (.arg 1), .other 4 [.inst 2, .inst 3]]]

/-- The opcode of a binary operator; `none` for any other instruction. -/
def Inst.opcode : Inst → Option BinaryOps
  | .binary _ op _ _ => some op
  | .other _ _ => none

theorem findInst_some {F : Function} {i : Nat} {I : Inst} (h : findInst F i = some I) :
    I.id = i ∧ I ∈ F.insts := by
  unfold findInst at h
  have h1 := List.find?_some h
  have h2 := List.mem_of_find?_eq_some h
  exact ⟨by simpa using h1, h2⟩

@[simp]
theorem Inst.id_replaceUses (old new : Value) (I : Inst) :
    (I.replaceUses old new).id = I.id := by
  cases I <;> rfl

theorem insts_mapInst (f : Inst → Inst) (F : Function) :
    Function.insts (F.map (List.map f)) = F.insts.map f := by
  simp [Function.insts, List.map_flatten]

theorem insts_replaceAllUsesWith (old new : Value) (F : Function) :
    (replaceAllUsesWith old new F).insts = F.insts.map (Inst.replaceUses old new) :=
  insts_mapInst _ F

theorem insts_eraseFromParent (i : Nat) (F : Function) :
    (eraseFromParent i F).insts = F.insts.filter (fun I => I.id != i) := by
  simp [eraseFromParent, Function.insts, List.filter_flatten]

theorem insts_ReplaceInstWithInst (i : Nat) (N : Inst) (F : Function) :
    (ReplaceInstWithInst i N F).insts =
      (F.insts.map (fun I => if I.id = i then N else I)).map
        (Inst.replaceUses (.inst i) (.inst N.id)) := by
  unfold ReplaceInstWithInst
  rw [insts_replaceAllUsesWith, insts_mapInst]

/-- The three shapes a visit of the peephole scan can take. -/
theorem peepholeVisit_cases (S : PeepState) (j : Nat) :
    peepholeVisit S j = S ∨
    (∃ op a b x, findInst S.fn j = some (.binary j op a b) ∧ (x = a ∨ x = b) ∧
      peepholeVisit S j =
        ⟨eraseFromParent j (replaceAllUsesWith (.inst j) x S.fn), S.next⟩) ∨
    (∃ a b x w k, findInst S.fn j = some (.binary j .Mul a b) ∧ (x = a ∨ x = b) ∧
      peepholeVisit S j =
        ⟨ReplaceInstWithInst j (.binary S.next .Shl x (.const w k)) S.fn, S.next + 1⟩) := by
  unfold peepholeVisit
  split
  · rename_i i op a b hf
    have hi : i = j := (findInst_some hf).1
    subst hi
    by_cases h1 : (decide (op = BinaryOps.Add) && (isZeroValue b || isZeroValue a)) = true
    · rw [if_pos h1]
      right; left
      refine ⟨op, a, b, _, hf, ?_, rfl⟩
      by_cases hz : isZeroValue a = true <;> simp [hz]
    rw [if_neg h1]
    by_cases h2 : (decide (op = BinaryOps.Mul) && (isOneValue a || isOneValue b)) = true
    · rw [if_pos h2]
      right; left
      refine ⟨op, a, b, _, hf, ?_, rfl⟩
      by_cases hz : isOneValue a = true <;> simp [hz]
    rw [if_neg h2]
    by_cases h3 : (decide (op = BinaryOps.Mul) && (isConstantInt a || isConstantInt b)) = true
    · rw [if_pos h3]
      have hop : op = BinaryOps.Mul := by
        simp only [Bool.and_eq_true, decide_eq_true_eq] at h3
        exact h3.1
      subst hop
      dsimp only
      by_cases h4 : builtin_popcount (getZExtValue (if isConstantInt a = true then a else b)) = 1
      · rw [if_pos h4]
        cases hs : shiftSearch (getZExtValue (if isConstantInt a = true then a else b)) with
        | none => left; rfl
        | some k =>
          right; right
          refine ⟨a, b, _, _, _, hf, ?_, rfl⟩
          by_cases hz : isConstantInt a = true <;> simp [hz]
      · rw [if_neg h4]
        left; rfl
    · rw [if_neg h3]
      left; rfl
  · left; rfl

theorem findInst_replaceAllUsesWith (old new : Value) (F : Function) (i : Nat) :
    findInst (replaceAllUsesWith old new F) i =
      (findInst F i).map (Inst.replaceUses old new) := by
  unfold findInst
  rw [insts_replaceAllUsesWith, List.find?_map]
  congr 1
  apply congrArg (fun p => List.find? p F.insts)
  funext I
  simp

theorem findInst_eraseFromParent {i j : Nat} (h : i ≠ j) (F : Function) :
    findInst (eraseFromParent j F) i = findInst F i := by
  unfold findInst
  rw [insts_eraseFromParent, List.find?_filter]
  apply congrArg (fun p => List.find? p F.insts)
  funext I
  by_cases hi : I.id = i
  · have hj : I.id ≠ j := fun e => h (hi.symm.trans e)
    simp [hi, h]
  · simp [hi]

theorem findInst_mapReplace {i j : Nat} (h : i ≠ j) (N : Inst) (hN : N.id ≠ i)
    (F : Function) :
    findInst (F.map (List.map (fun I => if I.id = j then N else I))) i = findInst F i := by
  unfold findInst
  rw [insts_mapInst, List.find?_map]
  have hp : ((fun I : Inst => I.id == i) ∘ fun I => if I.id = j then N else I) =
      (fun I : Inst => I.id == i) := by
    funext I
    by_cases hj : I.id = j
    · have hi : ¬ I.id = i := fun e => h (e.symm.trans hj)
      simp [hj, hN, Ne.symm h]
    · simp [hj]
  rw [hp]
  cases hf : List.find? (fun I : Inst => I.id == i) F.insts with
  | none => rfl
  | some I =>
    have hi : I.id = i := by simpa using List.find?_some hf
    have hj : ¬ I.id = j := fun e => h (hi.symm.trans e)
    simp [hj]

theorem findInst_ReplaceInstWithInst {i j : Nat} (h : i ≠ j) (N : Inst) (hN : N.id ≠ i)
    (F : Function) :
    findInst (ReplaceInstWithInst j N F) i =
      (findInst F i).map (Inst.replaceUses (.inst j) (.inst N.id)) := by
  unfold ReplaceInstWithInst
  rw [findInst_replaceAllUsesWith, findInst_mapReplace h N hN]

theorem substValue_const (j : Nat) (new v : Value) (h : isConstantInt v = true) :
    substValue (.inst j) new v = v := by
  cases v <;> simp_all [substValue, isConstantInt]

/-- Redirecting the uses of an instruction keeps a binary instruction binary,
with its opcode and its constant operands. -/
theorem replaceUses_binary (j : Nat) (new : Value) (i : Nat) (op : BinaryOps) (a b : Value) :
    ∃ a' b', Inst.replaceUses (.inst j) new (.binary i op a b) = .binary i op a' b' ∧
      (isConstantInt a = true → a' = a) ∧ (isConstantInt b = true → b' = b) :=
  ⟨_, _, rfl, substValue_const j new a, substValue_const j new b⟩

theorem peepholeVisit_next_le (S : PeepState) (j : Nat) : S.next ≤ (peepholeVisit S j).next := by
  rcases peepholeVisit_cases S j with h | ⟨_, _, _, _, _, _, h⟩ | ⟨_, _, _, _, _, _, _, h⟩ <;>
    rw [h] <;> simp

theorem peepholeScan_cons (S : PeepState) (j : Nat) (rest : List Nat) :
    peepholeScan S (j :: rest) = peepholeScan (peepholeVisit S j) rest := rfl

theorem ids_eq_flatten_blockIds (F : Function) : F.ids = F.blockIds.flatten := by
  simp [Function.ids, Function.insts, Function.blockIds, List.map_flatten]

theorem blockIds_replaceAllUsesWith (old new : Value) (F : Function) :
    (replaceAllUsesWith old new F).blockIds = F.blockIds := by
  simp [replaceAllUsesWith, Function.blockIds, List.map_map, Function.comp_def]

theorem map_id_filter_ne (j : Nat) (l : List Inst) :
    (l.filter (fun I => I.id != j)).map Inst.id =
      (l.map Inst.id).filterMap (fun k => if k = j then none else some k) := by
  induction l with
  | nil => rfl
  | cons I l ih =>
    by_cases h : I.id = j
    · simp only [List.filter_cons, h, bne_self_eq_false, Bool.false_eq_true, if_false,
        List.map_cons, List.filterMap_cons, if_true]
      exact ih
    · have hb : (I.id != j) = true := by simp [h]
      simp only [List.filter_cons, hb, if_true, List.map_cons, List.filterMap_cons, h, if_false]
      rw [ih]

theorem map_id_mapReplace (j : Nat) (N : Inst) (l : List Inst) :
    (l.map (fun I => if I.id = j then N else I)).map Inst.id =
      (l.map Inst.id).filterMap (fun k => if k = j then some N.id else some k) := by
  induction l with
  | nil => rfl
  | cons I l ih =>
    by_cases h : I.id = j
    · simp only [List.map_cons, h, if_true, List.filterMap_cons]
      rw [ih]
    · simp only [List.map_cons, h, if_false, List.filterMap_cons]
      rw [ih]

theorem blockIds_eraseFromParent (j : Nat) (F : Function) :
    (eraseFromParent j F).blockIds =
      F.blockIds.map (List.filterMap (fun k => if k = j then none else some k)) := by
  simp only [eraseFromParent, Function.blockIds, List.map_map]
  apply List.map_congr_left
  intro B _
  exact map_id_filter_ne j B

theorem blockIds_mapReplace (j : Nat) (N : Inst) (F : Function) :
    Function.blockIds (F.map (List.map (fun I => if I.id = j then N else I))) =
      F.blockIds.map (List.filterMap (fun k => if k = j then some N.id else some k)) := by
  simp only [Function.blockIds, List.map_map]
  apply List.map_congr_left
  intro B _
  exact map_id_mapReplace j N B

theorem blockIds_ReplaceInstWithInst (j : Nat) (N : Inst) (F : Function) :
    (ReplaceInstWithInst j N F).blockIds =
      F.blockIds.map (List.filterMap (fun k => if k = j then some N.id else some k)) := by
  unfold ReplaceInstWithInst
  rw [blockIds_replaceAllUsesWith, blockIds_mapReplace]

/-- The identities of every block after a visit: those before it, with the
visited one kept, dropped, or replaced by the new identity. -/
theorem peepholeVisit_blockIds (S : PeepState) (j : Nat) :
    ∃ r : Option Nat, (r = none ∨ r = some j ∨ r = some S.next) ∧
      (peepholeVisit S j).fn.blockIds =
        S.fn.blockIds.map (List.filterMap (fun k => if k = j then r else some k)) := by
  rcases peepholeVisit_cases S j with h | ⟨_, _, _, x, _, _, h⟩ | ⟨_, _, x, w, k, _, _, h⟩
  · refine ⟨some j, Or.inr (Or.inl rfl), ?_⟩
    rw [h]
    have : (fun k => if k = j then some j else some k) = (fun k : Nat => some k) := by
      funext k; by_cases hk : k = j <;> simp [hk]
    rw [this]
    simp
  · refine ⟨none, Or.inl rfl, ?_⟩
    rw [h]
    simp only
    rw [blockIds_eraseFromParent, blockIds_replaceAllUsesWith]
  · refine ⟨some S.next, Or.inr (Or.inr rfl), ?_⟩
    rw [h]
    simp only
    rw [blockIds_ReplaceInstWithInst]
    rfl

theorem mem_ids_of_blockIds {F G : Function} {fate : Nat → Option Nat}
    (h : G.blockIds = F.blockIds.map (List.filterMap fate)) {i : Nat} (hi : i ∈ G.ids) :
    ∃ k ∈ F.ids, fate k = some i := by
  rw [ids_eq_flatten_blockIds, h] at hi
  rw [ids_eq_flatten_blockIds]
  simp only [List.mem_flatten, List.mem_map] at hi ⊢
  obtain ⟨l, ⟨B, hB, rfl⟩, hi⟩ := hi
  rw [List.mem_filterMap] at hi
  obtain ⟨k, hk, hf⟩ := hi
  exact ⟨k, ⟨B, hB, hk⟩, hf⟩

/-- An identity that is absent and below the counter stays absent. -/
theorem peepholeVisit_absent {S : PeepState} {i : Nat} (j : Nat) (hi : i ∉ S.fn.ids)
    (hn : i < S.next) : i ∉ (peepholeVisit S j).fn.ids := by
  obtain ⟨r, hr, hb⟩ := peepholeVisit_blockIds S j
  intro hmem
  obtain ⟨k, hk, hf⟩ := mem_ids_of_blockIds hb hmem
  by_cases hkj : k = j
  · simp only [hkj, if_true] at hf
    rcases hr with hr | hr | hr
    · rw [hr] at hf; cases hf
    · rw [hr] at hf; cases hf; exact hi (hkj ▸ hk)
    · rw [hr] at hf; cases hf; omega
  · simp only [hkj, if_false] at hf
    cases hf
    exact hi hk

theorem peepholeScan_absent (ids : List Nat) {S : PeepState} {i : Nat} (hi : i ∉ S.fn.ids)
    (hn : i < S.next) : i ∉ (peepholeScan S ids).fn.ids := by
  induction ids generalizing S with
  | nil => exact hi
  | cons j rest ih =>
    exact ih (peepholeVisit_absent j hi hn) (lt_of_lt_of_le hn (peepholeVisit_next_le S j))

theorem operands_replaceUses (old new : Value) (I : Inst) :
    (I.replaceUses old new).operands = I.operands.map (substValue old new) := by
  cases I <;> rfl

theorem not_usedIn_replaceAllUsesWith {v old new : Value} {F : Function}
    (h : ¬ usedIn v F) (hv : v ≠ new) : ¬ usedIn v (replaceAllUsesWith old new F) := by
  rintro ⟨u, hu, hm⟩
  rw [insts_replaceAllUsesWith, List.mem_map] at hu
  obtain ⟨u0, hu0, rfl⟩ := hu
  rw [operands_replaceUses, List.mem_map] at hm
  obtain ⟨x, hx, hxv⟩ := hm
  unfold substValue at hxv
  split_ifs at hxv with hxo
  · exact hv hxv.symm
  · exact h ⟨u0, hu0, hxv ▸ hx⟩

theorem not_usedIn_replaceAllUsesWith_self {old new : Value} (F : Function)
    (hne : new ≠ old) : ¬ usedIn old (replaceAllUsesWith old new F) := by
  rintro ⟨u, hu, hm⟩
  rw [insts_replaceAllUsesWith, List.mem_map] at hu
  obtain ⟨u0, hu0, rfl⟩ := hu
  rw [operands_replaceUses, List.mem_map] at hm
  obtain ⟨x, hx, hxv⟩ := hm
  unfold substValue at hxv
  split_ifs at hxv with hxo
  · exact hne hxv
  · exact hxo hxv

theorem not_usedIn_eraseFromParent {v : Value} {F : Function} (j : Nat)
    (h : ¬ usedIn v F) : ¬ usedIn v (eraseFromParent j F) := by
  rintro ⟨u, hu, hm⟩
  rw [insts_eraseFromParent] at hu
  exact h ⟨u, List.mem_of_mem_filter hu, hm⟩

theorem le_foldl_max (l : List Nat) (a : Nat) : a ≤ l.foldl max a := by
  induction l generalizing a with
  | nil => exact le_refl _
  | cons x l ih => exact le_trans (le_max_left a x) (ih (max a x))

theorem le_foldl_max_of_mem {l : List Nat} {x : Nat} (a : Nat) (h : x ∈ l) :
    x ≤ l.foldl max a := by
  induction l generalizing a with
  | nil => cases h
  | cons y l ih =>
    rcases List.mem_cons.mp h with e | h1
    · subst e
      exact le_trans (le_max_right a x) (le_foldl_max l (max a x))
    · exact ih (max a y) h1

/-- Every identity of a function is below `freshId`. -/
theorem lt_freshId {F : Function} {i : Nat} (h : i ∈ F.ids) : i < freshId F := by
  unfold Function.ids at h
  obtain ⟨I, hI, rfl⟩ := List.mem_map.mp h
  have h1 : I.id ≤ I.maxId := le_foldl_max _ _
  have h2 : I.maxId ≤ (F.insts.map Inst.maxId).foldl max 0 :=
    le_foldl_max_of_mem 0 (List.mem_map.mpr ⟨I, hI, rfl⟩)
  unfold freshId
  omega

theorem findInst_of_split {F : Function} (hnd : F.ids.Nodup) {front back : List Inst}
    {I : Inst} (hF : F.insts = front ++ I :: back) : findInst F I.id = some I := by
  unfold findInst
  rw [hF]
  unfold Function.ids at hnd
  rw [hF] at hnd
  rw [List.find?_append]
  have hnone : List.find? (fun J => J.id == I.id) front = none := by
    rw [List.find?_eq_none]
    intro J hJ hJe
    simp only [beq_iff_eq] at hJe
    rw [List.map_append, List.map_cons] at hnd
    have := (List.nodup_append.mp hnd).2.2
    exact this (List.mem_map.mpr ⟨J, hJ, hJe⟩) (by simp)
  rw [hnone]
  simp

theorem ids_of_split {F : Function} {front back : List Inst} {I : Inst}
    (hF : F.insts = front ++ I :: back) :
    F.ids = front.map Inst.id ++ I.id :: back.map Inst.id := by
  simp [Function.ids, hF]

theorem ids_replaceAllUsesWith (old new : Value) (F : Function) :
    (replaceAllUsesWith old new F).ids = F.ids := by
  rw [ids_eq_flatten_blockIds, ids_eq_flatten_blockIds, blockIds_replaceAllUsesWith]

theorem ids_eraseFromParent (j : Nat) (F : Function) :
    (eraseFromParent j F).ids = F.ids.filter (fun k => k != j) := by
  simp only [Function.ids]
  rw [insts_eraseFromParent, List.filter_map]
  rfl

theorem ids_ReplaceInstWithInst (j : Nat) (N : Inst) (F : Function) :
    (ReplaceInstWithInst j N F).ids = F.ids.map (fun k => if k = j then N.id else k) := by
  simp only [Function.ids]
  rw [insts_ReplaceInstWithInst]
  simp only [List.map_map]
  apply List.map_congr_left
  intro I _
  by_cases h : I.id = j <;> simp [h]

theorem peepholeVisit_wf {S : PeepState} (h : S.Wf) (j : Nat) : (peepholeVisit S j).Wf := by
  obtain ⟨hnd, hlt⟩ := h
  rcases peepholeVisit_cases S j with e | ⟨_, _, _, x, _, _, e⟩ | ⟨_, _, x, w, k, _, _, e⟩
  · rw [e]; exact ⟨hnd, hlt⟩
  · rw [e]
    refine ⟨?_, ?_⟩
    · simp only
      rw [ids_eraseFromParent, ids_replaceAllUsesWith]
      exact hnd.filter _
    · intro k hk
      simp only at hk ⊢
      rw [ids_eraseFromParent, ids_replaceAllUsesWith] at hk
      exact hlt k (List.mem_of_mem_filter hk)
  · rw [e]
    refine ⟨?_, ?_⟩
    · simp only
      rw [ids_ReplaceInstWithInst]
      apply List.Nodup.map_on _ hnd
      intro p hp q hq hpq
      have hp1 := hlt p hp
      have hq1 := hlt q hq
      simp only [Inst.id] at hpq
      split_ifs at hpq with h1 h2 h2
      · exact h1.trans h2.symm
      · omega
      · omega
      · exact hpq
    · intro k hk
      simp only at hk ⊢
      rw [ids_ReplaceInstWithInst] at hk
      obtain ⟨p, hp, rfl⟩ := List.mem_map.mp hk
      have hp1 := hlt p hp
      simp only [Inst.id]
      split_ifs <;> omega

theorem peepholeScan_wf (ids : List Nat) {S : PeepState} (h : S.Wf) :
    (peepholeScan S ids).Wf := by
  induction ids generalizing S with
  | nil => exact h
  | cons j rest ih => exact ih (peepholeVisit_wf h j)

theorem init_wf {F : Function} (hnd : F.ids.Nodup) : PeepState.Wf ⟨F, freshId F⟩ :=
  ⟨hnd, fun _ hk => lt_freshId hk⟩

theorem findInst_of_mem {F : Function} (hnd : F.ids.Nodup) {I : Inst} (h : I ∈ F.insts) :
    findInst F I.id = some I := by
  obtain ⟨front, back, hF⟩ := List.append_of_mem h
  exact findInst_of_split hnd hF

theorem usesRedirected_replaceUses {old new : Value} {u0 u : Inst} (o n : Value)
    (h : usesRedirected old new u0 u) (hne : new ≠ o) :
    usesRedirected old new u0 (u.replaceUses o n) := by
  unfold usesRedirected at h ⊢
  rw [operands_replaceUses]
  generalize u0.operands = l0 at h
  generalize u.operands = l at h ⊢
  induction h with
  | nil => exact List.Forall₂.nil
  | cons hv _ ih =>
    refine List.Forall₂.cons ?_ ih
    intro e
    rw [hv e]
    simp [substValue, hne]

theorem substValue_ne {old new v : Value} (h : v ≠ old) : substValue old new v = v := by
  simp [substValue, h]

/-- A visit that does something takes the visited identity away for the rest
of the scan. -/
theorem peepholeVisit_gone {S : PeepState} (hwf : S.Wf) {j : Nat}
    (hne : peepholeVisit S j ≠ S) (rest : List Nat) :
    j ∉ (peepholeScan (peepholeVisit S j) rest).fn.ids := by
  rcases peepholeVisit_cases S j with e | ⟨_, _, _, x, hfj, _, e⟩ | ⟨_, _, x, w, k, hfj, _, e⟩
  · exact absurd e hne
  · have hj : j < S.next := hwf.2 j (List.mem_map.mpr ⟨_, (findInst_some hfj).2, rfl⟩)
    apply peepholeScan_absent rest _ (lt_of_lt_of_le hj (peepholeVisit_next_le S j))
    rw [e]
    simp only
    rw [ids_eraseFromParent]
    simp [List.mem_filter]
  · have hj : j < S.next := hwf.2 j (List.mem_map.mpr ⟨_, (findInst_some hfj).2, rfl⟩)
    apply peepholeScan_absent rest _ (lt_of_lt_of_le hj (peepholeVisit_next_le S j))
    rw [e]
    simp only
    rw [ids_ReplaceInstWithInst]
    intro hm
    obtain ⟨p, hp, hpe⟩ := List.mem_map.mp hm
    simp only [Inst.id] at hpe
    split_ifs at hpe with hpj
    · omega
    · exact hpj hpe

theorem isConstantInt_of_isOneValue {v : Value} (h : isOneValue v = true) :
    isConstantInt v = true := by
  simp only [isOneValue, Bool.and_eq_true] at h
  exact h.1

/-! ## Peephole scan: the claims -/

/-- C2 (defect in the code): strength reduction does not fire for every power
of two. For the 64-bit multiply `y = x * 2^32` the guard
`__builtin_popcount(need_to_shift) == 1` sees only the low 32 bits of the
constant, counts no set bit, and the peephole scan leaves the multiply as it
is, where the claim says it becomes `x << 32`. -/
theorem strength_reduction_misses_pow32 :
    builtin_popcount (getZExtValue (.const 64 (2 ^ 32))) = 0 ∧
    peephole mulPow32Sample = mulPow32Sample := by
  constructor <;> decide

/-- C3 (defect in the code): strength reduction is not an equivalence. The
64-bit constant `2^32 + 2` has two set bits, yet `__builtin_popcount` counts
one (it sees the low 32 bits), the bit search stops at bit 1, and the scan
replaces `x * (2^32 + 2)` by `x << 1`; the two differ modulo `2^64` already at
`x = 1`. -/
theorem strength_reduction_wrong_shift :
    builtin_popcount (getZExtValue (.const 64 (2 ^ 32 + 2))) = 1 ∧
    peephole mulTwoBitsSample =
      [[.binary 3 .Shl (.arg 0) (.const 64 1), .other 2 [.inst 3]]] ∧
    (1 * (2 ^ 32 + 2)) % 2 ^ 64 ≠ (1 <<< 1) % 2 ^ 64 := by
  refine ⟨by decide, by decide, by decide⟩

/-! ## Value numbering: defects shown on concrete inputs -/

/-- C1 (defect in the code): the inverse pattern sub-then-add is missed when
`p` has value number 0. On `a = b - 1; c = a + 1` with `b` the first operand of
the scan, `pattern_func` returns the number of `b`, which is 0, the guard
`result > 0` rejects it, nothing is recorded, and `localValueNumbering` returns
the function unchanged: `c` is neither removed nor are its uses redirected to
`b`, against the comment of `pattern_func` and the claim. -/
theorem sub_then_add_first_operand_kept :
    (lvnScan plainHost LvnState.init subAddSample).map (fun S => S.replace_table) = .ok [] ∧
    (lvnScan plainHost LvnState.init subAddSample).map
      (fun S => pattern_func S.lvn_table .Add 3 2) = .ok (some 0) ∧
    localValueNumbering plainHost subAddSample = .ok subAddSample := by
  refine ⟨?_, ?_, ?_⟩ <;> rfl

/-- C7 (defect in the code): the inverse pattern add-then-sub is missed when
`p` has value number 0. On the documented example `e = b + 1; f = e - 1` with
`b` the first operand of the scan, `pattern_func` returns 0, the guard
`result > 0` rejects it, nothing is recorded and the function is returned
unchanged. -/
theorem add_then_sub_first_operand_kept :
    (lvnScan plainHost LvnState.init addSubSample).map (fun S => S.replace_table) = .ok [] ∧
    (lvnScan plainHost LvnState.init addSubSample).map
      (fun S => pattern_func S.lvn_table .Sub 3 2) = .ok (some 0) ∧
    localValueNumbering plainHost addSubSample = .ok addSubSample := by
  refine ⟨?_, ?_, ?_⟩ <;> rfl

/-- C8 (defect in the code): operand canonicalization is not total. For
`r = x + 1` with `x` an argument named `x`, `register_handle` does nothing
(the name is not empty), `constant_handle` does nothing (no constant), the key
`x` is not in the map and the first assertion fails. -/
theorem named_operand_fails_assertion :
    getName namedHost (.arg 0) = "x" ∧
    lvnScan namedHost LvnState.init namedArgSample = .error .assertion ∧
    localValueNumbering namedHost namedArgSample = .error .assertion := by
  refine ⟨?_, ?_, ?_⟩ <;> rfl

/-- C9 (defect in the code): constants are numbered by the low 32 bits of
their value. The 64-bit constants 1 and `2^32 + 1` have different
sign-extended values, but `int temp` keeps 1 for both, they get the same value
number, and `b = x + (2^32 + 1)` is replaced by `a = x + 1`. -/
theorem wide_constants_share_number :
    getSExtValue 64 1 ≠ getSExtValue 64 4294967297 ∧
    (lvnScan plainHost LvnState.init wideConstSample).map
      (fun S => (S.hashmap.lookup (toString (toInt32 (getSExtValue 64 1))),
        S.hashmap.lookup (toString (toInt32 (getSExtValue 64 4294967297))))) =
      .ok (some 2, some 2) ∧
    (lvnScan plainHost LvnState.init wideConstSample).map (fun S => S.replace_table) =
      .ok [(.inst 2, .inst 1)] ∧
    localValueNumbering plainHost wideConstSample =
      .ok [[.binary 1 .Add (.arg 0) (.const 64 1), .other 3 [.inst 1, .inst 1]]] := by
  refine ⟨by decide, ?_, ?_, ?_⟩ <;> rfl

/-! ## Value numbering: the scan -/

section MapInsert
variable {α β : Type} [BEq α] [LawfulBEq α]

theorem lookup_mapInsert_of_some {m : List (α × β)} {k k1 : α} {v n : β}
    (h : m.lookup k1 = some n) : (mapInsert m k v).lookup k1 = some n := by
  unfold mapInsert
  split
  · exact h
  · rw [List.lookup_append, h]; rfl

theorem lookup_mapInsert_self {m : List (α × β)} {k : α} {v : β}
    (h : m.lookup k = none) : (mapInsert m k v).lookup k = some v := by
  unfold mapInsert
  rw [h]
  simp [List.lookup_append, h]

theorem lookup_mapInsert_isSome (m : List (α × β)) (k : α) (v : β) :
    ((mapInsert m k v).lookup k).isSome = true := by
  cases h : m.lookup k with
  | none => rw [lookup_mapInsert_self h]; rfl
  | some n => rw [lookup_mapInsert_of_some h]; rfl

theorem lookup_mapInsert_ne {m : List (α × β)} {k k1 : α} (v : β) (h : k1 ≠ k) :
    (mapInsert m k v).lookup k1 = m.lookup k1 := by
  unfold mapInsert
  split
  · rfl
  · have hb : (k1 == k) = false := by simpa using h
    simp [List.lookup_append, List.lookup_cons, hb]

theorem lookup_mapInsert_cases {m : List (α × β)} {k k1 : α} {v n : β}
    (h : (mapInsert m k v).lookup k1 = some n) :
    m.lookup k1 = some n ∨ (k1 = k ∧ n = v ∧ m.lookup k = none) := by
  by_cases hk : k1 = k
  · subst hk
    cases hm : m.lookup k1 with
    | none =>
      rw [lookup_mapInsert_self hm] at h
      cases h
      exact Or.inr ⟨rfl, rfl, rfl⟩
    | some n1 =>
      rw [lookup_mapInsert_of_some hm] at h
      exact Or.inl h
  · rw [lookup_mapInsert_ne v hk] at h
    exact Or.inl h

end MapInsert

/-! ### Growth of the scan state -/

theorem extends_refl (S : LvnState) : S.Extends S :=
  ⟨List.prefix_refl _, fun _ _ h => h, fun _ _ h => h⟩

theorem extends_trans {S S1 S2 : LvnState} (h1 : S.Extends S1) (h2 : S1.Extends S2) :
    S.Extends S2 :=
  ⟨h1.table.trans h2.table, fun k n h => h2.hashmap k n (h1.hashmap k n h),
    fun k v h => h2.replace k v (h1.replace k v h)⟩

theorem insert_lvn_extends (S : LvnState) (name op : String) (x y : Int) (ref : Value) :
    S.Extends (insert_lvn S name op x y ref) :=
  ⟨List.prefix_append _ _, fun _ _ h => lookup_mapInsert_of_some h, fun _ _ h => h⟩

theorem getElem?_append_singleton {α : Type} (l : List α) (x : α) (idx : Nat) (e : α)
    (h : (l ++ [x])[idx]? = some e) : l[idx]? = some e ∨ (idx = l.length ∧ e = x) := by
  by_cases hlt : idx < l.length
  · rw [List.getElem?_append_left hlt] at h
    exact Or.inl h
  · rw [List.getElem?_append_right (by omega)] at h
    right
    cases hd : idx - l.length with
    | zero =>
      rw [hd] at h
      simp at h
      exact ⟨by omega, h.symm⟩
    | succ m =>
      rw [hd] at h
      simp at h

/-- Appending an operand entry keeps the bounds. -/
theorem insert_lvn_bounded_operand {S : LvnState} (hS : S.Bounded) (name tag : String)
    (x y : Int) (ref : Value) (htag : tag = "assign" ∨ tag = "constant") :
    (insert_lvn S name tag x y ref).Bounded := by
  refine ⟨?_, ?_, ?_, ?_⟩
  · simp [insert_lvn, hS.counter]
  · intro idx e he
    rcases getElem?_append_singleton _ _ _ _ he with h | ⟨h1, h2⟩
    · exact hS.ids idx e h
    · rw [h2, h1]; simp [hS.counter]
  · intro k n hk
    simp only [insert_lvn, List.length_append, List.length_singleton] at hk ⊢
    rcases lookup_mapInsert_cases hk with h | ⟨-, h, -⟩
    · have := hS.numbers k n h
      constructor <;> omega
    · rw [h, hS.counter]
      constructor <;> omega
  · intro idx e he
    rcases getElem?_append_singleton _ _ _ _ he with h | ⟨-, h2⟩
    · exact hS.operands idx e h
    · rw [h2]
      rcases htag with h | h
      · exact Or.inl h
      · exact Or.inr (Or.inl h)

/-- Appending an instruction entry whose operand numbers are in use keeps the
bounds. -/
theorem insert_lvn_bounded_inst {S : LvnState} (hS : S.Bounded) (name tag : String)
    (x y : Int) (ref : Value) (hx : 0 ≤ x ∧ x < S.lvn_table.length)
    (hy : 0 ≤ y ∧ y < S.lvn_table.length) :
    (insert_lvn S name tag x y ref).Bounded := by
  refine ⟨?_, ?_, ?_, ?_⟩
  · simp [insert_lvn, hS.counter]
  · intro idx e he
    rcases getElem?_append_singleton _ _ _ _ he with h | ⟨h1, h2⟩
    · exact hS.ids idx e h
    · rw [h2, h1]; simp [hS.counter]
  · intro k n hk
    simp only [insert_lvn, List.length_append, List.length_singleton] at hk ⊢
    rcases lookup_mapInsert_cases hk with h | ⟨-, h, -⟩
    · have := hS.numbers k n h
      constructor <;> omega
    · rw [h, hS.counter]
      constructor <;> omega
  · intro idx e he
    rcases getElem?_append_singleton _ _ _ _ he with h | ⟨h1, h2⟩
    · exact hS.operands idx e h
    · rw [h2, h1]
      right; right
      exact ⟨hx.1, hx.2, hy.1, hy.2⟩

theorem operandEntries_refl (H : Host) (a b : Value) (S : LvnState) :
    S.OperandEntries H a b S :=
  ⟨rfl, fun _ _ h => h, ⟨[], by simp⟩, fun h => h⟩

theorem operandEntries_trans {H : Host} {a b : Value} {S S1 S2 : LvnState}
    (h1 : S.OperandEntries H a b S1) (h2 : S1.OperandEntries H a b S2) :
    S.OperandEntries H a b S2 := by
  obtain ⟨t1, ht1, hp1⟩ := h1.table
  obtain ⟨t2, ht2, hp2⟩ := h2.table
  refine ⟨h2.replace.trans h1.replace, fun k n h => h2.hashmap k n (h1.hashmap k n h),
    ⟨t1 ++ t2, by rw [ht2, ht1, List.append_assoc], ?_⟩, fun h => h2.bounded (h1.bounded h)⟩
  intro e he
  rcases List.mem_append.mp he with h | h
  · exact hp1 e h
  · obtain ⟨q1, q2, q3⟩ := hp2 e h
    refine ⟨q1, q2, ?_⟩
    rcases q3 with q | q
    · exact Or.inl q
    · right
      cases hl : S.hashmap.lookup (toString (H.addr e.ref)) with
      | none => rfl
      | some n => rw [h1.hashmap _ _ hl] at q; cases q

/-- One operand entry appended. -/
theorem insert_lvn_operandEntries (H : Host) (a b : Value) (S : LvnState) (name tag : String)
    (x y : Int) (v : Value) (htag : tag = "assign" ∨ tag = "constant") (hv : v = a ∨ v = b)
    (hk : isConstantInt v = true ∨ S.hashmap.lookup (toString (H.addr v)) = none) :
    S.OperandEntries H a b (insert_lvn S name tag x y v) :=
  ⟨rfl, fun _ _ h => lookup_mapInsert_of_some h,
    ⟨[_], rfl, by
      intro e he
      rw [List.mem_singleton] at he
      subst he
      exact ⟨htag, hv, hk⟩⟩,
    fun h => insert_lvn_bounded_operand h name tag x y v htag⟩

theorem register_handle_operandEntries (H : Host) (a b : Value) (S : LvnState) (oper : String)
    (v : Value) (hv : v = a ∨ v = b) :
    S.OperandEntries H a b (register_handle H S oper v).1 := by
  unfold register_handle
  split_ifs with h
  · dsimp only
    split
    · rename_i hl
      exact insert_lvn_operandEntries H a b S _ _ 0 0 v (Or.inl rfl) hv (Or.inr hl)
    · exact operandEntries_refl H a b S
  · exact operandEntries_refl H a b S

theorem constant_handle_operandEntries (H : Host) (a b : Value) (S : LvnState) (oper : String)
    (v : Value) (hv : v = a ∨ v = b) :
    S.OperandEntries H a b (constant_handle S oper v).1 := by
  unfold constant_handle
  split
  · dsimp only
    split
    · exact insert_lvn_operandEntries H a b S _ _ _ _ _ (Or.inr rfl) hv (Or.inl rfl)
    · exact operandEntries_refl H a b S
  · exact operandEntries_refl H a b S

/-- Canonicalization appends operand entries only. -/
theorem canonicalize_operandEntries (H : Host) (S : LvnState) (a b : Value) :
    S.OperandEntries H a b (canonicalize H S a b).1 := by
  unfold canonicalize
  dsimp only
  exact operandEntries_trans
    (operandEntries_trans (register_handle_operandEntries H a b S _ a (Or.inl rfl))
      (register_handle_operandEntries H a b _ _ b (Or.inr rfl)))
    (operandEntries_trans (constant_handle_operandEntries H a b _ _ a (Or.inl rfl))
      (constant_handle_operandEntries H a b _ _ b (Or.inr rfl)))

/-! ### Keys of the operands -/

theorem getName_of_noNames {H : Host} (hH : H.noNames) (v : Value) : getName H v = "" := by
  cases v <;> simp [getName, hH _]

theorem register_handle_key (H : Host) (S : LvnState) (oper : String) (v : Value) :
    (register_handle H S oper v).2 = if oper = "" then toString (H.addr v) else oper := by
  unfold register_handle
  split_ifs with h
  · dsimp only
    split <;> rfl
  · rfl

theorem register_handle_present (H : Host) (S : LvnState) (v : Value) :
    ((register_handle H S "" v).1.hashmap.lookup (toString (H.addr v))).isSome = true := by
  unfold register_handle
  rw [if_pos rfl]
  dsimp only
  split
  · exact lookup_mapInsert_isSome _ _ _
  · rename_i n hn
    rw [hn]; rfl

theorem constant_handle_key (S : LvnState) (oper : String) (v : Value) :
    (constant_handle S oper v).2 =
      match v with
      | .const w b => toString (toInt32 (getSExtValue w b))
      | _ => oper := by
  unfold constant_handle
  split
  · dsimp only
    split <;> rfl
  · rename_i h
    cases v with
    | const w b => exact absurd rfl (h w b)
    | arg n => rfl
    | inst n => rfl

theorem constant_handle_present (S : LvnState) (oper : String) (w b : Nat) :
    ((constant_handle S oper (.const w b)).1.hashmap.lookup
      (toString (toInt32 (getSExtValue w b)))).isSome = true := by
  unfold constant_handle
  dsimp only
  split
  · exact lookup_mapInsert_isSome _ _ _
  · rename_i n hn
    rw [hn]; rfl

theorem canonicalize_keys (H : Host) (S : LvnState) (a b : Value) :
    (canonicalize H S a b).2 = (operandKey H a, operandKey H b) := by
  unfold canonicalize
  dsimp only
  rw [constant_handle_key, constant_handle_key, register_handle_key, register_handle_key]
  cases a <;> cases b <;> simp [operandKey, getName]

theorem isSome_of_extends {m m1 : List (String × Int)}
    (h : ∀ k n, m.lookup k = some n → m1.lookup k = some n) {k : String}
    (hk : (m.lookup k).isSome = true) : (m1.lookup k).isSome = true := by
  cases hl : m.lookup k with
  | none => rw [hl] at hk; cases hk
  | some n => rw [h k n hl]; rfl

/-- After canonicalization the key of an operand without name is in the map. -/
theorem canonicalize_present_left (H : Host) (S : LvnState) (a b : Value)
    (ha : getName H a = "") :
    ((canonicalize H S a b).1.hashmap.lookup (operandKey H a)).isSome = true := by
  unfold canonicalize
  dsimp only
  cases a with
  | const w v =>
    apply isSome_of_extends (constant_handle_operandEntries H (.const w v) b _ _ b (Or.inr rfl)).hashmap
    exact constant_handle_present _ _ w v
  | arg n =>
    apply isSome_of_extends (constant_handle_operandEntries H (.arg n) b _ _ b (Or.inr rfl)).hashmap
    apply isSome_of_extends (constant_handle_operandEntries H (.arg n) b _ _ (.arg n) (Or.inl rfl)).hashmap
    apply isSome_of_extends (register_handle_operandEntries H (.arg n) b _ _ b (Or.inr rfl)).hashmap
    rw [ha]
    simp only [operandKey, ha, if_true]
    exact register_handle_present H S (.arg n)
  | inst n =>
    apply isSome_of_extends (constant_handle_operandEntries H (.inst n) b _ _ b (Or.inr rfl)).hashmap
    apply isSome_of_extends (constant_handle_operandEntries H (.inst n) b _ _ (.inst n) (Or.inl rfl)).hashmap
    apply isSome_of_extends (register_handle_operandEntries H (.inst n) b _ _ b (Or.inr rfl)).hashmap
    rw [ha]
    simp only [operandKey, ha, if_true]
    exact register_handle_present H S (.inst n)

theorem canonicalize_present_right (H : Host) (S : LvnState) (a b : Value)
    (hb : getName H b = "") :
    ((canonicalize H S a b).1.hashmap.lookup (operandKey H b)).isSome = true := by
  unfold canonicalize
  dsimp only
  cases b with
  | const w v =>
    exact constant_handle_present _ _ w v
  | arg n =>
    apply isSome_of_extends (constant_handle_operandEntries H a (.arg n) _ _ (.arg n) (Or.inr rfl)).hashmap
    apply isSome_of_extends (constant_handle_operandEntries H a (.arg n) _ _ a (Or.inl rfl)).hashmap
    rw [hb]
    simp only [operandKey, hb, if_true]
    exact register_handle_present H _ (.arg n)
  | inst n =>
    apply isSome_of_extends (constant_handle_operandEntries H a (.inst n) _ _ (.inst n) (Or.inr rfl)).hashmap
    apply isSome_of_extends (constant_handle_operandEntries H a (.inst n) _ _ a (Or.inl rfl)).hashmap
    rw [hb]
    simp only [operandKey, hb, if_true]
    exact register_handle_present H _ (.inst n)

/-! ### `compare_func`, `pattern_func`, `tableAt` -/

theorem tableAt_eq_some {t : List lvn_item} {r : Int} {e : lvn_item}
    (h : tableAt t r = some e) : 0 ≤ r ∧ t[r.toNat]? = some e := by
  unfold tableAt at h
  split_ifs at h with h0
  exact ⟨h0, h⟩

theorem tableAt_of_lt {t : List lvn_item} {r : Int} (h0 : 0 ≤ r) (h1 : r < t.length) :
    ∃ e, tableAt t r = some e ∧ t[r.toNat]? = some e := by
  have hlt : r.toNat < t.length := by omega
  refine ⟨t[r.toNat], ?_, ?_⟩
  · unfold tableAt
    rw [if_pos h0, List.getElem?_eq_getElem hlt]
  · rw [List.getElem?_eq_getElem hlt]

theorem tableAt_natCast (t : List lvn_item) (k : Nat) : tableAt t (k : Int) = t[k]? := by
  unfold tableAt
  simp

theorem tableAt_append_left {t t1 : List lvn_item} {r : Int} {e : lvn_item}
    (h : tableAt t r = some e) : tableAt (t ++ t1) r = some e := by
  obtain ⟨h0, h1⟩ := tableAt_eq_some h
  unfold tableAt
  rw [if_pos h0]
  have hlt : r.toNat < t.length := by
    by_contra hc
    rw [List.getElem?_eq_none (by omega)] at h1
    cases h1
  rw [List.getElem?_append_left hlt]
  exact h1

/-- The loop of `compare_func` returns -1 when no entry has the key, and
otherwise the offset plus the first index whose entry has it. -/
theorem compare_loop_spec (tp : String × Int × Int) (l : List lvn_item) (i : Int) :
    (compare_loop tp l i = -1 ∧ ∀ e ∈ l, e.value ≠ tp) ∨
    ∃ k : Nat, k < l.length ∧ compare_loop tp l i = i + k ∧
      (∃ e, l[k]? = some e ∧ e.value = tp) ∧
      ∀ k1 : Nat, k1 < k → ∀ e, l[k1]? = some e → e.value ≠ tp := by
  induction l generalizing i with
  | nil => left; exact ⟨rfl, fun _ h => by cases h⟩
  | cons x rest ih =>
    by_cases hx : x.value = tp
    · right
      refine ⟨0, by simp, by simp [compare_loop, hx], ⟨x, by simp, hx⟩, ?_⟩
      intro k1 hk1; omega
    · rcases ih (i + 1) with ⟨h1, h2⟩ | ⟨k, hk, h1, ⟨e, he, hev⟩, h3⟩
      · left
        refine ⟨by simp [compare_loop, hx, h1], ?_⟩
        intro e he
        rcases List.mem_cons.mp he with h | h
        · rw [h]; exact hx
        · exact h2 e h
      · right
        refine ⟨k + 1, by simp; omega, ?_, ⟨e, by simpa using he, hev⟩, ?_⟩
        · simp only [compare_loop, hx, if_false, h1]
          push_cast; ring
        · intro k1 hk1 e1 he1
          cases k1 with
          | zero => simp at he1; rw [← he1]; exact hx
          | succ m =>
            simp at he1
            exact h3 m (by omega) e1 he1

/-- The result of `compare_func`: -1 when no entry has the key, otherwise the
first index whose entry has it. -/
theorem compare_func_spec (t : List lvn_item) (tp : String × Int × Int) :
    (compare_func t tp = -1 ∧ ∀ e ∈ t, e.value ≠ tp) ∨
    ∃ k : Nat, k < t.length ∧ compare_func t tp = k ∧
      (∃ e, t[k]? = some e ∧ e.value = tp) ∧
      ∀ k1 : Nat, k1 < k → ∀ e, t[k1]? = some e → e.value ≠ tp := by
  unfold compare_func
  rcases compare_loop_spec tp t 0 with h | ⟨k, hk, h1, h2, h3⟩
  · exact Or.inl h
  · exact Or.inr ⟨k, hk, by simpa using h1, h2, h3⟩

theorem getOpcodeName_ne_assign (op : BinaryOps) : getOpcodeName op ≠ "assign" := by
  cases op <;> decide

theorem getOpcodeName_ne_constant (op : BinaryOps) : getOpcodeName op ≠ "constant" := by
  cases op <;> decide

/-- When `oper1` is an index of the table `pattern_func` returns; a positive
result is the left operand number of the entry at `oper1`, an entry made for a
`sub` (opcode `Add`) or an `add` (opcode `Sub`) whose right operand number is
`oper2`. -/
theorem pattern_func_spec {t : List lvn_item} {oper1 : Int} (h0 : 0 ≤ oper1)
    (h1 : oper1 < t.length) (opcode : BinaryOps) (oper2 : Int) :
    ∃ r, pattern_func t opcode oper1 oper2 = some r ∧
      (0 < r → ∃ e, tableAt t oper1 = some e ∧ e.value.2.1 = r ∧ e.value.2.2 = oper2 ∧
        ((opcode = .Add ∧ e.value.1 = "sub") ∨ (opcode = .Sub ∧ e.value.1 = "add"))) := by
  obtain ⟨e, he, -⟩ := tableAt_of_lt h0 h1
  unfold pattern_func
  rw [he]
  by_cases hA : opcode = .Add
  · rw [if_pos hA]
    dsimp only
    by_cases hc : (e.value.1 = "sub" && e.value.2.2 = oper2) = true
    · rw [if_pos hc]
      simp only [Bool.and_eq_true, decide_eq_true_eq] at hc
      exact ⟨_, rfl, fun _ => ⟨e, rfl, rfl, hc.2, Or.inl ⟨hA, hc.1⟩⟩⟩
    · rw [if_neg hc]
      exact ⟨_, rfl, fun h => by omega⟩
  · rw [if_neg hA]
    by_cases hB : opcode = .Sub
    · rw [if_pos hB]
      dsimp only
      by_cases hc : (e.value.1 = "add" && e.value.2.2 = oper2) = true
      · rw [if_pos hc]
        simp only [Bool.and_eq_true, decide_eq_true_eq] at hc
        exact ⟨_, rfl, fun _ => ⟨e, rfl, rfl, hc.2, Or.inr ⟨hB, hc.1⟩⟩⟩
      · rw [if_neg hc]
        exact ⟨_, rfl, fun h => by omega⟩
    · rw [if_neg hB]
      exact ⟨_, rfl, fun h => by omega⟩

/-! ### One step of the scan -/

theorem recordReplace_eq {H : Host} {c : LvnState} {r : Int} {e : lvn_item} (i : Nat)
    (h : tableAt c.lvn_table r = some e) : recordReplace H c i r = .ok (recorded H c i r e) := by
  unfold recordReplace
  rw [h]
  rfl

theorem sub_ne_tags : ("sub" : String) ≠ "assign" ∧ ("sub" : String) ≠ "constant" ∧
    ("add" : String) ≠ "assign" ∧ ("add" : String) ≠ "constant" := by decide

/-- In a bounded state where both operand keys are in the map, the step for a
binary instruction returns a state, in one of the three ways. -/
theorem lvnStep_outcome {H : Host} {S : LvnState} (hS : S.Bounded) (i : Nat) (op : BinaryOps)
    (a b : Value) {n1 n2 : Int}
    (h1 : (canonicalize H S a b).1.hashmap.lookup (operandKey H a) = some n1)
    (h2 : (canonicalize H S a b).1.hashmap.lookup (operandKey H b) = some n2) :
    ∃ S1, lvnStep H S (.binary i op a b) = .ok S1 ∧
      LvnOutcome H (canonicalize H S a b).1 i op n1 n2 S1 := by
  have hc : (canonicalize H S a b).1.Bounded := (canonicalize_operandEntries H S a b).bounded hS
  have hk := canonicalize_keys H S a b
  have hk1 : (canonicalize H S a b).2.1 = operandKey H a := by rw [hk]
  have hk2 : (canonicalize H S a b).2.2 = operandKey H b := by rw [hk]
  have hn1 := hc.numbers _ _ h1
  unfold lvnStep
  simp only [hk1, hk2, h1, h2]
  rcases compare_func_spec (canonicalize H S a b).1.lvn_table (getOpcodeName op, n1, n2) with
    ⟨hcmp, hnone⟩ | ⟨k, hk, hcmp, ⟨e, he, hkey⟩, hfirst⟩
  · rw [hcmp]
    rw [if_neg (by omega)]
    obtain ⟨r, hpat, hr⟩ := pattern_func_spec hn1.1 hn1.2 op n2
    rw [hpat]
    dsimp only
    by_cases hpos : r > 0
    · rw [if_pos hpos]
      obtain ⟨e0, he0, hleft, hright, hop⟩ := hr hpos
      have he0' := (tableAt_eq_some he0).2
      have hb := hc.operands _ _ he0'
      have hlt : r < n1 := by
        rcases hb with h | h | h
        · rcases hop with ⟨-, q⟩ | ⟨-, q⟩ <;> rw [q] at h
          · exact absurd h sub_ne_tags.1
          · exact absurd h sub_ne_tags.2.2.1
        · rcases hop with ⟨-, q⟩ | ⟨-, q⟩ <;> rw [q] at h
          · exact absurd h sub_ne_tags.2.1
          · exact absurd h sub_ne_tags.2.2.2
        · rw [hleft] at h; omega
      obtain ⟨e, he, -⟩ := tableAt_of_lt (t := (canonicalize H S a b).1.lvn_table)
        (le_of_lt hpos) (by omega)
      exact ⟨_, recordReplace_eq i he,
        LvnOutcome.inverse r e0 e hcmp hnone hpat hpos he0 hleft hright hop he⟩
    · rw [if_neg hpos]
      exact ⟨_, rfl, LvnOutcome.novel r hcmp hnone hpat (by omega)⟩
  · rw [hcmp]
    rw [if_pos (by omega)]
    have he' : tableAt (canonicalize H S a b).1.lvn_table (k : Int) = some e := by
      rw [tableAt_natCast]; exact he
    exact ⟨_, recordReplace_eq i he', LvnOutcome.exact k e hcmp he hkey hfirst⟩

/-- A step that returns a state found both operand keys in the map and took
one of the three ways. -/
theorem lvnStep_ok_outcome {H : Host} {S S1 : LvnState} (hS : S.Bounded) {i : Nat}
    {op : BinaryOps} {a b : Value} (h : lvnStep H S (.binary i op a b) = .ok S1) :
    ∃ n1 n2, (canonicalize H S a b).1.hashmap.lookup (operandKey H a) = some n1 ∧
      (canonicalize H S a b).1.hashmap.lookup (operandKey H b) = some n2 ∧
      LvnOutcome H (canonicalize H S a b).1 i op n1 n2 S1 := by
  have hk := canonicalize_keys H S a b
  have hk1 : (canonicalize H S a b).2.1 = operandKey H a := by rw [hk]
  have hk2 : (canonicalize H S a b).2.2 = operandKey H b := by rw [hk]
  cases h1 : (canonicalize H S a b).1.hashmap.lookup (operandKey H a) with
  | none =>
    unfold lvnStep at h
    simp only [hk1, hk2, h1] at h
    cases h
  | some n1 =>
    cases h2 : (canonicalize H S a b).1.hashmap.lookup (operandKey H b) with
    | none =>
      unfold lvnStep at h
      simp only [hk1, hk2, h1, h2] at h
      cases h
    | some n2 =>
      obtain ⟨S2, hS2, hout⟩ := lvnStep_outcome hS i op a b h1 h2
      rw [h] at hS2
      cases hS2
      exact ⟨n1, n2, rfl, rfl, hout⟩

/-- Without names the step for a binary instruction returns a state. -/
theorem lvnStep_ok_of_noNames {H : Host} (hH : H.noNames) {S : LvnState} (hS : S.Bounded)
    (I : Inst) : ∃ S1, lvnStep H S I = .ok S1 := by
  cases I with
  | other i ops => exact ⟨S, rfl⟩
  | binary i op a b =>
    have p1 := canonicalize_present_left H S a b (getName_of_noNames hH a)
    have p2 := canonicalize_present_right H S a b (getName_of_noNames hH b)
    cases h1 : (canonicalize H S a b).1.hashmap.lookup (operandKey H a) with
    | none => rw [h1] at p1; cases p1
    | some n1 =>
      cases h2 : (canonicalize H S a b).1.hashmap.lookup (operandKey H b) with
      | none => rw [h2] at p2; cases p2
      | some n2 =>
        obtain ⟨S1, hS1, -⟩ := lvnStep_outcome hS i op a b h1 h2
        exact ⟨S1, hS1⟩

theorem recorded_bounded {H : Host} {c : LvnState} (hc : c.Bounded) (i : Nat) {r : Int}
    (e : lvn_item) (h0 : 0 ≤ r) (h1 : r < c.lvn_table.length) :
    (recorded H c i r e).Bounded := by
  refine ⟨hc.counter, hc.ids, ?_, hc.operands⟩
  intro k n hk
  simp only [recorded] at hk ⊢
  rcases lookup_mapInsert_cases hk with h | ⟨-, h, -⟩
  · exact hc.numbers k n h
  · rw [h]; exact ⟨h0, h1⟩

theorem recorded_extends (H : Host) (c : LvnState) (i : Nat) (r : Int) (e : lvn_item) :
    c.Extends (recorded H c i r e) :=
  ⟨List.prefix_refl _, fun _ _ h => lookup_mapInsert_of_some h,
    fun _ _ h => lookup_mapInsert_of_some h⟩

theorem lt_length_of_getElem? {α : Type} {l : List α} {k : Nat} {e : α}
    (h : l[k]? = some e) : k < l.length := by
  by_contra hc
  rw [List.getElem?_eq_none (by omega)] at h
  cases h

theorem tableAt_lt {t : List lvn_item} {r : Int} {e : lvn_item} (h : tableAt t r = some e) :
    0 ≤ r ∧ r < t.length := by
  obtain ⟨h0, h1⟩ := tableAt_eq_some h
  have := lt_length_of_getElem? h1
  exact ⟨h0, by omega⟩

/-- Each of the three ways keeps the bounds and extends the state. -/
theorem outcome_bounded_extends {H : Host} {c S1 : LvnState} {i : Nat} {op : BinaryOps}
    {n1 n2 : Int} (hc : c.Bounded) (hn1 : 0 ≤ n1 ∧ n1 < c.lvn_table.length)
    (hn2 : 0 ≤ n2 ∧ n2 < c.lvn_table.length) (h : LvnOutcome H c i op n1 n2 S1) :
    S1.Bounded ∧ c.Extends S1 := by
  cases h with
  | exact k e hcmp he hkey hfirst =>
    have := lt_length_of_getElem? he
    exact ⟨recorded_bounded hc i e (by omega) (by omega), recorded_extends H c i k e⟩
  | inverse r e0 e hcmp hnone hpat hr he0 hleft hright hop he =>
    have := tableAt_lt he
    exact ⟨recorded_bounded hc i e this.1 this.2, recorded_extends H c i r e⟩
  | novel r hcmp hnone hpat hr =>
    exact ⟨insert_lvn_bounded_inst hc _ _ _ _ _ hn1 hn2, insert_lvn_extends c _ _ _ _ _⟩

theorem operandEntries_extends {H : Host} {a b : Value} {S S1 : LvnState}
    (h : S.OperandEntries H a b S1) : S.Extends S1 := by
  obtain ⟨t, ht, -⟩ := h.table
  exact ⟨⟨t, ht.symm⟩, h.hashmap, fun k v hk => by rw [h.replace]; exact hk⟩

/-- A step that returns a state keeps the bounds and extends the state. -/
theorem lvnStep_bounded_extends {H : Host} {S S1 : LvnState} (hS : S.Bounded) {I : Inst}
    (h : lvnStep H S I = .ok S1) : S1.Bounded ∧ S.Extends S1 := by
  cases I with
  | other i ops =>
    simp only [lvnStep] at h
    cases h
    exact ⟨hS, extends_refl _⟩
  | binary i op a b =>
    obtain ⟨n1, n2, h1, h2, hout⟩ := lvnStep_ok_outcome hS h
    have hoe := canonicalize_operandEntries H S a b
    have hc := hoe.bounded hS
    obtain ⟨hb, he⟩ := outcome_bounded_extends hc (hc.numbers _ _ h1) (hc.numbers _ _ h2) hout
    exact ⟨hb, extends_trans (operandEntries_extends hoe) he⟩

/-! ### The scan -/

theorem init_bounded : LvnState.init.Bounded :=
  ⟨rfl, fun idx e h => by simp [LvnState.init] at h, fun k n h => by simp [LvnState.init] at h,
    fun idx e h => by simp [LvnState.init] at h⟩

theorem lvnScanBlock_append (H : Host) (S : LvnState) (l1 l2 : List Inst) :
    lvnScanBlock H S (l1 ++ l2) =
      match lvnScanBlock H S l1 with
      | .ok S1 => lvnScanBlock H S1 l2
      | .error e => .error e := by
  induction l1 generalizing S with
  | nil => rfl
  | cons I rest ih =>
    simp only [List.cons_append, lvnScanBlock]
    cases lvnStep H S I with
    | ok S1 => exact ih S1
    | error e => rfl

/-- The scan of a function is the scan of its instructions in scan order. -/
theorem lvnScan_eq_insts (H : Host) (S : LvnState) (F : Function) :
    lvnScan H S F = lvnScanBlock H S F.insts := by
  induction F generalizing S with
  | nil => rfl
  | cons B rest ih =>
    simp only [lvnScan, Function.insts, List.flatten_cons]
    rw [lvnScanBlock_append]
    cases lvnScanBlock H S B with
    | ok S1 => exact ih S1
    | error e => rfl

theorem lvnScanBlock_bounded_extends {H : Host} {l : List Inst} {S S1 : LvnState}
    (hS : S.Bounded) (h : lvnScanBlock H S l = .ok S1) : S1.Bounded ∧ S.Extends S1 := by
  induction l generalizing S with
  | nil =>
    simp only [lvnScanBlock] at h
    cases h
    exact ⟨hS, extends_refl _⟩
  | cons I rest ih =>
    simp only [lvnScanBlock] at h
    cases hI : lvnStep H S I with
    | error e => rw [hI] at h; cases h
    | ok S2 =>
      rw [hI] at h
      obtain ⟨hb, he⟩ := lvnStep_bounded_extends hS hI
      obtain ⟨hb2, he2⟩ := ih hb h
      exact ⟨hb2, extends_trans he he2⟩

/-- Without names the scan of any list of instructions returns a state. -/
theorem lvnScanBlock_ok_of_noNames {H : Host} (hH : H.noNames) (l : List Inst) {S : LvnState}
    (hS : S.Bounded) : ∃ S1, lvnScanBlock H S l = .ok S1 := by
  induction l generalizing S with
  | nil => exact ⟨S, rfl⟩
  | cons I rest ih =>
    obtain ⟨S2, hI⟩ := lvnStep_ok_of_noNames hH hS I
    obtain ⟨S1, h1⟩ := ih (lvnStep_bounded_extends hS hI).1
    exact ⟨S1, by simp only [lvnScanBlock, hI, h1]⟩

theorem lvnScanBlock_snoc (H : Host) (S : LvnState) (l : List Inst) (I : Inst) :
    lvnScanBlock H S (l ++ [I]) =
      match lvnScanBlock H S l with
      | .ok S1 => lvnStep H S1 I
      | .error e => .error e := by
  rw [lvnScanBlock_append]
  cases lvnScanBlock H S l with
  | error e => rfl
  | ok S1 =>
    simp only [lvnScanBlock]
    cases lvnStep H S1 I <;> rfl

/-- A scan that returns a state passed through a state before and after each
instruction. -/
theorem lvnScanBlock_split {H : Host} {S0 Sf : LvnState} {front back : List Inst} {I : Inst}
    (h : lvnScanBlock H S0 (front ++ I :: back) = .ok Sf) :
    ∃ S1 S2, lvnScanBlock H S0 front = .ok S1 ∧ lvnStep H S1 I = .ok S2 ∧
      lvnScanBlock H S2 back = .ok Sf := by
  rw [lvnScanBlock_append] at h
  cases h1 : lvnScanBlock H S0 front with
  | error e => rw [h1] at h; cases h
  | ok S1 =>
    rw [h1] at h
    simp only [lvnScanBlock] at h
    cases h2 : lvnStep H S1 I with
    | error e => rw [h2] at h; cases h
    | ok S2 =>
      rw [h2] at h
      exact ⟨S1, S2, rfl, h2, h⟩

/-- Induction along the scan: a property of the scanned instructions and the
state that holds at the start and is kept by every step holds after every
scanned part. -/
theorem lvnScanBlock_invariant {H : Host} {all : List Inst} (P : List Inst → LvnState → Prop)
    {S0 : LvnState} (hS0 : S0.Bounded) (h0 : P [] S0)
    (hstep : ∀ front I back S S1, all = front ++ I :: back → S.Bounded → P front S →
      lvnStep H S I = .ok S1 → P (front ++ [I]) S1) :
    ∀ front back S, all = front ++ back → lvnScanBlock H S0 front = .ok S → P front S := by
  intro front
  induction front using List.reverseRecOn with
  | nil =>
    intro back S _ h
    simp only [lvnScanBlock] at h
    cases h
    exact h0
  | append_singleton l I ih =>
    intro back S hall h
    rw [lvnScanBlock_snoc] at h
    cases h1 : lvnScanBlock H S0 l with
    | error e => rw [h1] at h; cases h
    | ok S1 =>
      rw [h1] at h
      have hall' : all = l ++ I :: back := by rw [hall]; simp
      exact hstep l I back S1 S hall' (lvnScanBlock_bounded_extends hS0 h1).1
        (ih (I :: back) S1 hall' h1) h

theorem operandsDefined_split {seen : List Nat} {front back : List Inst} {I : Inst}
    (h : operandsDefined seen (front ++ I :: back) = true) {j : Nat}
    (hj : Value.inst j ∈ I.operands) : j ∈ seen ∨ j ∈ front.map Inst.id := by
  induction front generalizing seen with
  | nil =>
    simp only [List.nil_append, operandsDefined, Bool.and_eq_true, List.all_eq_true] at h
    have := h.1 _ hj
    simp only [decide_eq_true_eq] at this
    exact Or.inl this
  | cons J rest ih =>
    simp only [List.cons_append, operandsDefined, Bool.and_eq_true] at h
    rcases ih h.2 with h1 | h1
    · rcases List.mem_cons.mp h1 with e | e
      · right; simp [e]
      · left; exact e
    · right; simp [h1]

theorem defBeforeUse_split {F : Function} (h : F.defBeforeUse) {front back : List Inst}
    {I : Inst} (hF : F.insts = front ++ I :: back) {j : Nat} (hj : Value.inst j ∈ I.operands) :
    j ∈ front.map Inst.id := by
  unfold Function.defBeforeUse at h
  rw [hF] at h
  rcases operandsDefined_split h hj with h1 | h1
  · cases h1
  · exact h1

/-! ### Replacement targets are not replaced -/

theorem mem_of_tableAt {t : List lvn_item} {r : Int} {e : lvn_item}
    (h : tableAt t r = some e) : e ∈ t :=
  List.getElem?_mem (tableAt_eq_some h).2

theorem recInv_mono {H : Host} {seen : List Inst} {S : LvnState} (h : RecInv H seen S)
    (i : Nat) (ops : List Value) : RecInv H (seen ++ [Inst.other i ops]) S := by
  refine ⟨?_, ?_, h.refs_kept, ?_, h.values⟩
  · intro k v hk
    obtain ⟨j, op, a, b, e, hm⟩ := h.keys k v hk
    exact ⟨j, op, a, b, e, List.mem_append_left _ hm⟩
  · intro j op a b hm
    rcases List.mem_append.mp hm with h1 | h1
    · exact h.scanned j op a b h1
    · rw [List.mem_singleton] at h1
      cases h1
  · intro e he j hj
    rw [List.map_append]
    exact List.mem_append_left _ (h.refs_seen e he j hj)

theorem recInv_canonicalize {H : Host} {seen : List Inst} {S : LvnState} (h : RecInv H seen S)
    (a b : Value) (hab : ∀ j, Value.inst j = a ∨ Value.inst j = b → j ∈ seen.map Inst.id) :
    RecInv H seen (canonicalize H S a b).1 := by
  have oe := canonicalize_operandEntries H S a b
  obtain ⟨t, ht, hp⟩ := oe.table
  refine ⟨?_, ?_, ?_, ?_, ?_⟩
  · intro k v hk
    rw [oe.replace] at hk
    exact h.keys k v hk
  · intro j op x y hm
    exact isSome_of_extends oe.hashmap (h.scanned j op x y hm)
  · intro e he
    rw [oe.replace]
    rw [ht] at he
    rcases List.mem_append.mp he with h1 | h1
    · exact h.refs_kept e h1
    · cases hl : S.replace_table.lookup e.ref with
      | none => rfl
      | some v =>
        exfalso
        obtain ⟨j, op, x, y, hj, hm⟩ := h.keys _ _ hl
        have hs := h.scanned j op x y hm
        rcases (hp e h1).2.2 with q | q
        · rw [hj] at q; cases q
        · rw [hj] at q; rw [q] at hs; cases hs
  · intro e he j hj
    rw [ht] at he
    rcases List.mem_append.mp he with h1 | h1
    · exact h.refs_seen e h1 j hj
    · apply hab
      rcases (hp e h1).2.1 with q | q
      · left; rw [← q, hj]
      · right; rw [← q, hj]
  · intro k v hk
    rw [oe.replace] at hk
    obtain ⟨e, he, hv⟩ := h.values k v hk
    exact ⟨e, by rw [ht]; exact List.mem_append_left _ he, hv⟩

theorem recInv_recorded {H : Host} {seen : List Inst} {c : LvnState} (h : RecInv H seen c)
    {i : Nat} (op : BinaryOps) (a b : Value) (hi : i ∉ seen.map Inst.id) (r : Int)
    {e : lvn_item} (he : e ∈ c.lvn_table) :
    RecInv H (seen ++ [Inst.binary i op a b]) (recorded H c i r e) := by
  refine ⟨?_, ?_, ?_, ?_, ?_⟩
  · intro k v hk
    simp only [recorded] at hk
    rcases lookup_mapInsert_cases hk with h1 | ⟨h1, -, -⟩
    · obtain ⟨j, op1, x, y, hj, hm⟩ := h.keys k v h1
      exact ⟨j, op1, x, y, hj, List.mem_append_left _ hm⟩
    · exact ⟨i, op, a, b, h1, by simp⟩
  · intro j op1 x y hm
    simp only [recorded]
    rcases List.mem_append.mp hm with h1 | h1
    · exact isSome_of_extends (fun _ _ q => lookup_mapInsert_of_some q) (h.scanned j op1 x y h1)
    · rw [List.mem_singleton] at h1
      cases h1
      exact lookup_mapInsert_isSome _ _ _
  · intro e1 he1
    simp only [recorded] at he1 ⊢
    have hne : e1.ref ≠ Value.inst i := fun q => hi (h.refs_seen e1 he1 i q)
    rw [lookup_mapInsert_ne _ hne]
    exact h.refs_kept e1 he1
  · intro e1 he1 j hj
    simp only [recorded] at he1
    rw [List.map_append]
    exact List.mem_append_left _ (h.refs_seen e1 he1 j hj)
  · intro k v hk
    simp only [recorded] at hk ⊢
    rcases lookup_mapInsert_cases hk with h1 | ⟨-, h1, -⟩
    · exact h.values k v h1
    · exact ⟨e, he, h1.symm⟩

theorem recInv_novel {H : Host} {seen : List Inst} {c : LvnState} (h : RecInv H seen c)
    {i : Nat} (op : BinaryOps) (a b : Value) (hi : i ∉ seen.map Inst.id) (tag : String)
    (n1 n2 : Int) :
    RecInv H (seen ++ [Inst.binary i op a b])
      (insert_lvn c (toString (H.addr (.inst i))) tag n1 n2 (.inst i)) := by
  have hnone : c.replace_table.lookup (Value.inst i) = none := by
    cases hl : c.replace_table.lookup (Value.inst i) with
    | none => rfl
    | some v =>
      exfalso
      obtain ⟨j, op1, x, y, hj, hm⟩ := h.keys _ _ hl
      cases hj
      exact hi (List.mem_map.mpr ⟨_, hm, rfl⟩)
  refine ⟨?_, ?_, ?_, ?_, ?_⟩
  · intro k v hk
    obtain ⟨j, op1, x, y, hj, hm⟩ := h.keys k v hk
    exact ⟨j, op1, x, y, hj, List.mem_append_left _ hm⟩
  · intro j op1 x y hm
    simp only [insert_lvn]
    rcases List.mem_append.mp hm with h1 | h1
    · exact isSome_of_extends (fun _ _ q => lookup_mapInsert_of_some q) (h.scanned j op1 x y h1)
    · rw [List.mem_singleton] at h1
      cases h1
      exact lookup_mapInsert_isSome _ _ _
  · intro e1 he1
    simp only [insert_lvn] at he1 ⊢
    rcases List.mem_append.mp he1 with h1 | h1
    · exact h.refs_kept e1 h1
    · rw [List.mem_singleton] at h1
      rw [h1]
      exact hnone
  · intro e1 he1 j hj
    simp only [insert_lvn] at he1
    rw [List.map_append]
    rcases List.mem_append.mp he1 with h1 | h1
    · exact List.mem_append_left _ (h.refs_seen e1 h1 j hj)
    · rw [List.mem_singleton] at h1
      rw [h1] at hj
      cases hj
      simp [Inst.id]
  · intro k v hk
    obtain ⟨e, he, hv⟩ := h.values k v hk
    exact ⟨e, List.mem_append_left _ he, hv⟩

/-- One step keeps the invariant of the recorded replacements. -/
theorem recInv_step {H : Host} {seen : List Inst} {S S1 : LvnState} (h : RecInv H seen S)
    (hS : S.Bounded) {I : Inst} (hi : I.id ∉ seen.map Inst.id)
    (hops : ∀ j, Value.inst j ∈ I.operands → j ∈ seen.map Inst.id)
    (hstep : lvnStep H S I = .ok S1) : RecInv H (seen ++ [I]) S1 := by
  cases I with
  | other i ops =>
    simp only [lvnStep] at hstep
    cases hstep
    exact recInv_mono h i ops
  | binary i op a b =>
    obtain ⟨n1, n2, -, -, hout⟩ := lvnStep_ok_outcome hS hstep
    have hc := recInv_canonicalize h a b (fun j hj => hops j (by
      rcases hj with q | q <;> simp [Inst.operands, q]))
    cases hout with
    | exact k e hcmp he hkey hfirst =>
      exact recInv_recorded hc op a b hi k (List.getElem?_mem he)
    | inverse r e0 e hcmp hnone hpat hr he0 hleft hright hop he =>
      exact recInv_recorded hc op a b hi r (mem_of_tableAt he)
    | novel r hcmp hnone hpat hr =>
      exact recInv_novel hc op a b hi _ n1 n2

/-- The step for an instruction leaves the replacement of every other
instruction as it is. -/
theorem lvnStep_replace_ne {H : Host} {S S1 : LvnState} (hS : S.Bounded) {I : Inst} {i : Nat}
    (hne : I.id ≠ i) (h : lvnStep H S I = .ok S1) :
    S1.replace_table.lookup (Value.inst i) = S.replace_table.lookup (Value.inst i) := by
  cases I with
  | other j ops =>
    simp only [lvnStep] at h
    cases h
    rfl
  | binary j op a b =>
    obtain ⟨n1, n2, -, -, hout⟩ := lvnStep_ok_outcome hS h
    have hr := (canonicalize_operandEntries H S a b).replace
    have hji : Value.inst i ≠ Value.inst j := by
      intro q; cases q; exact hne rfl
    cases hout with
    | exact k e hcmp he hkey hfirst =>
      simp only [recorded]
      rw [lookup_mapInsert_ne _ hji, hr]
    | inverse r e0 e hcmp hnone hpat hr1 he0 hleft hright hop he =>
      simp only [recorded]
      rw [lookup_mapInsert_ne _ hji, hr]
    | novel r hcmp hnone hpat hr1 =>
      simp only [insert_lvn]
      rw [hr]

theorem lvnScanBlock_replace_ne {H : Host} {l : List Inst} {S S1 : LvnState} (hS : S.Bounded)
    {i : Nat} (hne : i ∉ l.map Inst.id) (h : lvnScanBlock H S l = .ok S1) :
    S1.replace_table.lookup (Value.inst i) = S.replace_table.lookup (Value.inst i) := by
  induction l generalizing S with
  | nil =>
    simp only [lvnScanBlock] at h
    cases h
    rfl
  | cons I rest ih =>
    simp only [lvnScanBlock] at h
    cases hI : lvnStep H S I with
    | error e => rw [hI] at h; cases h
    | ok S2 =>
      rw [hI] at h
      have h1 : I.id ≠ i := fun q => hne (by simp [q])
      have h2 : i ∉ rest.map Inst.id := fun q => hne (by simp at q ⊢; exact Or.inr q)
      rw [ih (lvnStep_bounded_extends hS hI).1 h2 h, lvnStep_replace_ne hS h1 hI]

/-- An entry of the canonicalized table that is not an operand entry was in the
table before canonicalization, at the same index. -/
theorem entry_before_canonicalize {H : Host} {S : LvnState} {a b : Value} {k : Nat}
    {e : lvn_item} (he : (canonicalize H S a b).1.lvn_table[k]? = some e)
    (h1 : e.value.1 ≠ "assign") (h2 : e.value.1 ≠ "constant") :
    S.lvn_table[k]? = some e := by
  obtain ⟨t, ht, hp⟩ := (canonicalize_operandEntries H S a b).table
  rw [ht] at he
  by_cases hlt : k < S.lvn_table.length
  · rw [List.getElem?_append_left hlt] at he
    exact he
  · exfalso
    rw [List.getElem?_append_right (by omega)] at he
    rcases (hp e (List.getElem?_mem he)).1 with q | q
    · exact h1 q
    · exact h2 q

theorem getElem?_of_extension {α : Type} {l l1 : List α} (h : l <+: l1) {k : Nat} {e : α}
    (hk : k < l.length) (he : l1[k]? = some e) : l[k]? = some e := by
  obtain ⟨t, rfl⟩ := h
  rw [List.getElem?_append_left hk] at he
  exact he

/-- The entry whose underlying value an outcome records was in the table
before the operands of the instruction were canonicalized. -/
theorem outcome_recorded_before {H : Host} {S S1 : LvnState} (hS : S.Bounded) {i : Nat}
    {op : BinaryOps} {a b : Value} {n1 n2 : Int}
    (h : LvnOutcome H (canonicalize H S a b).1 i op n1 n2 S1) :
    (∃ e ∈ S.lvn_table, S1.replace_table =
        mapInsert S.replace_table (.inst i) e.ref) ∨
      S1.replace_table = S.replace_table := by
  have oe := canonicalize_operandEntries H S a b
  have hc := oe.bounded hS
  cases h with
  | exact k e hcmp he hkey hfirst =>
    left
    have h1 : e.value.1 ≠ "assign" := by rw [hkey]; exact getOpcodeName_ne_assign op
    have h2 : e.value.1 ≠ "constant" := by rw [hkey]; exact getOpcodeName_ne_constant op
    refine ⟨e, List.getElem?_mem (entry_before_canonicalize he h1 h2), ?_⟩
    simp only [recorded, oe.replace]
  | inverse r e0 e hcmp hnone hpat hr he0 hleft hright hop he =>
    left
    have h1 : e0.value.1 ≠ "assign" := by
      rcases hop with ⟨-, q⟩ | ⟨-, q⟩ <;> rw [q]
      · exact sub_ne_tags.1
      · exact sub_ne_tags.2.2.1
    have h2 : e0.value.1 ≠ "constant" := by
      rcases hop with ⟨-, q⟩ | ⟨-, q⟩ <;> rw [q]
      · exact sub_ne_tags.2.1
      · exact sub_ne_tags.2.2.2
    have he0' := (tableAt_eq_some he0).2
    have hb0 := entry_before_canonicalize he0' h1 h2
    have hlt0 := lt_length_of_getElem? hb0
    have hb := hc.operands _ _ he0'
    have hlt : r < n1 := by
      rcases hb with q | q | q
      · exact absurd q h1
      · exact absurd q h2
      · rw [hleft] at q; omega
    have he' := (tableAt_eq_some he).2
    have hlt1 : r.toNat < S.lvn_table.length := by
      have := (tableAt_eq_some he0).1
      omega
    obtain ⟨t, ht, -⟩ := oe.table
    refine ⟨e, List.getElem?_mem (getElem?_of_extension ⟨t, ht.symm⟩ hlt1 he'), ?_⟩
    simp only [recorded, oe.replace]
  | novel r hcmp hnone hpat hr =>
    right
    simp only [insert_lvn, oe.replace]

/-! ## The rewrite loop -/

/-- A visit of the rewrite loop does nothing, or erases a recorded binary
instruction after redirecting its uses to the recorded value. -/
theorem rewriteVisit_cases (R : List (Value × Value)) (G : Function) (j : Nat) :
    rewriteVisit R G j = G ∨
    ∃ op a b v, findInst G j = some (.binary j op a b) ∧ R.lookup (.inst j) = some v ∧
      rewriteVisit R G j = eraseFromParent j (replaceAllUsesWith (.inst j) v G) := by
  unfold rewriteVisit
  split
  · rename_i i op a b hf
    have hi : i = j := (findInst_some hf).1
    subst hi
    split
    · rename_i v hv
      exact Or.inr ⟨op, a, b, v, hf, hv, rfl⟩
    · exact Or.inl rfl
  · exact Or.inl rfl

theorem rewriteVisit_of_recorded {R : List (Value × Value)} {G : Function} {j : Nat}
    {op : BinaryOps} {a b v : Value} (hf : findInst G j = some (.binary j op a b))
    (hv : R.lookup (.inst j) = some v) :
    rewriteVisit R G j = eraseFromParent j (replaceAllUsesWith (.inst j) v G) := by
  unfold rewriteVisit
  rw [hf]
  simp only [hv]

theorem rewriteVisit_keeps {R : List (Value × Value)} {G : Function} {i j : Nat} (hij : i ≠ j)
    {op : BinaryOps} {a b : Value} (hf : findInst G i = some (.binary i op a b)) :
    ∃ a' b', findInst (rewriteVisit R G j) i = some (.binary i op a' b') := by
  rcases rewriteVisit_cases R G j with h | ⟨_, _, _, v, _, _, h⟩
  · rw [h]; exact ⟨a, b, hf⟩
  · rw [h, findInst_eraseFromParent hij, findInst_replaceAllUsesWith, hf]
    obtain ⟨a', b', e, -, -⟩ := replaceUses_binary j v i op a b
    exact ⟨a', b', by simp [e]⟩

theorem rewriteFold_keeps {R : List (Value × Value)} (ids : List Nat) {G : Function} {i : Nat}
    (hi : i ∉ ids) {op : BinaryOps} {a b : Value}
    (hf : findInst G i = some (.binary i op a b)) :
    ∃ a' b', findInst (ids.foldl (rewriteVisit R) G) i = some (.binary i op a' b') := by
  induction ids generalizing G a b with
  | nil => exact ⟨a, b, hf⟩
  | cons j rest ih =>
    have hij : i ≠ j := fun e => hi (by simp [e])
    have hr : i ∉ rest := fun e => hi (by simp [e])
    obtain ⟨a1, b1, hf1⟩ := rewriteVisit_keeps (R := R) hij hf
    exact ih hr hf1

theorem rewriteVisit_ids_subset (R : List (Value × Value)) (G : Function) (j : Nat) {k : Nat}
    (hk : k ∈ (rewriteVisit R G j).ids) : k ∈ G.ids := by
  rcases rewriteVisit_cases R G j with h | ⟨_, _, _, v, _, _, h⟩
  · rw [h] at hk; exact hk
  · rw [h, ids_eraseFromParent, ids_replaceAllUsesWith] at hk
    exact List.mem_of_mem_filter hk

theorem rewriteFold_ids_subset (R : List (Value × Value)) (ids : List Nat) (G : Function)
    {k : Nat} (hk : k ∈ (ids.foldl (rewriteVisit R) G).ids) : k ∈ G.ids := by
  induction ids generalizing G with
  | nil => exact hk
  | cons j rest ih => exact rewriteVisit_ids_subset R G j (ih _ hk)

theorem rewriteVisit_nodup (R : List (Value × Value)) {G : Function} (h : G.ids.Nodup)
    (j : Nat) : (rewriteVisit R G j).ids.Nodup := by
  rcases rewriteVisit_cases R G j with e | ⟨_, _, _, v, _, _, e⟩
  · rw [e]; exact h
  · rw [e, ids_eraseFromParent, ids_replaceAllUsesWith]
    exact h.filter _

theorem rewriteFold_nodup (R : List (Value × Value)) (ids : List Nat) {G : Function}
    (h : G.ids.Nodup) : (ids.foldl (rewriteVisit R) G).ids.Nodup := by
  induction ids generalizing G with
  | nil => exact h
  | cons j rest ih => exact ih (rewriteVisit_nodup R h j)

/-- An instruction that is not recorded stays. -/
theorem rewriteVisit_mem_ids {R : List (Value × Value)} {G : Function} {i : Nat}
    (hR : R.lookup (.inst i) = none) (j : Nat) (hi : i ∈ G.ids) :
    i ∈ (rewriteVisit R G j).ids := by
  rcases rewriteVisit_cases R G j with e | ⟨_, _, _, v, _, hv, e⟩
  · rw [e]; exact hi
  · rw [e, ids_eraseFromParent, ids_replaceAllUsesWith]
    apply List.mem_filter.mpr
    refine ⟨hi, ?_⟩
    have : i ≠ j := by
      intro q; rw [q, hv] at hR; cases hR
    simpa using this

theorem rewriteFold_mem_ids {R : List (Value × Value)} {i : Nat}
    (hR : R.lookup (.inst i) = none) (ids : List Nat) {G : Function} (hi : i ∈ G.ids) :
    i ∈ (ids.foldl (rewriteVisit R) G).ids := by
  induction ids generalizing G with
  | nil => exact hi
  | cons j rest ih => exact ih (rewriteVisit_mem_ids hR j hi)

/-- A visit introduces no use of a value that no recorded replacement
introduces. -/
theorem rewriteVisit_not_usedIn {R : List (Value × Value)} {G : Function} {x : Value}
    (j : Nat) (hx : ∀ v, R.lookup (.inst j) = some v → x ≠ v) (h : ¬ usedIn x G) :
    ¬ usedIn x (rewriteVisit R G j) := by
  rcases rewriteVisit_cases R G j with e | ⟨_, _, _, v, _, hv, e⟩
  · rw [e]; exact h
  · rw [e]
    exact not_usedIn_eraseFromParent j (not_usedIn_replaceAllUsesWith h (hx v hv))

theorem rewriteFold_not_usedIn {R : List (Value × Value)} {x : Value} (ids : List Nat)
    {G : Function} (hx : ∀ j v, R.lookup (.inst j) = some v → x ≠ v) (h : ¬ usedIn x G) :
    ¬ usedIn x (ids.foldl (rewriteVisit R) G) := by
  induction ids generalizing G with
  | nil => exact h
  | cons j rest ih => exact ih (rewriteVisit_not_usedIn j (hx j) h)

theorem rewriteFold_absent (R : List (Value × Value)) (ids : List Nat) {G : Function} {i : Nat}
    (h : i ∉ G.ids) : i ∉ (ids.foldl (rewriteVisit R) G).ids :=
  fun q => h (rewriteFold_ids_subset R ids G q)

theorem not_mem_ids_eraseFromParent (i : Nat) (G : Function) : i ∉ (eraseFromParent i G).ids := by
  rw [ids_eraseFromParent]
  simp [List.mem_filter]

/-- After the rewrite loop a recorded binary instruction is gone, and unused
when no recorded replacement value is that instruction. -/
theorem rewriteLoop_recorded {R : List (Value × Value)} {F : Function} (hnd : F.ids.Nodup)
    {front back : List Inst} {i : Nat} {op : BinaryOps} {a b v : Value}
    (hF : F.insts = front ++ Inst.binary i op a b :: back)
    (hv : R.lookup (.inst i) = some v) :
    i ∉ (rewriteLoop R F).ids ∧
    ((∀ j w, R.lookup (.inst j) = some w → Value.inst i ≠ w) →
      ¬ usedIn (.inst i) (rewriteLoop R F)) := by
  have hids := ids_of_split hF
  have hfront : i ∉ front.map Inst.id := by
    rw [hids] at hnd
    have := (List.nodup_append.mp hnd).2.2
    intro h; exact this h (by simp [Inst.id])
  obtain ⟨a', b', hf⟩ := rewriteFold_keeps (R := R) (front.map Inst.id) hfront
    (findInst_of_split hnd hF)
  have hloop : rewriteLoop R F = (back.map Inst.id).foldl (rewriteVisit R)
      (eraseFromParent i (replaceAllUsesWith (.inst i) v
        ((front.map Inst.id).foldl (rewriteVisit R) F))) := by
    unfold rewriteLoop
    have : (Inst.binary i op a b).id = i := rfl
    rw [hids, List.foldl_append, List.foldl_cons, this, rewriteVisit_of_recorded hf hv]
  rw [hloop]
  refine ⟨rewriteFold_absent R _ (not_mem_ids_eraseFromParent i _), ?_⟩
  intro hx
  apply rewriteFold_not_usedIn _ hx
  exact not_usedIn_eraseFromParent i
    (not_usedIn_replaceAllUsesWith_self _ (fun q => hx i v hv q.symm))

/-! ## Value numbering: recorded replacements -/

theorem not_mem_front_of_nodup {F : Function} (hnd : F.ids.Nodup) {front back : List Inst}
    {I : Inst} (hF : F.insts = front ++ I :: back) : I.id ∉ front.map Inst.id := by
  rw [ids_of_split hF] at hnd
  have := (List.nodup_append.mp hnd).2.2
  intro h; exact this h (by simp)

theorem not_mem_back_of_nodup {F : Function} (hnd : F.ids.Nodup) {front back : List Inst}
    {I : Inst} (hF : F.insts = front ++ I :: back) : I.id ∉ back.map Inst.id := by
  rw [ids_of_split hF] at hnd
  have := (List.nodup_append.mp hnd).2.1
  exact (List.nodup_cons.mp this).1

theorem init_recInv (H : Host) : RecInv H [] LvnState.init :=
  ⟨fun k v h => (by simp [LvnState.init] at h), fun j op a b h => (by cases h),
    fun e h => (by simp [LvnState.init] at h), fun e h => (by simp [LvnState.init] at h),
    fun k v h => (by simp [LvnState.init] at h)⟩

/-- In a function with distinct identities and operands defined before use,
the invariant of the recorded replacements holds after every scanned part. -/
theorem recInv_of_scan {H : Host} {F : Function} (hnd : F.ids.Nodup) (hdef : F.defBeforeUse)
    {front back : List Inst} {S : LvnState} (hF : F.insts = front ++ back)
    (h : lvnScanBlock H LvnState.init front = .ok S) : RecInv H front S := by
  refine @lvnScanBlock_invariant H F.insts (RecInv H) _ init_bounded (init_recInv H) ?_
    front back S hF h
  intro fr I bk S0 S1 hall hb hinv hstep
  exact recInv_step hinv hb (not_mem_front_of_nodup hnd hall)
    (fun j hj => defBeforeUse_split hdef hall hj) hstep

/-- C10: replacement targets survive. In a function without names, with
distinct instruction identities, in which every instruction operand is a
constant, an external value or the result of an instruction earlier in scan
order, the scan returns a state `S` such that: no replacement value recorded in
`S.replace_table` is itself recorded for replacement; the replacement value of
an instruction is the underlying value of an entry that was in the table
before that instruction was scanned; every recorded instruction is an
instruction of the function and is gone after the rewrite loop; and after the
rewrite loop, which applies the records one by one, no remaining instruction
uses an instruction that was removed. -/
theorem replacement_targets_survive (H : Host) (hH : H.noNames) (F : Function)
    (hnd : F.ids.Nodup) (hdef : F.defBeforeUse) :
    ∃ S, lvnScan H LvnState.init F = .ok S ∧
      localValueNumbering H F = .ok (rewriteLoop S.replace_table F) ∧
      (∀ k v, S.replace_table.lookup k = some v → S.replace_table.lookup v = none) ∧
      (∀ front I back v, F.insts = front ++ I :: back →
        S.replace_table.lookup (.inst I.id) = some v →
          ∃ S1, lvnScanBlock H LvnState.init front = .ok S1 ∧ ∃ e ∈ S1.lvn_table, e.ref = v) ∧
      (∀ i v, S.replace_table.lookup (.inst i) = some v →
        i ∈ F.ids ∧ i ∉ (rewriteLoop S.replace_table F).ids) ∧
      (∀ i ∈ F.ids, i ∉ (rewriteLoop S.replace_table F).ids →
        ¬ usedIn (.inst i) (rewriteLoop S.replace_table F)) := by
  obtain ⟨S, hS⟩ := lvnScanBlock_ok_of_noNames hH F.insts init_bounded
  have hscan : lvnScan H LvnState.init F = .ok S := by rw [lvnScan_eq_insts]; exact hS
  have hinv : RecInv H F.insts S :=
    @recInv_of_scan H F hnd hdef F.insts [] S (by simp) hS
  have hA : ∀ k v, S.replace_table.lookup k = some v → S.replace_table.lookup v = none := by
    intro k v hk
    obtain ⟨e, he, hv⟩ := hinv.values k v hk
    rw [← hv]
    exact hinv.refs_kept e he
  have hrec : ∀ i v, S.replace_table.lookup (.inst i) = some v →
      i ∉ (rewriteLoop S.replace_table F).ids ∧ ¬ usedIn (.inst i) (rewriteLoop S.replace_table F) ∧
      i ∈ F.ids := by
    intro i v hv
    obtain ⟨j, op, a, b, hj, hm⟩ := hinv.keys _ _ hv
    cases hj
    obtain ⟨front, back, hF⟩ := List.append_of_mem hm
    obtain ⟨h1, h2⟩ := rewriteLoop_recorded hnd hF hv
    refine ⟨h1, h2 ?_, ?_⟩
    · intro j w hw q
      have := hA _ _ hw
      rw [← q, hv] at this
      cases this
    · exact List.mem_map.mpr ⟨_, hm, rfl⟩
  refine ⟨S, hscan, ?_, hA, ?_, ?_, ?_⟩
  · unfold localValueNumbering
    rw [hscan]
  · intro front I back v hF hv
    rw [hF] at hS
    obtain ⟨S1, S2, h1, h2, h3⟩ := lvnScanBlock_split hS
    refine ⟨S1, h1, ?_⟩
    have hb1 := (lvnScanBlock_bounded_extends init_bounded h1).1
    have hb2 := (lvnStep_bounded_extends hb1 h2).1
    have hinv1 : RecInv H front S1 := recInv_of_scan hnd hdef hF h1
    have hnone : S1.replace_table.lookup (.inst I.id) = none := by
      cases hl : S1.replace_table.lookup (.inst I.id) with
      | none => rfl
      | some w =>
        exfalso
        obtain ⟨j, op, a, b, hj, hm⟩ := hinv1.keys _ _ hl
        cases hj
        exact not_mem_front_of_nodup hnd hF (List.mem_map.mpr ⟨_, hm, rfl⟩)
    have hfin := lvnScanBlock_replace_ne hb2 (not_mem_back_of_nodup hnd hF) h3
    rw [hfin] at hv
    cases I with
    | other i ops =>
      simp only [lvnStep] at h2
      cases h2
      rw [hnone] at hv
      cases hv
    | binary i op a b =>
      obtain ⟨n1, n2, -, -, hout⟩ := lvnStep_ok_outcome hb1 h2
      rcases outcome_recorded_before hb1 hout with ⟨e, he, hr⟩ | hr
      · refine ⟨e, he, ?_⟩
        rw [hr] at hv
        simp only [Inst.id] at hv hnone
        rw [lookup_mapInsert_self hnone] at hv
        cases hv
        rfl
      · rw [hr, hnone] at hv
        cases hv
  · intro i v hv
    exact ⟨(hrec i v hv).2.2, (hrec i v hv).1⟩
  · intro i hi hgone
    cases hl : S.replace_table.lookup (.inst i) with
    | none => exact absurd (rewriteFold_mem_ids hl F.ids hi) hgone
    | some v => exact (hrec i v hl).2.1

/-! ### Exact matches -/

theorem getOpcodeName_injective {op1 op2 : BinaryOps}
    (h : getOpcodeName op1 = getOpcodeName op2) : op1 = op2 := by
  cases op1 <;> cases op2 <;> first | rfl | (exfalso; revert h; decide)

theorem init_opInv : OpInv [] LvnState.init :=
  ⟨fun k v h => (by simp [LvnState.init] at h), fun e h => (by simp [LvnState.init] at h)⟩

theorem opInv_mono {seen : List Inst} {S : LvnState} (h : OpInv seen S) (I : Inst) :
    OpInv (seen ++ [I]) S := by
  refine ⟨?_, ?_⟩
  · intro k v hk
    obtain ⟨j, op, a, b, e, hm⟩ := h.keys k v hk
    exact ⟨j, op, a, b, e, List.mem_append_left _ hm⟩
  · intro e he h1 h2
    obtain ⟨j, op, a, b, hj, hm, hl, ht⟩ := h.novel e he h1 h2
    exact ⟨j, op, a, b, hj, List.mem_append_left _ hm, hl, ht⟩

theorem opInv_canonicalize {seen : List Inst} {S : LvnState} (h : OpInv seen S) (H : Host)
    (a b : Value) : OpInv seen (canonicalize H S a b).1 := by
  have oe := canonicalize_operandEntries H S a b
  obtain ⟨t, ht, hp⟩ := oe.table
  refine ⟨?_, ?_⟩
  · intro k v hk
    rw [oe.replace] at hk
    exact h.keys k v hk
  · intro e he h1 h2
    rw [ht] at he
    rw [oe.replace]
    rcases List.mem_append.mp he with q | q
    · exact h.novel e q h1 h2
    · rcases (hp e q).1 with r | r
      · exact absurd r h1
      · exact absurd r h2

theorem opInv_lookup_none {seen : List Inst} {S : LvnState} (h : OpInv seen S) {i : Nat}
    (hi : i ∉ seen.map Inst.id) : S.replace_table.lookup (Value.inst i) = none := by
  cases hl : S.replace_table.lookup (Value.inst i) with
  | none => rfl
  | some v =>
    exfalso
    obtain ⟨j, op1, x, y, hj, hm⟩ := h.keys _ _ hl
    cases hj
    exact hi (List.mem_map.mpr ⟨_, hm, rfl⟩)

theorem opInv_recorded {seen : List Inst} {c : LvnState} (h : OpInv seen c) (H : Host)
    {i : Nat} (op : BinaryOps) (a b : Value) (hi : i ∉ seen.map Inst.id) (r : Int)
    (e : lvn_item) : OpInv (seen ++ [Inst.binary i op a b]) (recorded H c i r e) := by
  refine ⟨?_, ?_⟩
  · intro k v hk
    simp only [recorded] at hk
    rcases lookup_mapInsert_cases hk with h1 | ⟨h1, -, -⟩
    · obtain ⟨j, op1, x, y, hj, hm⟩ := h.keys k v h1
      exact ⟨j, op1, x, y, hj, List.mem_append_left _ hm⟩
    · exact ⟨i, op, a, b, h1, by simp⟩
  · intro e1 he1 h1 h2
    simp only [recorded] at he1 ⊢
    obtain ⟨j, op1, x, y, hj, hm, hl, ht⟩ := h.novel e1 he1 h1 h2
    refine ⟨j, op1, x, y, hj, List.mem_append_left _ hm, ?_, ht⟩
    have hne : Value.inst j ≠ Value.inst i := by
      intro q; cases q
      exact hi (List.mem_map.mpr ⟨_, hm, rfl⟩)
    rw [lookup_mapInsert_ne _ hne]
    exact hl

theorem opInv_inserted {seen : List Inst} {c : LvnState} (h : OpInv seen c) (H : Host)
    {i : Nat} (op : BinaryOps) (a b : Value) (hi : i ∉ seen.map Inst.id) (n1 n2 : Int) :
    OpInv (seen ++ [Inst.binary i op a b])
      (insert_lvn c (toString (H.addr (.inst i))) (getOpcodeName op) n1 n2 (.inst i)) := by
  refine ⟨?_, ?_⟩
  · intro k v hk
    obtain ⟨j, op1, x, y, hj, hm⟩ := h.keys k v hk
    exact ⟨j, op1, x, y, hj, List.mem_append_left _ hm⟩
  · intro e1 he1 h1 h2
    simp only [insert_lvn] at he1 ⊢
    rcases List.mem_append.mp he1 with q | q
    · obtain ⟨j, op1, x, y, hj, hm, hl, ht⟩ := h.novel e1 q h1 h2
      exact ⟨j, op1, x, y, hj, List.mem_append_left _ hm, hl, ht⟩
    · rw [List.mem_singleton] at q
      rw [q]
      exact ⟨i, op, a, b, rfl, by simp, opInv_lookup_none h hi, rfl⟩

/-- One step keeps the invariant of the instruction entries. -/
theorem opInv_step {H : Host} {seen : List Inst} {S S1 : LvnState} (h : OpInv seen S)
    (hS : S.Bounded) {I : Inst} (hi : I.id ∉ seen.map Inst.id)
    (hstep : lvnStep H S I = .ok S1) : OpInv (seen ++ [I]) S1 := by
  cases I with
  | other i ops =>
    simp only [lvnStep] at hstep
    cases hstep
    exact opInv_mono h _
  | binary i op a b =>
    obtain ⟨n1, n2, -, -, hout⟩ := lvnStep_ok_outcome hS hstep
    have hc := opInv_canonicalize h H a b
    cases hout with
    | exact k e hcmp he hkey hfirst => exact opInv_recorded hc H op a b hi k e
    | inverse r e0 e hcmp hnone hpat hr he0 hleft hright hop he =>
      exact opInv_recorded hc H op a b hi r e
    | novel r hcmp hnone hpat hr => exact opInv_inserted hc H op a b hi n1 n2

/-- In a function with distinct identities the invariant of the instruction
entries holds after every scanned part. -/
theorem opInv_of_scan {H : Host} {F : Function} (hnd : F.ids.Nodup)
    {front back : List Inst} {S : LvnState} (hF : F.insts = front ++ back)
    (h : lvnScanBlock H LvnState.init front = .ok S) : OpInv front S := by
  refine @lvnScanBlock_invariant H F.insts (fun seen S => OpInv seen S) _ init_bounded
    init_opInv ?_ front back S hF h
  intro fr I bk S0 S1 hall hb hinv hstep
  exact opInv_step hinv hb (not_mem_front_of_nodup hnd hall) hstep

theorem tableAt_of_extension {t t1 : List lvn_item} (h : t <+: t1) {r : Int} {e : lvn_item}
    (he : tableAt t r = some e) : tableAt t1 r = some e := by
  obtain ⟨t2, rfl⟩ := h
  exact tableAt_append_left he

/-- Appending to the table does not change what `pattern_func` returns for an
operand number that was an index of the table. -/
theorem pattern_func_of_extension {t t1 : List lvn_item} (h : t <+: t1) {op : BinaryOps}
    {n1 n2 : Int} (h0 : 0 ≤ n1) (h1 : n1 < t.length) :
    pattern_func t1 op n1 n2 = pattern_func t op n1 n2 := by
  obtain ⟨e, he, -⟩ := tableAt_of_lt h0 h1
  have he1 := tableAt_of_extension h he
  unfold pattern_func
  rw [he, he1]

/-- Once an instruction with the key `(op, n1, n2)` went through the scan,
the table has an entry with that key, or `pattern_func` gives a positive
number for it. -/
theorem outcome_source {H : Host} {c S1 : LvnState} {i : Nat} {op : BinaryOps}
    {n1 n2 : Int} (hn1 : 0 ≤ n1 ∧ n1 < c.lvn_table.length)
    (h : LvnOutcome H c i op n1 n2 S1) :
    (∃ e ∈ S1.lvn_table, e.value = (getOpcodeName op, n1, n2)) ∨
    (∃ r, 0 < r ∧ pattern_func S1.lvn_table op n1 n2 = some r ∧ n1 < S1.lvn_table.length) := by
  cases h with
  | exact k e hcmp he hkey hfirst =>
    exact Or.inl ⟨e, List.getElem?_mem he, hkey⟩
  | inverse r e0 e hcmp hnone hpat hr he0 hleft hright hop he =>
    exact Or.inr ⟨r, hr, hpat, hn1.2⟩
  | novel r hcmp hnone hpat hr =>
    left
    refine ⟨⟨c.lvn_counter, (getOpcodeName op, n1, n2), .inst i⟩, ?_, rfl⟩
    simp [insert_lvn]

theorem usesRedirected_refl (x : Value) (u : Inst) : usesRedirected x x u u := by
  unfold usesRedirected
  induction u.operands with
  | nil => exact List.Forall₂.nil
  | cons v l ih => exact List.Forall₂.cons (fun h => h) ih

theorem usesRedirected_redirect {old : Value} (new : Value) {u0 u : Inst}
    (h : usesRedirected old old u0 u) : usesRedirected old new u0 (u.replaceUses old new) := by
  unfold usesRedirected at h ⊢
  rw [operands_replaceUses]
  generalize u0.operands = l0 at h
  generalize u.operands = l at h ⊢
  induction h with
  | nil => exact List.Forall₂.nil
  | cons hv _ ih =>
    refine List.Forall₂.cons ?_ ih
    intro e
    rw [hv e]
    simp [substValue]

/-- One visit of the rewrite loop keeps redirected uses in place, when the
value they were redirected to is not the instruction the visit erases. -/
theorem rewriteVisit_usesRedirected {R : List (Value × Value)} {F G : Function}
    {old new : Value} (j : Nat) (hne : ∀ w, R.lookup (.inst j) = some w → new ≠ .inst j)
    (h : ∀ u ∈ G.insts, ∀ u0, findInst F u.id = some u0 → usesRedirected old new u0 u) :
    ∀ u ∈ (rewriteVisit R G j).insts, ∀ u0, findInst F u.id = some u0 →
      usesRedirected old new u0 u := by
  rcases rewriteVisit_cases R G j with e | ⟨_, _, _, v, _, hv, e⟩
  · rw [e]; exact h
  · rw [e]
    intro u hu u0 hu0
    rw [insts_eraseFromParent, insts_replaceAllUsesWith] at hu
    obtain ⟨u1, hu1, rfl⟩ := List.mem_map.mp (List.mem_of_mem_filter hu)
    rw [Inst.id_replaceUses] at hu0
    exact usesRedirected_replaceUses _ _ (h u1 hu1 u0 hu0) (hne v hv)

theorem rewriteFold_usesRedirected {R : List (Value × Value)} {F : Function} (ids : List Nat)
    {G : Function} {old new : Value}
    (hne : ∀ j ∈ ids, ∀ w, R.lookup (.inst j) = some w → new ≠ .inst j)
    (h : ∀ u ∈ G.insts, ∀ u0, findInst F u.id = some u0 → usesRedirected old new u0 u) :
    ∀ u ∈ (ids.foldl (rewriteVisit R) G).insts, ∀ u0, findInst F u.id = some u0 →
      usesRedirected old new u0 u := by
  induction ids generalizing G with
  | nil => exact h
  | cons j rest ih =>
    apply ih
    · intro k hk
      exact hne k (by simp [hk])
    · exact rewriteVisit_usesRedirected j (hne j (by simp)) h

/-- After the rewrite loop every remaining instruction has the recorded value
`v` where it had the recorded instruction `i`, when `v` is not itself a
recorded instruction. -/
theorem rewriteLoop_usesRedirected {R : List (Value × Value)} {F : Function}
    (hnd : F.ids.Nodup) {front back : List Inst} {i : Nat} {op : BinaryOps} {a b v : Value}
    (hF : F.insts = front ++ Inst.binary i op a b :: back)
    (hv : R.lookup (.inst i) = some v) (hstable : R.lookup v = none) :
    ∀ u ∈ (rewriteLoop R F).insts, ∀ u0, findInst F u.id = some u0 →
      usesRedirected (.inst i) v u0 u := by
  have hids := ids_of_split hF
  have hfront : i ∉ front.map Inst.id := not_mem_front_of_nodup hnd hF
  obtain ⟨a', b', hf⟩ := rewriteFold_keeps (R := R) (front.map Inst.id) hfront
    (findInst_of_split hnd hF)
  have hloop : rewriteLoop R F = (back.map Inst.id).foldl (rewriteVisit R)
      (eraseFromParent i (replaceAllUsesWith (.inst i) v
        ((front.map Inst.id).foldl (rewriteVisit R) F))) := by
    unfold rewriteLoop
    have : (Inst.binary i op a b).id = i := rfl
    rw [hids, List.foldl_append, List.foldl_cons, this, rewriteVisit_of_recorded hf hv]
  rw [hloop]
  have h0 : ∀ u ∈ F.insts, ∀ u0, findInst F u.id = some u0 →
      usesRedirected (.inst i) (.inst i) u0 u := by
    intro u hu u0 hu0
    rw [findInst_of_mem hnd hu] at hu0
    cases hu0
    exact usesRedirected_refl _ _
  have h1 := rewriteFold_usesRedirected (R := R) (front.map Inst.id)
    (fun j hj w _ q => hfront (by cases q; exact hj)) h0
  apply rewriteFold_usesRedirected (back.map Inst.id)
  · intro j _ w hw q
    rw [q, hw] at hstable
    cases hstable
  · intro u hu u0 hu0
    rw [insts_eraseFromParent, insts_replaceAllUsesWith] at hu
    obtain ⟨u1, hu1, rfl⟩ := List.mem_map.mp (List.mem_of_mem_filter hu)
    rw [Inst.id_replaceUses] at hu0
    exact usesRedirected_redirect v (h1 u1 hu1 u0 hu0)

theorem operandNumbers_eq (H : Host) (S : LvnState) (a b : Value) :
    operandNumbers H S a b =
      ((canonicalize H S a b).1.hashmap.lookup (operandKey H a),
        (canonicalize H S a b).1.hashmap.lookup (operandKey H b)) := by
  unfold operandNumbers
  rw [canonicalize_keys]

theorem recorded_ne_insert_lvn (H : Host) (c : LvnState) (i : Nat) (r : Int) (e : lvn_item)
    (name tag : String) (x y : Int) (ref : Value) :
    recorded H c i r e ≠ insert_lvn c name tag x y ref := by
  intro h
  have := congrArg (fun S => S.lvn_table.length) h
  simp [recorded, insert_lvn] at this

/-- The first entry with a key, in a table that has none up to an entry `x`
with that key, is `x`. -/
theorem first_entry_eq {t t0 : List lvn_item} {x : lvn_item} {K : String × Int × Int}
    (hp : t0 ++ [x] <+: t) (h0 : ∀ e ∈ t0, e.value ≠ K) (hx : x.value = K) {k : Nat}
    {e : lvn_item} (he : t[k]? = some e) (hk : e.value = K)
    (hfirst : ∀ k1 : Nat, k1 < k → ∀ e1, t[k1]? = some e1 → e1.value ≠ K) : e = x := by
  obtain ⟨t1, rfl⟩ := hp
  have hL : (t0 ++ [x] ++ t1)[t0.length]? = some x := by
    rw [List.append_assoc, List.getElem?_append_right (le_refl _)]
    simp
  rcases Nat.lt_trichotomy k t0.length with h | h | h
  · exfalso
    rw [List.append_assoc, List.getElem?_append_left h] at he
    exact h0 e (List.getElem?_mem he) hk
  · rw [h, hL] at he
    cases he
    rfl
  · exact absurd hx (hfirst _ h x hL)

theorem lvnScanBlock_deterministic {H : Host} {S A B : LvnState} {l : List Inst}
    (h1 : lvnScanBlock H S l = .ok A) (h2 : lvnScanBlock H S l = .ok B) : A = B := by
  rw [h1] at h2
  cases h2
  rfl

/-- C6 (amended): exact common-subexpression elimination. In a function
without names and with distinct instruction identities, let two binary
instructions `i1`, scanned first, and `i2` have the same opcode name and the
same pair of canonical operand numbers `(n1, n2)`. Then `i2` is recorded for
replacement by the underlying value of an entry `e` of number `r`, the step
appends no entry for it, and at the end of the scan every entry holding `i2`
is an operand entry; `i2` is gone after the rewrite loop. Either the table
holds an entry with the key, `e` is the first such entry (the one
`compare_func` returns), it holds `i1` when `i1` was novel, its underlying value
is not itself replaced, and after the rewrite loop every remaining instruction
has that value where it had `i2`; or no entry has the key (the earlier
instruction was eliminated by the inverse pattern) and `r` is the positive
number `pattern_func` returns. -/
theorem exact_cse (H : Host) (hH : H.noNames) (F : Function) (hnd : F.ids.Nodup)
    (l1 l2 l3 : List Inst) (i1 i2 : Nat) (op1 op2 : BinaryOps) (a1 b1 a2 b2 : Value)
    (hF : F.insts = l1 ++ Inst.binary i1 op1 a1 b1 :: (l2 ++ Inst.binary i2 op2 a2 b2 :: l3))
    (hop : getOpcodeName op1 = getOpcodeName op2)
    (S1 S2 : LvnState) (hS1 : lvnScanBlock H LvnState.init l1 = .ok S1)
    (hS2 : lvnScanBlock H LvnState.init (l1 ++ Inst.binary i1 op1 a1 b1 :: l2) = .ok S2)
    (hnum : operandNumbers H S1 a1 b1 = operandNumbers H S2 a2 b2) :
    ∃ n1 n2 r e Sf,
      operandNumbers H S2 a2 b2 = (some n1, some n2) ∧
      tableAt (canonicalize H S2 a2 b2).1.lvn_table r = some e ∧
      lvnStep H S2 (.binary i2 op2 a2 b2) =
        .ok (recorded H (canonicalize H S2 a2 b2).1 i2 r e) ∧
      lvnScan H LvnState.init F = .ok Sf ∧
      Sf.replace_table.lookup (.inst i2) = some e.ref ∧
      (∀ e1 ∈ Sf.lvn_table, e1.ref = .inst i2 →
        e1.value.1 = "assign" ∨ e1.value.1 = "constant") ∧
      i2 ∉ (rewriteLoop Sf.replace_table F).ids ∧
      ((e.value = (getOpcodeName op2, n1, n2) ∧
          compare_func (canonicalize H S2 a2 b2).1.lvn_table (getOpcodeName op2, n1, n2) = r ∧
          (∀ k1 : Nat, (k1 : Int) < r → ∀ e1, (canonicalize H S2 a2 b2).1.lvn_table[k1]? = some e1 →
            e1.value ≠ (getOpcodeName op2, n1, n2)) ∧
          Sf.replace_table.lookup e.ref = none ∧
          (lvnStep H S1 (.binary i1 op1 a1 b1) =
              .ok (insert_lvn (canonicalize H S1 a1 b1).1 (toString (H.addr (.inst i1)))
                (getOpcodeName op1) n1 n2 (.inst i1)) → e.ref = .inst i1) ∧
          ∀ u ∈ (rewriteLoop Sf.replace_table F).insts, ∀ u0, findInst F u.id = some u0 →
            usesRedirected (.inst i2) e.ref u0 u) ∨
        ((∀ e1 ∈ (canonicalize H S2 a2 b2).1.lvn_table,
            e1.value ≠ (getOpcodeName op2, n1, n2)) ∧
          pattern_func (canonicalize H S2 a2 b2).1.lvn_table op2 n1 n2 = some r ∧ 0 < r)) := by
  have hopeq := getOpcodeName_injective hop
  subst hopeq
  -- the scan up to the first instruction, its step, and the scan up to the second
  obtain ⟨S1a, S1b, hs1, hstep1, hs12⟩ := lvnScanBlock_split hS2
  have e1 := lvnScanBlock_deterministic hs1 hS1
  subst e1
  have hb1 := (lvnScanBlock_bounded_extends init_bounded hS1).1
  obtain ⟨n1, n2, hl1, hl2, hout1⟩ := lvnStep_ok_outcome hb1 hstep1
  have hc1 := (canonicalize_operandEntries H S1a a1 b1).bounded hb1
  have hb1b := (lvnStep_bounded_extends hb1 hstep1).1
  obtain ⟨hb2, hext12⟩ := lvnScanBlock_bounded_extends hb1b hs12
  have oe2 := canonicalize_operandEntries H S2 a2 b2
  have hc2 := oe2.bounded hb2
  have hpre : S1b.lvn_table <+: (canonicalize H S2 a2 b2).1.lvn_table :=
    hext12.table.trans (operandEntries_extends oe2).table
  -- the operand numbers of the second instruction
  rw [operandNumbers_eq, operandNumbers_eq, hl1, hl2] at hnum
  have hm1 : (canonicalize H S2 a2 b2).1.hashmap.lookup (operandKey H a2) = some n1 :=
    (congrArg Prod.fst hnum).symm
  have hm2 : (canonicalize H S2 a2 b2).1.hashmap.lookup (operandKey H b2) = some n2 :=
    (congrArg Prod.snd hnum).symm
  obtain ⟨S2b, hstep2, hout2⟩ := lvnStep_outcome hb2 i2 op1 a2 b2 hm1 hm2
  -- the whole scan
  obtain ⟨Sf, hSf⟩ := lvnScanBlock_ok_of_noNames hH F.insts init_bounded
  have hscan : lvnScan H LvnState.init F = .ok Sf := by rw [lvnScan_eq_insts]; exact hSf
  have hF2 : F.insts = (l1 ++ Inst.binary i1 op1 a1 b1 :: l2) ++ Inst.binary i2 op1 a2 b2 :: l3 := by
    rw [hF]; simp
  rw [hF2] at hSf
  obtain ⟨S2a, S2c, hs2, hstep2c, hs3⟩ := lvnScanBlock_split hSf
  have e2 := lvnScanBlock_deterministic hs2 hS2
  subst e2
  rw [hstep2] at hstep2c
  cases hstep2c
  have hb2b := (lvnStep_bounded_extends hb2 hstep2).1
  have hext3 := (lvnScanBlock_bounded_extends hb2b hs3).2
  have hopf : OpInv F.insts Sf := by
    have := @opInv_of_scan H F hnd F.insts [] Sf (by simp)
      (by rw [hF2]; exact hSf)
    exact this
  have hop2 : OpInv (l1 ++ Inst.binary i1 op1 a1 b1 :: l2) S2a := opInv_of_scan hnd hF2 hS2
  have hi2 : i2 ∉ (l1 ++ Inst.binary i1 op1 a1 b1 :: l2).map Inst.id :=
    not_mem_front_of_nodup hnd hF2
  -- what follows from the second instruction being recorded
  have common : ∀ (r : Int) (e : lvn_item), S2b = recorded H (canonicalize H S2a a2 b2).1 i2 r e →
      Sf.replace_table.lookup (.inst i2) = some e.ref ∧
      (∀ e1 ∈ Sf.lvn_table, e1.ref = .inst i2 →
        e1.value.1 = "assign" ∨ e1.value.1 = "constant") ∧
      i2 ∉ (rewriteLoop Sf.replace_table F).ids := by
    intro r e hrec
    have hv : Sf.replace_table.lookup (.inst i2) = some e.ref := by
      apply hext3.replace
      rw [hrec]
      simp only [recorded, oe2.replace]
      exact lookup_mapInsert_self (opInv_lookup_none hop2 hi2)
    refine ⟨hv, ?_, (rewriteLoop_recorded hnd hF2 hv).1⟩
    intro e1 he1 href
    by_contra hcon
    push_neg at hcon
    obtain ⟨j, op, x, y, hj, -, hl, -⟩ := hopf.novel e1 he1 hcon.1 hcon.2
    rw [href] at hj
    cases hj
    rw [hv] at hl
    cases hl
  have hsrc := outcome_source (hc1.numbers _ _ hl1) hout1
  cases hout2 with
  | exact k e hcmp he hkey hfirst =>
    obtain ⟨c1, c2, c3⟩ := common k e rfl
    have hstable : Sf.replace_table.lookup e.ref = none := by
      have hmem : e ∈ Sf.lvn_table := by
        have h1 : e ∈ (recorded H (canonicalize H S2a a2 b2).1 i2 k e).lvn_table :=
          List.getElem?_mem he
        exact hext3.table.subset h1
      have t1 : e.value.1 ≠ "assign" := by rw [hkey]; exact getOpcodeName_ne_assign op1
      have t2 : e.value.1 ≠ "constant" := by rw [hkey]; exact getOpcodeName_ne_constant op1
      obtain ⟨j, op, x, y, hj, -, hl, -⟩ := hopf.novel e hmem t1 t2
      rw [hj]; exact hl
    refine ⟨n1, n2, k, e, Sf, ?_, ?_, hstep2, hscan, c1, c2, c3, Or.inl ⟨hkey, hcmp, ?_, hstable, ?_,
      rewriteLoop_usesRedirected hnd hF2 c1 hstable⟩⟩
    · rw [operandNumbers_eq, hm1, hm2]
    · rw [tableAt_natCast]; exact he
    · intro k1 hk1 e1 he1
      exact hfirst k1 (by omega) e1 he1
    · intro hnovel
      rw [hstep1] at hnovel
      have hS1b : S1b = insert_lvn (canonicalize H S1a a1 b1).1 (toString (H.addr (.inst i1)))
          (getOpcodeName op1) n1 n2 (.inst i1) := by
        cases hnovel; rfl
      cases hout1 with
      | exact k0 e0 _ _ _ _ => exact absurd hS1b (recorded_ne_insert_lvn _ _ _ _ _ _ _ _ _ _)
      | inverse r0 e00 e0 _ _ _ _ _ _ _ _ _ =>
        exact absurd hS1b (recorded_ne_insert_lvn _ _ _ _ _ _ _ _ _ _)
      | novel r0 hcmp0 hnone0 hpat0 hr0 =>
        have hx := first_entry_eq (x := ⟨(canonicalize H S1a a1 b1).1.lvn_counter,
          (getOpcodeName op1, n1, n2), .inst i1⟩) hpre hnone0 rfl he hkey hfirst
        rw [hx]
  | inverse r e0 e hcmp hnone hpat hr he0 hleft hright hop he =>
    obtain ⟨c1, c2, c3⟩ := common r e rfl
    refine ⟨n1, n2, r, e, Sf, ?_, he, hstep2, hscan, c1, c2, c3, Or.inr ⟨hnone, hpat, hr⟩⟩
    rw [operandNumbers_eq, hm1, hm2]
  | novel r hcmp hnone hpat hr =>
    exfalso
    rcases hsrc with ⟨e, he, hk⟩ | ⟨r0, hr0, hp0, hlt0⟩
    · exact hnone e (hpre.subset he) hk
    · rw [pattern_func_of_extension hpre (hc1.numbers _ _ hl1).1 hlt0, hp0] at hpat
      cases hpat
      omega


/-- Witness of C6 (amended) on `a = x * y; b = x * y; use a, b`: `b` is recorded for
replacement by `a` and is gone after the rewrite loop. -/
theorem exact_cse_witness :
    plainHost.noNames ∧ cseSample.ids.Nodup ∧
      match lvnScan plainHost LvnState.init cseSample with
      | .ok S => S.replace_table.lookup (.inst 2) = some (.inst 1) ∧
          2 ∉ (rewriteLoop S.replace_table cseSample).ids
      | .error _ => False := by
  obtain ⟨n1, n2, r, e, Sf, hnums, -, -, hscan, hlook, -, hgone, hcase⟩ :=
    exact_cse plainHost (fun _ => rfl) cseSample (by decide) [] [] [.other 3 [.inst 1, .inst 2]]
      1 2 .Mul .Mul (.arg 0) (.arg 1) (.arg 0) (.arg 1) rfl rfl LvnState.init cseSampleMid
      rfl rfl rfl
  have hn : operandNumbers plainHost cseSampleMid (.arg 0) (.arg 1) = (some 0, some 1) := rfl
  rw [hn] at hnums
  have e1 : n1 = 0 := by
    have := congrArg Prod.fst hnums
    simp at this
    exact this.symm
  have e2 : n2 = 1 := by
    have := congrArg Prod.snd hnums
    simp at this
    exact this.symm
  subst e1 e2
  have href : e.ref = .inst 1 := by
    rcases hcase with ⟨-, -, -, -, hnovel, -⟩ | ⟨-, hpat, hr⟩
    · exact hnovel rfl
    · exfalso
      have hp : pattern_func (canonicalize plainHost cseSampleMid (.arg 0) (.arg 1)).1.lvn_table
          .Mul 0 1 = some (-1) := rfl
      rw [hp] at hpat
      cases hpat
      omega
  rw [href] at hlook
  refine ⟨fun _ => rfl, by decide, ?_⟩
  rw [hscan]
  exact ⟨hlook, hgone⟩

/-- Witness of C10 on `a = x * y; b = x * y; use a, b`: the replacement value
`a` of `b` is not itself replaced, and no instruction uses `b` after the
rewrite loop. -/
theorem replacement_targets_survive_witness :
    plainHost.noNames ∧ cseSample.ids.Nodup ∧ cseSample.defBeforeUse ∧
      match lvnScan plainHost LvnState.init cseSample with
      | .ok S => S.replace_table.lookup (.inst 1) = none ∧
          ¬ usedIn (.inst 2) (rewriteLoop S.replace_table cseSample)
      | .error _ => False := by
  obtain ⟨S, hscan, -, hA, -, hC, hD⟩ :=
    replacement_targets_survive plainHost (fun _ => rfl) cseSample (by decide) rfl
  have hl : S.replace_table.lookup (.inst 2) = some (.inst 1) := by
    have h : (lvnScan plainHost LvnState.init cseSample).map
        (fun S => S.replace_table.lookup (.inst 2)) = .ok (some (.inst 1)) := rfl
    rw [hscan] at h
    injection h
  refine ⟨fun _ => rfl, by decide, rfl, ?_⟩
  rw [hscan]
  exact ⟨hA _ _ hl, hD 2 (by decide) (hC 2 _ hl).2⟩

/-- C6 (counterexample): in `t = q * p; a = p - q; b1 = a + q; b2 = a + q` the
instructions `b1` and `b2` have the same opcode name and the same operand
numbers `(3, 0)`, yet no table entry holds the key `("add", 3, 0)`: `b1` was
eliminated by the inverse pattern and got no entry, and `b2` is recorded for
replacement by `p`, the underlying value of entry 1, whose key is
`("assign", 0, 0)`. -/
theorem exact_cse_no_entry :
    (lvnScanBlock plainHost LvnState.init (inverseTwiceSample.insts.take 2)).map
      (fun S => operandNumbers plainHost S (.inst 1) (.arg 1)) = .ok (some 3, some 0) ∧
    (lvnScanBlock plainHost LvnState.init (inverseTwiceSample.insts.take 3)).map
      (fun S => operandNumbers plainHost S (.inst 1) (.arg 1)) = .ok (some 3, some 0) ∧
    (lvnScan plainHost LvnState.init inverseTwiceSample).map
      (fun S => (S.lvn_table.filter (fun e => e.value = ("add", 3, 0)),
        S.replace_table.lookup (.inst 3))) = .ok ([], some (.arg 0)) := by
  refine ⟨?_, ?_, ?_⟩ <;> rfl

theorem uniqueOpKeys_nil : uniqueOpKeys [] := by
  intro k1 k2 e1 e2 h1
  simp at h1

theorem uniqueOpKeys_append_operand {t t1 : List lvn_item} (h : uniqueOpKeys t)
    (ht : ∀ e ∈ t1, e.value.1 = "assign" ∨ e.value.1 = "constant") :
    uniqueOpKeys (t ++ t1) := by
  intro k1 k2 e1 e2 h1 h2 ha hc hv
  have key : ∀ (k : Nat) (e : lvn_item), (t ++ t1)[k]? = some e → e.value.1 ≠ "assign" →
      e.value.1 ≠ "constant" → t[k]? = some e := by
    intro k e hk ha hc
    by_cases hlt : k < t.length
    · rwa [List.getElem?_append_left hlt] at hk
    · rw [List.getElem?_append_right (by omega)] at hk
      have := ht e (List.getElem?_mem hk)
      rcases this with h | h
      · exact absurd h ha
      · exact absurd h hc
  exact h k1 k2 e1 e2 (key k1 e1 h1 ha hc) (key k2 e2 h2 (hv ▸ ha) (hv ▸ hc)) ha hc hv

theorem uniqueOpKeys_append_novel {t : List lvn_item} (h : uniqueOpKeys t) (x : lvn_item)
    (hx : ∀ e ∈ t, e.value ≠ x.value) : uniqueOpKeys (t ++ [x]) := by
  intro k1 k2 e1 e2 h1 h2 ha hc hv
  rcases getElem?_append_singleton t x k1 e1 h1 with g1 | ⟨g1, g1x⟩
  · rcases getElem?_append_singleton t x k2 e2 h2 with g2 | ⟨g2, g2x⟩
    · exact h k1 k2 e1 e2 g1 g2 ha hc hv
    · exact absurd (g2x ▸ hv) (hx e1 (List.getElem?_mem g1))
  · rcases getElem?_append_singleton t x k2 e2 h2 with g2 | ⟨g2, g2x⟩
    · exact absurd (g1x ▸ hv.symm) (hx e2 (List.getElem?_mem g2))
    · omega

theorem uniqueOpKeys_canonicalize {S : LvnState} (h : uniqueOpKeys S.lvn_table) (H : Host)
    (a b : Value) : uniqueOpKeys (canonicalize H S a b).1.lvn_table := by
  obtain ⟨t, ht, hall⟩ := (canonicalize_operandEntries H S a b).table
  rw [ht]
  exact uniqueOpKeys_append_operand h (fun e he => (hall e he).1)

theorem uniqueOpKeys_step {H : Host} {S S1 : LvnState} (hS : S.Bounded)
    (h : uniqueOpKeys S.lvn_table) {I : Inst} (hstep : lvnStep H S I = .ok S1) :
    uniqueOpKeys S1.lvn_table := by
  cases I with
  | other i ops =>
    simp only [lvnStep] at hstep
    cases hstep
    exact h
  | binary i op a b =>
    obtain ⟨n1, n2, -, -, hout⟩ := lvnStep_ok_outcome hS hstep
    have hc := uniqueOpKeys_canonicalize h H a b
    cases hout with
    | exact k e hcmp he hkey hfirst => exact hc
    | inverse r e0 e hcmp hnone hpat hr he0 hleft hright hop he => exact hc
    | novel r hcmp hnone hpat hr =>
      exact uniqueOpKeys_append_novel hc _ hnone

theorem uniqueOpKeys_of_scan {H : Host} {l : List Inst} {S : LvnState}
    (h : lvnScanBlock H LvnState.init l = .ok S) : uniqueOpKeys S.lvn_table := by
  refine @lvnScanBlock_invariant H l (fun _ S => uniqueOpKeys S.lvn_table) LvnState.init
    init_bounded uniqueOpKeys_nil ?_ l [] S (by simp) h
  intro front I back S S1 _ hS hP hstep
  exact uniqueOpKeys_step hS hP hstep

theorem lvnStep_in_bounds {H : Host} {S : LvnState} (hS : S.Bounded) (I : Inst) :
    lvnStep H S I ≠ .error .outOfBounds := by
  cases I with
  | other i ops => simp [lvnStep]
  | binary i op a b =>
    cases h1 : (canonicalize H S a b).1.hashmap.lookup (operandKey H a) with
    | none =>
      have hk := canonicalize_keys H S a b
      have : lvnStep H S (.binary i op a b) = .error .assertion := by
        simp only [lvnStep]
        rw [hk]
        simp only
        rw [h1]
      rw [this]
      simp
    | some n1 =>
      cases h2 : (canonicalize H S a b).1.hashmap.lookup (operandKey H b) with
      | none =>
        have hk := canonicalize_keys H S a b
        have : lvnStep H S (.binary i op a b) = .error .assertion := by
          simp only [lvnStep]
          rw [hk]
          simp only
          rw [h1, h2]
        rw [this]
        simp
      | some n2 =>
        obtain ⟨S1, hS1, -⟩ := lvnStep_outcome hS i op a b h1 h2
        rw [hS1]
        simp

theorem lvnScanBlock_in_bounds {H : Host} (l : List Inst) {S : LvnState} (hS : S.Bounded) :
    lvnScanBlock H S l ≠ .error .outOfBounds := by
  induction l generalizing S with
  | nil => simp [lvnScanBlock]
  | cons I rest ih =>
    simp only [lvnScanBlock]
    cases h : lvnStep H S I with
    | ok S1 => exact ih (lvnStep_bounded_extends hS h).1
    | error e =>
      intro he
      simp only at he
      injection he with he
      exact lvnStep_in_bounds hS I (by rw [h, he])

/-- C15: every state the scan reaches from the start is well formed (the counter
is the table length, the entry at index `i` has id `i`, every number of the
key-to-number map and both operand numbers of an entry made for an instruction
are indices of the table, the latter below the entry's own index), a step only
appends to the table and keeps the bindings of both maps, and no step reads the
table out of bounds: `pattern_func` finds `lvn_table[oper1]`, and the entry
`lvn_table[result]` of a recorded replacement exists. -/
theorem table_well_formed (H : Host) (front : List Inst) (S : LvnState)
    (h : lvnScanBlock H LvnState.init front = .ok S) :
    S.Bounded ∧ LvnState.init.Extends S ∧
    (∀ (I : Inst), lvnStep H S I ≠ .error .outOfBounds ∧
      ∀ S1, lvnStep H S I = .ok S1 → S1.Bounded ∧ S.Extends S1) ∧
    (∀ (l : List Inst), lvnScanBlock H S l ≠ .error .outOfBounds) ∧
    ∀ (op : BinaryOps) (a b : Value) (n1 n2 : Int),
      operandNumbers H S a b = (some n1, some n2) →
      (pattern_func (canonicalize H S a b).1.lvn_table op n1 n2).isSome = true ∧
      (∀ result, 0 ≤ result →
        compare_func (canonicalize H S a b).1.lvn_table (getOpcodeName op, n1, n2) = result →
        (tableAt (canonicalize H S a b).1.lvn_table result).isSome = true) ∧
      (∀ result, 0 < result →
        pattern_func (canonicalize H S a b).1.lvn_table op n1 n2 = some result →
        (tableAt (canonicalize H S a b).1.lvn_table result).isSome = true) := by
  have hb := lvnScanBlock_bounded_extends init_bounded h
  refine ⟨hb.1, hb.2, fun I => ⟨lvnStep_in_bounds hb.1 I, fun S1 h1 =>
    lvnStep_bounded_extends hb.1 h1⟩, fun l => lvnScanBlock_in_bounds l hb.1, ?_⟩
  intro op a b n1 n2 hnum
  rw [operandNumbers_eq] at hnum
  have h1 : (canonicalize H S a b).1.hashmap.lookup (operandKey H a) = some n1 :=
    congrArg Prod.fst hnum
  have h2 : (canonicalize H S a b).1.hashmap.lookup (operandKey H b) = some n2 :=
    congrArg Prod.snd hnum
  have hc : (canonicalize H S a b).1.Bounded := (canonicalize_operandEntries H S a b).bounded hb.1
  have hn1 := hc.numbers _ _ h1
  obtain ⟨r, hr, hpos⟩ := pattern_func_spec hn1.1 hn1.2 op n2
  refine ⟨by rw [hr]; rfl, ?_, ?_⟩
  · intro result h0 hcmp
    rcases compare_func_spec (canonicalize H S a b).1.lvn_table (getOpcodeName op, n1, n2)
      with ⟨hm, -⟩ | ⟨k, hk, hck, -, -⟩
    · rw [hm] at hcmp
      omega
    · rw [hck] at hcmp
      subst hcmp
      obtain ⟨e, he, -⟩ := tableAt_of_lt (t := (canonicalize H S a b).1.lvn_table)
        (r := (k : Int)) (by omega) (by omega)
      rw [he]
      rfl
  · intro result h0 hp
    rw [hr] at hp
    injection hp with hp
    subst hp
    obtain ⟨e0, he0, hleft, -, hop⟩ := hpos h0
    obtain ⟨hge, hget⟩ := tableAt_eq_some he0
    have hops := hc.operands _ _ hget
    have hlt := lt_length_of_getElem? hget
    rcases hops with ht | ht | ⟨g1, g2, -, -⟩
    · rcases hop with ⟨-, hs⟩ | ⟨-, hs⟩ <;> rw [hs] at ht <;> exact absurd ht (by decide)
    · rcases hop with ⟨-, hs⟩ | ⟨-, hs⟩ <;> rw [hs] at ht <;> exact absurd ht (by decide)
    · obtain ⟨e, he, -⟩ := tableAt_of_lt (t := (canonicalize H S a b).1.lvn_table)
        (r := e0.value.2.1) g1 (by omega)
      rw [← hleft, he]
      rfl

/-- Witness of C15 on `a = x * y; b = x * y; use a, b`: the state after the
whole scan is well formed. -/
theorem table_well_formed_witness :
    ∃ S, lvnScanBlock plainHost LvnState.init cseSample.insts = .ok S ∧ S.Bounded := by
  have h : ∃ S, lvnScanBlock plainHost LvnState.init cseSample.insts = .ok S :=
    lvnScanBlock_ok_of_noNames (fun _ => rfl) _ init_bounded
  obtain ⟨S, hS⟩ := h
  exact ⟨S, hS, (table_well_formed plainHost cseSample.insts S hS).1⟩

/-- C20: at every point of the scan of a function without names (after the
instructions `front`, whatever follows), no two table
entries made for instructions (tag neither "assign" nor "constant") have the
same key, also once the operands of the next instruction are canonicalized; so
the exact-match lookup has at most one candidate: an entry that holds the key
of the instruction is the one `compare_func` returns. -/
theorem operation_keys_unique (H : Host) (hH : H.noNames) (front : List Inst) :
    ∃ S, lvnScanBlock H LvnState.init front = .ok S ∧ uniqueOpKeys S.lvn_table ∧
      ∀ (op : BinaryOps) (a b : Value) (n1 n2 : Int),
        uniqueOpKeys (canonicalize H S a b).1.lvn_table ∧
        ∀ (k : Nat) (e : lvn_item), (canonicalize H S a b).1.lvn_table[k]? = some e →
          e.value = (getOpcodeName op, n1, n2) →
          compare_func (canonicalize H S a b).1.lvn_table (getOpcodeName op, n1, n2) = k := by
  obtain ⟨S, hS⟩ := lvnScanBlock_ok_of_noNames hH front init_bounded
  have hu := uniqueOpKeys_of_scan hS
  refine ⟨S, hS, hu, fun op a b n1 n2 => ⟨uniqueOpKeys_canonicalize hu H a b, ?_⟩⟩
  intro k e he hv
  rcases compare_func_spec (canonicalize H S a b).1.lvn_table (getOpcodeName op, n1, n2)
    with ⟨-, hnone⟩ | ⟨k0, -, hck, ⟨e0, he0, hv0⟩, -⟩
  · exact absurd hv (hnone e (List.getElem?_mem he))
  · rw [hck]
    have ha : e0.value.1 ≠ "assign" := by rw [hv0]; exact getOpcodeName_ne_assign op
    have hc : e0.value.1 ≠ "constant" := by rw [hv0]; exact getOpcodeName_ne_constant op
    have := uniqueOpKeys_canonicalize hu H a b k0 k e0 e he0 he ha hc (hv0.trans hv.symm)
    rw [this]

/-- Witness of C20 on `a = x * y; b = x * y; use a, b`, at the end of the
scan. -/
theorem operation_keys_unique_witness :
    plainHost.noNames ∧
      ∃ S, lvnScanBlock plainHost LvnState.init cseSample.insts = .ok S ∧
        uniqueOpKeys S.lvn_table := by
  obtain ⟨S, hS, hu, -⟩ :=
    operation_keys_unique plainHost (fun _ => rfl) cseSample.insts
  exact ⟨fun _ => rfl, S, hS, hu⟩

theorem keyOf_binary {H : Host} {S : LvnState} {j : Nat} {op : BinaryOps} {a b : Value}
    {n1 n2 : Int} (h : operandNumbers H S a b = (some n1, some n2)) :
    keyOf H S (.binary j op a b) = some (getOpcodeName op, n1, n2) := by
  simp only [keyOf, h]

theorem keyOf_eq_some {H : Host} {S : LvnState} {J : Inst} {K : String × Int × Int}
    (h : keyOf H S J = some K) :
    ∃ j op a b, J = .binary j op a b ∧
      operandNumbers H S a b = (some K.2.1, some K.2.2) ∧ K.1 = getOpcodeName op := by
  cases J with
  | other i ops => simp [keyOf] at h
  | binary j op a b =>
    refine ⟨j, op, a, b, rfl, ?_⟩
    simp only [keyOf] at h
    rcases hn : operandNumbers H S a b with ⟨o1, o2⟩
    rw [hn] at h
    cases o1 with
    | none => simp at h
    | some n1 =>
      cases o2 with
      | none => simp at h
      | some n2 =>
        simp only [Option.some.injEq] at h
        subst h
        exact ⟨rfl, rfl⟩

theorem entryOrigin_mono {H : Host} {seen : List Inst} {k : Nat} {e : lvn_item}
    {f1 : List Inst} {j : Nat} {op : BinaryOps} {a b : Value} {SJ : LvnState}
    (h : EntryOrigin H seen k e f1 j op a b SJ) (I : Inst) :
    EntryOrigin H (seen ++ [I]) k e f1 j op a b SJ := by
  obtain ⟨f2, hf2⟩ := h.split
  exact ⟨⟨f2 ++ [I], by rw [hf2]; simp⟩, h.ref, h.scan, h.key, h.index, h.fresh, h.pattern⟩

theorem entriesTraced_init (H : Host) : entriesTraced H [] LvnState.init := by
  intro k e he
  simp [LvnState.init] at he

theorem entriesTraced_step {H : Host} {front : List Inst} {S S1 : LvnState} (hS : S.Bounded)
    (hscan : lvnScanBlock H LvnState.init front = .ok S)
    (h : entriesTraced H front S) {I : Inst} (hstep : lvnStep H S I = .ok S1) :
    entriesTraced H (front ++ [I]) S1 := by
  have old : ∀ (k : Nat) (e : lvn_item), S.lvn_table[k]? = some e → e.value.1 ≠ "assign" →
      e.value.1 ≠ "constant" →
      ∃ f1 j op a b SJ, EntryOrigin H (front ++ [I]) k e f1 j op a b SJ := by
    intro k e he ha hc
    obtain ⟨f1, j, op, a, b, SJ, ho⟩ := h k e he ha hc
    exact ⟨f1, j, op, a, b, SJ, entryOrigin_mono ho I⟩
  cases I with
  | other i ops =>
    simp only [lvnStep] at hstep
    cases hstep
    exact old
  | binary i op a b =>
    obtain ⟨n1, n2, hl1, hl2, hout⟩ := lvnStep_ok_outcome hS hstep
    have hnum : operandNumbers H S a b = (some n1, some n2) := by
      rw [operandNumbers_eq, hl1, hl2]
    have viaC : ∀ (k : Nat) (e : lvn_item), (canonicalize H S a b).1.lvn_table[k]? = some e →
        e.value.1 ≠ "assign" → e.value.1 ≠ "constant" →
        ∃ f1 j op1 a1 b1 SJ, EntryOrigin H (front ++ [Inst.binary i op a b]) k e f1 j op1 a1 b1 SJ :=
      fun k e he ha hc => old k e (entry_before_canonicalize he ha hc) ha hc
    cases hout with
    | exact k0 e0 hcmp he0 hkey hfirst => exact viaC
    | inverse r e0 e hcmp hnone hpat hr he0 hleft hright hop he => exact viaC
    | novel r hcmp hnone hpat hr =>
      intro k e he ha hc
      rcases getElem?_append_singleton _ _ k e he with g | ⟨gk, ge⟩
      · exact viaC k e g ha hc
      · refine ⟨front, i, op, a, b, S, ⟨[], rfl⟩, ?_, hscan, ?_, gk.symm, ?_, ⟨r, hr, ?_⟩⟩
        · rw [ge]
        · rw [ge]; exact keyOf_binary hnum
        · rw [ge]; exact hnone
        · rw [ge]; exact hpat

theorem entriesTraced_of_scan {H : Host} {l : List Inst} {S : LvnState}
    (h : lvnScanBlock H LvnState.init l = .ok S) : entriesTraced H l S := by
  have := @lvnScanBlock_invariant H l
    (fun front S => lvnScanBlock H LvnState.init front = .ok S ∧ entriesTraced H front S)
    LvnState.init init_bounded ⟨rfl, entriesTraced_init H⟩ ?_ l [] S (by simp) h
  · exact this.2
  · intro front I back S S1 _ hS hP hstep
    refine ⟨?_, entriesTraced_step hS hP.1 hP.2 hstep⟩
    rw [lvnScanBlock_snoc, hP.1]
    exact hstep

theorem entriesTraced_canonicalize {H : Host} {seen : List Inst} {S : LvnState}
    (h : entriesTraced H seen S) (a b : Value) :
    entriesTraced H seen (canonicalize H S a b).1 :=
  fun k e he ha hc => h k e (entry_before_canonicalize he ha hc) ha hc

/-- An instruction scanned with the key `K` leaves a trace that every later
table shows: an entry with the key `K`, or a positive result of `pattern_func`
for `K`. -/
theorem source_persists {H : Host} {S S1 : LvnState} (hS : S.Bounded) {j : Nat}
    {op : BinaryOps} {a b : Value} {n1 n2 : Int}
    (hnum : operandNumbers H S a b = (some n1, some n2))
    (hstep : lvnStep H S (.binary j op a b) = .ok S1) {t : List lvn_item}
    (ht : S1.lvn_table <+: t) :
    (∃ e ∈ t, e.value = (getOpcodeName op, n1, n2)) ∨
    (∃ r, 0 < r ∧ pattern_func t op n1 n2 = some r) := by
  obtain ⟨m1, m2, hl1, hl2, hout⟩ := lvnStep_ok_outcome hS hstep
  rw [operandNumbers_eq, hl1, hl2] at hnum
  have e1 : m1 = n1 := by have := congrArg Prod.fst hnum; simpa using this
  have e2 : m2 = n2 := by have := congrArg Prod.snd hnum; simpa using this
  subst e1 e2
  have hc := (canonicalize_operandEntries H S a b).bounded hS
  have hn := hc.numbers _ _ hl1
  rcases outcome_source hn hout with ⟨e, he, hk⟩ | ⟨r, hr, hp, hlt⟩
  · exact Or.inl ⟨e, ht.subset he, hk⟩
  · exact Or.inr ⟨r, hr, by rw [pattern_func_of_extension ht hn.1 hlt]; exact hp⟩

/-- C11: `compare_func` returns the least index whose entry has the candidate
key, and -1 exactly when no entry has it (for every table and key). Hence, when
the scan meets a binary instruction `i` whose key `K` some entry has, `i` is
recorded for replacement by the underlying value of the first such entry, and
that value is the earliest instruction in program order scanned with the key
`K`: it was scanned with `K`, and no instruction before it was. -/
theorem first_match_wins (H : Host) (front : List Inst) (i : Nat) (op : BinaryOps)
    (a b : Value) (S : LvnState) (n1 n2 : Int)
    (hscan : lvnScanBlock H LvnState.init front = .ok S)
    (hnum : operandNumbers H S a b = (some n1, some n2)) :
    (∀ (t : List lvn_item) (tp : String × Int × Int),
      (compare_func t tp = -1 ↔ ∀ e ∈ t, e.value ≠ tp) ∧
      (∀ k : Nat, compare_func t tp = k ↔
        ((∃ e, t[k]? = some e ∧ e.value = tp) ∧
          ∀ k1 : Nat, k1 < k → ∀ e1, t[k1]? = some e1 → e1.value ≠ tp)) ∧
      (compare_func t tp = -1 ∨ ∃ k : Nat, k < t.length ∧ compare_func t tp = k)) ∧
    ∀ k : Nat,
      compare_func (canonicalize H S a b).1.lvn_table (getOpcodeName op, n1, n2) = k →
      ∃ e, (canonicalize H S a b).1.lvn_table[k]? = some e ∧
        lvnStep H S (.binary i op a b) = .ok (recorded H (canonicalize H S a b).1 i k e) ∧
        ∃ f1 f2 j opJ aJ bJ SJ, front = f1 ++ Inst.binary j opJ aJ bJ :: f2 ∧
          e.ref = Value.inst j ∧ lvnScanBlock H LvnState.init f1 = .ok SJ ∧
          keyOf H SJ (.binary j opJ aJ bJ) = some (getOpcodeName op, n1, n2) ∧
          ∀ g1 J g2 S0, f1 = g1 ++ J :: g2 → lvnScanBlock H LvnState.init g1 = .ok S0 →
            keyOf H S0 J ≠ some (getOpcodeName op, n1, n2) := by
  constructor
  · intro t tp
    rcases compare_func_spec t tp with ⟨hm, hnone⟩ | ⟨k, hk, hck, ⟨e, he, hv⟩, hfirst⟩
    · refine ⟨⟨fun _ => hnone, fun _ => hm⟩, ?_, Or.inl hm⟩
      intro k
      constructor
      · intro h
        rw [hm] at h
        omega
      · rintro ⟨⟨e, he, hv⟩, -⟩
        exact absurd hv (hnone e (List.getElem?_mem he))
    · refine ⟨⟨?_, ?_⟩, ?_, Or.inr ⟨k, hk, hck⟩⟩
      · intro h
        rw [hck] at h
        omega
      · intro h
        exact absurd hv (h e (List.getElem?_mem he))
      · intro k0
        constructor
        · intro h
          rw [hck] at h
          have : k = k0 := by omega
          subst this
          exact ⟨⟨e, he, hv⟩, hfirst⟩
        · rintro ⟨⟨e0, he0, hv0⟩, hfirst0⟩
          rw [hck]
          rcases Nat.lt_trichotomy k k0 with hlt | heq | hgt
          · exact absurd hv (hfirst0 k hlt e he)
          · rw [heq]
          · exact absurd hv0 (hfirst k0 hgt e0 he0)
  · intro k hk
    have hb := (lvnScanBlock_bounded_extends init_bounded hscan).1
    have hnum1 := hnum
    rw [operandNumbers_eq] at hnum1
    have h1 : (canonicalize H S a b).1.hashmap.lookup (operandKey H a) = some n1 :=
      congrArg Prod.fst hnum1
    have h2 : (canonicalize H S a b).1.hashmap.lookup (operandKey H b) = some n2 :=
      congrArg Prod.snd hnum1
    obtain ⟨S1, hstep, hout⟩ := lvnStep_outcome hb i op a b h1 h2
    have htr := entriesTraced_canonicalize (entriesTraced_of_scan hscan) a b
    cases hout with
    | inverse r e0 e hcmp hnone hpat hr he0 hleft hright hop he =>
      rw [hcmp] at hk
      omega
    | novel r hcmp hnone hpat hr =>
      rw [hcmp] at hk
      omega
    | exact k0 e hcmp he hkey hfirst =>
      have hkk : k0 = k := by
        rw [hcmp] at hk
        omega
      subst hkk
      refine ⟨e, he, hstep, ?_⟩
      have ha : e.value.1 ≠ "assign" := by rw [hkey]; exact getOpcodeName_ne_assign op
      have hc : e.value.1 ≠ "constant" := by rw [hkey]; exact getOpcodeName_ne_constant op
      obtain ⟨f1, j, opJ, aJ, bJ, SJ, ho⟩ := htr k0 e he ha hc
      obtain ⟨f2, hf2⟩ := ho.split
      refine ⟨f1, f2, j, opJ, aJ, bJ, SJ, hf2, ho.ref, ho.scan, by rw [ho.key, hkey], ?_⟩
      intro g1 J g2 S0 hg hS0 hkey0
      obtain ⟨j0, op0, a0, b0, hJ, hnum0, hop0⟩ := keyOf_eq_some hkey0
      simp only at hnum0 hop0
      have hopeq : op0 = op := (getOpcodeName_injective hop0).symm
      subst hJ
      subst hopeq
      have hsJ := ho.scan
      rw [hg] at hsJ
      obtain ⟨T1, T2, ht1, hstep0, ht2⟩ := lvnScanBlock_split hsJ
      have := lvnScanBlock_deterministic ht1 hS0
      subst this
      have hb0 := (lvnScanBlock_bounded_extends init_bounded hS0).1
      have hb2 := (lvnStep_bounded_extends hb0 hstep0).1
      have hext := (lvnScanBlock_bounded_extends hb2 ht2).2
      have hpre : T2.lvn_table <+: (canonicalize H SJ aJ bJ).1.lvn_table :=
        hext.table.trans (operandEntries_extends (canonicalize_operandEntries H SJ aJ bJ)).table
      obtain ⟨jj, opj, aj, bj, hJeq, -, hopj⟩ := keyOf_eq_some ho.key
      cases hJeq
      rw [hkey] at hopj
      simp only at hopj
      have hopJ : op0 = opJ := getOpcodeName_injective hopj
      subst hopJ
      rcases source_persists hb0 hnum0 hstep0 hpre with ⟨e1, he1, hv1⟩ | ⟨r, hr, hp⟩
      · exact ho.fresh e1 he1 (by rw [hv1, hkey])
      · obtain ⟨r0, hr0, hp0⟩ := ho.pattern
        rw [hkey] at hp0
        simp only at hp0
        rw [hp] at hp0
        cases hp0
        omega

/-- Witness of C11 on three instructions `x * y` in a row: the third is recorded
for replacement by the first, the earliest instruction with the key. -/
theorem first_match_wins_witness :
    lvnScanBlock plainHost LvnState.init (cseBlocksSample.insts.take 2) = .ok cseBlocksMid ∧
    operandNumbers plainHost cseBlocksMid (.arg 0) (.arg 1) = (some 0, some 1) ∧
    ∃ e, lvnStep plainHost cseBlocksMid (.binary 3 .Mul (.arg 0) (.arg 1)) =
        .ok (recorded plainHost (canonicalize plainHost cseBlocksMid (.arg 0) (.arg 1)).1 3 2 e) ∧
      e.ref = .inst 1 := by
  obtain ⟨e, he, hstep, -⟩ :=
    (first_match_wins plainHost (cseBlocksSample.insts.take 2) 3 .Mul (.arg 0) (.arg 1)
      cseBlocksMid 0 1 rfl rfl).2 2 rfl
  have h2 : (canonicalize plainHost cseBlocksMid (.arg 0) (.arg 1)).1.lvn_table[2]? =
      some ⟨2, ("mul", 0, 1), .inst 1⟩ := rfl
  rw [h2] at he
  injection he with he
  exact ⟨rfl, rfl, e, hstep, by rw [← he]⟩

/-- An instruction recorded for replacement when it is scanned has that
replacement in the map the scan ends with, and is gone after the rewrite
loop. -/
theorem recorded_final {H : Host} {F : Function} (hnd : F.ids.Nodup) {front back : List Inst}
    {i : Nat} {op : BinaryOps} {a b : Value} {S Sf : LvnState} {r : Int} {e : lvn_item}
    (hF : F.insts = front ++ Inst.binary i op a b :: back)
    (hS : lvnScanBlock H LvnState.init front = .ok S)
    (hstep : lvnStep H S (.binary i op a b) = .ok (recorded H (canonicalize H S a b).1 i r e))
    (hSf : lvnScan H LvnState.init F = .ok Sf) :
    Sf.replace_table.lookup (.inst i) = some e.ref ∧
      i ∉ (rewriteLoop Sf.replace_table F).ids := by
  rw [lvnScan_eq_insts, hF] at hSf
  obtain ⟨T1, T2, ht1, hstep2, ht2⟩ := lvnScanBlock_split hSf
  have := lvnScanBlock_deterministic ht1 hS
  subst this
  rw [hstep] at hstep2
  cases hstep2
  have hb := (lvnScanBlock_bounded_extends init_bounded hS).1
  have hb2 := (lvnStep_bounded_extends hb hstep).1
  have hext := (lvnScanBlock_bounded_extends hb2 ht2).2
  have hop : OpInv front T1 := opInv_of_scan hnd hF hS
  have hi : i ∉ front.map Inst.id := not_mem_front_of_nodup hnd hF
  have hv : Sf.replace_table.lookup (.inst i) = some e.ref := by
    apply hext.replace
    simp only [recorded, (canonicalize_operandEntries H T1 a b).replace]
    exact lookup_mapInsert_self (opInv_lookup_none hop hi)
  exact ⟨hv, (rewriteLoop_recorded hnd hF hv).1⟩

/-- An instruction scanned with the key of an earlier instruction that was novel
is recorded for replacement by that instruction. -/
theorem novel_source_recorded {H : Host} {l1 l2 : List Inst} {i1 i2 : Nat} {op : BinaryOps}
    {a1 b1 a2 b2 : Value} {S1 S2 : LvnState} {n1 n2 : Int}
    (hS1 : lvnScanBlock H LvnState.init l1 = .ok S1)
    (hnum1 : operandNumbers H S1 a1 b1 = (some n1, some n2))
    (hnovel : lvnStep H S1 (.binary i1 op a1 b1) =
      .ok (insert_lvn (canonicalize H S1 a1 b1).1 (toString (H.addr (.inst i1)))
        (getOpcodeName op) n1 n2 (.inst i1)))
    (hS2 : lvnScanBlock H LvnState.init (l1 ++ Inst.binary i1 op a1 b1 :: l2) = .ok S2)
    (hnum2 : operandNumbers H S2 a2 b2 = (some n1, some n2)) :
    ∃ (k : Nat) (e : lvn_item), (canonicalize H S2 a2 b2).1.lvn_table[k]? = some e ∧
      e.ref = Value.inst i1 ∧ e.value = (getOpcodeName op, n1, n2) ∧
      compare_func (canonicalize H S2 a2 b2).1.lvn_table (getOpcodeName op, n1, n2) = k ∧
      lvnStep H S2 (.binary i2 op a2 b2) =
        .ok (recorded H (canonicalize H S2 a2 b2).1 i2 k e) := by
  have hb1 := (lvnScanBlock_bounded_extends init_bounded hS1).1
  obtain ⟨T1, T2, ht1, hstep1, ht2⟩ := lvnScanBlock_split hS2
  have := lvnScanBlock_deterministic ht1 hS1
  subst this
  rw [hnovel] at hstep1
  cases hstep1
  have hb1b := (lvnStep_bounded_extends hb1 hnovel).1
  obtain ⟨hb2, hext⟩ := lvnScanBlock_bounded_extends hb1b ht2
  have hpre : (insert_lvn (canonicalize H T1 a1 b1).1 (toString (H.addr (.inst i1)))
      (getOpcodeName op) n1 n2 (.inst i1)).lvn_table <+: (canonicalize H S2 a2 b2).1.lvn_table :=
    hext.table.trans (operandEntries_extends (canonicalize_operandEntries H S2 a2 b2)).table
  -- the first instruction was novel
  obtain ⟨m1, m2, hl1, hl2, hout1⟩ := lvnStep_ok_outcome hb1 hnovel
  rw [operandNumbers_eq, hl1, hl2] at hnum1
  have e1 : m1 = n1 := by have := congrArg Prod.fst hnum1; simpa using this
  have e2 : m2 = n2 := by have := congrArg Prod.snd hnum1; simpa using this
  subst e1 e2
  have hnone1 : ∀ e ∈ (canonicalize H T1 a1 b1).1.lvn_table,
      e.value ≠ (getOpcodeName op, m1, m2) := by
    generalize hX : insert_lvn (canonicalize H T1 a1 b1).1 (toString (H.addr (.inst i1)))
      (getOpcodeName op) m1 m2 (.inst i1) = X at hout1
    cases hout1 with
    | exact k0 e0 _ _ _ _ => exact absurd hX.symm (recorded_ne_insert_lvn _ _ _ _ _ _ _ _ _ _)
    | inverse r0 e00 e0 _ _ _ _ _ _ _ _ _ =>
      exact absurd hX.symm (recorded_ne_insert_lvn _ _ _ _ _ _ _ _ _ _)
    | novel r0 hcmp0 hnone0 hpat0 hr0 => exact hnone0
  -- the second instruction
  rw [operandNumbers_eq] at hnum2
  have g1 : (canonicalize H S2 a2 b2).1.hashmap.lookup (operandKey H a2) = some m1 :=
    congrArg Prod.fst hnum2
  have g2 : (canonicalize H S2 a2 b2).1.hashmap.lookup (operandKey H b2) = some m2 :=
    congrArg Prod.snd hnum2
  obtain ⟨S2b, hstep2, hout2⟩ := lvnStep_outcome hb2 i2 op a2 b2 g1 g2
  have hx : (⟨(canonicalize H T1 a1 b1).1.lvn_counter, (getOpcodeName op, m1, m2),
      .inst i1⟩ : lvn_item) ∈ (canonicalize H S2 a2 b2).1.lvn_table := by
    apply hpre.subset
    simp [insert_lvn]
  cases hout2 with
  | exact k e hcmp he hkey hfirst =>
    have hxe := first_entry_eq (x := ⟨(canonicalize H T1 a1 b1).1.lvn_counter,
      (getOpcodeName op, m1, m2), .inst i1⟩) hpre hnone1 rfl he hkey hfirst
    exact ⟨k, e, he, by rw [hxe], hkey, hcmp, hstep2⟩
  | inverse r e0 e hcmp hnone hpat hr he0 hleft hright hop he =>
    exact absurd rfl (hnone _ hx)
  | novel r hcmp hnone hpat hr =>
    exact absurd rfl (hnone _ hx)

theorem peepholeVisit_of_not_candidate {S : PeepState}
    (h : ∀ I ∈ S.fn.insts, peepholeCandidate I = false) (j : Nat) : peepholeVisit S j = S := by
  unfold peepholeVisit
  cases hf : findInst S.fn j with
  | none => rfl
  | some I =>
    cases I with
    | other i ops => rfl
    | binary i op a b =>
      have hc := h _ (findInst_some hf).2
      simp only [peepholeCandidate, Bool.or_eq_false_iff, Bool.and_eq_false_iff] at hc
      obtain ⟨hadd, hmul⟩ := hc
      have c1 : (decide (op = .Add) && (isZeroValue b || isZeroValue a)) = false := by
        rcases hadd with h1 | ⟨h1, h2⟩
        · simp [h1]
        · simp [h1, h2]
      have c3 : (decide (op = .Mul) && (isConstantInt a || isConstantInt b)) = false := by
        rcases hmul with h1 | ⟨h1, h2⟩
        · simp [h1]
        · simp [h1, h2]
      have c2 : (decide (op = .Mul) && (isOneValue a || isOneValue b)) = false := by
        rcases hmul with h1 | ⟨h1, h2⟩
        · simp [h1]
        · have ha : isOneValue a = false := by
            cases hx : isOneValue a with
            | false => rfl
            | true => rw [isConstantInt_of_isOneValue hx] at h1; cases h1
          have hb : isOneValue b = false := by
            cases hx : isOneValue b with
            | false => rfl
            | true => rw [isConstantInt_of_isOneValue hx] at h2; cases h2
          simp [ha, hb]
      simp only [c1, c2, c3]
      rfl

theorem peepholeScan_of_not_candidate (ids : List Nat) {S : PeepState}
    (h : ∀ I ∈ S.fn.insts, peepholeCandidate I = false) : peepholeScan S ids = S := by
  induction ids with
  | nil => rfl
  | cons j rest ih =>
    rw [peepholeScan_cons, peepholeVisit_of_not_candidate h j]
    exact ih

theorem peephole_of_not_candidate {F : Function}
    (h : ∀ I ∈ F.insts, peepholeCandidate I = false) : peephole F = F := by
  unfold peephole
  rw [peepholeScan_of_not_candidate F.ids (S := ⟨F, freshId F⟩) h]

theorem rewriteVisit_nil (G : Function) (j : Nat) : rewriteVisit [] G j = G := by
  unfold rewriteVisit
  cases findInst G j with
  | none => rfl
  | some I => cases I <;> rfl

theorem rewriteLoop_nil (F : Function) : rewriteLoop [] F = F := by
  unfold rewriteLoop
  generalize F.ids = ids
  induction ids with
  | nil => rfl
  | cons j rest ih => rw [List.foldl_cons, rewriteVisit_nil]; exact ih

theorem tableAt_before_canonicalize {H : Host} {S : LvnState} {a b : Value} {n : Int}
    {e : lvn_item} (he : tableAt (canonicalize H S a b).1.lvn_table n = some e)
    (h1 : e.value.1 ≠ "assign") (h2 : e.value.1 ≠ "constant") :
    tableAt S.lvn_table n = some e := by
  obtain ⟨h0, hget⟩ := tableAt_eq_some he
  have := entry_before_canonicalize hget h1 h2
  unfold tableAt
  rw [if_pos h0]
  exact this

/-- The scan records no replacement as long as no instruction repeats an
earlier key or closes an inverse pair. -/
theorem nothing_recorded {H : Host} {all : List Inst}
    (hlvn : ∀ front I back S, all = front ++ I :: back →
      lvnScanBlock H LvnState.init front = .ok S →
      ¬ repeatsEarlierKey H front S I ∧ ¬ closesInversePair H front S I)
    {S : LvnState} (h : lvnScanBlock H LvnState.init all = .ok S) : S.replace_table = [] := by
  have := @lvnScanBlock_invariant H all
    (fun front S => lvnScanBlock H LvnState.init front = .ok S ∧ S.replace_table = [])
    LvnState.init init_bounded ⟨rfl, rfl⟩ ?_ all [] S (by simp) h
  · exact this.2
  · intro front I back S S1 hall hS hP hstep
    obtain ⟨hscan, hrep⟩ := hP
    refine ⟨by rw [lvnScanBlock_snoc, hscan]; exact hstep, ?_⟩
    obtain ⟨hnr, hnc⟩ := hlvn front I back S hall hscan
    cases I with
    | other i ops =>
      simp only [lvnStep] at hstep
      cases hstep
      exact hrep
    | binary i op a b =>
      obtain ⟨n1, n2, hl1, hl2, hout⟩ := lvnStep_ok_outcome hS hstep
      have hnum : operandNumbers H S a b = (some n1, some n2) := by
        rw [operandNumbers_eq, hl1, hl2]
      have htr := entriesTraced_of_scan hscan
      cases hout with
      | exact k e hcmp he hkey hfirst =>
        exfalso
        apply hnr
        have ha : e.value.1 ≠ "assign" := by rw [hkey]; exact getOpcodeName_ne_assign op
        have hc : e.value.1 ≠ "constant" := by rw [hkey]; exact getOpcodeName_ne_constant op
        obtain ⟨f1, j, opJ, p, q, SJ, ho⟩ := htr k e (entry_before_canonicalize he ha hc) ha hc
        obtain ⟨f2, hf2⟩ := ho.split
        exact ⟨f1, _, f2, SJ, e.value, hf2, ho.scan, ho.key, by rw [hkey]; exact keyOf_binary hnum⟩
      | inverse r e0 e hcmp hnone hpat hr he0 hleft hright hop he =>
        exfalso
        apply hnc
        have ha : e0.value.1 ≠ "assign" := by
          rcases hop with ⟨-, hs⟩ | ⟨-, hs⟩ <;> rw [hs] <;> decide
        have hc : e0.value.1 ≠ "constant" := by
          rcases hop with ⟨-, hs⟩ | ⟨-, hs⟩ <;> rw [hs] <;> decide
        have he0S := tableAt_before_canonicalize he0 ha hc
        obtain ⟨h0, hget⟩ := tableAt_eq_some he0S
        obtain ⟨f1, j, opJ, p, q, SJ, ho⟩ := htr _ e0 hget ha hc
        obtain ⟨jj, opj, aj, bj, hJeq, -, hopj⟩ := keyOf_eq_some ho.key
        cases hJeq
        refine ⟨n1, n2, e0, f1, j, opJ, p, q, SJ, hnum, he0S, ho, ?_, hright⟩
        rcases hop with ⟨h1, hs⟩ | ⟨h1, hs⟩
        · left
          refine ⟨h1, ?_⟩
          rw [hs] at hopj
          exact (@getOpcodeName_injective .Sub opJ hopj).symm
        · right
          refine ⟨h1, ?_⟩
          rw [hs] at hopj
          exact (@getOpcodeName_injective .Add opJ hopj).symm
      | novel r hcmp hnone hpat hr =>
        simp only [insert_lvn, (canonicalize_operandEntries H S a b).replace]
        exact hrep

theorem canonicalize_eq_handled (H : Host) (S : LvnState) (a b : Value) :
    (canonicalize H S a b).1 =
      (constant_handle (firstHandled H S a b)
        (register_handle H (register_handle H S (getName H a) a).1 (getName H b) b).2 b).1 := rfl

theorem registered_bounded {H : Host} {S : LvnState} (hS : S.Bounded) (a b : Value) :
    (registered H S a b).Bounded :=
  (register_handle_operandEntries H a b _ _ b (Or.inr rfl)).bounded
    ((register_handle_operandEntries H a b S _ a (Or.inl rfl)).bounded hS)

theorem firstHandled_bounded {H : Host} {S : LvnState} (hS : S.Bounded) (a b : Value) :
    (firstHandled H S a b).Bounded :=
  (constant_handle_operandEntries H a b _ _ a (Or.inl rfl)).bounded (registered_bounded hS a b)

theorem constant_handle_fresh {T : LvnState} (oper : String) (w bits : Nat)
    (h : T.hashmap.lookup (toString (toInt32 (getSExtValue w bits))) = none) :
    (constant_handle T oper (.const w bits)).1 =
      insert_lvn T (toString (toInt32 (getSExtValue w bits))) "constant"
        (toInt32 (getSExtValue w bits)) (toInt32 (getSExtValue w bits)) (.const w bits) := by
  simp only [constant_handle, h]

theorem constant_handle_seen {T : LvnState} (oper : String) (w bits : Nat) {n : Int}
    (h : T.hashmap.lookup (toString (toInt32 (getSExtValue w bits))) = some n) :
    (constant_handle T oper (.const w bits)).1 = T := by
  simp only [constant_handle, h]

theorem register_handle_fresh {H : Host} {T : LvnState} (v : Value)
    (h : T.hashmap.lookup (toString (H.addr v)) = none) :
    (register_handle H T "" v).1 = insert_lvn T (toString (H.addr v)) "assign" 0 0 v := by
  simp only [register_handle, h, if_true]

theorem insert_lvn_lookup_self {T : LvnState} {name : String} (tag : String) (x y : Int)
    (ref : Value) (h : T.hashmap.lookup name = none) :
    (insert_lvn T name tag x y ref).hashmap.lookup name = some T.lvn_counter := by
  simp only [insert_lvn]
  exact lookup_mapInsert_self h

theorem insert_lvn_last {T : LvnState} (hT : T.Bounded) (name tag : String) (x y : Int)
    (ref : Value) :
    (insert_lvn T name tag x y ref).lvn_table =
        T.lvn_table ++ [⟨(T.lvn_table.length : Int), (tag, x, y), ref⟩] ∧
      (insert_lvn T name tag x y ref).lvn_table[T.lvn_table.length]? =
        some ⟨(T.lvn_table.length : Int), (tag, x, y), ref⟩ := by
  simp only [insert_lvn, hT.counter]
  exact ⟨trivial, by simp⟩

/-- C16 (counterexample): for the instruction `x + 5` scanned first, the
constant 5 has not been seen before, and canonicalization appends two entries
that hold it: one tagged "assign", made by `register_handle` under the address
key of the constant, and one tagged "constant" with key `("constant", 5, 5)`,
whose index 2 is the number of the operand. -/
theorem fresh_constant_appends_two_entries :
    LvnState.init.hashmap.lookup (toString (getSExtValue 32 5)) = none ∧
    (canonicalize plainHost LvnState.init (.arg 0) (.const 32 5)).1.lvn_table =
      [⟨0, ("assign", 0, 0), .arg 0⟩, ⟨1, ("assign", 0, 0), .const 32 5⟩,
        ⟨2, ("constant", 5, 5), .const 32 5⟩] ∧
    ((canonicalize plainHost LvnState.init (.arg 0) (.const 32 5)).1.lvn_table.filter
      (fun e => e.ref = .const 32 5)).length = 2 ∧
    (canonicalize plainHost LvnState.init (.arg 0) (.const 32 5)).1.hashmap.lookup
      (operandKey plainHost (.const 32 5)) = some 2 := by
  refine ⟨rfl, rfl, rfl, rfl⟩

/-- C16 (amended): let an operand of a binary instruction be an integer constant
whose sign-extended value `v` fits in an `int`. When `constant_handle` runs for
it (after `register_handle` ran for both operands, and for the second operand
after `constant_handle` ran for the first) and the decimal key of `v` is not in
the map, it appends exactly one entry, tagged "constant" with key
`("constant", v, v)`, that holds the operand, and the number of the operand is
the index of that entry; when the key is in the map it appends nothing and the
number of the operand is the one the map has. Before that, `register_handle`
appends an entry tagged "assign" that holds the constant when the address key of
the constant is not in the map. -/
theorem canonicalizing_constant (H : Host) (S : LvnState) (hS : S.Bounded) (a b : Value)
    (w bits : Nat) (hfit : toInt32 (getSExtValue w bits) = getSExtValue w bits) :
    (a = .const w bits →
      (S.hashmap.lookup (toString (H.addr a)) = none →
        (register_handle H S (getName H a) a).1 =
          insert_lvn S (toString (H.addr a)) "assign" 0 0 a) ∧
      ((registered H S a b).hashmap.lookup (toString (getSExtValue w bits)) = none →
        firstHandled H S a b =
          insert_lvn (registered H S a b) (toString (getSExtValue w bits)) "constant"
            (getSExtValue w bits) (getSExtValue w bits) a ∧
        (firstHandled H S a b).lvn_table = (registered H S a b).lvn_table ++
          [⟨((registered H S a b).lvn_table.length : Int),
            ("constant", getSExtValue w bits, getSExtValue w bits), a⟩] ∧
        (canonicalize H S a b).1.lvn_table[(registered H S a b).lvn_table.length]? =
          some ⟨((registered H S a b).lvn_table.length : Int),
            ("constant", getSExtValue w bits, getSExtValue w bits), a⟩ ∧
        (canonicalize H S a b).1.hashmap.lookup (operandKey H a) =
          some ((registered H S a b).lvn_table.length : Int)) ∧
      (∀ n, (registered H S a b).hashmap.lookup (toString (getSExtValue w bits)) = some n →
        firstHandled H S a b = registered H S a b ∧
        (canonicalize H S a b).1.hashmap.lookup (operandKey H a) = some n)) ∧
    (b = .const w bits →
      ((register_handle H S (getName H a) a).1.hashmap.lookup (toString (H.addr b)) = none →
        registered H S a b =
          insert_lvn (register_handle H S (getName H a) a).1 (toString (H.addr b))
            "assign" 0 0 b) ∧
      ((firstHandled H S a b).hashmap.lookup (toString (getSExtValue w bits)) = none →
        (canonicalize H S a b).1 =
          insert_lvn (firstHandled H S a b) (toString (getSExtValue w bits)) "constant"
            (getSExtValue w bits) (getSExtValue w bits) b ∧
        (canonicalize H S a b).1.lvn_table = (firstHandled H S a b).lvn_table ++
          [⟨((firstHandled H S a b).lvn_table.length : Int),
            ("constant", getSExtValue w bits, getSExtValue w bits), b⟩] ∧
        (canonicalize H S a b).1.hashmap.lookup (operandKey H b) =
          some ((firstHandled H S a b).lvn_table.length : Int)) ∧
      (∀ n, (firstHandled H S a b).hashmap.lookup (toString (getSExtValue w bits)) = some n →
        (canonicalize H S a b).1 = firstHandled H S a b ∧
        (canonicalize H S a b).1.hashmap.lookup (operandKey H b) = some n)) := by
  have hR := registered_bounded (H := H) hS a b
  have hT := firstHandled_bounded (H := H) hS a b
  constructor
  · intro ha
    subst ha
    have hext : (firstHandled H S (.const w bits) b).Extends (canonicalize H S (.const w bits) b).1 := by
      rw [canonicalize_eq_handled]
      exact operandEntries_extends
        (constant_handle_operandEntries H (.const w bits) b _ _ b (Or.inr rfl))
    have hkey : operandKey H (.const w bits) = toString (getSExtValue w bits) := by
      simp only [operandKey, hfit]
    refine ⟨fun h => register_handle_fresh _ h, ?_, ?_⟩
    · intro hnone
      have hins : firstHandled H S (.const w bits) b =
          insert_lvn (registered H S (.const w bits) b) (toString (getSExtValue w bits))
            "constant" (getSExtValue w bits) (getSExtValue w bits) (.const w bits) := by
        have := constant_handle_fresh (T := registered H S (.const w bits) b)
          (register_handle H S (getName H (.const w bits)) (.const w bits)).2 w bits
          (by rw [hfit]; exact hnone)
        rw [hfit] at this
        exact this
      obtain ⟨l1, l2⟩ := insert_lvn_last hR (toString (getSExtValue w bits)) "constant"
        (getSExtValue w bits) (getSExtValue w bits) (.const w bits)
      refine ⟨hins, by rw [hins]; exact l1, ?_, ?_⟩
      · obtain ⟨t, ht⟩ := hext.table
        rw [← ht, hins]
        rw [List.getElem?_append_left (by rw [l1]; simp)]
        exact l2
      · rw [hkey]
        apply hext.hashmap
        rw [hins, insert_lvn_lookup_self _ _ _ _ hnone, hR.counter]
    · intro n hn
      have hsame : firstHandled H S (.const w bits) b = registered H S (.const w bits) b :=
        constant_handle_seen _ w bits (by rw [hfit]; exact hn)
      refine ⟨hsame, ?_⟩
      rw [hkey]
      apply hext.hashmap
      rw [hsame]
      exact hn
  · intro hb
    subst hb
    have hkey : operandKey H (.const w bits) = toString (getSExtValue w bits) := by
      simp only [operandKey, hfit]
    refine ⟨fun h => register_handle_fresh _ h, ?_, ?_⟩
    · intro hnone
      have hins : (canonicalize H S a (.const w bits)).1 =
          insert_lvn (firstHandled H S a (.const w bits)) (toString (getSExtValue w bits))
            "constant" (getSExtValue w bits) (getSExtValue w bits) (.const w bits) := by
        rw [canonicalize_eq_handled]
        have := constant_handle_fresh (T := firstHandled H S a (.const w bits))
          (register_handle H (register_handle H S (getName H a) a).1
            (getName H (.const w bits)) (.const w bits)).2 w bits
          (by rw [hfit]; exact hnone)
        rw [hfit] at this
        exact this
      obtain ⟨l1, -⟩ := insert_lvn_last hT (toString (getSExtValue w bits)) "constant"
        (getSExtValue w bits) (getSExtValue w bits) (.const w bits)
      refine ⟨hins, by rw [hins]; exact l1, ?_⟩
      rw [hkey, hins, insert_lvn_lookup_self _ _ _ _ hnone, hT.counter]
    · intro n hn
      have hsame : (canonicalize H S a (.const w bits)).1 = firstHandled H S a (.const w bits) := by
        rw [canonicalize_eq_handled]
        exact constant_handle_seen _ w bits (by rw [hfit]; exact hn)
      refine ⟨hsame, ?_⟩
      rw [hkey, hsame]
      exact hn

/-- Witness of C16 (amended) on the instruction `x + 5` scanned first: the entry
tagged "constant" is appended at index 2, after the two entries tagged
"assign". -/
theorem canonicalizing_constant_witness :
    LvnState.init.Bounded ∧ toInt32 (getSExtValue 32 5) = getSExtValue 32 5 ∧
    (canonicalize plainHost LvnState.init (.arg 0) (.const 32 5)).1.lvn_table =
      (firstHandled plainHost LvnState.init (.arg 0) (.const 32 5)).lvn_table ++
        [⟨2, ("constant", 5, 5), .const 32 5⟩] ∧
    (canonicalize plainHost LvnState.init (.arg 0) (.const 32 5)).1.hashmap.lookup
      (operandKey plainHost (.const 32 5)) = some 2 := by
  have h := ((canonicalizing_constant plainHost LvnState.init init_bounded (.arg 0)
    (.const 32 5) 32 5 (by decide)).2 rfl).2.1 rfl
  exact ⟨init_bounded, by decide, h.2.1, h.2.2⟩

/-- C17: on a module shaped like the sample input, `runOnModule` stores for
`foo`, the first function, its own statistics, but for `bar`, `fez` and `main`
the block count, the instruction count and the call tallies of all functions up
to and including them: the variable `funcInfo` is declared before the loop over
the functions and its counters and call map are never reset. For `bar` alone the
statistics would be 1 block, 10 instructions, one call of `foo`; stored are
2 blocks and 15 instructions. For `fez` alone the calls would be one call of
`bar`; stored are one call of `foo` and one of `bar`. -/
theorem statistics_accumulate_over_functions :
    runOnModule sampleModule =
      [(1, ⟨"foo", 1, 1, 5, []⟩), (2, ⟨"bar", 2, 2, 15, [(1, 1)]⟩),
        (3, ⟨"fez", 3, 3, 31, [(1, 1), (2, 1)]⟩),
        (4, ⟨"main", 2, 4, 85, [(1, 2), (2, 2), (3, 1)]⟩)] ∧
    (sampleModule.map statsAlone =
      [some ⟨"foo", 1, 1, 5, []⟩, some ⟨"bar", 2, 1, 10, [(1, 1)]⟩,
        some ⟨"fez", 3, 1, 16, [(2, 1)]⟩, some ⟨"main", 2, 1, 54, [(1, 1), (2, 1), (3, 1)]⟩]) ∧
    (runOnModule sampleModule).lookup 2 ≠
      statsAlone ⟨2, "bar", 2,
        [List.replicate 6 .plain ++ [.call (some 1)] ++ List.replicate 3 .plain]⟩ := by
  refine ⟨rfl, rfl, ?_⟩
  rw [show (runOnModule sampleModule).lookup 2 = some ⟨"bar", 2, 2, 15, [(1, 1)]⟩ from rfl,
    show statsAlone ⟨2, "bar", 2,
        [List.replicate 6 .plain ++ [.call (some 1)] ++ List.replicate 3 .plain]⟩ =
      some ⟨"bar", 2, 1, 10, [(1, 1)]⟩ from rfl]
  decide

theorem two_pow_and_ne_zero {need i : Nat} (h : need.testBit i = true) :
    2 ^ i &&& need ≠ 0 := by
  rw [Nat.and_comm, Nat.and_two_pow, h]
  simp

theorem shiftSearch_isSome {need : Nat} (h2 : 2 ≤ need) (h64 : need < 2 ^ 64) :
    (shiftSearch need).isSome = true := by
  by_contra hcon
  have hnone : shiftSearch need = none := by
    cases h : shiftSearch need with
    | none => rfl
    | some k => rw [h] at hcon; simp at hcon
  unfold shiftSearch at hnone
  rw [List.find?_eq_none] at hnone
  have hbit : ∀ i, need.testBit (i + 1) = false := by
    intro i
    by_cases hi : i + 1 < 64
    · have hmem : i + 1 ∈ List.range' 1 63 := by
        rw [List.mem_range']
        exact ⟨i, by omega, by omega⟩
      have := hnone (i + 1) hmem
      by_contra hb
      have hb1 : need.testBit (i + 1) = true := by
        cases hx : need.testBit (i + 1) with
        | true => rfl
        | false => exact absurd hx hb
      apply this
      have hlt : (1 <<< (i + 1)) % 2 ^ 64 = 2 ^ (i + 1) := by
        rw [Nat.one_shiftLeft]
        apply Nat.mod_eq_of_lt
        exact Nat.pow_lt_pow_right (by omega) hi
      rw [hlt]
      simp only [bne_iff_ne, ne_eq]
      exact two_pow_and_ne_zero hb1
    · apply Nat.testBit_lt_two_pow
      calc need < 2 ^ 64 := h64
        _ ≤ 2 ^ (i + 1) := Nat.pow_le_pow_right (by omega) (by omega)
  have hz : need / 2 = 0 := by
    apply Nat.eq_of_testBit_eq
    intro i
    rw [← Nat.testBit_succ, hbit]
    simp
  omega

theorem popcount_ne_zero {x : Nat} (h : builtin_popcount x = 1) : x ≠ 0 := by
  intro hx
  subst hx
  revert h
  decide

theorem peepholeVisit_refined (S : PeepState) (j : Nat) :
    (peepholeVisit S j = S ∧ ∀ u, findInst S.fn j = some u → simplifiable u = false) ∨
    (∃ op a b x, findInst S.fn j = some (.binary j op a b) ∧ (x = a ∨ x = b) ∧
      peepholeVisit S j =
        ⟨eraseFromParent j (replaceAllUsesWith (.inst j) x S.fn), S.next⟩) ∨
    (∃ a b x w k, findInst S.fn j = some (.binary j .Mul a b) ∧ (x = a ∨ x = b) ∧
      peepholeVisit S j =
        ⟨ReplaceInstWithInst j (.binary S.next .Shl x (.const w k)) S.fn, S.next + 1⟩) := by
  unfold peepholeVisit
  split
  · rename_i i op a b hf
    have hi : i = j := (findInst_some hf).1
    subst hi
    by_cases h1 : (decide (op = BinaryOps.Add) && (isZeroValue b || isZeroValue a)) = true
    · rw [if_pos h1]
      right; left
      refine ⟨op, a, b, _, hf, ?_, rfl⟩
      by_cases hz : isZeroValue a = true <;> simp [hz]
    rw [if_neg h1]
    by_cases h2 : (decide (op = BinaryOps.Mul) && (isOneValue a || isOneValue b)) = true
    · rw [if_pos h2]
      right; left
      refine ⟨op, a, b, _, hf, ?_, rfl⟩
      by_cases hz : isOneValue a = true <;> simp [hz]
    rw [if_neg h2]
    by_cases h3 : (decide (op = BinaryOps.Mul) && (isConstantInt a || isConstantInt b)) = true
    · rw [if_pos h3]
      have hop : op = BinaryOps.Mul := by
        simp only [Bool.and_eq_true, decide_eq_true_eq] at h3
        exact h3.1
      subst hop
      dsimp only
      by_cases h4 : builtin_popcount (getZExtValue (if isConstantInt a = true then a else b)) = 1
      · rw [if_pos h4]
        cases hs : shiftSearch (getZExtValue (if isConstantInt a = true then a else b)) with
        | none =>
          exfalso
          have hc : isConstantInt (if isConstantInt a = true then a else b) = true := by
            by_cases hz : isConstantInt a = true
            · simp [hz]
            · simp only [hz, if_false]
              simp only [Bool.and_eq_true, decide_eq_true_eq, Bool.or_eq_true] at h3
              rcases h3.2 with h | h
              · exact absurd h hz
              · exact h
          have hone : isOneValue (if isConstantInt a = true then a else b) = false := by
            simp only [decide_True, Bool.true_and, Bool.or_eq_true, not_or,
              Bool.not_eq_true] at h2
            by_cases hz : isConstantInt a = true
            · simp only [hz, if_true]; exact h2.1
            · simp only [hz, if_false]; exact h2.2
          have hne1 : getZExtValue (if isConstantInt a = true then a else b) ≠ 1 := by
            intro h
            simp [isOneValue, hc, h] at hone
          have hne0 := popcount_ne_zero h4
          have hlt : getZExtValue (if isConstantInt a = true then a else b) < 2 ^ 64 := by
            generalize (if isConstantInt a = true then a else b) = v
            cases v with
            | const w bts => exact Nat.mod_lt _ (by positivity)
            | arg n => simp [getZExtValue]
            | inst n => simp [getZExtValue]
          have := shiftSearch_isSome (by omega) hlt
          rw [hs] at this
          simp at this
        | some k =>
          right; right
          refine ⟨a, b, _, _, _, hf, ?_, rfl⟩
          by_cases hz : isConstantInt a = true <;> simp [hz]
      · rw [if_neg h4]
        left
        refine ⟨rfl, ?_⟩
        intro u hu
        have hu2 : some (Inst.binary i .Mul a b) = some u := hf.symm.trans hu
        injection hu2 with hu2
        subst hu2
        simp only [simplifiable, Bool.or_eq_false_iff]
        refine ⟨⟨by simp, by simpa using h2⟩, ?_⟩
        simp only [Bool.and_eq_false_iff, beq_eq_false_iff_ne, ne_eq]
        right
        exact h4
    · rw [if_neg h3]
      left
      refine ⟨rfl, ?_⟩
      intro u hu
      have hu2 : some (Inst.binary i op a b) = some u := hf.symm.trans hu
      injection hu2 with hu2
      subst hu2
      simp only [simplifiable, Bool.or_eq_false_iff]
      refine ⟨⟨by simpa using h1, by simpa using h2⟩, ?_⟩
      simp only [Bool.and_eq_false_iff]
      left
      by_cases hm : op = BinaryOps.Mul
      · right
        simpa [hm] using h3
      · left
        simpa using hm
  · rename_i hne
    left
    refine ⟨rfl, ?_⟩
    intro u hu
    cases u with
    | other i ops => rfl
    | binary i op a b => exact absurd hu (hne i op a b)

theorem replaceUses_of_not_mem {old : Value} (new : Value) {u : Inst}
    (h : old ∉ u.operands) : u.replaceUses old new = u := by
  cases u with
  | binary i op a b =>
    simp only [Inst.operands, List.mem_cons, List.mem_singleton, not_or, List.not_mem_nil,
      or_false] at h
    simp only [Inst.replaceUses, substValue_ne (Ne.symm h.1), substValue_ne (Ne.symm h.2)]
  | other i ops =>
    simp only [Inst.operands] at h
    simp only [Inst.replaceUses]
    congr 1
    have : ∀ v ∈ ops, substValue old new v = v := by
      intro v hv
      apply substValue_ne
      intro hvo
      exact h (hvo ▸ hv)
    exact (List.map_congr_left this).trans (List.map_id _)

theorem mem_insts_erase_replace {j : Nat} {x : Value} {F : Function} {u : Inst}
    (h : u ∈ (eraseFromParent j (replaceAllUsesWith (.inst j) x F)).insts) :
    ∃ u0 ∈ F.insts, u0.id ≠ j ∧ u = u0.replaceUses (.inst j) x := by
  rw [insts_eraseFromParent, insts_replaceAllUsesWith, List.mem_filter, List.mem_map] at h
  obtain ⟨⟨u0, hu0, rfl⟩, hne⟩ := h
  refine ⟨u0, hu0, ?_, rfl⟩
  rw [Inst.id_replaceUses] at hne
  simpa using hne

theorem mem_insts_ReplaceInstWithInst {j : Nat} {N : Inst} {F : Function} {u : Inst}
    (h : u ∈ (ReplaceInstWithInst j N F).insts) :
    ∃ u0 ∈ F.insts, u = (if u0.id = j then N else u0).replaceUses (.inst j) (.inst N.id) := by
  rw [insts_ReplaceInstWithInst, List.mem_map] at h
  obtain ⟨u1, hu1, rfl⟩ := h
  rw [List.mem_map] at hu1
  obtain ⟨u0, hu0, rfl⟩ := hu1
  exact ⟨u0, hu0, rfl⟩

theorem not_mem_operands_replaceUses {old new v : Value} {u : Inst} (h : v ∉ u.operands)
    (hv : v ≠ new) : v ∉ (u.replaceUses old new).operands := by
  rw [operands_replaceUses, List.mem_map]
  rintro ⟨w, hw, hsub⟩
  unfold substValue at hsub
  by_cases hwo : w = old
  · rw [if_pos hwo] at hsub
    exact hv hsub.symm
  · rw [if_neg hwo] at hsub
    exact h (hsub ▸ hw)

theorem peepInv_init {F : Function} (hnd : F.ids.Nodup) (hdef : F.defBeforeUse) :
    PeepInv ⟨F, freshId F⟩ F.ids := by
  refine ⟨init_wf hnd, hnd, fun k hk => lt_freshId hk, ?_, ?_⟩
  · intro u hu hnot
    exact absurd (List.mem_map_of_mem Inst.id hu) hnot
  · intro t1 k t2 ht u hf k1 hk1 hmem
    obtain ⟨hid, hu⟩ := findInst_some hf
    obtain ⟨front, back, hsplit⟩ := List.append_of_mem hu
    have hfront := defBeforeUse_split hdef hsplit hmem
    have hids := ids_of_split hsplit
    -- the identities before `u` are those of `t1`
    have hnd2 := hnd
    rw [hids] at hnd2
    have hk1in : k1 ∈ u.id :: back.map Inst.id := by
      have e : front.map Inst.id ++ u.id :: back.map Inst.id = t1 ++ k :: t2 := by
        rw [← hids, ht]
      rw [hid] at e
      have hkf : k ∉ front.map Inst.id := by
        rw [← hid]
        exact not_mem_front_of_nodup hnd hsplit
      have hkt : k ∉ t1 := by
        have : (t1 ++ k :: t2).Nodup := by rw [← ht]; exact hnd
        rw [List.nodup_append] at this
        intro hk
        exact this.2.2 hk (List.mem_cons_self _ _)
      have hlen : front.map Inst.id = t1 := by
        have := List.append_eq_append_iff.mp e
        rcases this with ⟨a', h1, h2⟩ | ⟨c', h1, h2⟩
        · cases a' with
          | nil => simpa using h1.symm
          | cons y ys =>
            exfalso
            simp only [List.cons_append, List.cons.injEq] at h2
            apply hkt
            rw [h1]
            rw [← h2.1] at *
            · simp
        · cases c' with
          | nil => simpa using h1
          | cons y ys =>
            exfalso
            simp only [List.cons_append, List.cons.injEq] at h2
            apply hkf
            rw [h1, ← h2.1]
            simp
      rw [hlen] at e
      have := List.append_cancel_left e
      rw [hid]
      rw [this]
      exact hk1
    rw [List.nodup_append] at hnd2
    exact hnd2.2.2 hfront hk1in

theorem peepInv_step {T : PeepState} {j : Nat} {rest : List Nat} (h : PeepInv T (j :: rest)) :
    PeepInv (peepholeVisit T j) rest := by
  have hwf := peepholeVisit_wf h.wf j
  have hnd : rest.Nodup := (List.nodup_cons.mp h.nodup).2
  have hj : j ∉ rest := (List.nodup_cons.mp h.nodup).1
  have hbelow : ∀ k ∈ rest, k < (peepholeVisit T j).next := fun k hk =>
    lt_of_lt_of_le (h.below k (List.mem_cons_of_mem _ hk)) (peepholeVisit_next_le T j)
  -- the instruction under the cursor uses neither itself nor a later one
  have hself : ∀ u, findInst T.fn j = some u → ∀ k1 ∈ j :: rest, Value.inst k1 ∉ u.operands :=
    fun u hu => h.pending [] j rest rfl u hu
  rcases peepholeVisit_refined T j with ⟨hsame, hns⟩ | ⟨op, a, b, x, hf, hx, hv⟩ |
      ⟨a, b, x, w, k, hf, hx, hv⟩
  · -- nothing fires
    rw [hsame]
    rw [hsame] at hwf hbelow
    refine ⟨h.wf, hnd, hbelow, ?_, ?_⟩
    · intro u hu hnot
      by_cases huj : u.id = j
      · have hfu : findInst T.fn j = some u := by
          rw [← huj]; exact findInst_of_mem h.wf.1 hu
        exact ⟨hns u hfu, fun k hk => hself u hfu k (List.mem_cons_of_mem _ hk)⟩
      · have hnot2 : u.id ∉ j :: rest := by
          simp only [List.mem_cons, not_or]
          exact ⟨huj, hnot⟩
        obtain ⟨p1, p2⟩ := h.passed u hu hnot2
        exact ⟨p1, fun k hk => p2 k (List.mem_cons_of_mem _ hk)⟩
    · intro t1 k t2 ht u hu
      exact h.pending (j :: t1) k t2 (by rw [ht]; rfl) u hu
  · -- the instruction is erased, its uses go to `x`
    have hxop : x ∈ (Inst.binary j op a b).operands := by
      rcases hx with rfl | rfl <;> simp [Inst.operands]
    have hxne : ∀ k1 ∈ j :: rest, x ≠ Value.inst k1 := by
      intro k1 hk1 hxk
      exact hself _ hf k1 hk1 (hxk ▸ hxop)
    rw [hv]
    rw [hv] at hwf hbelow
    refine ⟨hwf, hnd, hbelow, ?_, ?_⟩
    · intro u hu hnot
      obtain ⟨u0, hu0, hne, rfl⟩ := mem_insts_erase_replace hu
      rw [Inst.id_replaceUses] at hnot
      have hnot2 : u0.id ∉ j :: rest := by
        simp only [List.mem_cons, not_or]
        exact ⟨hne, hnot⟩
      obtain ⟨p1, p2⟩ := h.passed u0 hu0 hnot2
      rw [replaceUses_of_not_mem x (p2 j (List.mem_cons_self _ _))]
      exact ⟨p1, fun k hk => p2 k (List.mem_cons_of_mem _ hk)⟩
    · intro t1 k t2 ht u hu k1 hk1
      have hkj : k ≠ j := by
        intro e
        apply hj
        rw [ht, ← e]
        simp
      rw [findInst_eraseFromParent hkj, findInst_replaceAllUsesWith] at hu
      cases hf0 : findInst T.fn k with
      | none => rw [hf0] at hu; simp at hu
      | some u0 =>
        rw [hf0] at hu
        simp only [Option.map_some', Option.some.injEq] at hu
        subst hu
        have hp := h.pending (j :: t1) k t2 (by rw [ht]; rfl) u0 hf0 k1 hk1
        apply not_mem_operands_replaceUses hp
        intro e
        apply hxne k1 _ e.symm
        apply List.mem_cons_of_mem
        rw [ht]
        exact List.mem_append_right _ hk1
  · -- the instruction is replaced by a shift
    have hxop : x ∈ (Inst.binary j .Mul a b).operands := by
      rcases hx with rfl | rfl <;> simp [Inst.operands]
    have hxne : ∀ k1 ∈ j :: rest, x ≠ Value.inst k1 := by
      intro k1 hk1 hxk
      exact hself _ hf k1 hk1 (hxk ▸ hxop)
    have hNops : ∀ k1 ∈ j :: rest,
        Value.inst k1 ∉ (Inst.binary T.next .Shl x (.const w k)).operands := by
      intro k1 hk1
      simp only [Inst.operands, List.mem_cons, List.mem_singleton, List.not_mem_nil, or_false,
        not_or]
      exact ⟨fun e => hxne k1 hk1 e.symm, by simp⟩
    rw [hv]
    rw [hv] at hwf hbelow
    refine ⟨hwf, hnd, hbelow, ?_, ?_⟩
    · intro u hu hnot
      obtain ⟨u0, hu0, rfl⟩ := mem_insts_ReplaceInstWithInst hu
      by_cases huj : u0.id = j
      · rw [if_pos huj]
        rw [replaceUses_of_not_mem _ (hNops j (List.mem_cons_self _ _))]
        exact ⟨rfl, fun k1 hk1 => hNops k1 (List.mem_cons_of_mem _ hk1)⟩
      · rw [if_neg huj] at hnot ⊢
        rw [Inst.id_replaceUses] at hnot
        have hnot2 : u0.id ∉ j :: rest := by
          simp only [List.mem_cons, not_or]
          exact ⟨huj, hnot⟩
        obtain ⟨p1, p2⟩ := h.passed u0 hu0 hnot2
        rw [replaceUses_of_not_mem _ (p2 j (List.mem_cons_self _ _))]
        exact ⟨p1, fun k hk => p2 k (List.mem_cons_of_mem _ hk)⟩
    · intro t1 k0 t2 ht u hu k1 hk1
      have hk0rest : k0 ∈ rest := by rw [ht]; simp
      have hkj : k0 ≠ j := fun e => hj (e ▸ hk0rest)
      have hk0lt : k0 < T.next := h.below k0 (List.mem_cons_of_mem _ hk0rest)
      rw [findInst_ReplaceInstWithInst hkj _ (by simp only [Inst.id]; omega)] at hu
      cases hf0 : findInst T.fn k0 with
      | none => rw [hf0] at hu; simp at hu
      | some u0 =>
        rw [hf0] at hu
        simp only [Option.map_some', Option.some.injEq] at hu
        subst hu
        have hp := h.pending (j :: t1) k0 t2 (by rw [ht]; rfl) u0 hf0 k1 hk1
        apply not_mem_operands_replaceUses hp
        intro e
        simp only [Inst.id, Value.inst.injEq] at e
        have hk1rest : k1 ∈ rest := by
          rw [ht]
          exact List.mem_append_right _ hk1
        have := h.below k1 (List.mem_cons_of_mem _ hk1rest)
        omega

theorem peepInv_scan (ids : List Nat) {T : PeepState} (h : PeepInv T ids) :
    PeepInv (peepholeScan T ids) [] := by
  induction ids generalizing T with
  | nil => exact h
  | cons j rest ih =>
    rw [peepholeScan_cons]
    exact ih (peepInv_step h)

theorem peepholeVisit_of_not_simplifiable {S : PeepState}
    (h : ∀ I ∈ S.fn.insts, simplifiable I = false) (j : Nat) : peepholeVisit S j = S := by
  unfold peepholeVisit
  cases hf : findInst S.fn j with
  | none => rfl
  | some I =>
    cases I with
    | other i ops => rfl
    | binary i op a b =>
      have hns := h _ (findInst_some hf).2
      simp only [simplifiable, Bool.or_eq_false_iff] at hns
      obtain ⟨⟨c1, c2⟩, c3⟩ := hns
      simp only [c1, c2, Bool.false_eq_true, if_false]
      by_cases h3 : (decide (op = BinaryOps.Mul) && (isConstantInt a || isConstantInt b)) = true
      · rw [if_pos h3]
        rw [h3] at c3
        simp only [Bool.true_and, beq_eq_false_iff_ne, ne_eq] at c3
        rw [if_neg c3]
      · rw [if_neg h3]

theorem peepholeScan_of_not_simplifiable (ids : List Nat) {S : PeepState}
    (h : ∀ I ∈ S.fn.insts, simplifiable I = false) : peepholeScan S ids = S := by
  induction ids with
  | nil => rfl
  | cons j rest ih =>
    rw [peepholeScan_cons, peepholeVisit_of_not_simplifiable h j]
    exact ih

/-- After the peephole scan of a function with distinct identities whose
operands are defined before use, no rule fires on any instruction. -/
theorem peephole_not_simplifiable {F : Function} (hnd : F.ids.Nodup) (hdef : F.defBeforeUse) :
    ∀ u ∈ (peephole F).insts, simplifiable u = false := by
  intro u hu
  have hinv := peepInv_scan F.ids (peepInv_init hnd hdef)
  exact (hinv.passed u hu (by simp)).1

/-- The peephole scan of its own output changes nothing. -/
theorem peephole_idem {F : Function} (hnd : F.ids.Nodup) (hdef : F.defBeforeUse) :
    peephole (peephole F) = peephole F := by
  have h := peephole_not_simplifiable hnd hdef
  show (peepholeScan ⟨peephole F, freshId (peephole F)⟩ (peephole F).ids).fn = peephole F
  rw [peepholeScan_of_not_simplifiable _ (S := ⟨peephole F, freshId (peephole F)⟩) h]

/-- C19: for a function with distinct identities in which every instruction
operand is a constant, an external value or an earlier instruction, the
peephole scan applied to its own output changes nothing: after one scan no add
has a zero-constant operand, no multiply has a constant-1 operand, and no
multiply has a constant operand that the strength-reduction guard (population
count 1) accepts. -/
theorem peephole_idempotent (F : Function) (hnd : F.ids.Nodup) (hdef : F.defBeforeUse) :
    peephole (peephole F) = peephole F ∧
    ∀ i op a b, Inst.binary i op a b ∈ (peephole F).insts →
      ¬ (op = .Add ∧ (isZeroValue a = true ∨ isZeroValue b = true)) ∧
      ¬ (op = .Mul ∧ (isOneValue a = true ∨ isOneValue b = true)) ∧
      ¬ (op = .Mul ∧ (isConstantInt a = true ∨ isConstantInt b = true) ∧
        builtin_popcount (getZExtValue (if isConstantInt a = true then a else b)) = 1) := by
  refine ⟨peephole_idem hnd hdef, ?_⟩
  intro i op a b hu
  have h := peephole_not_simplifiable hnd hdef _ hu
  simp only [simplifiable, Bool.or_eq_false_iff] at h
  obtain ⟨⟨c1, c2⟩, c3⟩ := h
  refine ⟨?_, ?_, ?_⟩
  · rintro ⟨hop, hz⟩
    subst hop
    rcases hz with hz | hz <;> simp [hz] at c1
  · rintro ⟨hop, hz⟩
    subst hop
    rcases hz with hz | hz <;> simp [hz] at c2
  · rintro ⟨hop, hz, hp⟩
    subst hop
    have hc : (isConstantInt a || isConstantInt b) = true := by
      rcases hz with hz | hz <;> simp [hz]
    rw [hc, hp] at c3
    simp at c3

/-- Witness of C19 on `y = 4 * 1; z = y + x; use z`. -/
theorem peephole_idempotent_witness :
    mulOneSample.ids.Nodup ∧ mulOneSample.defBeforeUse ∧
      peephole (peephole mulOneSample) = peephole mulOneSample :=
  ⟨by decide, rfl, (peephole_idempotent mulOneSample (by decide) rfl).1⟩

/-- C13 (counterexample): for `a = 0 - q; c = a + q; u = x + c; use u`, no value
named and every operand defined before its use, the first run replaces `c` by
the constant 0 (inverse pattern) and leaves `u = x + 0`; the peephole scan of a
second run removes that add, so the second run does not return the graph of the
first. -/
theorem second_run_removes_exposed_add :
    plainHost.noNames ∧ exposedZeroSample.ids.Nodup ∧ exposedZeroSample.defBeforeUse ∧
    run plainHost exposedZeroSample =
      .ok [[.binary 1 .Sub (.const 32 0) (.arg 1), .binary 3 .Add (.arg 0) (.const 32 0),
        .other 4 [.inst 3]]] ∧
    run plainHost [[.binary 1 .Sub (.const 32 0) (.arg 1),
        .binary 3 .Add (.arg 0) (.const 32 0), .other 4 [.inst 3]]] =
      .ok [[.binary 1 .Sub (.const 32 0) (.arg 1), .other 4 [.arg 0]]] := by
  refine ⟨fun _ => rfl, by decide, rfl, rfl, rfl⟩

/-- The case of a second run in which value numbering had nothing to do: for a
function without names, with distinct identities and operands defined before
use, in which the value numbering of the first run records no replacement, a
second run on the output of the first returns the graph of the first run. -/
theorem run_twice_without_replacement (H : Host) (hH : H.noNames) (F : Function)
    (hnd : F.ids.Nodup) (hdef : F.defBeforeUse)
    (hnone : ∀ S, lvnScan H LvnState.init (peephole F) = .ok S → S.replace_table = []) :
    ∃ G, run H F = .ok G ∧ run H G = .ok G := by
  obtain ⟨S, hS⟩ := lvnScanBlock_ok_of_noNames hH (peephole F).insts init_bounded
  rw [← lvnScan_eq_insts] at hS
  have h1 : run H F = .ok (peephole F) := by
    simp only [run, localValueNumbering, hS, hnone S hS, rewriteLoop_nil]
  refine ⟨peephole F, h1, ?_⟩
  have h2 : run H (peephole F) = localValueNumbering H (peephole (peephole F)) := rfl
  rw [h2, peephole_idem hnd hdef]
  exact h1

/-- The case without replacement on `y = 4 * 1; z = y + x; use z`. -/
theorem run_twice_without_replacement_witness :
    plainHost.noNames ∧ mulOneSample.ids.Nodup ∧ mulOneSample.defBeforeUse ∧
      ∃ G, run plainHost mulOneSample = .ok G ∧ run plainHost G = .ok G := by
  refine ⟨fun _ => rfl, by decide, rfl,
    run_twice_without_replacement plainHost (fun _ => rfl) mulOneSample (by decide) rfl ?_⟩
  intro S hS
  have h : (lvnScan plainHost LvnState.init (peephole mulOneSample)).map
      (fun S => S.replace_table) = .ok [] := rfl
  rw [hS] at h
  injection h

theorem digitValue_digitChar {k : Nat} (h : k < 10) : digitValue (Nat.digitChar k) = k := by
  interval_cases k <;> rfl

theorem digitChar_ne_minus {k : Nat} (h : k < 10) : Nat.digitChar k ≠ '-' := by
  interval_cases k <;> decide

theorem toDigitsCore_append (fuel n : Nat) (ds : List Char) :
    Nat.toDigitsCore 10 fuel n ds = Nat.toDigitsCore 10 fuel n [] ++ ds := by
  induction fuel generalizing n ds with
  | zero => simp [Nat.toDigitsCore]
  | succ f ih =>
    simp only [Nat.toDigitsCore]
    by_cases h : n / 10 = 0
    · simp [h]
    · simp only [h, if_false]
      rw [ih (n / 10) (Nat.digitChar (n % 10) :: ds), ih (n / 10) [Nat.digitChar (n % 10)]]
      simp

theorem decodeDigits_snoc (l : List Char) (c : Char) :
    decodeDigits (l ++ [c]) = decodeDigits l * 10 + digitValue c := by
  simp [decodeDigits, List.foldl_append]

theorem decodeDigits_toDigitsCore (fuel n : Nat) (h : n < fuel) :
    decodeDigits (Nat.toDigitsCore 10 fuel n []) = n := by
  induction fuel generalizing n with
  | zero => omega
  | succ f ih =>
    simp only [Nat.toDigitsCore]
    by_cases h0 : n / 10 = 0
    · simp only [h0, if_true]
      have hlt : n < 10 := by omega
      have : n % 10 = n := Nat.mod_eq_of_lt hlt
      rw [this]
      simp [decodeDigits, digitValue_digitChar hlt]
    · simp only [h0, if_false]
      rw [toDigitsCore_append, decodeDigits_snoc, ih (n / 10) (by omega),
        digitValue_digitChar (Nat.mod_lt _ (by omega))]
      omega

theorem toDigits_injective {n m : Nat} (h : Nat.toDigits 10 n = Nat.toDigits 10 m) : n = m := by
  have h1 := decodeDigits_toDigitsCore (n + 1) n (by omega)
  have h2 := decodeDigits_toDigitsCore (m + 1) m (by omega)
  unfold Nat.toDigits at h
  rw [h] at h1
  omega

theorem toString_nat_injective {n m : Nat} (h : toString n = toString m) : n = m := by
  apply toDigits_injective
  have : Nat.repr n = Nat.repr m := h
  unfold Nat.repr at this
  exact congrArg String.data this

theorem toDigitsCore_no_minus (fuel n : Nat) (ds : List Char) (h : ∀ c ∈ ds, c ≠ '-') :
    ∀ c ∈ Nat.toDigitsCore 10 fuel n ds, c ≠ '-' := by
  induction fuel generalizing n ds with
  | zero => simpa [Nat.toDigitsCore] using h
  | succ f ih =>
    simp only [Nat.toDigitsCore]
    have hd : ∀ c ∈ Nat.digitChar (n % 10) :: ds, c ≠ '-' := by
      intro c hc
      rcases List.mem_cons.mp hc with rfl | hc
      · exact digitChar_ne_minus (Nat.mod_lt _ (by omega))
      · exact h c hc
    by_cases h0 : n / 10 = 0
    · simp only [h0, if_true]
      exact hd
    · simp only [h0, if_false]
      exact ih _ _ hd

theorem toString_int_injective {x y : Int} (h : toString x = toString y) : x = y := by
  have key : ∀ (a b : Nat), toString (Int.ofNat a) ≠ toString (Int.negSucc b) := by
    intro a b hab
    have h1 : toString (Int.ofNat a) = Nat.repr a := rfl
    have h2 : toString (Int.negSucc b) = "-" ++ Nat.repr (b + 1) := rfl
    rw [h1, h2] at hab
    have hd := congrArg String.data hab
    rw [String.data_append] at hd
    have hmem : '-' ∈ (Nat.repr a).data := by
      rw [hd]
      simp
    exact toDigitsCore_no_minus (a + 1) a [] (by simp) '-' hmem rfl
  cases x with
  | ofNat a =>
    cases y with
    | ofNat b =>
      have : toString a = toString b := h
      rw [toString_nat_injective this]
    | negSucc b => exact absurd h (key a b)
  | negSucc a =>
    cases y with
    | ofNat b => exact absurd h.symm (key b a)
    | negSucc b =>
      have h1 : toString (Int.negSucc a) = "-" ++ Nat.repr (a + 1) := rfl
      have h2 : toString (Int.negSucc b) = "-" ++ Nat.repr (b + 1) := rfl
      rw [h1, h2] at h
      have hd := congrArg String.data h
      rw [String.data_append, String.data_append] at hd
      have hd2 := List.append_cancel_left hd
      have : a + 1 = b + 1 := toDigits_injective hd2
      have : a = b := by omega
      rw [this]

theorem evalOp_lt (w : Nat) (sem : BinaryOps → Nat → Nat → Nat) (op : BinaryOps) (x y : Nat) :
    evalOp w sem op x y < 2 ^ w := by
  have hpos : 0 < 2 ^ w := by positivity
  cases op <;> simp only [evalOp] <;> exact Nat.mod_lt _ hpos

theorem evalValue_lt {w : Nat} {ρ : Nat → Nat} (h : ∀ j, ρ j < 2 ^ w) (env : Value → Nat)
    (v : Value) : evalValue w env ρ v < 2 ^ w := by
  have hpos : 0 < 2 ^ w := by positivity
  cases v with
  | const w1 b => exact Nat.mod_lt _ hpos
  | arg n => exact Nat.mod_lt _ hpos
  | inst j => exact h j

theorem evalOp_add_sub (sem : BinaryOps → Nat → Nat → Nat) {w x y : Nat} (hx : x < 2 ^ w)
    (hy : y < 2 ^ w) : evalOp w sem .Add (evalOp w sem .Sub x y) y = x := by
  simp only [evalOp]
  rw [Nat.mod_eq_of_lt hy, Nat.mod_add_mod]
  have : x + (2 ^ w - y) + y = x + 2 ^ w := by omega
  rw [this, Nat.add_mod_right, Nat.mod_eq_of_lt hx]

theorem evalOp_sub_add (sem : BinaryOps → Nat → Nat → Nat) {w x y : Nat} (hx : x < 2 ^ w)
    (hy : y < 2 ^ w) : evalOp w sem .Sub (evalOp w sem .Add x y) y = x := by
  simp only [evalOp]
  rw [Nat.mod_eq_of_lt hy, Nat.mod_add_mod]
  have : x + y + (2 ^ w - y) = x + 2 ^ w := by omega
  rw [this, Nat.add_mod_right, Nat.mod_eq_of_lt hx]

theorem execInst_of_ne (w : Nat) (sem : BinaryOps → Nat → Nat → Nat) (env : Value → Nat)
    (ρ : Nat → Nat) (I : Inst) {k : Nat} (h : k ≠ I.id) : execInst w sem env ρ I k = ρ k := by
  cases I <;> simp only [execInst, Inst.id] at h ⊢ <;> rw [if_neg h]

theorem foldl_execInst_of_not_mem (w : Nat) (sem : BinaryOps → Nat → Nat → Nat)
    (env : Value → Nat) (l : List Inst) (ρ : Nat → Nat) {k : Nat} (h : k ∉ l.map Inst.id) :
    (l.foldl (execInst w sem env) ρ) k = ρ k := by
  induction l generalizing ρ with
  | nil => rfl
  | cons I rest ih =>
    simp only [List.map_cons, List.mem_cons, not_or] at h
    rw [List.foldl_cons, ih _ h.2, execInst_of_ne w sem env ρ I h.1]

theorem foldl_execInst_lt (w : Nat) (sem : BinaryOps → Nat → Nat → Nat) (env : Value → Nat)
    (l : List Inst) (ρ : Nat → Nat) (h : ∀ j, ρ j < 2 ^ w) :
    ∀ j, (l.foldl (execInst w sem env) ρ) j < 2 ^ w := by
  induction l generalizing ρ with
  | nil => exact h
  | cons I rest ih =>
    rw [List.foldl_cons]
    apply ih
    intro j
    have hpos : 0 < 2 ^ w := by positivity
    cases I with
    | binary i op a b =>
      simp only [execInst]
      by_cases hj : j = i
      · rw [if_pos hj]; exact evalOp_lt _ _ _ _ _
      · rw [if_neg hj]; exact h j
    | other i ops =>
      simp only [execInst]
      by_cases hj : j = i
      · rw [if_pos hj]; exact Nat.mod_lt _ hpos
      · rw [if_neg hj]; exact h j

theorem evalValue_congr (w : Nat) (env : Value → Nat) {ρ1 ρ2 : Nat → Nat} {v : Value}
    (h : ∀ j, v = Value.inst j → ρ1 j = ρ2 j) : evalValue w env ρ1 v = evalValue w env ρ2 v := by
  cases v with
  | const w1 b => rfl
  | arg n => rfl
  | inst j => exact h j rfl

/-- Execution gives a consistent valuation when identities are distinct and
operands are defined before use. -/
theorem exec_consistent (w : Nat) (sem : BinaryOps → Nat → Nat → Nat) (env : Value → Nat)
    {F : Function} (hnd : F.ids.Nodup) (hdef : F.defBeforeUse) :
    Consistent w sem env (exec w sem env F.insts) F := by
  refine ⟨?_, foldl_execInst_lt w sem env F.insts _ (fun _ => by positivity)⟩
  intro i op a b hmem
  obtain ⟨front, back, hsplit⟩ := List.append_of_mem hmem
  have hback : i ∉ back.map Inst.id := not_mem_back_of_nodup hnd hsplit
  have hfront : i ∉ front.map Inst.id := not_mem_front_of_nodup hnd hsplit
  have hids := ids_of_split hsplit
  have hnd2 := hnd
  rw [hids] at hnd2
  have hdisj := (List.nodup_append.mp hnd2).2.2
  -- the valuation after `front`
  have hexec : exec w sem env F.insts =
      back.foldl (execInst w sem env)
        (execInst w sem env (exec w sem env front) (Inst.binary i op a b)) := by
    unfold exec
    rw [hsplit, List.foldl_append, List.foldl_cons]
  have hop : ∀ v, v = a ∨ v = b →
      evalValue w env (exec w sem env F.insts) v =
        evalValue w env (exec w sem env front) v := by
    intro v hv
    apply evalValue_congr
    intro j hj
    have hjf : j ∈ front.map Inst.id := by
      apply defBeforeUse_split hdef hsplit
      rcases hv with rfl | rfl <;> simp [Inst.operands, hj]
    have hjb : j ∉ back.map Inst.id := fun hb =>
      hdisj hjf (List.mem_cons_of_mem _ hb)
    have hji : j ≠ i := fun e => hfront (e ▸ hjf)
    rw [hexec, foldl_execInst_of_not_mem w sem env back _ hjb]
    exact execInst_of_ne w sem env _ (Inst.binary i op a b) hji
  rw [hop a (Or.inl rfl), hop b (Or.inr rfl), hexec,
    foldl_execInst_of_not_mem w sem env back _ hback]
  simp only [execInst, if_true]

theorem toInt32_of_fit {v : Int} (h1 : -2 ^ 31 ≤ v) (h2 : v < 2 ^ 31) : toInt32 v = v := by
  unfold toInt32
  omega

theorem getSExtValue_fits {w b : Nat} (hw : w ≤ 32) (hb : b < 2 ^ w) :
    -2 ^ 31 ≤ getSExtValue w b ∧ getSExtValue w b < 2 ^ 31 := by
  have hle : 2 ^ w ≤ 2 ^ 32 := Nat.pow_le_pow_right (by omega) hw
  unfold getSExtValue
  by_cases h : 2 ^ w ≤ 2 * b
  · rw [if_pos h]
    constructor
    · have : ((2 : Int) ^ w) = ((2 ^ w : Nat) : Int) := by push_cast; rfl
      rw [this]
      omega
    · have : ((2 : Int) ^ w) = ((2 ^ w : Nat) : Int) := by push_cast; rfl
      rw [this]
      omega
  · rw [if_neg h]
    constructor <;> omega

theorem getSExtValue_injective {w b1 b2 : Nat} (h1 : b1 < 2 ^ w) (h2 : b2 < 2 ^ w)
    (h : getSExtValue w b1 = getSExtValue w b2) : b1 = b2 := by
  unfold getSExtValue at h
  have e : ((2 : Int) ^ w) = ((2 ^ w : Nat) : Int) := by push_cast; rfl
  rw [e] at h
  by_cases c1 : 2 ^ w ≤ 2 * b1 <;> by_cases c2 : 2 ^ w ≤ 2 * b2 <;>
    simp only [c1, c2, if_true, if_false] at h <;> omega

theorem operandKey_const_injective (H : Host) {w b1 b2 : Nat} (hw : w ≤ 32) (h1 : b1 < 2 ^ w)
    (h2 : b2 < 2 ^ w)
    (h : operandKey H (.const w b1) = operandKey H (.const w b2)) : b1 = b2 := by
  simp only [operandKey] at h
  have := toString_int_injective h
  rw [toInt32_of_fit (getSExtValue_fits hw h1).1 (getSExtValue_fits hw h1).2,
    toInt32_of_fit (getSExtValue_fits hw h2).1 (getSExtValue_fits hw h2).2] at this
  exact getSExtValue_injective h1 h2 this

theorem mem_values_of_mem {F : Function} {I : Inst} (h : I ∈ F.insts) :
    Value.inst I.id ∈ F.values ∧ ∀ v ∈ I.operands, v ∈ F.values := by
  unfold Function.values
  constructor
  · rw [List.mem_flatMap]
    exact ⟨I, h, List.mem_cons_self _ _⟩
  · intro v hv
    rw [List.mem_flatMap]
    exact ⟨I, h, List.mem_cons_of_mem _ hv⟩

theorem operandKey_of_not_const {H : Host} (hH : H.noNames) {x : Value}
    (h : isConstantInt x = false) : operandKey H x = toString (H.addr x) := by
  cases x with
  | const w b => simp [isConstantInt] at h
  | arg n => simp [operandKey, getName_of_noNames hH]
  | inst n => simp [operandKey, getName_of_noNames hH]

theorem key_owner_addr {H : Host} {w : Nat} {F : Function} (hk : KeysFaithful H w F)
    {x r : Value} (hx : x ∈ F.values) (hr : r ∈ F.values)
    (h : operandKey H x = toString (H.addr r)) : x = r := by
  cases hc : isConstantInt x with
  | true => exact absurd h.symm (hk.apart r hr x hx hc)
  | false =>
    rw [operandKey_of_not_const hk.noNames hc] at h
    exact hk.addr x hx r hr (toString_nat_injective h)

theorem key_owner_const {H : Host} {w : Nat} {F : Function} (hk : KeysFaithful H w F)
    {x r : Value} (hx : x ∈ F.values) (hr : r ∈ F.values) (hrc : isConstantInt r = true)
    (h : operandKey H x = operandKey H r) : x = r := by
  cases hc : isConstantInt x with
  | false =>
    rw [operandKey_of_not_const hk.noNames hc] at h
    exact absurd h (hk.apart x hx r hr hrc)
  | true =>
    cases x with
    | arg n => simp [isConstantInt] at hc
    | inst n => simp [isConstantInt] at hc
    | const w1 b1 =>
      cases r with
      | arg n => simp [isConstantInt] at hrc
      | inst n => simp [isConstantInt] at hrc
      | const w2 b2 =>
        obtain ⟨e1, l1⟩ := hk.consts _ hx w1 b1 rfl
        obtain ⟨e2, l2⟩ := hk.consts _ hr w2 b2 rfl
        subst e1 e2
        rw [operandKey_const_injective H hk.width l1 l2 h]

theorem semInv_insert_operand {H : Host} {w : Nat} {sem : BinaryOps → Nat → Nat → Nat}
    {env : Value → Nat} {ρ : Nat → Nat} {F : Function} {S : LvnState} (hS : S.Bounded)
    (hinv : SemInv H w sem env ρ F S) (key tag : String) (x y : Int) (ref : Value)
    (htag : tag = "assign" ∨ tag = "constant")
    (hown : ∀ z ∈ F.values, operandKey H z = key → z = ref) :
    SemInv H w sem env ρ F (insert_lvn S key tag x y ref) := by
  obtain ⟨l1, l2⟩ := insert_lvn_last hS key tag x y ref
  refine ⟨?_, ?_, ?_⟩
  · intro z hz n hn
    simp only [insert_lvn] at hn
    rcases lookup_mapInsert_cases hn with hold | ⟨hkey, hnn, -⟩
    · obtain ⟨e, he, hv⟩ := hinv.numbers z hz n hold
      refine ⟨e, ?_, hv⟩
      rw [l1]
      exact tableAt_append_left he
    · have hzr := hown z hz hkey
      subst hzr
      refine ⟨⟨(S.lvn_table.length : Int), (tag, x, y), z⟩, ?_, rfl⟩
      rw [hnn, hS.counter, tableAt_natCast]
      exact l2
  · intro e he ha hc
    rw [l1] at he
    rcases List.mem_append.mp he with hold | hnew
    · obtain ⟨op, e1, e2, h1, h2, h3, h4⟩ := hinv.entries e hold ha hc
      refine ⟨op, e1, e2, h1, ?_, ?_, h4⟩
      · rw [l1]; exact tableAt_append_left h2
      · rw [l1]; exact tableAt_append_left h3
    · exfalso
      simp only [List.mem_singleton] at hnew
      subst hnew
      rcases htag with h | h
      · exact ha h
      · exact hc h
  · intro k v hkv
    exact hinv.replaced k v hkv

theorem semInv_register {H : Host} {w : Nat} {sem : BinaryOps → Nat → Nat → Nat}
    {env : Value → Nat} {ρ : Nat → Nat} {F : Function} (hk : KeysFaithful H w F)
    {S : LvnState} (hS : S.Bounded) (hinv : SemInv H w sem env ρ F S) {v : Value}
    (hv : v ∈ F.values) : SemInv H w sem env ρ F (register_handle H S "" v).1 := by
  unfold register_handle
  simp only [if_true]
  cases hl : S.hashmap.lookup (toString (H.addr v)) with
  | some n => exact hinv
  | none =>
    exact semInv_insert_operand hS hinv _ _ _ _ _ (Or.inl rfl)
      (fun z hz hkey => key_owner_addr hk hz hv hkey)

theorem semInv_constant {H : Host} {w : Nat} {sem : BinaryOps → Nat → Nat → Nat}
    {env : Value → Nat} {ρ : Nat → Nat} {F : Function} (hk : KeysFaithful H w F)
    {S : LvnState} (hS : S.Bounded) (hinv : SemInv H w sem env ρ F S) (oper : String)
    {v : Value} (hv : v ∈ F.values) : SemInv H w sem env ρ F (constant_handle S oper v).1 := by
  cases v with
  | arg n => exact hinv
  | inst n => exact hinv
  | const w1 b =>
    simp only [constant_handle]
    cases hl : S.hashmap.lookup (toString (toInt32 (getSExtValue w1 b))) with
    | some n => exact hinv
    | none =>
      exact semInv_insert_operand hS hinv _ _ _ _ _ (Or.inr rfl)
        (fun z hz hkey => key_owner_const hk hz hv rfl hkey)

theorem semInv_canonicalize {H : Host} {w : Nat} {sem : BinaryOps → Nat → Nat → Nat}
    {env : Value → Nat} {ρ : Nat → Nat} {F : Function} (hk : KeysFaithful H w F)
    {S : LvnState} (hS : S.Bounded) (hinv : SemInv H w sem env ρ F S) {a b : Value}
    (ha : a ∈ F.values) (hb : b ∈ F.values) :
    SemInv H w sem env ρ F (canonicalize H S a b).1 := by
  have n1 : getName H a = "" := getName_of_noNames hk.noNames a
  have n2 : getName H b = "" := getName_of_noNames hk.noNames b
  have hb1 : (register_handle H S "" a).1.Bounded :=
    (register_handle_operandEntries H a b S "" a (Or.inl rfl)).bounded hS
  have hb2 : (register_handle H (register_handle H S "" a).1 "" b).1.Bounded :=
    (register_handle_operandEntries H a b _ "" b (Or.inr rfl)).bounded hb1
  have hb3 : (constant_handle (register_handle H (register_handle H S "" a).1 "" b).1
      (register_handle H S "" a).2 a).1.Bounded :=
    (constant_handle_operandEntries H a b _ _ a (Or.inl rfl)).bounded hb2
  unfold canonicalize
  simp only [n1, n2]
  exact semInv_constant hk hb3
    (semInv_constant hk hb2 (semInv_register hk hb1 (semInv_register hk hS hinv ha) hb) _ ha) _ hb

theorem semInv_recorded {H : Host} {w : Nat} {sem : BinaryOps → Nat → Nat → Nat}
    {env : Value → Nat} {ρ : Nat → Nat} {F : Function} (hk : KeysFaithful H w F)
    {c : LvnState} (hinv : SemInv H w sem env ρ F c) {i : Nat} {r : Int} {e : lvn_item}
    (hi : Value.inst i ∈ F.values) (he : tableAt c.lvn_table r = some e)
    (hval : evalValue w env ρ e.ref = evalValue w env ρ (.inst i)) :
    SemInv H w sem env ρ F (recorded H c i r e) := by
  refine ⟨?_, hinv.entries, ?_⟩
  · intro z hz n hn
    simp only [recorded] at hn
    rcases lookup_mapInsert_cases hn with hold | ⟨hkey, hnn, -⟩
    · exact hinv.numbers z hz n hold
    · have hzr := key_owner_addr hk hz hi hkey
      subst hzr
      rw [hnn]
      exact ⟨e, he, hval⟩
  · intro k v hkv
    simp only [recorded] at hkv
    rcases lookup_mapInsert_cases hkv with hold | ⟨hkey, hvv, -⟩
    · exact hinv.replaced k v hold
    · rw [hkey, hvv]
      exact hval.symm

theorem semInv_step {H : Host} {w : Nat} {sem : BinaryOps → Nat → Nat → Nat}
    {env : Value → Nat} {ρ : Nat → Nat} {F : Function} (hk : KeysFaithful H w F)
    (hρ : Consistent w sem env ρ F) {S S1 : LvnState} (hS : S.Bounded)
    (hinv : SemInv H w sem env ρ F S) {I : Inst} (hI : I ∈ F.insts)
    (hstep : lvnStep H S I = .ok S1) : SemInv H w sem env ρ F S1 := by
  cases I with
  | other i ops =>
    simp only [lvnStep] at hstep
    cases hstep
    exact hinv
  | binary i op a b =>
    have hiv : Value.inst i ∈ F.values := (mem_values_of_mem hI).1
    have hops := (mem_values_of_mem hI).2
    have ha : a ∈ F.values := hops a (by simp [Inst.operands])
    have hb : b ∈ F.values := hops b (by simp [Inst.operands])
    have hc := semInv_canonicalize hk hS hinv ha hb
    have hcb := (canonicalize_operandEntries H S a b).bounded hS
    obtain ⟨n1, n2, hl1, hl2, hout⟩ := lvnStep_ok_outcome hS hstep
    obtain ⟨e1, he1, hv1⟩ := hc.numbers a ha n1 hl1
    obtain ⟨e2, he2, hv2⟩ := hc.numbers b hb n2 hl2
    have hρi := hρ.binary i op a b hI
    have hval : evalValue w env ρ (.inst i) =
        evalOp w sem op (evalValue w env ρ e1.ref) (evalValue w env ρ e2.ref) := by
      rw [hv1, hv2]
      exact hρi
    cases hout with
    | exact k e hcmp he hkey hfirst =>
      have hmem : e ∈ (canonicalize H S a b).1.lvn_table := List.getElem?_mem he
      have t1 : e.value.1 ≠ "assign" := by rw [hkey]; exact getOpcodeName_ne_assign op
      have t2 : e.value.1 ≠ "constant" := by rw [hkey]; exact getOpcodeName_ne_constant op
      obtain ⟨op', x1, x2, h1, h2, h3, h4⟩ := hc.entries e hmem t1 t2
      rw [hkey] at h1 h2 h3
      simp only at h1 h2 h3
      have hop : op = op' := getOpcodeName_injective h1
      subst hop
      rw [he1] at h2
      rw [he2] at h3
      cases h2
      cases h3
      apply semInv_recorded hk hc hiv (by rw [tableAt_natCast]; exact he)
      rw [h4, hval]
    | inverse r e0 e hcmp hnone hpat hr he0 hleft hright hop he =>
      have hmem : e0 ∈ (canonicalize H S a b).1.lvn_table := mem_of_tableAt he0
      have t1 : e0.value.1 ≠ "assign" := by
        rcases hop with ⟨-, hs⟩ | ⟨-, hs⟩ <;> rw [hs] <;> decide
      have t2 : e0.value.1 ≠ "constant" := by
        rcases hop with ⟨-, hs⟩ | ⟨-, hs⟩ <;> rw [hs] <;> decide
      obtain ⟨op', x1, x2, h1, h2, h3, h4⟩ := hc.entries e0 hmem t1 t2
      rw [hleft] at h2
      rw [hright] at h3
      rw [he] at h2
      rw [he2] at h3
      cases h2
      cases h3
      rw [he0] at he1
      cases he1
      have hbe : evalValue w env ρ e.ref < 2 ^ w := evalValue_lt hρ.bound env _
      have hb2 : evalValue w env ρ e2.ref < 2 ^ w := evalValue_lt hρ.bound env _
      apply semInv_recorded hk hc hiv he
      rw [hval, h4]
      rcases hop with ⟨ho, hs⟩ | ⟨ho, hs⟩
      · rw [hs] at h1
        have : op' = .Sub := (@getOpcodeName_injective .Sub op' h1).symm
        subst this
        subst ho
        rw [evalOp_add_sub sem hbe hb2]
      · rw [hs] at h1
        have : op' = .Add := (@getOpcodeName_injective .Add op' h1).symm
        subst this
        subst ho
        rw [evalOp_sub_add sem hbe hb2]
    | novel r hcmp hnone hpat hr =>
      obtain ⟨l1, l2⟩ := insert_lvn_last hcb (toString (H.addr (.inst i))) (getOpcodeName op)
        n1 n2 (.inst i)
      refine ⟨?_, ?_, ?_⟩
      · intro z hz n hn
        simp only [insert_lvn] at hn
        rcases lookup_mapInsert_cases hn with hold | ⟨hkey, hnn, -⟩
        · obtain ⟨e, he, hv⟩ := hc.numbers z hz n hold
          refine ⟨e, ?_, hv⟩
          rw [l1]
          exact tableAt_append_left he
        · have hzr := key_owner_addr hk hz hiv hkey
          subst hzr
          refine ⟨⟨((canonicalize H S a b).1.lvn_table.length : Int),
            (getOpcodeName op, n1, n2), .inst i⟩, ?_, rfl⟩
          rw [hnn, hcb.counter, tableAt_natCast]
          exact l2
      · intro e he ta tc
        rw [l1] at he
        rcases List.mem_append.mp he with hold | hnew
        · obtain ⟨op', x1, x2, h1, h2, h3, h4⟩ := hc.entries e hold ta tc
          refine ⟨op', x1, x2, h1, ?_, ?_, h4⟩
          · rw [l1]; exact tableAt_append_left h2
          · rw [l1]; exact tableAt_append_left h3
        · simp only [List.mem_singleton] at hnew
          subst hnew
          refine ⟨op, e1, e2, rfl, ?_, ?_, hval⟩
          · rw [l1]; exact tableAt_append_left he1
          · rw [l1]; exact tableAt_append_left he2
      · intro k v hkv
        simp only [insert_lvn] at hkv
        exact hc.replaced k v hkv

theorem semInv_init (H : Host) (w : Nat) (sem : BinaryOps → Nat → Nat → Nat)
    (env : Value → Nat) (ρ : Nat → Nat) (F : Function) :
    SemInv H w sem env ρ F LvnState.init := by
  refine ⟨?_, ?_, ?_⟩
  · intro x _ n hn
    simp [LvnState.init] at hn
  · intro e he
    simp [LvnState.init] at he
  · intro k v hkv
    simp [LvnState.init] at hkv

theorem semInv_of_scan {H : Host} {w : Nat} {sem : BinaryOps → Nat → Nat → Nat}
    {env : Value → Nat} {ρ : Nat → Nat} {F : Function} (hk : KeysFaithful H w F)
    (hρ : Consistent w sem env ρ F) {S : LvnState}
    (h : lvnScanBlock H LvnState.init F.insts = .ok S) : SemInv H w sem env ρ F S := by
  refine @lvnScanBlock_invariant H F.insts (fun _ S => SemInv H w sem env ρ F S) LvnState.init
    init_bounded (semInv_init H w sem env ρ F) ?_ F.insts [] S (by simp) h
  intro front I back S S1 hall hS hP hstep
  exact semInv_step hk hρ hS hP (by rw [hall]; simp) hstep

theorem agrees_refl (val : Value → Nat) (u : Inst) : Inst.agrees val u u := by
  cases u with
  | binary i op a b => exact ⟨rfl, rfl, rfl, rfl⟩
  | other i ops =>
    refine ⟨rfl, ?_⟩
    induction ops with
    | nil => exact List.Forall₂.nil
    | cons x rest ih => exact List.Forall₂.cons rfl ih

theorem agrees_replaceUses {val : Value → Nat} {old new : Value} (h : val old = val new)
    {u0 u : Inst} (hu : Inst.agrees val u0 u) : Inst.agrees val u0 (u.replaceUses old new) := by
  have hs : ∀ v, val (substValue old new v) = val v := by
    intro v
    unfold substValue
    split
    · rename_i heq
      rw [heq, h]
    · rfl
  cases u0 with
  | binary i op a b =>
    cases u with
    | binary i1 op1 a1 b1 =>
      obtain ⟨h1, h2, h3, h4⟩ := hu
      exact ⟨h1, h2, by rw [hs]; exact h3, by rw [hs]; exact h4⟩
    | other i1 ops1 => exact hu.elim
  | other i ops =>
    cases u with
    | binary i1 op1 a1 b1 => exact hu.elim
    | other i1 ops1 =>
      obtain ⟨h1, h2⟩ := hu
      refine ⟨h1, ?_⟩
      show List.Forall₂ _ ops (ops1.map (substValue old new))
      induction h2 with
      | nil => exact List.Forall₂.nil
      | cons hxy _ ih => exact List.Forall₂.cons (by rw [hs]; exact hxy) ih

theorem agrees_operands {val : Value → Nat} {u0 u : Inst} (h : Inst.agrees val u0 u) :
    u0.id = u.id ∧ List.Forall₂ (fun v0 v => val v0 = val v) u0.operands u.operands := by
  cases u0 with
  | binary i op a b =>
    cases u with
    | binary i1 op1 a1 b1 =>
      obtain ⟨h1, -, h3, h4⟩ := h
      exact ⟨h1, List.Forall₂.cons h3 (List.Forall₂.cons h4 List.Forall₂.nil)⟩
    | other i1 ops1 => exact h.elim
  | other i ops =>
    cases u with
    | binary i1 op1 a1 b1 => exact h.elim
    | other i1 ops1 => exact ⟨h.1, h.2⟩

/-- A rewrite that only puts a value where an instruction of the same value
was keeps the opcode of every remaining instruction and the values of its
operands. -/
theorem rewriteFold_agrees {R : List (Value × Value)} {F : Function} (val : Value → Nat)
    (hR : ∀ j v, R.lookup (Value.inst j) = some v → val (Value.inst j) = val v)
    (ids : List Nat) {G : Function}
    (h : ∀ u ∈ G.insts, ∃ u0 ∈ F.insts, Inst.agrees val u0 u) :
    ∀ u ∈ (ids.foldl (rewriteVisit R) G).insts, ∃ u0 ∈ F.insts, Inst.agrees val u0 u := by
  induction ids generalizing G with
  | nil => exact h
  | cons j rest ih =>
    rw [List.foldl_cons]
    apply ih
    rcases rewriteVisit_cases R G j with hsame | ⟨op, a, b, v, -, hv, hvis⟩
    · rw [hsame]; exact h
    · rw [hvis]
      intro u hu
      obtain ⟨u1, hu1, -, rfl⟩ := mem_insts_erase_replace hu
      obtain ⟨u0, hu0, hag⟩ := h u1 hu1
      exact ⟨u0, hu0, agrees_replaceUses (hR j v hv) hag⟩

theorem rewriteLoop_agrees {R : List (Value × Value)} {F : Function} (val : Value → Nat)
    (hR : ∀ j v, R.lookup (Value.inst j) = some v → val (Value.inst j) = val v) :
    ∀ u ∈ (rewriteLoop R F).insts, ∃ u0 ∈ F.insts, Inst.agrees val u0 u :=
  rewriteFold_agrees val hR F.ids (fun u hu => ⟨u, hu, agrees_refl val u⟩)

theorem keysFaithful_of {H : Host} (hH : H.noNames) {F : Function} {w : Nat} (hw : w ≤ 32)
    (hconst : ∀ v ∈ F.values, v.hasWidth w = true)
    (haddr : ∀ x ∈ F.values, ∀ y ∈ F.values, H.addr x = H.addr y → x = y)
    (hkey : ∀ x ∈ F.values, ∀ c ∈ F.values, isConstantInt c = true →
      toString (H.addr x) ≠ operandKey H c) : KeysFaithful H w F := by
  refine ⟨hH, hw, ?_, haddr, hkey⟩
  intro v hv w1 b hvb
  have := hconst v hv
  subst hvb
  simp only [Value.hasWidth, Bool.and_eq_true, beq_iff_eq, decide_eq_true_eq] at this
  exact this

/-- C18: let a function have no names, distinct identities, operands defined
before use, constants that are `w`-bit integers with `w ≤ 32`, different
addresses for different values and no address key equal to the decimal key of a
constant. Under every assignment `env` of values to the external operands, with
add, sub, mul and shl computed modulo `2 ^ w` (and any function `sem` of the
operand values for the other opcodes), the scan ends, and every replacement
`k -> v` it records joins two values that the function computes equal. So the
rewrite loop keeps the opcode of every remaining instruction and the value of
each of its operands, and the values the function computed satisfy the
rewritten function too. -/
theorem value_numbering_preserves_values (H : Host) (hH : H.noNames) (F : Function)
    (hnd : F.ids.Nodup) (hdef : F.defBeforeUse) (w : Nat) (hw : w ≤ 32)
    (hconst : ∀ v ∈ F.values, v.hasWidth w = true)
    (haddr : ∀ x ∈ F.values, ∀ y ∈ F.values, H.addr x = H.addr y → x = y)
    (hkey : ∀ x ∈ F.values, ∀ c ∈ F.values, isConstantInt c = true →
      toString (H.addr x) ≠ operandKey H c)
    (sem : BinaryOps → Nat → Nat → Nat) (env : Value → Nat) :
    ∃ S, lvnScan H LvnState.init F = .ok S ∧
      localValueNumbering H F = .ok (rewriteLoop S.replace_table F) ∧
      (∀ k v, S.replace_table.lookup k = some v →
        evalValue w env (exec w sem env F.insts) k =
          evalValue w env (exec w sem env F.insts) v) ∧
      (∀ u ∈ (rewriteLoop S.replace_table F).insts,
        ∃ u0 ∈ F.insts, Inst.agrees (evalValue w env (exec w sem env F.insts)) u0 u) ∧
      Consistent w sem env (exec w sem env F.insts) (rewriteLoop S.replace_table F) := by
  obtain ⟨S, hS⟩ := lvnScanBlock_ok_of_noNames hH F.insts init_bounded
  have hscan : lvnScan H LvnState.init F = .ok S := by rw [lvnScan_eq_insts]; exact hS
  have hk := keysFaithful_of hH hw hconst haddr hkey
  have hρ := exec_consistent w sem env hnd hdef
  have hinv := semInv_of_scan hk hρ hS
  have hag := rewriteLoop_agrees (R := S.replace_table) (F := F)
    (evalValue w env (exec w sem env F.insts)) (fun j v hv => hinv.replaced _ _ hv)
  refine ⟨S, hscan, by simp only [localValueNumbering, hscan], hinv.replaced, hag, ?_, hρ.bound⟩
  intro i op a b hmem
  obtain ⟨u0, hu0, hagr⟩ := hag _ hmem
  cases u0 with
  | other i0 ops0 => exact hagr.elim
  | binary i0 op0 a0 b0 =>
    obtain ⟨h1, h2, h3, h4⟩ := hagr
    subst h1 h2
    rw [← h3, ← h4]
    exact hρ.binary _ _ _ _ hu0

/-- Witness of C18 on `t = y * y; a = x - 5; c = a + 5; d = x - 5; use c, d`
with 32-bit integers and every external value 7: the scan replaces `c` by `x`
and `d` by `a`, and each pair has the same value. -/
theorem value_numbering_preserves_values_witness :
    plainHost.noNames ∧ valueSample.ids.Nodup ∧ valueSample.defBeforeUse ∧
    (∀ v ∈ valueSample.values, v.hasWidth 32 = true) ∧
    (lvnScan plainHost LvnState.init valueSample).map (fun S => S.replace_table) =
      .ok [(.inst 2, .arg 0), (.inst 3, .inst 1)] ∧
    evalValue 32 (fun _ => 7) (exec 32 (fun _ _ _ => 0) (fun _ => 7) valueSample.insts) (.inst 2) =
      evalValue 32 (fun _ => 7) (exec 32 (fun _ _ _ => 0) (fun _ => 7) valueSample.insts) (.arg 0) := by
  obtain ⟨S, hS, -, hrep, -⟩ :=
    value_numbering_preserves_values plainHost (fun _ => rfl) valueSample (by decide) rfl 32
      (by decide) (by decide) (by decide) (by decide) (fun _ _ _ => 0) (fun _ => 7)
  have h : (lvnScan plainHost LvnState.init valueSample).map (fun S => S.replace_table) =
      .ok [(.inst 2, .arg 0), (.inst 3, .inst 1)] := rfl
  refine ⟨fun _ => rfl, by decide, rfl, by decide, h, ?_⟩
  rw [hS] at h
  have h2 : S.replace_table = [(.inst 2, .arg 0), (.inst 3, .inst 1)] := by
    injection h
  exact hrep _ _ (by rw [h2]; rfl)

theorem id_mapOperands (f : Value → Value) (I : Inst) : (I.mapOperands f).id = I.id := by
  cases I <;> rfl

theorem operands_mapOperands (f : Value → Value) (I : Inst) :
    (I.mapOperands f).operands = I.operands.map f := by
  cases I <;> rfl

theorem mapOperands_congr {f g : Value → Value} {I : Inst}
    (h : ∀ v ∈ I.operands, f v = g v) : I.mapOperands f = I.mapOperands g := by
  cases I with
  | binary i op a b =>
    simp only [Inst.mapOperands]
    rw [h a (by simp [Inst.operands]), h b (by simp [Inst.operands])]
  | other i ops =>
    simp only [Inst.mapOperands]
    congr 1
    exact List.map_congr_left h

theorem replaceUses_eq_mapOperands (old new : Value) (I : Inst) :
    I.replaceUses old new = I.mapOperands (substValue old new) := by
  cases I <;> rfl

theorem mapOperands_mapOperands (f g : Value → Value) (I : Inst) :
    (I.mapOperands f).mapOperands g = I.mapOperands (fun v => g (f v)) := by
  cases I with
  | binary i op a b => rfl
  | other i ops => simp [Inst.mapOperands]

theorem substMap_of_none {R : List (Value × Value)} {v : Value} (h : R.lookup v = none) :
    substMap R v = v := by
  simp only [substMap, h]

theorem substMap_of_some {R : List (Value × Value)} {v x : Value} (h : R.lookup v = some x) :
    substMap R v = x := by
  simp only [substMap, h]

/-- The state of the rewrite loop once the instructions `D` are visited. -/
theorem rewriteFold_insts {R : List (Value × Value)} {G : Function} (hnd : G.ids.Nodup)
    (hkeys : ∀ k v, R.lookup k = some v →
      ∃ j op a b, k = Value.inst j ∧ Inst.binary j op a b ∈ G.insts)
    (hstable : ∀ k v, R.lookup k = some v → R.lookup v = none) :
    ∀ (D rest : List Nat), G.ids = D ++ rest →
      (D.foldl (rewriteVisit R) G).insts =
        (G.insts.filter (fun I => decide (I.id ∉ D) || (R.lookup (.inst I.id)).isNone)).map
          (Inst.mapOperands (substDone R D)) := by
  intro D
  induction D using List.reverseRecOn with
  | nil =>
    intro rest _
    simp only [List.foldl_nil, List.not_mem_nil, not_false_eq_true, decide_True, Bool.true_or,
      List.filter_true]
    symm
    calc G.insts.map (Inst.mapOperands (substDone R [])) = G.insts.map id := by
          apply List.map_congr_left
          intro I _
          have : I.mapOperands (substDone R []) = I.mapOperands id := by
            apply mapOperands_congr
            intro v _
            cases v <;> simp [substDone]
          rw [this]
          cases I <;> simp [Inst.mapOperands]
      _ = G.insts := List.map_id _
  | append_singleton D0 j ih =>
    intro rest hids
    have hids0 : G.ids = D0 ++ j :: rest := by rw [hids]; simp
    have ih0 := ih (j :: rest) hids0
    rw [List.foldl_append, List.foldl_cons, List.foldl_nil]
    have hjD0 : j ∉ D0 := by
      have := hnd
      rw [hids0, List.nodup_append] at this
      intro hj
      exact this.2.2 hj (List.mem_cons_self _ _)
    cases hl : R.lookup (Value.inst j) with
    | none =>
      have hv : rewriteVisit R (D0.foldl (rewriteVisit R) G) j = D0.foldl (rewriteVisit R) G := by
        rcases rewriteVisit_cases R (D0.foldl (rewriteVisit R) G) j with h | ⟨op, a, b, v, -, hv, -⟩
        · exact h
        · rw [hl] at hv; cases hv
      rw [hv, ih0]
      have hfilt : G.insts.filter
            (fun I => decide (I.id ∉ D0) || (R.lookup (.inst I.id)).isNone) =
          G.insts.filter
            (fun I => decide (I.id ∉ D0 ++ [j]) || (R.lookup (.inst I.id)).isNone) := by
        apply List.filter_congr
        intro I _
        by_cases hI : I.id = j
        · rw [hI, hl]; simp
        · simp [hI]
      rw [hfilt]
      apply List.map_congr_left
      intro I _
      apply mapOperands_congr
      intro v _
      cases v with
      | const w b => rfl
      | arg n => rfl
      | inst k =>
        simp only [substDone, List.mem_append, List.mem_singleton]
        by_cases hk : k = j
        · subst hk
          simp only [hjD0, or_true, false_or, if_true, if_false]
          rw [substMap_of_none hl]
        · simp only [hk, or_false]
    | some v =>
      obtain ⟨j1, op, a, b, hkj, hmem⟩ := hkeys _ _ hl
      cases hkj
      have hcur_nd : (D0.foldl (rewriteVisit R) G).ids.Nodup := rewriteFold_nodup R D0 hnd
      have hmem_cur : (Inst.binary j op a b).mapOperands (substDone R D0) ∈
          (D0.foldl (rewriteVisit R) G).insts := by
        rw [ih0]
        apply List.mem_map_of_mem
        rw [List.mem_filter]
        refine ⟨hmem, ?_⟩
        simp [Inst.id, hjD0]
      have hfind : findInst (D0.foldl (rewriteVisit R) G) j =
          some (Inst.binary j op (substDone R D0 a) (substDone R D0 b)) :=
        findInst_of_mem hcur_nd hmem_cur
      have hvis := rewriteVisit_of_recorded (R := R) hfind hl
      rw [hvis, insts_eraseFromParent, insts_replaceAllUsesWith, ih0, List.map_map,
        List.filter_map, List.filter_filter]
      have hfilt : G.insts.filter (fun I =>
            ((fun I => I.id != j) ∘ (Inst.replaceUses (.inst j) v ∘
              Inst.mapOperands (substDone R D0))) I &&
            (decide (I.id ∉ D0) || (R.lookup (.inst I.id)).isNone)) =
          G.insts.filter
            (fun I => decide (I.id ∉ D0 ++ [j]) || (R.lookup (.inst I.id)).isNone) := by
        apply List.filter_congr
        intro I _
        simp only [Function.comp, Inst.id_replaceUses, id_mapOperands]
        by_cases hI : I.id = j
        · rw [hI, hl]; simp
        · simp [hI]
      rw [hfilt]
      apply List.map_congr_left
      intro I _
      simp only [Function.comp]
      rw [replaceUses_eq_mapOperands, mapOperands_mapOperands]
      apply mapOperands_congr
      intro x _
      cases x with
      | const w b => simp [substDone, substValue]
      | arg n => simp [substDone, substValue]
      | inst k =>
        simp only [substDone, List.mem_append, List.mem_singleton]
        by_cases hk : k = j
        · subst hk
          simp only [hjD0, or_true, if_true, if_false, substValue]
          rw [substMap_of_some hl]
        · by_cases hkD : k ∈ D0
          · simp only [hkD, true_or, if_true]
            apply substValue_ne
            intro heq
            cases hlk : R.lookup (Value.inst k) with
            | none =>
              rw [substMap_of_none hlk] at heq
              cases heq
              exact hk rfl
            | some y =>
              rw [substMap_of_some hlk] at heq
              have := hstable _ _ hlk
              rw [heq, hl] at this
              cases this
          · simp only [hkD, hk, or_self, if_false]
            apply substValue_ne
            intro heq
            cases heq
            exact hk rfl

theorem substDone_all {R : List (Value × Value)} {G : Function}
    (hkeys : ∀ k v, R.lookup k = some v →
      ∃ j op a b, k = Value.inst j ∧ Inst.binary j op a b ∈ G.insts) (v : Value) :
    substDone R G.ids v = substMap R v := by
  have hnone : ∀ x, (∀ j, x = Value.inst j → j ∉ G.ids) → substMap R x = x := by
    intro x hx
    cases hl : R.lookup x with
    | none => exact substMap_of_none hl
    | some y =>
      obtain ⟨j, op, a, b, hk, hm⟩ := hkeys _ _ hl
      exact absurd (List.mem_map_of_mem Inst.id hm) (hx j hk)
  cases v with
  | const w b => exact (hnone _ (fun j h => by cases h)).symm
  | arg n => exact (hnone _ (fun j h => by cases h)).symm
  | inst k =>
    simp only [substDone]
    by_cases hk : k ∈ G.ids
    · rw [if_pos hk]
    · rw [if_neg hk]
      exact (hnone _ (fun j h => by cases h; exact hk)).symm

/-- The instructions of the output of the rewrite loop. -/
theorem rewriteLoop_insts {R : List (Value × Value)} {G : Function} (hnd : G.ids.Nodup)
    (hkeys : ∀ k v, R.lookup k = some v →
      ∃ j op a b, k = Value.inst j ∧ Inst.binary j op a b ∈ G.insts)
    (hstable : ∀ k v, R.lookup k = some v → R.lookup v = none) :
    (rewriteLoop R G).insts = rewritten R G.insts := by
  unfold rewriteLoop rewritten
  rw [rewriteFold_insts hnd hkeys hstable G.ids [] (by simp)]
  have hfilt : G.insts.filter
        (fun I => decide (I.id ∉ G.ids) || (R.lookup (.inst I.id)).isNone) =
      G.insts.filter (fun I => (R.lookup (.inst I.id)).isNone) := by
    apply List.filter_congr
    intro I hI
    have : I.id ∈ G.ids := List.mem_map_of_mem Inst.id hI
    simp [this]
  rw [hfilt]
  apply List.map_congr_left
  intro I _
  apply mapOperands_congr
  intro v _
  exact substDone_all hkeys v

/-- What canonicalization preserves: a property of the state that every
insertion of an operand entry preserves (an entry tagged "assign" under the
address key of the operand, or an entry tagged "constant" under the decimal key
of a constant operand, the key being new in both cases). -/
theorem canonicalize_preserves {H : Host} (hH : H.noNames) (P : LvnState → Prop) (a b : Value)
    (hins : ∀ (S : LvnState) (key tag : String) (x y : Int) (ref : Value), S.Bounded → P S →
      S.hashmap.lookup key = none → (ref = a ∨ ref = b) →
      ((tag = "assign" ∧ key = toString (H.addr ref)) ∨
        (tag = "constant" ∧ key = operandKey H ref ∧ isConstantInt ref = true)) →
      P (insert_lvn S key tag x y ref))
    {S : LvnState} (hS : S.Bounded) (hP : P S) : P (canonicalize H S a b).1 := by
  have hreg : ∀ (T : LvnState) (v : Value), T.Bounded → P T → (v = a ∨ v = b) →
      P (register_handle H T "" v).1 := by
    intro T v hT hPT hv
    unfold register_handle
    simp only [if_true]
    cases hl : T.hashmap.lookup (toString (H.addr v)) with
    | some n => exact hPT
    | none => exact hins T _ _ _ _ v hT hPT hl hv (Or.inl ⟨rfl, rfl⟩)
  have hcon : ∀ (T : LvnState) (oper : String) (v : Value), T.Bounded → P T → (v = a ∨ v = b) →
      P (constant_handle T oper v).1 := by
    intro T oper v hT hPT hv
    cases v with
    | arg n => exact hPT
    | inst n => exact hPT
    | const w1 bts =>
      simp only [constant_handle]
      cases hl : T.hashmap.lookup (toString (toInt32 (getSExtValue w1 bts))) with
      | some n => exact hPT
      | none => exact hins T _ _ _ _ _ hT hPT hl hv (Or.inr ⟨rfl, rfl, rfl⟩)
  have n1 : getName H a = "" := getName_of_noNames hH a
  have n2 : getName H b = "" := getName_of_noNames hH b
  have hb1 : (register_handle H S "" a).1.Bounded :=
    (register_handle_operandEntries H a b S "" a (Or.inl rfl)).bounded hS
  have hb2 : (register_handle H (register_handle H S "" a).1 "" b).1.Bounded :=
    (register_handle_operandEntries H a b _ "" b (Or.inr rfl)).bounded hb1
  have hb3 : (constant_handle (register_handle H (register_handle H S "" a).1 "" b).1
      (register_handle H S "" a).2 a).1.Bounded :=
    (constant_handle_operandEntries H a b _ _ a (Or.inl rfl)).bounded hb2
  unfold canonicalize
  simp only [n1, n2]
  exact hcon _ _ b hb3 (hcon _ _ a hb2 (hreg _ b hb1 (hreg S a hS hP (Or.inl rfl)) (Or.inr rfl))
    (Or.inl rfl)) (Or.inr rfl)

theorem values_eq_valuesOf (F : Function) : F.values = valuesOf F.insts := rfl

theorem mem_valuesOf {l : List Inst} {v : Value} :
    v ∈ valuesOf l ↔ ∃ I ∈ l, v = Value.inst I.id ∨ v ∈ I.operands := by
  unfold valuesOf
  rw [List.mem_flatMap]
  constructor
  · rintro ⟨I, hI, hv⟩
    exact ⟨I, hI, List.mem_cons.mp hv⟩
  · rintro ⟨I, hI, hv⟩
    exact ⟨I, hI, List.mem_cons.mpr hv⟩

theorem key_owner_apart {H : Host} {F : Function} (hk : KeysApart H F)
    {x r : Value} (hx : x ∈ F.values) (hr : r ∈ F.values)
    (h : operandKey H x = toString (H.addr r)) : x = r := by
  cases hc : isConstantInt x with
  | true => exact absurd h.symm (hk.apart r hr x hx hc)
  | false =>
    rw [operandKey_of_not_const hk.noNames hc] at h
    exact hk.addr x hx r hr (toString_nat_injective h)

theorem keysApart_of_faithful {H : Host} {w : Nat} {F : Function} (hk : KeysFaithful H w F) :
    KeysApart H F := ⟨hk.noNames, hk.addr, hk.apart⟩

theorem finv_init (H : Host) (G : Function) (vs : List Value) :
    FInv H G vs LvnState.init := by
  refine ⟨?_, ?_, ?_, ?_, ?_, ?_⟩ <;> intros <;> simp_all [LvnState.init]

theorem finv_mono {H : Host} {G : Function} {vs vs1 : List Value} {S : LvnState}
    (h : FInv H G vs S) (hsub : ∀ x ∈ vs, x ∈ vs1) : FInv H G vs1 S := by
  refine ⟨h.rep, h.idx, h.opnum, h.same, ?_, h.zero⟩
  intro k n hk
  obtain ⟨x, hx, hkx⟩ := h.keys k n hk
  exact ⟨x, hsub x hx, hkx⟩

theorem hashmap_empty_of_table_empty {S : LvnState} (hS : S.Bounded)
    (h : S.lvn_table.length = 0) (k : String) : S.hashmap.lookup k = none := by
  cases hl : S.hashmap.lookup k with
  | none => rfl
  | some n =>
    have := hS.numbers k n hl
    omega

/-- The number a new binding gets is not 0 unless the map was empty, so at most
one key has the number 0 afterwards. -/
theorem zero_mapInsert {S : LvnState} (hS : S.Bounded)
    (hz : ∀ k1 k2, S.hashmap.lookup k1 = some 0 → S.hashmap.lookup k2 = some 0 → k1 = k2)
    (key : String) (n : Int) (hn : 0 < n ∨ S.lvn_table.length = 0) :
    ∀ k1 k2, (mapInsert S.hashmap key n).lookup k1 = some 0 →
      (mapInsert S.hashmap key n).lookup k2 = some 0 → k1 = k2 := by
  intro k1 k2 h1 h2
  rcases lookup_mapInsert_cases h1 with g1 | ⟨e1, z1, -⟩
  · rcases lookup_mapInsert_cases h2 with g2 | ⟨e2, z2, -⟩
    · exact hz k1 k2 g1 g2
    · rcases hn with hn | hn
      · omega
      · rw [hashmap_empty_of_table_empty hS hn k1] at g1; cases g1
  · rcases lookup_mapInsert_cases h2 with g2 | ⟨e2, z2, -⟩
    · rcases hn with hn | hn
      · omega
      · rw [hashmap_empty_of_table_empty hS hn k2] at g2; cases g2
    · rw [e1, e2]

theorem finv_insert_operand {H : Host} {G : Function} (hk : KeysApart H G) {vs : List Value}
    {S : LvnState} (hS : S.Bounded) (h : FInv H G vs S) (key tag : String) (x y : Int)
    (ref : Value) (hnone : S.hashmap.lookup key = none) (hrG : ref ∈ G.values)
    (hrv : ref ∈ vs)
    (hkind : (tag = "assign" ∧ key = toString (H.addr ref)) ∨
      (tag = "constant" ∧ key = operandKey H ref ∧ isConstantInt ref = true)) :
    FInv H G vs (insert_lvn S key tag x y ref) := by
  obtain ⟨l1, l2⟩ := insert_lvn_last hS key tag x y ref
  have htag : tag = "assign" ∨ tag = "constant" := by
    rcases hkind with ⟨h1, -⟩ | ⟨h1, -⟩
    · exact Or.inl h1
    · exact Or.inr h1
  have hext := insert_lvn_extends S key tag x y ref
  have hself : (insert_lvn S key tag x y ref).hashmap.lookup key = some S.lvn_counter :=
    insert_lvn_lookup_self _ _ _ _ hnone
  refine ⟨?_, ?_, ?_, ?_, ?_, ?_⟩
  · intro z hz n hn
    have hn' := hn
    simp only [insert_lvn] at hn
    rcases lookup_mapInsert_cases hn with hold | ⟨hkey, hnn, -⟩
    · obtain ⟨e, he, hl, hm⟩ := h.rep z hz n hold
      exact ⟨e, by rw [l1]; exact tableAt_append_left he, hext.hashmap _ _ hl, hm⟩
    · refine ⟨⟨(S.lvn_table.length : Int), (tag, x, y), ref⟩, ?_, ?_, hrG⟩
      · rw [hnn, hS.counter, tableAt_natCast]
        exact l2
      · have hkr : operandKey H ref = key := by
          rcases hkind with ⟨-, hkey2⟩ | ⟨-, hkey2, -⟩
          · have := key_owner_apart hk hz hrG (hkey.trans hkey2)
            rw [← this]
            exact hkey
          · exact hkey2.symm
        show (insert_lvn S key tag x y ref).hashmap.lookup (operandKey H ref) = some n
        rw [hkr, hself, hnn]
  · intro k e he ha hc
    rcases getElem?_append_singleton _ _ k e (by rw [← l1]; exact he) with g | ⟨-, ge⟩
    · obtain ⟨p1, p2⟩ := h.idx k e g ha hc
      exact ⟨hext.hashmap _ _ p1, p2⟩
    · exfalso
      rw [ge] at ha hc
      rcases htag with t | t
      · exact ha t
      · exact hc t
  · intro e he ha hc
    rw [l1] at he
    rcases List.mem_append.mp he with g | g
    · obtain ⟨⟨y1, m1, q1⟩, ⟨y2, m2, q2⟩⟩ := h.opnum e g ha hc
      exact ⟨⟨y1, m1, hext.hashmap _ _ q1⟩, ⟨y2, m2, hext.hashmap _ _ q2⟩⟩
    · exfalso
      simp only [List.mem_singleton] at g
      rw [g] at ha hc
      rcases htag with t | t
      · exact ha t
      · exact hc t
  · intro u v huv
    obtain ⟨p1, n, p2, p3⟩ := h.same u v huv
    exact ⟨p1, n, hext.hashmap _ _ p2, hext.hashmap _ _ p3⟩
  · intro k n hkn
    simp only [insert_lvn] at hkn
    rcases lookup_mapInsert_cases hkn with hold | ⟨hkey, -, -⟩
    · exact h.keys k n hold
    · refine ⟨ref, hrv, ?_⟩
      rcases hkind with ⟨-, hkey2⟩ | ⟨-, hkey2, -⟩
      · left; rw [hkey, hkey2]
      · right; rw [hkey, hkey2]
  · simp only [insert_lvn]
    apply zero_mapInsert hS h.zero
    rw [hS.counter]
    omega

theorem finv_canonicalize {H : Host} {G : Function} (hk : KeysApart H G) {vs : List Value}
    {S : LvnState} (hS : S.Bounded) (h : FInv H G vs S) {a b : Value}
    (ha : a ∈ G.values) (hb : b ∈ G.values) (hav : a ∈ vs) (hbv : b ∈ vs) :
    FInv H G vs (canonicalize H S a b).1 := by
  apply canonicalize_preserves hk.noNames (FInv H G vs) a b ?_ hS h
  intro T key tag x y ref hT hPT hl href hkind
  have hrG : ref ∈ G.values := by rcases href with r | r <;> rw [r] <;> assumption
  have hrv : ref ∈ vs := by rcases href with r | r <;> rw [r] <;> assumption
  exact finv_insert_operand hk hT hPT key tag x y ref hl hrG hrv hkind

theorem fresh_key {H : Host} {G : Function} (hk : KeysApart H G) {vs : List Value}
    {S : LvnState} (h : FInv H G vs S) (hvs : ∀ x ∈ vs, x ∈ G.values) {i : Nat}
    (hi : Value.inst i ∈ G.values) (hnot : Value.inst i ∉ vs) :
    S.hashmap.lookup (toString (H.addr (.inst i))) = none := by
  cases hl : S.hashmap.lookup (toString (H.addr (.inst i))) with
  | none => rfl
  | some n =>
    exfalso
    obtain ⟨x, hx, hkx⟩ := h.keys _ _ hl
    rcases hkx with e | e
    · have := hk.addr _ hi x (hvs x hx) (toString_nat_injective e)
      exact hnot (this ▸ hx)
    · have := key_owner_apart hk (hvs x hx) hi e.symm
      exact hnot (this ▸ hx)

theorem operandKey_inst {H : Host} (hH : H.noNames) (i : Nat) :
    operandKey H (.inst i) = toString (H.addr (.inst i)) :=
  operandKey_of_not_const hH rfl

theorem finv_recorded {H : Host} {G : Function} (hk : KeysApart H G) {vs : List Value}
    {c : LvnState} (h : FInv H G vs c) {i : Nat} {r : Int} {e : lvn_item}
    (hiv : Value.inst i ∈ vs)
    (hfresh : c.hashmap.lookup (toString (H.addr (.inst i))) = none)
    (he : tableAt c.lvn_table r = some e) (hr : 0 < r)
    (hrep : c.hashmap.lookup (operandKey H e.ref) = some r) (hrG : e.ref ∈ G.values) :
    FInv H G vs (recorded H c i r e) := by
  have hext := recorded_extends H c i r e
  have hself : (recorded H c i r e).hashmap.lookup (toString (H.addr (.inst i))) = some r := by
    simp only [recorded]
    exact lookup_mapInsert_self hfresh
  refine ⟨?_, ?_, ?_, ?_, ?_, ?_⟩
  · intro z hz n hn
    have hn0 := hn
    simp only [recorded] at hn
    rcases lookup_mapInsert_cases hn with hold | ⟨hkey, hnn, -⟩
    · obtain ⟨e1, he1, hl, hm⟩ := h.rep z hz n hold
      exact ⟨e1, he1, hext.hashmap _ _ hl, hm⟩
    · rw [hnn]
      exact ⟨e, he, hext.hashmap _ _ hrep, hrG⟩
  · intro k e1 he1 ha hc
    obtain ⟨p1, p2⟩ := h.idx k e1 he1 ha hc
    exact ⟨hext.hashmap _ _ p1, p2⟩
  · intro e1 he1 ha hc
    obtain ⟨⟨y1, m1, q1⟩, ⟨y2, m2, q2⟩⟩ := h.opnum e1 he1 ha hc
    exact ⟨⟨y1, m1, hext.hashmap _ _ q1⟩, ⟨y2, m2, hext.hashmap _ _ q2⟩⟩
  · intro u v huv
    simp only [recorded] at huv
    rcases lookup_mapInsert_cases huv with hold | ⟨hu, hv, -⟩
    · obtain ⟨p1, n, p2, p3⟩ := h.same u v hold
      exact ⟨p1, n, hext.hashmap _ _ p2, hext.hashmap _ _ p3⟩
    · rw [hu, hv]
      refine ⟨hrG, r, ?_, hext.hashmap _ _ hrep⟩
      rw [operandKey_inst hk.noNames]
      exact hself
  · intro k n hkn
    simp only [recorded] at hkn
    rcases lookup_mapInsert_cases hkn with hold | ⟨hkey, -, -⟩
    · exact h.keys k n hold
    · exact ⟨_, hiv, Or.inl hkey⟩
  · intro k1 k2 h1 h2
    simp only [recorded] at h1 h2
    rcases lookup_mapInsert_cases h1 with g1 | ⟨-, z1, -⟩
    · rcases lookup_mapInsert_cases h2 with g2 | ⟨-, z2, -⟩
      · exact h.zero k1 k2 g1 g2
      · omega
    · omega

theorem finv_novel {H : Host} {G : Function} (hk : KeysApart H G) {vs : List Value}
    {c : LvnState} (hc : c.Bounded) (h : FInv H G vs c) {i : Nat} (op : BinaryOps)
    {n1 n2 : Int} (hi : Value.inst i ∈ G.values) (hiv : Value.inst i ∈ vs)
    (hfresh : c.hashmap.lookup (toString (H.addr (.inst i))) = none)
    {a b : Value} (ha : a ∈ G.values) (hb : b ∈ G.values)
    (h1 : c.hashmap.lookup (operandKey H a) = some n1)
    (h2 : c.hashmap.lookup (operandKey H b) = some n2) :
    FInv H G vs (insert_lvn c (toString (H.addr (.inst i))) (getOpcodeName op) n1 n2 (.inst i)) := by
  obtain ⟨l1, l2⟩ := insert_lvn_last hc (toString (H.addr (.inst i))) (getOpcodeName op)
    n1 n2 (.inst i)
  have hext := insert_lvn_extends c (toString (H.addr (.inst i))) (getOpcodeName op)
    n1 n2 (.inst i)
  have hself := insert_lvn_lookup_self (T := c) (getOpcodeName op) n1 n2 (.inst i) hfresh
  have hpos : 0 < c.lvn_table.length := by
    have := hc.numbers _ _ h1
    omega
  refine ⟨?_, ?_, ?_, ?_, ?_, ?_⟩
  · intro z hz n hn
    have hn0 := hn
    simp only [insert_lvn] at hn
    rcases lookup_mapInsert_cases hn with hold | ⟨hkey, hnn, -⟩
    · obtain ⟨e1, he1, hl, hm⟩ := h.rep z hz n hold
      exact ⟨e1, by rw [l1]; exact tableAt_append_left he1, hext.hashmap _ _ hl, hm⟩
    · refine ⟨⟨(c.lvn_table.length : Int), (getOpcodeName op, n1, n2), .inst i⟩, ?_, ?_, hi⟩
      · rw [hnn, hc.counter, tableAt_natCast]
        exact l2
      · show (insert_lvn c _ _ n1 n2 (.inst i)).hashmap.lookup (operandKey H (.inst i)) = some n
        rw [operandKey_inst hk.noNames, hself, hnn]
  · intro k e he ta tc
    rcases getElem?_append_singleton _ _ k e (by rw [← l1]; exact he) with g | ⟨gk, ge⟩
    · obtain ⟨p1, p2⟩ := h.idx k e g ta tc
      exact ⟨hext.hashmap _ _ p1, p2⟩
    · rw [ge]
      refine ⟨?_, hi⟩
      show (insert_lvn c _ _ n1 n2 (.inst i)).hashmap.lookup (operandKey H (.inst i)) = some _
      rw [operandKey_inst hk.noNames, hself, hc.counter, gk]
  · intro e he ta tc
    rw [l1] at he
    rcases List.mem_append.mp he with g | g
    · obtain ⟨⟨y1, m1, q1⟩, ⟨y2, m2, q2⟩⟩ := h.opnum e g ta tc
      exact ⟨⟨y1, m1, hext.hashmap _ _ q1⟩, ⟨y2, m2, hext.hashmap _ _ q2⟩⟩
    · simp only [List.mem_singleton] at g
      rw [g]
      exact ⟨⟨a, ha, hext.hashmap _ _ h1⟩, ⟨b, hb, hext.hashmap _ _ h2⟩⟩
  · intro u v huv
    simp only [insert_lvn] at huv
    obtain ⟨p1, n, p2, p3⟩ := h.same u v huv
    exact ⟨p1, n, hext.hashmap _ _ p2, hext.hashmap _ _ p3⟩
  · intro k n hkn
    simp only [insert_lvn] at hkn
    rcases lookup_mapInsert_cases hkn with hold | ⟨hkey, -, -⟩
    · exact h.keys k n hold
    · exact ⟨_, hiv, Or.inl hkey⟩
  · simp only [insert_lvn]
    apply zero_mapInsert hc h.zero
    rw [hc.counter]
    left
    omega

theorem not_mem_valuesOf_front {G : Function} (hnd : G.ids.Nodup) (hdef : G.defBeforeUse)
    {front back : List Inst} {I : Inst} (hG : G.insts = front ++ I :: back) :
    Value.inst I.id ∉ valuesOf front ∧ Value.inst I.id ∉ I.operands := by
  have hnf := not_mem_front_of_nodup hnd hG
  constructor
  · intro hmem
    obtain ⟨J, hJ, hv⟩ := mem_valuesOf.mp hmem
    rcases hv with e | e
    · have heq : I.id = J.id := by injection e
      exact hnf (heq ▸ List.mem_map_of_mem Inst.id hJ)
    · obtain ⟨f1, f2, hsplit⟩ := List.append_of_mem hJ
      have hG2 : G.insts = f1 ++ J :: (f2 ++ I :: back) := by rw [hG, hsplit]; simp
      have := defBeforeUse_split hdef hG2 e
      apply hnf
      rw [hsplit]
      simp only [List.map_append, List.mem_append]
      exact Or.inl this
  · intro hmem
    exact hnf (defBeforeUse_split hdef hG hmem)

theorem valuesOf_append (l1 l2 : List Inst) : valuesOf (l1 ++ l2) = valuesOf l1 ++ valuesOf l2 := by
  simp [valuesOf]

theorem valuesOf_subset {G : Function} {front back : List Inst} (hG : G.insts = front ++ back) :
    ∀ x ∈ valuesOf front, x ∈ G.values := by
  intro x hx
  rw [values_eq_valuesOf, hG, valuesOf_append]
  exact List.mem_append_left _ hx

theorem finv_step {H : Host} {G : Function} (hk : KeysApart H G) (hnd : G.ids.Nodup)
    (hdef : G.defBeforeUse) {front back : List Inst} {I : Inst}
    (hG : G.insts = front ++ I :: back) {S S1 : LvnState} (hS : S.Bounded)
    (h : FInv H G (valuesOf front) S) (hstep : lvnStep H S I = .ok S1) :
    FInv H G (valuesOf (front ++ [I])) S1 := by
  have hsub : ∀ x ∈ valuesOf front, x ∈ valuesOf (front ++ [I]) := by
    intro x hx
    rw [valuesOf_append]
    exact List.mem_append_left _ hx
  cases I with
  | other i ops =>
    simp only [lvnStep] at hstep
    cases hstep
    exact finv_mono h hsub
  | binary i op a b =>
    have hI : Inst.binary i op a b ∈ G.insts := by rw [hG]; simp
    have hiG : Value.inst i ∈ G.values := (mem_values_of_mem hI).1
    have hops := (mem_values_of_mem hI).2
    have haG : a ∈ G.values := hops a (by simp [Inst.operands])
    have hbG : b ∈ G.values := hops b (by simp [Inst.operands])
    obtain ⟨hn1, hn2⟩ := not_mem_valuesOf_front hnd hdef hG
    -- the state after canonicalization, its keys among the values seen and the operands
    have h0 : FInv H G (valuesOf front ++ [a, b]) S :=
      finv_mono h (fun x hx => List.mem_append_left _ hx)
    have hc0 := finv_canonicalize hk hS h0 haG hbG (by simp) (by simp)
    have hcb := (canonicalize_operandEntries H S a b).bounded hS
    have hvs0 : ∀ x ∈ valuesOf front ++ [a, b], x ∈ G.values := by
      intro x hx
      rcases List.mem_append.mp hx with g | g
      · exact @valuesOf_subset G front (Inst.binary i op a b :: back) hG x g
      · simp only [List.mem_cons, List.mem_singleton, List.not_mem_nil, or_false] at g
        rcases g with g | g <;> rw [g] <;> assumption
    have hnot0 : Value.inst i ∉ valuesOf front ++ [a, b] := by
      intro hx
      rcases List.mem_append.mp hx with g | g
      · exact hn1 g
      · apply hn2
        simpa [Inst.operands] using g
    have hfresh := fresh_key hk hc0 hvs0 hiG hnot0
    have hsub2 : ∀ x ∈ valuesOf front ++ [a, b], x ∈ valuesOf (front ++ [Inst.binary i op a b]) := by
      intro x hx
      rw [valuesOf_append]
      rcases List.mem_append.mp hx with g | g
      · exact List.mem_append_left _ g
      · apply List.mem_append_right
        simp only [valuesOf, List.flatMap_cons, List.flatMap_nil, List.append_nil, Inst.operands,
          Inst.id]
        exact List.mem_cons_of_mem _ g
    have hc := finv_mono hc0 hsub2
    have hiv : Value.inst i ∈ valuesOf (front ++ [Inst.binary i op a b]) := by
      rw [valuesOf_append]
      apply List.mem_append_right
      simp [valuesOf, Inst.id]
    obtain ⟨n1, n2, hl1, hl2, hout⟩ := lvnStep_ok_outcome hS hstep
    cases hout with
    | exact k e hcmp he hkey hfirst =>
      have t1 : e.value.1 ≠ "assign" := by rw [hkey]; exact getOpcodeName_ne_assign op
      have t2 : e.value.1 ≠ "constant" := by rw [hkey]; exact getOpcodeName_ne_constant op
      obtain ⟨p1, p2⟩ := hc.idx k e he t1 t2
      have hkpos : (0 : Int) < k := by
        rcases hcb.operands k e he with q | q | ⟨q1, q2, -, -⟩
        · exact absurd q t1
        · exact absurd q t2
        · omega
      exact finv_recorded hk hc hiv hfresh (by rw [tableAt_natCast]; exact he) hkpos p1 p2
    | inverse r e0 e hcmp hnone hpat hr he0 hleft hright hop he =>
      have t1 : e0.value.1 ≠ "assign" := by
        rcases hop with ⟨-, hs⟩ | ⟨-, hs⟩ <;> rw [hs] <;> decide
      have t2 : e0.value.1 ≠ "constant" := by
        rcases hop with ⟨-, hs⟩ | ⟨-, hs⟩ <;> rw [hs] <;> decide
      obtain ⟨⟨y1, m1, q1⟩, -⟩ := hc.opnum e0 (mem_of_tableAt he0) t1 t2
      rw [hleft] at q1
      obtain ⟨e1, g1, g2, g3⟩ := hc.rep y1 m1 r q1
      rw [he] at g1
      cases g1
      exact finv_recorded hk hc hiv hfresh he hr g2 g3
    | novel r hcmp hnone hpat hr =>
      exact finv_novel hk hcb hc op hiG hiv hfresh haG hbG hl1 hl2

theorem finv_of_scan {H : Host} {G : Function} (hk : KeysApart H G) (hnd : G.ids.Nodup)
    (hdef : G.defBeforeUse) {front back : List Inst} (hG : G.insts = front ++ back)
    {S : LvnState} (h : lvnScanBlock H LvnState.init front = .ok S) :
    FInv H G (valuesOf front) S := by
  refine @lvnScanBlock_invariant H G.insts (fun front S => FInv H G (valuesOf front) S)
    LvnState.init init_bounded (finv_init H G _) ?_ front back S hG h
  intro f I bk T T1 hall hT hP hstep
  exact finv_step hk hnd hdef hall hT hP hstep

theorem getElem?_of_extension_left {α : Type} {l l1 : List α} (h : l <+: l1) {k : Nat} {e : α}
    (he : l[k]? = some e) : l1[k]? = some e := by
  obtain ⟨t, rfl⟩ := h
  have hk : k < l.length := by
    by_contra hge
    rw [List.getElem?_eq_none (by omega)] at he
    cases he
  rw [List.getElem?_append_left hk]
  exact he

/-- An instruction the scan did not record for replacement got an entry, and the
numbers of that moment are the final ones. -/
theorem kept_at {H : Host} {G : Function} (hk : KeysApart H G) (hnd : G.ids.Nodup)
    (hdef : G.defBeforeUse) {Sf : LvnState}
    (hSf : lvnScanBlock H LvnState.init G.insts = .ok Sf)
    {front back : List Inst} {i : Nat} {op : BinaryOps} {a b : Value}
    (hG : G.insts = front ++ Inst.binary i op a b :: back)
    (hkept : Sf.replace_table.lookup (.inst i) = none) :
    ∃ S n1 n2, KeptAt H Sf front i op a b S n1 n2 := by
  have hSf0 := hSf
  rw [hG] at hSf
  obtain ⟨S, S2, h1, h2, h3⟩ := lvnScanBlock_split hSf
  have hb := (lvnScanBlock_bounded_extends init_bounded h1).1
  have hb2 := (lvnStep_bounded_extends hb h2).1
  have hext2 := (lvnScanBlock_bounded_extends hb2 h3).2
  have hcb := (canonicalize_operandEntries H S a b).bounded hb
  have hfin : lvnScan H LvnState.init G = .ok Sf := by rw [lvnScan_eq_insts]; exact hSf0
  obtain ⟨n1, n2, hl1, hl2, hout⟩ := lvnStep_ok_outcome hb h2
  -- the key of the instruction is fresh after canonicalization
  have hI : Inst.binary i op a b ∈ G.insts := by rw [hG]; simp
  have hiG : Value.inst i ∈ G.values := (mem_values_of_mem hI).1
  have hops := (mem_values_of_mem hI).2
  have haG : a ∈ G.values := hops a (by simp [Inst.operands])
  have hbG : b ∈ G.values := hops b (by simp [Inst.operands])
  obtain ⟨hn1, hn2⟩ := not_mem_valuesOf_front hnd hdef hG
  have hfront : G.insts = front ++ (Inst.binary i op a b :: back) := hG
  have h0 : FInv H G (valuesOf front ++ [a, b]) S :=
    finv_mono (finv_of_scan hk hnd hdef hfront h1) (fun x hx => List.mem_append_left _ hx)
  have hc0 := finv_canonicalize hk hb h0 haG hbG (by simp) (by simp)
  have hvs0 : ∀ x ∈ valuesOf front ++ [a, b], x ∈ G.values := by
    intro x hx
    rcases List.mem_append.mp hx with g | g
    · exact @valuesOf_subset G front (Inst.binary i op a b :: back) hG x g
    · simp only [List.mem_cons, List.mem_singleton, List.not_mem_nil, or_false] at g
      rcases g with g | g <;> rw [g] <;> assumption
  have hnot0 : Value.inst i ∉ valuesOf front ++ [a, b] := by
    intro hx
    rcases List.mem_append.mp hx with g | g
    · exact hn1 g
    · apply hn2
      simpa [Inst.operands] using g
  have hfresh := fresh_key hk hc0 hvs0 hiG hnot0
  cases hout with
  | exact k e hcmp he hkey hfirst =>
    rw [(recorded_final hnd hG h1 h2 hfin).1] at hkept
    cases hkept
  | inverse r e0 e hcmp hnone hpat hr he0 hleft hright hop he =>
    rw [(recorded_final hnd hG h1 h2 hfin).1] at hkept
    cases hkept
  | novel r hcmp hnone hpat hr =>
    refine ⟨S, n1, n2, ⟨h1, hcb, ?_, hcb.numbers _ _ hl1, hcb.numbers _ _ hl2, h2, ⟨r, hr, hpat⟩,
      ?_, ?_, ?_, ?_, ?_⟩⟩
    · rw [operandNumbers_eq, hl1, hl2]
    · exact hext2.hashmap _ _ (lookup_mapInsert_of_some hl1)
    · exact hext2.hashmap _ _ (lookup_mapInsert_of_some hl2)
    · apply hext2.hashmap
      rw [insert_lvn_lookup_self _ _ _ _ hfresh, hcb.counter]
    · exact getElem?_of_extension_left hext2.table (insert_lvn_last hcb _ _ _ _ _).2
    · exact List.IsPrefix.trans ((insert_lvn_extends _ _ _ _ _ _).table) hext2.table

/-- A replaced value and its replacement have the same final number. -/
theorem subst_number {H : Host} {G : Function} {vs : List Value} {Sf : LvnState}
    (h : FInv H G vs Sf) (x : Value) :
    Sf.hashmap.lookup (operandKey H (substMap Sf.replace_table x)) =
      Sf.hashmap.lookup (operandKey H x) := by
  unfold substMap
  cases hl : Sf.replace_table.lookup x with
  | none => rfl
  | some v =>
    obtain ⟨-, n, g1, g2⟩ := h.same x v hl
    simp only [g1, g2]

/-- The replacement of a value is a value of the function. -/
theorem substMap_mem_values {H : Host} {G : Function} {vs : List Value} {Sf : LvnState}
    (h : FInv H G vs Sf) {x : Value} (hx : x ∈ G.values) :
    substMap Sf.replace_table x ∈ G.values := by
  unfold substMap
  cases hl : Sf.replace_table.lookup x with
  | none => exact hx
  | some v => exact (h.same x v hl).1

/-- The replacement recorded for an instruction is the result of an instruction
scanned before it. -/
theorem target_in_front {H : Host} {G : Function} (hnd : G.ids.Nodup)
    (hdef : G.defBeforeUse) {Sf : LvnState}
    (hSf : lvnScanBlock H LvnState.init G.insts = .ok Sf)
    {front back : List Inst} {I : Inst} (hG : G.insts = front ++ I :: back)
    {t : Nat} (hv : Sf.replace_table.lookup (.inst I.id) = some (.inst t)) :
    t ∈ front.map Inst.id := by
  rw [hG] at hSf
  obtain ⟨S1, S2, h1, h2, h3⟩ := lvnScanBlock_split hSf
  have hb1 := (lvnScanBlock_bounded_extends init_bounded h1).1
  have hb2 := (lvnStep_bounded_extends hb1 h2).1
  have hfront : G.insts = front ++ (I :: back) := hG
  have hinv1 : RecInv H front S1 := recInv_of_scan hnd hdef hfront h1
  have hnone : S1.replace_table.lookup (.inst I.id) = none := by
    cases hl : S1.replace_table.lookup (.inst I.id) with
    | none => rfl
    | some w =>
      exfalso
      obtain ⟨j, op, a, b, hj, hm⟩ := hinv1.keys _ _ hl
      cases hj
      exact not_mem_front_of_nodup hnd hG (List.mem_map.mpr ⟨_, hm, rfl⟩)
  have hfin := lvnScanBlock_replace_ne hb2 (not_mem_back_of_nodup hnd hG) h3
  rw [hfin] at hv
  cases I with
  | other i ops =>
    simp only [lvnStep] at h2
    cases h2
    rw [hnone] at hv
    cases hv
  | binary i op a b =>
    obtain ⟨n1, n2, -, -, hout⟩ := lvnStep_ok_outcome hb1 h2
    rcases outcome_recorded_before hb1 hout with ⟨e, he, hr⟩ | hr
    · rw [hr] at hv
      simp only [Inst.id] at hv hnone
      rw [lookup_mapInsert_self hnone] at hv
      exact hinv1.refs_seen e he t (Option.some.inj hv)
    · rw [hr, hnone] at hv
      cases hv

/-- The replacement of a value defined among the instructions `front` is defined
among them too. -/
theorem substMap_in_front {H : Host} {G : Function} (hnd : G.ids.Nodup)
    (hdef : G.defBeforeUse) {Sf : LvnState}
    (hSf : lvnScanBlock H LvnState.init G.insts = .ok Sf)
    {front back : List Inst} (hG : G.insts = front ++ back) {x : Value}
    (hx : ∀ c, x = Value.inst c → c ∈ front.map Inst.id) {t : Nat}
    (ht : substMap Sf.replace_table x = .inst t) : t ∈ front.map Inst.id := by
  unfold substMap at ht
  cases hl : Sf.replace_table.lookup x with
  | none =>
    rw [hl] at ht
    exact hx t ht
  | some v =>
    rw [hl] at ht
    simp only at ht
    subst ht
    have hfin : RecInv H G.insts Sf := @recInv_of_scan H G hnd hdef G.insts [] Sf (by simp) hSf
    obtain ⟨c, op, a, b, hc, -⟩ := hfin.keys _ _ hl
    subst hc
    obtain ⟨C, hC, hid⟩ := List.mem_map.mp (hx c rfl)
    obtain ⟨f, bk, hf⟩ := List.append_of_mem hC
    have hG2 : G.insts = f ++ C :: (bk ++ back) := by rw [hG, hf]; simp
    rw [← hid] at hl
    have := target_in_front hnd hdef hSf hG2 hl
    rw [hf]
    simp only [List.map_append, List.mem_append]
    exact Or.inl this

theorem mem_valuesOf_rewritten {R : List (Value × Value)} {l : List Inst} {x : Value}
    (hx : x ∈ valuesOf (rewritten R l)) :
    ∃ J ∈ l, R.lookup (.inst J.id) = none ∧
      (x = Value.inst J.id ∨ ∃ y ∈ J.operands, x = substMap R y) := by
  obtain ⟨I1, hI1, hor⟩ := mem_valuesOf.mp hx
  unfold rewritten at hI1
  obtain ⟨J, hJ, rfl⟩ := List.mem_map.mp hI1
  obtain ⟨hJl, hJk⟩ := List.mem_filter.mp hJ
  refine ⟨J, hJl, by simpa using hJk, ?_⟩
  rcases hor with g | g
  · left
    rw [g, id_mapOperands]
  · right
    rw [operands_mapOperands] at g
    obtain ⟨y, hy, rfl⟩ := List.mem_map.mp g
    exact ⟨y, hy, rfl⟩

/-- The values of the output are values of the input. -/
theorem valuesOf_rewritten_subset {H : Host} {G : Function} {vs : List Value} {Sf : LvnState}
    (h : FInv H G vs Sf) {l : List Inst} (hl : ∀ J ∈ l, J ∈ G.insts) :
    ∀ x ∈ valuesOf (rewritten Sf.replace_table l), x ∈ G.values := by
  intro x hx
  obtain ⟨J, hJ, -, g | ⟨y, hy, rfl⟩⟩ := mem_valuesOf_rewritten hx
  · rw [g]
    exact (mem_values_of_mem (hl J hJ)).1
  · exact substMap_mem_values h ((mem_values_of_mem (hl J hJ)).2 y hy)

/-- The result of an instruction does not occur, in the output, among the
instructions before it nor among its own operands. -/
theorem not_mem_rewritten_front {H : Host} {G : Function} (hnd : G.ids.Nodup)
    (hdef : G.defBeforeUse) {Sf : LvnState}
    (hSf : lvnScanBlock H LvnState.init G.insts = .ok Sf)
    {front back : List Inst} {I : Inst} (hG : G.insts = front ++ I :: back) :
    Value.inst I.id ∉ valuesOf (rewritten Sf.replace_table front) ∧
      ∀ y ∈ I.operands, substMap Sf.replace_table y ≠ Value.inst I.id := by
  have hnot := not_mem_front_of_nodup hnd hG
  have hfront : G.insts = front ++ (I :: back) := hG
  constructor
  · intro hx
    obtain ⟨J, hJ, -, g | ⟨y, hy, g⟩⟩ := mem_valuesOf_rewritten hx
    · apply hnot
      have : I.id = J.id := by injection g
      rw [this]
      exact List.mem_map.mpr ⟨J, hJ, rfl⟩
    · apply hnot
      refine substMap_in_front hnd hdef hSf hfront ?_ g.symm
      intro c hc
      subst hc
      obtain ⟨f, bk, hf⟩ := List.append_of_mem hJ
      have hG2 : G.insts = f ++ J :: (bk ++ I :: back) := by rw [hG, hf]; simp
      have := defBeforeUse_split hdef hG2 hy
      rw [hf]
      simp only [List.map_append, List.mem_append]
      exact Or.inl this
  · intro y hy g
    apply hnot
    refine substMap_in_front hnd hdef hSf hfront ?_ g
    intro c hc
    subst hc
    exact defBeforeUse_split hdef hG hy

theorem sinv_mono {H : Host} {Sf : LvnState} {seen seen1 : List Inst} {vs vs1 : List Value}
    {S : LvnState} (h : SInv H Sf seen vs S) (hseen : ∀ J ∈ seen, J ∈ seen1)
    (hvs : ∀ x ∈ vs, x ∈ vs1) : SInv H Sf seen1 vs1 S := by
  refine ⟨h.norep, h.inj, ?_, ?_, h.zero, h.anchor⟩
  · intro k n hkn
    obtain ⟨x, hx, g⟩ := h.keys k n hkn
    exact ⟨x, hvs x hx, g⟩
  · intro idx e he ha hc
    obtain ⟨j, op, a, b, g1, g2⟩ := h.opent idx e he ha hc
    exact ⟨j, op, a, b, hseen _ g1, g2⟩

/-- The invariant of the second scan survives a new entry under a fresh key of a
value met: an operand entry, or the entry of a kept instruction with the
numbers of its operands. -/
theorem sinv_insert {H : Host} {Sf : LvnState} {seen : List Inst} {vs : List Value}
    {S : LvnState} (hS : S.Bounded) (h : SInv H Sf seen vs S)
    (hz : ∀ k1 k2, Sf.hashmap.lookup k1 = some 0 → Sf.hashmap.lookup k2 = some 0 → k1 = k2)
    (key tag : String) (x y : Int) (ref : Value) (hnone : S.hashmap.lookup key = none)
    (howner : ∃ v ∈ vs, key = toString (H.addr v) ∨ key = operandKey H v)
    (hent : (tag = "assign" ∨ tag = "constant") ∨
      ∃ j op a b, Inst.binary j op a b ∈ seen ∧ Sf.replace_table.lookup (.inst j) = none ∧
        tag = getOpcodeName op ∧
        S.hashmap.lookup (operandKey H (substMap Sf.replace_table a)) = some x ∧
        S.hashmap.lookup (operandKey H (substMap Sf.replace_table b)) = some y ∧
        key = toString (H.addr (.inst j))) :
    SInv H Sf seen vs (insert_lvn S key tag x y ref) := by
  obtain ⟨l1, l2⟩ := insert_lvn_last hS key tag x y ref
  have hext := insert_lvn_extends S key tag x y ref
  have hself : (insert_lvn S key tag x y ref).hashmap.lookup key = some S.lvn_counter :=
    insert_lvn_lookup_self _ _ _ _ hnone
  have hcases : ∀ k n, (insert_lvn S key tag x y ref).hashmap.lookup k = some n →
      S.hashmap.lookup k = some n ∨ (k = key ∧ n = S.lvn_counter) := by
    intro k n hkn
    simp only [insert_lvn] at hkn
    rcases lookup_mapInsert_cases hkn with hold | ⟨hkey, hnn, -⟩
    · exact Or.inl hold
    · exact Or.inr ⟨hkey, hnn⟩
  obtain ⟨k0, hk0, hf0⟩ := h.anchor
  have hlt : ∀ k n, S.hashmap.lookup k = some n → n < S.lvn_counter := by
    intro k n hkn
    rw [hS.counter]
    exact (hS.numbers k n hkn).2
  refine ⟨h.norep, ?_, ?_, ?_, ?_, ⟨k0, hext.hashmap _ _ hk0, hf0⟩⟩
  · intro k1 k2 n h1 h2
    rcases hcases k1 n h1 with g1 | ⟨g1, g1n⟩ <;> rcases hcases k2 n h2 with g2 | ⟨g2, g2n⟩
    · exact h.inj k1 k2 n g1 g2
    · have := hlt k1 n g1
      omega
    · have := hlt k2 n g2
      omega
    · rw [g1, g2]
  · intro k n hkn
    rcases hcases k n hkn with g | ⟨g, -⟩
    · exact h.keys k n g
    · rw [g]
      exact howner
  · intro idx e he ha hc
    rcases getElem?_append_singleton _ _ idx e (by rw [← l1]; exact he) with g | ⟨gi, ge⟩
    · obtain ⟨j, op, a, b, g1, g2, g3, g4, g5, g6⟩ := h.opent idx e g ha hc
      exact ⟨j, op, a, b, g1, g2, g3, hext.hashmap _ _ g4, hext.hashmap _ _ g5,
        hext.hashmap _ _ g6⟩
    · rw [ge] at ha hc
      rcases hent with t | ⟨j, op, a, b, g1, g2, g3, g4, g5, g6⟩
      · exfalso
        rcases t with t | t
        · exact ha t
        · exact hc t
      · refine ⟨j, op, a, b, g1, g2, ?_, ?_, ?_, ?_⟩
        · rw [ge]
          exact g3
        · rw [ge]
          exact hext.hashmap _ _ g4
        · rw [ge]
          exact hext.hashmap _ _ g5
        · rw [← g6, hself, gi, hS.counter]
  · intro k r hkr hsf
    rcases hcases k r hkr with g | ⟨g, -⟩
    · exact h.zero k r g hsf
    · exfalso
      have := hz k k0 hsf hf0
      rw [g] at this
      rw [this, hk0] at hnone
      cases hnone

/-- The invariant of the second scan survives canonicalization of two values
met. -/
theorem sinv_canonicalize {H : Host} (hH : H.noNames) {Sf : LvnState} {seen : List Inst}
    {vs : List Value} {S : LvnState} (hS : S.Bounded) (h : SInv H Sf seen vs S)
    (hz : ∀ k1 k2, Sf.hashmap.lookup k1 = some 0 → Sf.hashmap.lookup k2 = some 0 → k1 = k2)
    {a b : Value} (ha : a ∈ vs) (hb : b ∈ vs) :
    SInv H Sf seen vs (canonicalize H S a b).1 := by
  refine canonicalize_preserves hH (SInv H Sf seen vs) a b ?_ hS h
  intro T key tag x y ref hT hP hnone href hkind
  have hrv : ref ∈ vs := by
    rcases href with g | g <;> rw [g] <;> assumption
  apply sinv_insert hT hP hz key tag x y ref hnone
  · rcases hkind with ⟨-, g⟩ | ⟨-, g, -⟩
    · exact ⟨ref, hrv, Or.inl g⟩
    · exact ⟨ref, hrv, Or.inr g⟩
  · rcases hkind with ⟨g, -⟩ | ⟨g, -, -⟩
    · exact Or.inl (Or.inl g)
    · exact Or.inl (Or.inr g)

/-- The invariant of the second scan holds after the very first entry, when its
key had the number 0 in the first scan. -/
theorem sinv_first {H : Host} {Sf : LvnState} {seen : List Inst} {vs : List Value}
    (key : String) (ref : Value) (hf : Sf.hashmap.lookup key = some 0)
    (howner : ∃ v ∈ vs, key = toString (H.addr v) ∨ key = operandKey H v) :
    SInv H Sf seen vs (insert_lvn LvnState.init key "assign" 0 0 ref) := by
  have hcases : ∀ k n, (insert_lvn LvnState.init key "assign" 0 0 ref).hashmap.lookup k = some n →
      k = key ∧ n = 0 := by
    intro k n hkn
    simp only [insert_lvn, LvnState.init] at hkn
    rcases lookup_mapInsert_cases hkn with hold | ⟨hkey, hnn, -⟩
    · simp at hold
    · exact ⟨hkey, hnn⟩
  have hself : (insert_lvn LvnState.init key "assign" 0 0 ref).hashmap.lookup key = some 0 :=
    insert_lvn_lookup_self (T := LvnState.init) "assign" 0 0 ref (by simp [LvnState.init])
  refine ⟨rfl, ?_, ?_, ?_, ?_, ⟨key, hself, hf⟩⟩
  · intro k1 k2 n h1 h2
    rw [(hcases k1 n h1).1, (hcases k2 n h2).1]
  · intro k n hkn
    rw [(hcases k n hkn).1]
    exact howner
  · intro idx e he ha hc
    exfalso
    have : (insert_lvn LvnState.init key "assign" 0 0 ref).lvn_table =
        [⟨0, ("assign", 0, 0), ref⟩] := rfl
    rw [this] at he
    cases idx with
    | zero =>
      simp only [List.getElem?_cons_zero, Option.some.injEq] at he
      rw [← he] at ha
      exact ha rfl
    | succ m => simp at he
  · intro k r hkr _
    exact (hcases k r hkr).2

/-- Registering the first operand beforehand does not change
canonicalization. -/
theorem canonicalize_after_register {H : Host} (hH : H.noNames) (S : LvnState) (a b : Value) :
    canonicalize H (register_handle H S "" a).1 a b = canonicalize H S a b := by
  have hidem : register_handle H (register_handle H S "" a).1 "" a = register_handle H S "" a := by
    cases hl : S.hashmap.lookup (toString (H.addr a)) with
    | none =>
      have h1 : register_handle H S "" a =
          (insert_lvn S (toString (H.addr a)) "assign" 0 0 a, toString (H.addr a)) := by
        simp only [register_handle, if_true, hl]
      rw [h1]
      have h2 := insert_lvn_lookup_self (T := S) "assign" 0 0 a hl
      simp only [register_handle, if_true, h2]
    | some n =>
      have h1 : register_handle H S "" a = (S, toString (H.addr a)) := by
        simp only [register_handle, if_true, hl]
      rw [h1]
      exact h1
  unfold canonicalize
  simp only [getName_of_noNames hH, hidem]

theorem lvnStep_after_register {H : Host} (hH : H.noNames) (S : LvnState) (i : Nat)
    (op : BinaryOps) (a b : Value) :
    lvnStep H (register_handle H S "" a).1 (.binary i op a b) = lvnStep H S (.binary i op a b) := by
  simp only [lvnStep, canonicalize_after_register hH]

theorem lvnScanBlock_others {H : Host} (S : LvnState) {l : List Inst}
    (h : ∀ J ∈ l, ∃ j ops, J = Inst.other j ops) : lvnScanBlock H S l = .ok S := by
  induction l with
  | nil => rfl
  | cons J rest ih =>
    obtain ⟨j, ops, rfl⟩ := h J (by simp)
    simp only [lvnScanBlock, lvnStep]
    exact ih (fun K hK => h K (List.mem_cons_of_mem _ hK))

/-- In the scan of the output no kept instruction finds an entry with its key:
the first scan would have recorded it for replacement. -/
theorem sinv_no_exact {H : Host} {G : Function} (hk : KeysApart H G) (hnd : G.ids.Nodup)
    (hdef : G.defBeforeUse) {Sf : LvnState}
    (hSf : lvnScanBlock H LvnState.init G.insts = .ok Sf)
    {front back : List Inst} {i : Nat} {op : BinaryOps} {a b : Value}
    (hG : G.insts = front ++ Inst.binary i op a b :: back)
    (hkept : Sf.replace_table.lookup (.inst i) = none)
    {vs : List Value} {c : LvnState} (h : SInv H Sf front vs c) {n1 n2 : Int}
    (h1 : c.hashmap.lookup (operandKey H (substMap Sf.replace_table a)) = some n1)
    (h2 : c.hashmap.lookup (operandKey H (substMap Sf.replace_table b)) = some n2)
    {k : Nat} {e : lvn_item} (he : c.lvn_table[k]? = some e)
    (hkey : e.value = (getOpcodeName op, n1, n2)) : False := by
  have t1 : e.value.1 ≠ "assign" := by rw [hkey]; exact getOpcodeName_ne_assign op
  have t2 : e.value.1 ≠ "constant" := by rw [hkey]; exact getOpcodeName_ne_constant op
  obtain ⟨j, opj, aj, bj, hj, hjkept, htag, hla, hlb, -⟩ := h.opent k e he t1 t2
  rw [hkey] at htag hla hlb
  simp only at htag hla hlb
  have hop : op = opj := getOpcodeName_injective htag
  subst hop
  have ka := h.inj _ _ _ hla h1
  have kb := h.inj _ _ _ hlb h2
  have hF : FInv H G (valuesOf G.insts) Sf :=
    @finv_of_scan H G hk hnd hdef G.insts [] (by simp) Sf hSf
  obtain ⟨l1, l2, hf⟩ := List.append_of_mem hj
  have hG2 : G.insts = l1 ++ Inst.binary j op aj bj :: (l2 ++ Inst.binary i op a b :: back) := by
    rw [hG, hf]; simp
  obtain ⟨S, m1, m2, KI⟩ := kept_at hk hnd hdef hSf hG hkept
  obtain ⟨Sj, p1, p2, KJ⟩ := kept_at hk hnd hdef hSf hG2 hjkept
  have e1 : m1 = p1 := by
    have q1 := KI.left
    rw [← subst_number hF a, ← ka, subst_number hF aj, KJ.left] at q1
    exact (Option.some.inj q1).symm
  have e2 : m2 = p2 := by
    have q2 := KI.right
    rw [← subst_number hF b, ← kb, subst_number hF bj, KJ.right] at q2
    exact (Option.some.inj q2).symm
  subst e1 e2
  have hS2 : lvnScanBlock H LvnState.init (l1 ++ Inst.binary j op aj bj :: l2) = .ok S := by
    rw [← hf]; exact KI.scan
  obtain ⟨k1, e1, -, -, -, -, hrec⟩ :=
    @novel_source_recorded H l1 l2 j i op aj bj a b Sj S m1 m2 KJ.scan KJ.nums KJ.step hS2 KI.nums
  rw [KI.step] at hrec
  exact recorded_ne_insert_lvn _ _ _ _ _ _ _ _ _ _ (Except.ok.inj hrec).symm

/-- In the scan of the output no kept instruction closes an inverse pair: the
first scan would have found the pair too, unless the number to return was 0,
and then it is 0 again. -/
theorem sinv_no_inverse {H : Host} {G : Function} (hk : KeysApart H G) (hnd : G.ids.Nodup)
    (hdef : G.defBeforeUse) {Sf : LvnState}
    (hSf : lvnScanBlock H LvnState.init G.insts = .ok Sf)
    {front back : List Inst} {i : Nat} {op : BinaryOps} {a b : Value}
    (hG : G.insts = front ++ Inst.binary i op a b :: back)
    (hkept : Sf.replace_table.lookup (.inst i) = none)
    {vs : List Value} {c : LvnState} (h : SInv H Sf front vs c) {n1 n2 : Int}
    (h1 : c.hashmap.lookup (operandKey H (substMap Sf.replace_table a)) = some n1)
    (h2 : c.hashmap.lookup (operandKey H (substMap Sf.replace_table b)) = some n2)
    {r : Int} {e0 : lvn_item} (hr : 0 < r) (he0 : tableAt c.lvn_table n1 = some e0)
    (hleft : e0.value.2.1 = r) (hright : e0.value.2.2 = n2)
    (hop : (op = .Add ∧ e0.value.1 = "sub") ∨ (op = .Sub ∧ e0.value.1 = "add")) : False := by
  have t1 : e0.value.1 ≠ "assign" := by
    rcases hop with ⟨-, hs⟩ | ⟨-, hs⟩ <;> rw [hs] <;> decide
  have t2 : e0.value.1 ≠ "constant" := by
    rcases hop with ⟨-, hs⟩ | ⟨-, hs⟩ <;> rw [hs] <;> decide
  obtain ⟨hn0, he0n⟩ := tableAt_eq_some he0
  obtain ⟨j, opj, aj, bj, hj, hjkept, htag, hla, hlb, hself⟩ := h.opent _ e0 he0n t1 t2
  rw [hleft] at hla
  rw [hright] at hlb
  have hcast : ((n1.toNat : Nat) : Int) = n1 := Int.toNat_of_nonneg hn0
  rw [hcast] at hself
  have ka := h.inj _ _ _ hself h1
  have kb := h.inj _ _ _ hlb h2
  have hF : FInv H G (valuesOf G.insts) Sf :=
    @finv_of_scan H G hk hnd hdef G.insts [] (by simp) Sf hSf
  obtain ⟨l1, l2, hf⟩ := List.append_of_mem hj
  have hG2 : G.insts = l1 ++ Inst.binary j opj aj bj :: (l2 ++ Inst.binary i op a b :: back) := by
    rw [hG, hf]; simp
  obtain ⟨S, m1, m2, KI⟩ := kept_at hk hnd hdef hSf hG hkept
  obtain ⟨Sj, p1, p2, KJ⟩ := kept_at hk hnd hdef hSf hG2 hjkept
  -- the first operand had the number of the entry of `j` in the first scan
  have e1 : m1 = ((canonicalize H Sj aj bj).1.lvn_table.length : Int) := by
    have q1 := KI.left
    rw [← subst_number hF a, ← ka, KJ.self] at q1
    exact (Option.some.inj q1).symm
  have e2 : m2 = p2 := by
    have q2 := KI.right
    rw [← subst_number hF b, ← kb, subst_number hF bj, KJ.right] at q2
    exact (Option.some.inj q2).symm
  have hlen : (canonicalize H Sj aj bj).1.lvn_table.length <
      (canonicalize H S a b).1.lvn_table.length := by
    have := KI.bound1.2
    omega
  have hent := getElem?_of_extension KI.ext hlen KJ.entry
  have hat : tableAt (canonicalize H S a b).1.lvn_table m1 =
      some ⟨((canonicalize H Sj aj bj).1.lvn_table.length : Int), (getOpcodeName opj, p1, p2),
        .inst j⟩ := by
    rw [e1, tableAt_natCast]
    exact hent
  obtain ⟨r0, hr0, hpat⟩ := KI.pat
  have hp1 : p1 = r0 := by
    rcases hop with ⟨ho, hs⟩ | ⟨ho, hs⟩
    · subst ho
      rw [hs] at htag
      simp only [pattern_func, if_true, hat, ← htag, e2, decide_True, Bool.and_self,
        Option.some.injEq] at hpat
      exact hpat
    · subst ho
      rw [hs] at htag
      simp only [pattern_func, hat, ← htag, e2, decide_True, Bool.and_self,
        Option.some.injEq, if_true] at hpat
      simpa using hpat
  have hp0 : p1 = 0 := by
    have := KJ.bound1.1
    omega
  have hz : Sf.hashmap.lookup (operandKey H (substMap Sf.replace_table aj)) = some 0 := by
    rw [subst_number hF aj, KJ.left, hp0]
  have := h.zero _ _ hla hz
  omega

/-- The first binary instruction of a function is kept, its first operand got
the number 0, and that operand is not replaced. -/
theorem first_binary_kept {H : Host} (hH : H.noNames) {G : Function} (hnd : G.ids.Nodup)
    (hdef : G.defBeforeUse) {Sf : LvnState}
    (hSf : lvnScanBlock H LvnState.init G.insts = .ok Sf)
    {front back : List Inst} {i : Nat} {op : BinaryOps} {a b : Value}
    (hG : G.insts = front ++ Inst.binary i op a b :: back)
    (hfront : ∀ J ∈ front, ∃ j ops, J = Inst.other j ops) :
    Sf.replace_table.lookup (.inst i) = none ∧
      Sf.hashmap.lookup (toString (H.addr a)) = some 0 ∧
      Sf.replace_table.lookup a = none := by
  have hSf0 := hSf
  rw [hG] at hSf
  obtain ⟨S, S2, h1, h2, h3⟩ := lvnScanBlock_split hSf
  rw [lvnScanBlock_others LvnState.init hfront] at h1
  have hS : LvnState.init = S := Except.ok.inj h1
  subst hS
  have hb2 := (lvnStep_bounded_extends init_bounded h2).1
  have hext1 := (lvnStep_bounded_extends init_bounded h2).2
  have hext2 := (lvnScanBlock_bounded_extends hb2 h3).2
  have hoe := canonicalize_operandEntries H LvnState.init a b
  obtain ⟨t, ht, htags⟩ := hoe.table
  have hops : ∀ e ∈ (canonicalize H LvnState.init a b).1.lvn_table,
      e.value.1 = "assign" ∨ e.value.1 = "constant" := by
    intro e he
    rw [ht] at he
    simp only [LvnState.init, List.nil_append] at he
    exact (htags e he).1
  refine ⟨?_, ?_, ?_⟩
  · have hfin := lvnScanBlock_replace_ne hb2 (not_mem_back_of_nodup hnd hG) h3
    simp only [Inst.id] at hfin
    rw [hfin]
    obtain ⟨n1, n2, -, -, hout⟩ := lvnStep_ok_outcome init_bounded h2
    cases hout with
    | exact k e hcmp he hkey hfirst =>
      exfalso
      rcases hops e (List.getElem?_mem he) with g | g
      · rw [hkey] at g
        exact getOpcodeName_ne_assign op g
      · rw [hkey] at g
        exact getOpcodeName_ne_constant op g
    | inverse r e0 e hcmp hnone hpat hr he0 hleft hright hop he =>
      exfalso
      rcases hops e0 (mem_of_tableAt he0) with g | g <;>
        rcases hop with ⟨-, hs⟩ | ⟨-, hs⟩ <;> rw [hs] at g <;> revert g <;> decide
    | novel r hcmp hnone hpat hr =>
      show (canonicalize H LvnState.init a b).1.replace_table.lookup (Value.inst i) = none
      rw [hoe.replace]
      rfl
  · apply hext2.hashmap
    obtain ⟨n1, n2, hl1, hl2, hout⟩ := lvnStep_ok_outcome init_bounded h2
    have hcb := hoe.bounded init_bounded
    apply (outcome_bounded_extends hcb (hcb.numbers _ _ hl1) (hcb.numbers _ _ hl2) hout).2.hashmap
    rw [← canonicalize_after_register hH]
    apply (canonicalize_operandEntries H _ a b).hashmap
    rw [register_handle_fresh a (by rfl)]
    exact insert_lvn_lookup_self (T := LvnState.init) "assign" 0 0 a (by rfl)
  · cases hl : Sf.replace_table.lookup a with
    | none => rfl
    | some v =>
      exfalso
      have hfin : RecInv H G.insts Sf :=
        @recInv_of_scan H G hnd hdef G.insts [] Sf (by simp) hSf0
      obtain ⟨c, opc, ac, bc, hc, hm⟩ := hfin.keys _ _ hl
      subst hc
      have hcf := defBeforeUse_split hdef hG (show Value.inst c ∈
        (Inst.binary i op (Value.inst c) b).operands by simp [Inst.operands])
      obtain ⟨C, hC, hid⟩ := List.mem_map.mp hcf
      obtain ⟨j, ops, rfl⟩ := hfront C hC
      have hCG : Inst.other j ops ∈ G.insts := by
        rw [hG]
        exact List.mem_append_left _ hC
      have q1 := findInst_of_mem hnd hCG
      have q2 := findInst_of_mem hnd hm
      simp only [Inst.id] at hid q1 q2
      rw [hid, q2] at q1
      cases q1

theorem rewritten_append (R : List (Value × Value)) (l1 l2 : List Inst) :
    rewritten R (l1 ++ l2) = rewritten R l1 ++ rewritten R l2 := by
  simp [rewritten, List.filter_append]

theorem rewritten_kept {R : List (Value × Value)} {I : Inst}
    (h : R.lookup (.inst I.id) = none) :
    rewritten R [I] = [I.mapOperands (substMap R)] := by
  simp [rewritten, List.filter, h]

theorem rewritten_dropped {R : List (Value × Value)} {I : Inst} {v : Value}
    (h : R.lookup (.inst I.id) = some v) : rewritten R [I] = [] := by
  simp [rewritten, List.filter, h]

/-- The scan of the output makes an entry for every instruction the first scan
kept, and the invariant of the second scan goes on. -/
theorem sinv_kept_step {H : Host} {G : Function} (hk : KeysApart H G) (hnd : G.ids.Nodup)
    (hdef : G.defBeforeUse) {Sf : LvnState}
    (hSf : lvnScanBlock H LvnState.init G.insts = .ok Sf)
    {front back : List Inst} {i : Nat} {op : BinaryOps} {a b : Value}
    (hG : G.insts = front ++ Inst.binary i op a b :: back)
    (hkept : Sf.replace_table.lookup (.inst i) = none)
    {T : LvnState} (hT : T.Bounded)
    (h : SInv H Sf front (valuesOf (rewritten Sf.replace_table front) ++
      [substMap Sf.replace_table a, substMap Sf.replace_table b]) T) :
    ∃ T1, lvnStep H T (.binary i op (substMap Sf.replace_table a)
        (substMap Sf.replace_table b)) = .ok T1 ∧ T1.Bounded ∧
      SInv H Sf (front ++ [Inst.binary i op a b])
        (valuesOf (rewritten Sf.replace_table (front ++ [Inst.binary i op a b]))) T1 := by
  have hF : FInv H G (valuesOf G.insts) Sf :=
    @finv_of_scan H G hk hnd hdef G.insts [] (by simp) Sf hSf
  have hz := hF.zero
  have hH := hk.noNames
  have hI : Inst.binary i op a b ∈ G.insts := by rw [hG]; simp
  have hiG : Value.inst i ∈ G.values := (mem_values_of_mem hI).1
  have hops := (mem_values_of_mem hI).2
  have haG : a ∈ G.values := hops a (by simp [Inst.operands])
  have hbG : b ∈ G.values := hops b (by simp [Inst.operands])
  have hc := sinv_canonicalize hH hT h hz (a := substMap Sf.replace_table a)
    (b := substMap Sf.replace_table b) (by simp) (by simp)
  have hcb := (canonicalize_operandEntries H T (substMap Sf.replace_table a)
    (substMap Sf.replace_table b)).bounded hT
  have p1 := canonicalize_present_left H T (substMap Sf.replace_table a)
    (substMap Sf.replace_table b) (getName_of_noNames hH _)
  have p2 := canonicalize_present_right H T (substMap Sf.replace_table a)
    (substMap Sf.replace_table b) (getName_of_noNames hH _)
  obtain ⟨n1, hl1⟩ := Option.isSome_iff_exists.mp p1
  obtain ⟨n2, hl2⟩ := Option.isSome_iff_exists.mp p2
  obtain ⟨T1, hstep, hout⟩ := lvnStep_outcome hT i op _ _ hl1 hl2
  refine ⟨T1, hstep, (lvnStep_bounded_extends hT hstep).1, ?_⟩
  cases hout with
  | exact k e hcmp he hkey hfirst =>
    exact (sinv_no_exact hk hnd hdef hSf hG hkept hc hl1 hl2 he hkey).elim
  | inverse r e0 e hcmp hnone hpat hr he0 hleft hright hop he =>
    exact (sinv_no_inverse hk hnd hdef hSf hG hkept hc hl1 hl2 hr he0 hleft hright hop).elim
  | novel r hcmp hnone hpat hr =>
    have hval : rewritten Sf.replace_table (front ++ [Inst.binary i op a b]) =
        rewritten Sf.replace_table front ++
          [Inst.binary i op (substMap Sf.replace_table a) (substMap Sf.replace_table b)] := by
      rw [rewritten_append, rewritten_kept (by simpa [Inst.id] using hkept)]
      rfl
    have hvs1 : valuesOf (rewritten Sf.replace_table (front ++ [Inst.binary i op a b])) =
        valuesOf (rewritten Sf.replace_table front) ++
          [Value.inst i, substMap Sf.replace_table a, substMap Sf.replace_table b] := by
      rw [hval, valuesOf_append]
      simp [valuesOf, Inst.id, Inst.operands]
    have hsub : ∀ x ∈ valuesOf (rewritten Sf.replace_table front) ++
        [substMap Sf.replace_table a, substMap Sf.replace_table b],
        x ∈ valuesOf (rewritten Sf.replace_table (front ++ [Inst.binary i op a b])) := by
      intro x hx
      rw [hvs1]
      rcases List.mem_append.mp hx with g | g
      · exact List.mem_append_left _ g
      · exact List.mem_append_right _ (List.mem_cons_of_mem _ g)
    have hc1 := sinv_mono hc (fun J hJ => List.mem_append_left [Inst.binary i op a b] hJ) hsub
    -- the values met so far are values of the input, the instruction is not among them
    have hfrontG : ∀ J ∈ front, J ∈ G.insts := by
      intro J hJ
      rw [hG]
      exact List.mem_append_left _ hJ
    have hvsG : ∀ x ∈ valuesOf (rewritten Sf.replace_table front) ++
        [substMap Sf.replace_table a, substMap Sf.replace_table b], x ∈ G.values := by
      intro x hx
      rcases List.mem_append.mp hx with g | g
      · exact valuesOf_rewritten_subset hF hfrontG x g
      · simp only [List.mem_cons, List.mem_singleton, List.not_mem_nil, or_false] at g
        rcases g with g | g <;> rw [g]
        · exact substMap_mem_values hF haG
        · exact substMap_mem_values hF hbG
    obtain ⟨hn1, hn2⟩ := not_mem_rewritten_front hnd hdef hSf hG
    have hnot : Value.inst i ∉ valuesOf (rewritten Sf.replace_table front) ++
        [substMap Sf.replace_table a, substMap Sf.replace_table b] := by
      intro hx
      rcases List.mem_append.mp hx with g | g
      · exact hn1 g
      · simp only [List.mem_cons, List.mem_singleton, List.not_mem_nil, or_false] at g
        rcases g with g | g
        · exact hn2 a (by simp [Inst.operands]) g.symm
        · exact hn2 b (by simp [Inst.operands]) g.symm
    have hfresh : (canonicalize H T (substMap Sf.replace_table a)
        (substMap Sf.replace_table b)).1.hashmap.lookup (toString (H.addr (.inst i))) = none := by
      cases hl : (canonicalize H T (substMap Sf.replace_table a)
        (substMap Sf.replace_table b)).1.hashmap.lookup (toString (H.addr (.inst i))) with
      | none => rfl
      | some n =>
        exfalso
        obtain ⟨x, hx, g | g⟩ := hc.keys _ _ hl
        · have := hk.addr _ hiG _ (hvsG x hx) (toString_nat_injective g)
          rw [← this] at hx
          exact hnot hx
        · have := key_owner_apart hk (hvsG x hx) hiG g.symm
          rw [this] at hx
          exact hnot hx
    refine sinv_insert hcb hc1 hz _ _ n1 n2 _ hfresh ⟨Value.inst i, ?_, Or.inl rfl⟩
      (Or.inr ⟨i, op, a, b, by simp, hkept, rfl, hl1, hl2, rfl⟩)
    rw [hvs1]
    simp

/-- The scan of the output of value numbering goes through, and until the first
entry is made nothing but instructions that are no binary operators was met;
from then on the invariant of the second scan holds. -/
theorem second_scan {H : Host} {G : Function} (hk : KeysApart H G) (hnd : G.ids.Nodup)
    (hdef : G.defBeforeUse) {Sf : LvnState}
    (hSf : lvnScanBlock H LvnState.init G.insts = .ok Sf) (front : List Inst) :
    ∀ back, G.insts = front ++ back →
      ∃ T, lvnScanBlock H LvnState.init (rewritten Sf.replace_table front) = .ok T ∧ T.Bounded ∧
        ((T = LvnState.init ∧ ∀ J ∈ front, ∃ j ops, J = Inst.other j ops) ∨
          SInv H Sf front (valuesOf (rewritten Sf.replace_table front)) T) := by
  induction front using List.reverseRecOn with
  | nil =>
    intro back _
    exact ⟨LvnState.init, rfl, init_bounded, Or.inl ⟨rfl, by simp⟩⟩
  | append_singleton l I ih =>
    intro back hG0
    have hG : G.insts = l ++ I :: back := by rw [hG0]; simp
    obtain ⟨T, hscan, hT, hdisj⟩ := ih (I :: back) hG
    have hvsub : ∀ x ∈ valuesOf (rewritten Sf.replace_table l),
        x ∈ valuesOf (rewritten Sf.replace_table (l ++ [I])) := by
      intro x hx
      rw [rewritten_append, valuesOf_append]
      exact List.mem_append_left _ hx
    have hlsub : ∀ J ∈ l, J ∈ l ++ [I] := fun J hJ => List.mem_append_left _ hJ
    cases hrec : Sf.replace_table.lookup (.inst I.id) with
    | some v =>
      refine ⟨T, ?_, hT, ?_⟩
      · rw [rewritten_append, rewritten_dropped hrec, List.append_nil]
        exact hscan
      · rcases hdisj with ⟨hinit, hall⟩ | hs
        · left
          refine ⟨hinit, ?_⟩
          intro J hJ
          rcases List.mem_append.mp hJ with g | g
          · exact hall J g
          · simp only [List.mem_singleton] at g
            subst g
            cases J with
            | other j ops => exact ⟨j, ops, rfl⟩
            | binary i op a b =>
              exfalso
              have := (first_binary_kept hk.noNames hnd hdef hSf hG hall).1
              simp only [Inst.id] at hrec
              rw [hrec] at this
              cases this
        · exact Or.inr (sinv_mono hs hlsub hvsub)
    | none =>
      have hrw : rewritten Sf.replace_table (l ++ [I]) =
          rewritten Sf.replace_table l ++ [I.mapOperands (substMap Sf.replace_table)] := by
        rw [rewritten_append, rewritten_kept hrec]
      cases I with
      | other j ops =>
        refine ⟨T, ?_, hT, ?_⟩
        · rw [hrw, lvnScanBlock_snoc, hscan]
          rfl
        · rcases hdisj with ⟨hinit, hall⟩ | hs
          · left
            refine ⟨hinit, ?_⟩
            intro J hJ
            rcases List.mem_append.mp hJ with g | g
            · exact hall J g
            · simp only [List.mem_singleton] at g
              exact ⟨j, ops, g⟩
          · exact Or.inr (sinv_mono hs hlsub hvsub)
      | binary i op a b =>
        simp only [Inst.id] at hrec
        have hwide : ∀ x ∈ valuesOf (rewritten Sf.replace_table l),
            x ∈ valuesOf (rewritten Sf.replace_table l) ++
              [substMap Sf.replace_table a, substMap Sf.replace_table b] :=
          fun x hx => List.mem_append_left _ hx
        rcases hdisj with ⟨hinit, hall⟩ | hs
        · subst hinit
          obtain ⟨-, hzero, hsame⟩ := first_binary_kept (H := H) hk.noNames hnd hdef hSf hG hall
          have hsa : substMap Sf.replace_table a = a := by
            simp only [substMap, hsame]
          have hreg : (register_handle H LvnState.init "" (substMap Sf.replace_table a)).1 =
              insert_lvn LvnState.init (toString (H.addr (substMap Sf.replace_table a)))
                "assign" 0 0 (substMap Sf.replace_table a) :=
            register_handle_fresh _ (by rfl)
          have h0 : SInv H Sf l (valuesOf (rewritten Sf.replace_table l) ++
              [substMap Sf.replace_table a, substMap Sf.replace_table b])
              (register_handle H LvnState.init "" (substMap Sf.replace_table a)).1 := by
            rw [hreg]
            refine sinv_first _ _ ?_ ⟨substMap Sf.replace_table a, by simp, Or.inl rfl⟩
            rw [hsa]
            exact hzero
          have hb0 : (register_handle H LvnState.init ""
              (substMap Sf.replace_table a)).1.Bounded := by
            rw [hreg]
            exact insert_lvn_bounded_operand init_bounded _ _ _ _ _ (Or.inl rfl)
          obtain ⟨T1, hstep, hT1, hs1⟩ := sinv_kept_step hk hnd hdef hSf hG hrec hb0 h0
          rw [lvnStep_after_register hk.noNames] at hstep
          refine ⟨T1, ?_, hT1, Or.inr hs1⟩
          rw [hrw, lvnScanBlock_snoc, hscan]
          exact hstep
        · obtain ⟨T1, hstep, hT1, hs1⟩ :=
            sinv_kept_step hk hnd hdef hSf hG hrec hT (sinv_mono hs (fun J hJ => hJ) hwide)
          refine ⟨T1, ?_, hT1, Or.inr hs1⟩
          rw [hrw, lvnScanBlock_snoc, hscan]
          exact hstep

/-- Value numbering changes nothing in its own output, in a function with keys
apart, distinct identities and operands defined before use. -/
theorem localValueNumbering_idem {H : Host} {G G1 : Function} (hk : KeysApart H G)
    (hnd : G.ids.Nodup) (hdef : G.defBeforeUse)
    (h : localValueNumbering H G = .ok G1) : localValueNumbering H G1 = .ok G1 := by
  unfold localValueNumbering at h
  cases hscan : lvnScan H LvnState.init G with
  | error e =>
    rw [hscan] at h
    cases h
  | ok Sf =>
    rw [hscan] at h
    simp only at h
    have hG1 : rewriteLoop Sf.replace_table G = G1 := Except.ok.inj h
    rw [lvnScan_eq_insts] at hscan
    have hinv : RecInv H G.insts Sf := @recInv_of_scan H G hnd hdef G.insts [] Sf (by simp) hscan
    have hstable : ∀ k v, Sf.replace_table.lookup k = some v →
        Sf.replace_table.lookup v = none := by
      intro k v hkv
      obtain ⟨e, he, hv⟩ := hinv.values k v hkv
      rw [← hv]
      exact hinv.refs_kept e he
    have hinsts : G1.insts = rewritten Sf.replace_table G.insts := by
      rw [← hG1]
      exact rewriteLoop_insts hnd hinv.keys hstable
    obtain ⟨T, hT, -, hdisj⟩ := second_scan hk hnd hdef hscan G.insts [] (by simp)
    have hnorep : T.replace_table = [] := by
      rcases hdisj with ⟨hinit, -⟩ | hs
      · rw [hinit]
        rfl
      · exact hs.norep
    unfold localValueNumbering
    rw [lvnScan_eq_insts, hinsts, hT]
    simp only [hnorep, rewriteLoop_nil]

theorem operandsDefined_cons (seen : List Nat) (I : Inst) (rest : List Inst) :
    operandsDefined seen (I :: rest) = true ↔
      (∀ j, Value.inst j ∈ I.operands → j ∈ seen) ∧
        operandsDefined (I.id :: seen) rest = true := by
  simp only [operandsDefined, Bool.and_eq_true, List.all_eq_true]
  constructor
  · rintro ⟨h1, h2⟩
    refine ⟨?_, h2⟩
    intro j hj
    simpa using h1 _ hj
  · rintro ⟨h1, h2⟩
    refine ⟨?_, h2⟩
    intro v hv
    cases v with
    | const w n => rfl
    | arg n => rfl
    | inst j => simpa using h1 j hv

theorem operandsDefined_mono {l : List Inst} : ∀ {seen seen1 : List Nat},
    (∀ j ∈ seen, j ∈ seen1) → operandsDefined seen l = true →
      operandsDefined seen1 l = true := by
  induction l with
  | nil => intro _ _ _ _; rfl
  | cons I rest ih =>
    intro seen seen1 hsub h
    rw [operandsDefined_cons] at h ⊢
    refine ⟨fun j hj => hsub j (h.1 j hj), ih ?_ h.2⟩
    intro j hj
    rcases List.mem_cons.mp hj with g | g
    · rw [g]
      exact List.mem_cons_self _ _
    · exact List.mem_cons_of_mem _ (hsub j g)

theorem operandsDefined_append {l1 : List Inst} : ∀ {seen : List Nat} {l2 : List Inst},
    operandsDefined seen (l1 ++ l2) = true ↔
      operandsDefined seen l1 = true ∧
        operandsDefined ((l1.map Inst.id).reverse ++ seen) l2 = true := by
  induction l1 with
  | nil =>
    intro seen l2
    simp [operandsDefined]
  | cons I rest ih =>
    intro seen l2
    rw [List.cons_append, operandsDefined_cons, operandsDefined_cons, ih]
    simp only [List.map_cons, List.reverse_cons, List.append_assoc, List.singleton_append,
      and_assoc]

/-- Redirecting the uses of `i` to a value that is defined keeps the operands
defined, also once `i` itself is gone. -/
theorem operandsDefined_subst {i : Nat} {v : Value} {l : List Inst} :
    ∀ {seen1 seen2 : List Nat}, (∀ j ∈ seen1, j ≠ i → j ∈ seen2) →
      (∀ j, v = Value.inst j → j ∈ seen2) → operandsDefined seen1 l = true →
      operandsDefined seen2 (l.map (Inst.replaceUses (.inst i) v)) = true := by
  induction l with
  | nil => intro _ _ _ _ _; rfl
  | cons I rest ih =>
    intro seen1 seen2 hsub hv h
    rw [List.map_cons, operandsDefined_cons]
    rw [operandsDefined_cons] at h
    refine ⟨?_, ?_⟩
    · intro j hj
      rw [operands_replaceUses] at hj
      obtain ⟨u, hu, huj⟩ := List.mem_map.mp hj
      unfold substValue at huj
      split_ifs at huj with hc
      · exact hv j huj
      · subst huj
        refine hsub j (h.1 j hu) ?_
        intro hji
        exact hc (by rw [hji])
    · rw [Inst.id_replaceUses]
      refine ih ?_ ?_ h.2
      · intro j hj hne
        rcases List.mem_cons.mp hj with g | g
        · rw [g]
          exact List.mem_cons_self _ _
        · exact List.mem_cons_of_mem _ (hsub j g hne)
      · intro j hj
        exact List.mem_cons_of_mem _ (hv j hj)

theorem not_used_in_front {F : Function} (hnd : F.ids.Nodup) (hdef : F.defBeforeUse)
    {front back : List Inst} {I : Inst} (hF : F.insts = front ++ I :: back) :
    (∀ J ∈ front, Value.inst I.id ∉ J.operands) ∧ Value.inst I.id ∉ I.operands := by
  have hnot := not_mem_front_of_nodup hnd hF
  constructor
  · intro J hJ hmem
    obtain ⟨f, bk, hf⟩ := List.append_of_mem hJ
    have hF2 : F.insts = f ++ J :: (bk ++ I :: back) := by rw [hF, hf]; simp
    have := defBeforeUse_split hdef hF2 hmem
    apply hnot
    rw [hf]
    simp only [List.map_append, List.mem_append]
    exact Or.inl this
  · intro hmem
    exact hnot (defBeforeUse_split hdef hF hmem)

theorem map_replaceUses_front {i : Nat} (v : Value) {front : List Inst}
    (h : ∀ J ∈ front, Value.inst i ∉ J.operands) :
    front.map (Inst.replaceUses (.inst i) v) = front := by
  induction front with
  | nil => rfl
  | cons J rest ih =>
    rw [List.map_cons, replaceUses_of_not_mem v (h J (by simp)),
      ih (fun K hK => h K (List.mem_cons_of_mem _ hK))]

theorem filter_ne_of_not_mem {i : Nat} {l : List Inst} (h : i ∉ l.map Inst.id) :
    l.filter (fun I => I.id != i) = l := by
  rw [List.filter_eq_self]
  intro J hJ
  simp only [bne_iff_ne, ne_eq]
  intro hid
  exact h (List.mem_map.mpr ⟨J, hJ, hid⟩)

theorem map_ite_of_not_mem {i : Nat} (N : Inst) {l : List Inst} (h : i ∉ l.map Inst.id) :
    l.map (fun I => if I.id = i then N else I) = l := by
  induction l with
  | nil => rfl
  | cons J rest ih =>
    have h1 : J.id ≠ i := fun hid => h (by simp [hid])
    have h2 : i ∉ rest.map Inst.id := fun hr => h (by simp at hr ⊢; exact Or.inr hr)
    rw [List.map_cons, ih h2, if_neg h1]

/-- Erasing an instruction after its uses are redirected to one of its operands
keeps every operand defined before use. -/
theorem defBeforeUse_erase {F : Function} (hnd : F.ids.Nodup) (hdef : F.defBeforeUse)
    {i : Nat} {I : Inst} (hfind : findInst F i = some I) {x : Value} (hx : x ∈ I.operands) :
    (eraseFromParent i (replaceAllUsesWith (.inst i) x F)).defBeforeUse := by
  obtain ⟨hid, hI⟩ := findInst_some hfind
  subst hid
  obtain ⟨front, back, hF⟩ := List.append_of_mem hI
  obtain ⟨hfr, hself⟩ := not_used_in_front hnd hdef hF
  have hnf := not_mem_front_of_nodup hnd hF
  have hnb := not_mem_back_of_nodup hnd hF
  have hinsts : (eraseFromParent I.id (replaceAllUsesWith (.inst I.id) x F)).insts =
      front ++ back.map (Inst.replaceUses (.inst I.id) x) := by
    rw [insts_eraseFromParent, insts_replaceAllUsesWith, hF, List.map_append, List.map_cons,
      List.filter_append, List.filter_cons, map_replaceUses_front x hfr,
      filter_ne_of_not_mem hnf]
    simp only [Inst.id_replaceUses, bne_self_eq_false, Bool.false_eq_true, if_false]
    rw [filter_ne_of_not_mem]
    simpa [Function.comp_def, Inst.id_replaceUses] using hnb
  unfold Function.defBeforeUse at hdef ⊢
  rw [hinsts, operandsDefined_append]
  rw [hF, operandsDefined_append, operandsDefined_cons] at hdef
  refine ⟨hdef.1, operandsDefined_subst ?_ ?_ hdef.2.2⟩
  · intro j hj hne
    rcases List.mem_cons.mp hj with g | g
    · exact absurd g hne
    · exact g
  · intro j hj
    subst hj
    exact hdef.2.1 j hx

/-- Putting a new instruction over one of the operands of an instruction at the
place of that instruction keeps every operand defined before use. -/
theorem defBeforeUse_replace {F : Function} (hnd : F.ids.Nodup) (hdef : F.defBeforeUse)
    {i : Nat} {I : Inst} (hfind : findInst F i = some I) {x : Value} (hx : x ∈ I.operands)
    (n : Nat) (op : BinaryOps) (w k : Nat) :
    (ReplaceInstWithInst i (.binary n op x (.const w k)) F).defBeforeUse := by
  obtain ⟨hid, hI⟩ := findInst_some hfind
  subst hid
  obtain ⟨front, back, hF⟩ := List.append_of_mem hI
  obtain ⟨hfr, hself⟩ := not_used_in_front hnd hdef hF
  have hnf := not_mem_front_of_nodup hnd hF
  have hnb := not_mem_back_of_nodup hnd hF
  have hxi : x ≠ Value.inst I.id := by
    intro hxe
    rw [hxe] at hx
    exact hself hx
  have hinsts : (ReplaceInstWithInst I.id (.binary n op x (.const w k)) F).insts =
      front ++ Inst.binary n op x (.const w k) ::
        back.map (Inst.replaceUses (.inst I.id) (.inst n)) := by
    rw [insts_ReplaceInstWithInst, hF, List.map_append, List.map_cons,
      map_ite_of_not_mem _ hnf, map_ite_of_not_mem _ hnb, if_pos rfl, List.map_append,
      List.map_cons]
    rw [show (Inst.binary n op x (Value.const w k)).id = n from rfl,
      map_replaceUses_front _ hfr]
    simp [Inst.replaceUses, substValue, hxi]
  unfold Function.defBeforeUse at hdef ⊢
  rw [hinsts, operandsDefined_append, operandsDefined_cons]
  rw [hF, operandsDefined_append, operandsDefined_cons] at hdef
  refine ⟨hdef.1, ?_, operandsDefined_subst ?_ ?_ hdef.2.2⟩
  · intro j hj
    simp only [Inst.operands, List.mem_cons, List.mem_singleton, List.not_mem_nil,
      or_false, reduceCtorEq] at hj
    apply hdef.2.1 j
    rw [hj]
    exact hx
  · intro j hj hne
    rcases List.mem_cons.mp hj with g | g
    · exact absurd g hne
    · exact List.mem_cons_of_mem _ g
  · intro j hj
    injection hj with hj
    subst hj
    exact List.mem_cons_self _ _

theorem peepholeVisit_defBeforeUse {S : PeepState} (hw : S.Wf) (hdef : S.fn.defBeforeUse)
    (j : Nat) : (peepholeVisit S j).fn.defBeforeUse := by
  rcases peepholeVisit_cases S j with h | ⟨op, a, b, x, hf, hx, h⟩ | ⟨a, b, x, w, k, hf, hx, h⟩
  · rw [h]
    exact hdef
  · rw [h]
    refine defBeforeUse_erase hw.1 hdef hf ?_
    rcases hx with g | g <;> simp [Inst.operands, g]
  · rw [h]
    refine defBeforeUse_replace hw.1 hdef hf ?_ _ _ _ _
    rcases hx with g | g <;> simp [Inst.operands, g]

theorem peepholeScan_defBeforeUse (ids : List Nat) : ∀ {S : PeepState}, S.Wf →
    S.fn.defBeforeUse → (peepholeScan S ids).fn.defBeforeUse := by
  induction ids with
  | nil => intro S _ h; exact h
  | cons j rest ih =>
    intro S hw hdef
    rw [peepholeScan_cons]
    exact ih (peepholeVisit_wf hw j) (peepholeVisit_defBeforeUse hw hdef j)

/-- The peephole scan keeps the identities distinct and every operand defined
before use. -/
theorem peephole_wellFormed {F : Function} (hnd : F.ids.Nodup) (hdef : F.defBeforeUse) :
    (peephole F).ids.Nodup ∧ (peephole F).defBeforeUse :=
  ⟨(peepholeScan_wf F.ids (init_wf hnd)).1, peepholeScan_defBeforeUse F.ids (init_wf hnd) hdef⟩

/-- A visit that finds an instruction on which a peephole rule fires removes its
identity. -/
theorem peepholeVisit_drops {S : PeepState} (hw : S.Wf) {I : Inst} (hI : I ∈ S.fn.insts)
    (hs : simplifiable I = true) : I.id ∉ (peepholeVisit S I.id).fn.ids := by
  have hf := findInst_of_mem hw.1 hI
  have hlt : I.id < S.next := hw.2 _ (List.mem_map.mpr ⟨I, hI, rfl⟩)
  rcases peepholeVisit_refined S I.id with ⟨-, h⟩ | ⟨op, a, b, x, -, -, h⟩ |
    ⟨a, b, x, w, k, -, -, h⟩
  · rw [h I hf] at hs
    cases hs
  · rw [h]
    exact not_mem_ids_eraseFromParent _ _
  · rw [h]
    show I.id ∉ (ReplaceInstWithInst I.id _ S.fn).ids
    rw [ids_ReplaceInstWithInst]
    intro hmem
    obtain ⟨k1, -, hk1⟩ := List.mem_map.mp hmem
    rw [show (Inst.binary S.next .Shl x (Value.const w k)).id = S.next from rfl] at hk1
    split_ifs at hk1 with hc
    · omega
    · exact hc hk1

/-- The peephole scan removes the identity of some instruction when a rule fires
on an instruction it has still to visit. -/
theorem peepholeScan_drops (ids : List Nat) : ∀ {S : PeepState}, S.Wf →
    (∃ I ∈ S.fn.insts, simplifiable I = true ∧ I.id ∈ ids) →
    ∃ j ∈ S.fn.ids, j ∉ (peepholeScan S ids).fn.ids := by
  induction ids with
  | nil =>
    rintro S - ⟨I, -, -, hmem⟩
    cases hmem
  | cons j rest ih =>
    rintro S hw ⟨I, hI, hs, hmem⟩
    rw [peepholeScan_cons]
    by_cases hne : peepholeVisit S j = S
    · rw [hne]
      apply ih hw
      refine ⟨I, hI, hs, ?_⟩
      rcases List.mem_cons.mp hmem with g | g
      · exfalso
        have := peepholeVisit_drops hw hI hs
        rw [g, hne] at this
        apply this
        rw [← g]
        exact List.mem_map.mpr ⟨I, hI, rfl⟩
      · exact g
    · refine ⟨j, ?_, peepholeVisit_gone hw hne rest⟩
      rcases peepholeVisit_cases S j with h | ⟨op, a, b, x, hf, -, -⟩ | ⟨a, b, x, w, k, hf, -, -⟩
      · exact absurd h hne
      · exact List.mem_map.mpr ⟨_, (findInst_some hf).2, rfl⟩
      · exact List.mem_map.mpr ⟨_, (findInst_some hf).2, rfl⟩

/-- A run does not return its input when a peephole rule fires on one of the
instructions of the input. -/
theorem run_changes_simplifiable {H : Host} {G : Function} (hnd : G.ids.Nodup) {I : Inst}
    (hI : I ∈ G.insts) (hs : simplifiable I = true) : run H G ≠ .ok G := by
  intro hrun
  obtain ⟨j, hj, hnot⟩ := peepholeScan_drops G.ids (init_wf hnd)
    ⟨I, hI, hs, List.mem_map.mpr ⟨I, hI, rfl⟩⟩
  apply hnot
  show j ∈ (peephole G).ids
  unfold run localValueNumbering at hrun
  cases hscan : lvnScan H LvnState.init (peephole G) with
  | error e =>
    rw [hscan] at hrun
    cases hrun
  | ok S =>
    rw [hscan] at hrun
    have hG : rewriteLoop S.replace_table (peephole G) = G := Except.ok.inj hrun
    rw [← hG] at hj
    exact rewriteFold_ids_subset _ _ _ hj

/-- C13 (amended): for a function with distinct identities and operands defined
before use whose values, after the peephole scan, carry no name and have keys
apart, the engine returns a graph, and a second run on that graph returns the
same graph exactly when no peephole rule applies to an instruction of it (no
add with a zero-constant operand, no multiply with a constant-1 operand, no
multiply by a constant the strength-reduction guard accepts). -/
theorem run_twice_when_nothing_exposed (H : Host) (F : Function) (hnd : F.ids.Nodup)
    (hdef : F.defBeforeUse) (hk : KeysApart H (peephole F)) :
    ∃ G, run H F = .ok G ∧
      (run H G = .ok G ↔ ∀ I ∈ G.insts, simplifiable I = false) := by
  obtain ⟨S, hS⟩ := lvnScanBlock_ok_of_noNames hk.noNames (peephole F).insts init_bounded
  rw [← lvnScan_eq_insts] at hS
  have h1 : run H F = .ok (rewriteLoop S.replace_table (peephole F)) := by
    simp only [run, localValueNumbering, hS]
  obtain ⟨hnd1, hdef1⟩ := peephole_wellFormed hnd hdef
  refine ⟨_, h1, ?_, ?_⟩
  · intro hsame I hI
    cases hs : simplifiable I with
    | false => rfl
    | true =>
      exact absurd hsame (run_changes_simplifiable (rewriteFold_nodup _ _ hnd1) hI hs)
  intro hplain
  have hp : peephole (rewriteLoop S.replace_table (peephole F)) =
      rewriteLoop S.replace_table (peephole F) := by
    show (peepholeScan ⟨rewriteLoop S.replace_table (peephole F),
      freshId (rewriteLoop S.replace_table (peephole F))⟩
      (rewriteLoop S.replace_table (peephole F)).ids).fn = _
    rw [peepholeScan_of_not_simplifiable _ (S := ⟨rewriteLoop S.replace_table (peephole F),
      freshId (rewriteLoop S.replace_table (peephole F))⟩) hplain]
  have h2 : run H (rewriteLoop S.replace_table (peephole F)) =
      localValueNumbering H (peephole (rewriteLoop S.replace_table (peephole F))) := rfl
  rw [h2, hp]
  exact localValueNumbering_idem hk hnd1 hdef1 h1

/-- Witness of C13 (amended) on `t = y * y; a = x - 5; c = a + 5; d = x - 5;
use c, d`: the first run replaces `c` by `x` and `d` by `a`, no peephole rule
applies to what is left, and the second run returns it unchanged. -/
theorem run_twice_when_nothing_exposed_witness :
    valueSample.ids.Nodup ∧ valueSample.defBeforeUse ∧
    KeysApart plainHost (peephole valueSample) ∧
    run plainHost valueSample =
      .ok [[.binary 0 .Mul (.arg 1) (.arg 1), .binary 1 .Sub (.arg 0) (.const 32 5),
        .other 4 [.arg 0, .inst 1]]] ∧
    (∀ I ∈ Function.insts [[.binary 0 .Mul (.arg 1) (.arg 1),
        .binary 1 .Sub (.arg 0) (.const 32 5), .other 4 [.arg 0, .inst 1]]],
      simplifiable I = false) ∧
    run plainHost [[.binary 0 .Mul (.arg 1) (.arg 1), .binary 1 .Sub (.arg 0) (.const 32 5),
        .other 4 [.arg 0, .inst 1]]] =
      .ok [[.binary 0 .Mul (.arg 1) (.arg 1), .binary 1 .Sub (.arg 0) (.const 32 5),
        .other 4 [.arg 0, .inst 1]]] := by
  have hk : KeysApart plainHost (peephole valueSample) :=
    ⟨fun _ => rfl, by decide, by decide⟩
  have hrun : run plainHost valueSample =
      .ok [[.binary 0 .Mul (.arg 1) (.arg 1), .binary 1 .Sub (.arg 0) (.const 32 5),
        .other 4 [.arg 0, .inst 1]]] := rfl
  obtain ⟨G, h1, h2⟩ := run_twice_when_nothing_exposed plainHost valueSample (by decide) rfl hk
  rw [hrun] at h1
  have hG := Except.ok.inj h1
  subst hG
  exact ⟨by decide, rfl, hk, hrun, by decide, h2.mpr (by decide)⟩

/-- A visit that finds an instruction that is no candidate changes nothing. -/
theorem peepholeVisit_of_found_not_candidate {S : PeepState} {j : Nat} {u : Inst}
    (hf : findInst S.fn j = some u) (hc : peepholeCandidate u = false) :
    peepholeVisit S j = S := by
  unfold peepholeVisit
  rw [hf]
  cases u with
  | other i ops => rfl
  | binary i op a b =>
    simp only [peepholeCandidate, Bool.or_eq_false_iff, Bool.and_eq_false_iff] at hc
    obtain ⟨hadd, hmul⟩ := hc
    have c1 : (decide (op = .Add) && (isZeroValue b || isZeroValue a)) = false := by
      rcases hadd with h1 | ⟨h1, h2⟩
      · simp [h1]
      · simp [h1, h2]
    have c3 : (decide (op = .Mul) && (isConstantInt a || isConstantInt b)) = false := by
      rcases hmul with h1 | ⟨h1, h2⟩
      · simp [h1]
      · simp [h1, h2]
    have c2 : (decide (op = .Mul) && (isOneValue a || isOneValue b)) = false := by
      rcases hmul with h1 | ⟨h1, h2⟩
      · simp [h1]
      · have ha : isOneValue a = false := by
          cases hx : isOneValue a with
          | false => rfl
          | true => rw [isConstantInt_of_isOneValue hx] at h1; cases h1
        have hb : isOneValue b = false := by
          cases hx : isOneValue b with
          | false => rfl
          | true => rw [isConstantInt_of_isOneValue hx] at h2; cases h2
        simp [ha, hb]
    simp only [c1, c2, c3, Bool.false_eq_true, if_false]

theorem mem_insts_of_block {F : Function} {n : Nat} {B : BasicBlock} (hB : F[n]? = some B)
    {I : Inst} (hI : I ∈ B) : I ∈ F.insts := by
  unfold Function.insts
  exact List.mem_flatten.mpr ⟨B, List.getElem?_mem hB, hI⟩

theorem block_eraseFromParent (j : Nat) (F : Function) (n : Nat) :
    (eraseFromParent j F)[n]? = (F[n]?).map (List.filter (fun I => I.id != j)) := by
  simp [eraseFromParent, List.getElem?_map]

theorem block_replaceAllUsesWith (old new : Value) (F : Function) (n : Nat) :
    (replaceAllUsesWith old new F)[n]? = (F[n]?).map (List.map (Inst.replaceUses old new)) := by
  simp [replaceAllUsesWith, List.getElem?_map]

theorem block_ReplaceInstWithInst (j : Nat) (N : Inst) (F : Function) (n : Nat) :
    (ReplaceInstWithInst j N F)[n]? =
      (F[n]?).map (fun B => (B.map (fun I => if I.id = j then N else I)).map
        (Inst.replaceUses (.inst j) (.inst N.id))) := by
  simp [ReplaceInstWithInst, replaceAllUsesWith, List.getElem?_map]

/-- A visit leaves a block as it is when the visited instruction is not in the
block and no instruction of the block uses it. -/
theorem peepholeVisit_block {S : PeepState} (j : Nat) {n : Nat} {B : BasicBlock}
    (hB : S.fn[n]? = some B) (hid : j ∉ B.map Inst.id)
    (huse : ∀ I ∈ B, Value.inst j ∉ I.operands) : (peepholeVisit S j).fn[n]? = some B := by
  rcases peepholeVisit_cases S j with h | ⟨op, a, b, x, -, -, h⟩ | ⟨a, b, x, w, k, -, -, h⟩
  · rw [h]
    exact hB
  · rw [h]
    simp only
    rw [block_eraseFromParent, block_replaceAllUsesWith, hB]
    simp only [Option.map_some']
    rw [map_replaceUses_front x huse, filter_ne_of_not_mem hid]
  · rw [h]
    simp only
    rw [block_ReplaceInstWithInst, hB]
    simp only [Option.map_some']
    rw [map_ite_of_not_mem _ hid, map_replaceUses_front _ huse]

/-- The peephole scan leaves a block without candidates as it is, when no
instruction of the block uses an instruction that the scan takes away. -/
theorem peepholeScan_block_untouched (ids : List Nat) : ∀ {S : PeepState}, S.Wf →
    ∀ {n : Nat} {B : BasicBlock}, S.fn[n]? = some B →
    (∀ I ∈ B, peepholeCandidate I = false) →
    (∀ I ∈ B, ∀ j ∈ ids, Value.inst j ∈ I.operands → j ∈ (peepholeScan S ids).fn.ids) →
    (peepholeScan S ids).fn[n]? = some B := by
  induction ids with
  | nil =>
    intro S _ n B hB _ _
    exact hB
  | cons j rest ih =>
    intro S hw n B hB hcand huse
    rw [peepholeScan_cons]
    have hrest : ∀ I ∈ B, ∀ k ∈ rest, Value.inst k ∈ I.operands →
        k ∈ (peepholeScan (peepholeVisit S j) rest).fn.ids := by
      intro I hI k hk hm
      have := huse I hI k (List.mem_cons_of_mem _ hk) hm
      rw [peepholeScan_cons] at this
      exact this
    by_cases hne : peepholeVisit S j = S
    · rw [hne] at hrest ⊢
      exact ih hw hB hcand hrest
    · refine ih (peepholeVisit_wf hw j) (peepholeVisit_block j hB ?_ ?_) hcand hrest
      · intro hmem
        obtain ⟨I, hI, hid⟩ := List.mem_map.mp hmem
        have hf := findInst_of_mem hw.1 (mem_insts_of_block hB hI)
        rw [hid] at hf
        exact hne (peepholeVisit_of_found_not_candidate hf (hcand I hI))
      · intro I hI hm
        have := huse I hI j (List.mem_cons_self _ _) hm
        rw [peepholeScan_cons] at this
        exact peepholeVisit_gone hw hne rest this

/-- C12 (counterexample): in the function with the blocks `y = x + 0` and
`use y` the second block holds no add with a zero-constant operand and no
multiply with a constant operand, yet the peephole scan does not return it with
the same operands: the visit of `y` in the first block redirects the use of `y`
in the second block to `x`. -/
theorem candidate_free_block_rewritten :
    addZeroTwoBlocks.ids.Nodup ∧ addZeroTwoBlocks.defBeforeUse ∧
    addZeroTwoBlocks[1]? = some [.other 2 [.inst 1]] ∧
    (∀ I ∈ [Inst.other 2 [.inst 1]], peepholeCandidate I = false) ∧
    (peephole addZeroTwoBlocks)[1]? = some [.other 2 [.arg 0]] ∧
    (peephole addZeroTwoBlocks)[1]? ≠ addZeroTwoBlocks[1]? := by
  refine ⟨by decide, rfl, rfl, by decide, by decide, by decide⟩

/-- C12 (amended): in a function with distinct identities, a block that holds no
add with a zero-constant operand and no multiply with an integer-constant
operand, and none of whose instructions uses an instruction that the scan takes
away from the function, comes out of the peephole scan with the same
instructions, the same operands and the same order; a function none of whose
instructions is such an add or multiply comes out of the peephole scan as it
went in; and in a function in which no binary instruction repeats an earlier
key or closes an add/sub inverse pair, the scan of `localValueNumbering`
records no replacement and the function is returned as it was (the scan can
only stop short at the assertion on a named operand, which leaves the function
as it was too, and does not when no value has a name). -/
theorem untouched_when_nothing_matches (H : Host) (F : Function) :
    (F.ids.Nodup → ∀ (n : Nat) (B : BasicBlock), F[n]? = some B →
      (∀ I ∈ B, peepholeCandidate I = false) →
      (∀ I ∈ B, ∀ j ∈ F.ids, Value.inst j ∈ I.operands → j ∈ (peephole F).ids) →
      (peephole F)[n]? = some B) ∧
    ((∀ I ∈ F.insts, peepholeCandidate I = false) → peephole F = F) ∧
    ((∀ front I back S, F.insts = front ++ I :: back →
        lvnScanBlock H LvnState.init front = .ok S →
        ¬ repeatsEarlierKey H front S I ∧ ¬ closesInversePair H front S I) →
      (∀ S, lvnScan H LvnState.init F = .ok S → S.replace_table = []) ∧
      (localValueNumbering H F = .ok F ∨ localValueNumbering H F = .error .assertion) ∧
      (H.noNames → (∃ S, lvnScan H LvnState.init F = .ok S ∧ S.replace_table = []) ∧
        localValueNumbering H F = .ok F)) := by
  refine ⟨?_, peephole_of_not_candidate, ?_⟩
  · intro hnd n B hB hcand huse
    exact peepholeScan_block_untouched F.ids (init_wf hnd) hB hcand huse
  intro hlvn
  have hrec : ∀ S, lvnScan H LvnState.init F = .ok S → S.replace_table = [] := by
    intro S hS
    rw [lvnScan_eq_insts] at hS
    exact nothing_recorded hlvn hS
  have hok : ∀ S, lvnScan H LvnState.init F = .ok S → localValueNumbering H F = .ok F := by
    intro S hS
    simp only [localValueNumbering, hS, hrec S hS, rewriteLoop_nil]
  refine ⟨hrec, ?_, ?_⟩
  · cases hS : lvnScan H LvnState.init F with
    | ok S => exact Or.inl (hok S hS)
    | error e =>
      right
      cases e with
      | assertion => simp only [localValueNumbering, hS]
      | outOfBounds =>
        rw [lvnScan_eq_insts] at hS
        exact absurd hS (lvnScanBlock_in_bounds _ init_bounded)
  · intro hH
    obtain ⟨S, hS⟩ := lvnScanBlock_ok_of_noNames hH F.insts init_bounded
    rw [← lvnScan_eq_insts] at hS
    exact ⟨⟨S, hS, hrec S hS⟩, hok S hS⟩

/-- Witness of C12 (amended). In the function with the blocks `y = x + 0; use y`
and `a = x * q; use a` the first block is rewritten and the second, which has no
candidate and uses nothing the scan takes away, comes out as it went in; and on
`a = x * y; use a` nothing matches, and both the peephole scan and
`localValueNumbering` return the function as it was. -/
theorem untouched_when_nothing_matches_witness :
    addZeroThenPlainBlock.ids.Nodup ∧
    addZeroThenPlainBlock[1]? = some [.binary 3 .Mul (.arg 0) (.arg 1), .other 4 [.inst 3]] ∧
    (peephole addZeroThenPlainBlock)[0]? = some [.other 2 [.arg 0]] ∧
    (peephole addZeroThenPlainBlock)[1]? =
      some [.binary 3 .Mul (.arg 0) (.arg 1), .other 4 [.inst 3]] ∧
    (∀ I ∈ singleMulSample.insts, peepholeCandidate I = false) ∧
    plainHost.noNames ∧
    peephole singleMulSample = singleMulSample ∧
    localValueNumbering plainHost singleMulSample = .ok singleMulSample := by
  have h0 := (untouched_when_nothing_matches plainHost addZeroThenPlainBlock).1 (by decide) 1
    [.binary 3 .Mul (.arg 0) (.arg 1), .other 4 [.inst 3]] rfl (by decide) (by decide)
  have h := (untouched_when_nothing_matches plainHost singleMulSample).2
  refine ⟨by decide, rfl, by decide, h0, by decide, fun _ => rfl, h.1 (by decide),
    ((h.2 ?_).2.2 (fun _ => rfl)).2⟩
  intro front I back S hF hS
  have hi : singleMulSample.insts =
      [.binary 1 .Mul (.arg 0) (.arg 1), .other 2 [.inst 1]] := rfl
  rw [hi] at hF
  match front, hF with
  | [], hF =>
    simp only [List.nil_append, List.cons.injEq] at hF
    obtain ⟨hI, -⟩ := hF
    subst hI
    constructor
    · rintro ⟨g1, J, g2, S0, K, hg, -⟩
      simp at hg
    · rintro ⟨n1, n2, e, f1, j, opJ, p, q, SJ, -, -, ho, -⟩
      obtain ⟨f2, hf2⟩ := ho.split
      simp at hf2
  | [x], hF =>
    simp only [List.singleton_append, List.cons.injEq] at hF
    obtain ⟨-, hI, -⟩ := hF
    subst hI
    constructor
    · rintro ⟨g1, J, g2, S0, K, -, -, -, hk⟩
      simp [keyOf] at hk
    · intro hc
      exact hc
  | x :: y :: rest, hF =>
    have := congrArg List.length hF
    simp at this

end LocalOpt
